import Mathlib

/-!
Sliding-block puzzle solver (`Shortest_path_AI/src/ai/ai.c`)

A shallow embedding of the solver: the board, the move engine, the state
packer, the subset enumeration behind the novelty test, the binary min-heap,
the search loop `run_search` and the scheduler `find_solution`.

Conventions of the embedding.

* A C `char` is its character code, a natural number (`'0'` is 48, `'H'` is
  72, `'G'` is 71, `' '` is 32, `'#'` is 35).
* A row of the grid is the list of the characters that stand before its NUL
  terminator; a grid is the list of its rows.  A read outside a row or outside
  the grid yields 0, the terminator, which is neither passable nor a piece; a
  write outside the grid changes nothing.
* Allocation never fails, so the `searchError` paths are not taken.
* The headers `gate.h`, `utils.h` and `radix.h` are not part of the sources;
  what the solver uses from them is modelled from the specification and marked
  as such.
-/

set_option autoImplicit false

namespace Ai

/-! ## Characters and directions -/

/-- The C macro UP, the character u. -/
abbrev UP : Nat := 117
/-- The C macro DOWN, the character d. -/
abbrev DOWN : Nat := 100
/-- The C macro LEFT, the character l. -/
abbrev LEFT : Nat := 108
/-- The C macro RIGHT, the character r. -/
abbrev RIGHT : Nat := 114

/-- The array directions[] of ai.c. -/
def directions : List Nat := [UP, DOWN, LEFT, RIGHT]

/-- The array invertedDirections[] of ai.c. -/
def invertedDirections : List Nat := [DOWN, UP, RIGHT, LEFT]

/-- The array pieceNames[] of ai.c: the digits 0 to 9. -/
def pieceNames : List Nat := [48, 49, 50, 51, 52, 53, 54, 55, 56, 57]

/-- Modelled from the spec: the constant MAX_PIECES of the missing header gate.h;
the specification bounds num_pieces by 10 and admits no piece id of 10 or more. -/
abbrev MAX_PIECES : Nat := 10

/-! ## The board -/

/-- Modelled from the spec: the board type gate_t of the missing header gate.h, with
the fields ai.c reads and writes.  The arrays piece_x and piece_y are functions
from the piece index; the sentinel UNKNOWN is -1. -/
structure gate_t where
  lines : Nat
  num_chars_map : Nat
  num_pieces : Nat
  map : List (List Nat)
  map_save : List (List Nat)
  piece_x : Nat → Int
  piece_y : Nat → Int
  soln : List Nat

/-- The row `m[i]`, empty outside the grid. -/
def rowAt (m : List (List Nat)) (i : Int) : List Nat :=
  if i < 0 then [] else m.getD i.toNat []

/-- The character `m[i][j]`, 0 outside the row or the grid. -/
def cellAt (m : List (List Nat)) (i j : Int) : Nat :=
  if j < 0 then 0 else (rowAt m i).getD j.toNat 0

/-- The assignment `m[i][j] = c`; nothing changes outside the grid. -/
def setCell (m : List (List Nat)) (i j : Int) (c : Nat) : List (List Nat) :=
  if i < 0 ∨ j < 0 then m
  else m.set i.toNat ((m.getD i.toNat []).set j.toNat c)

/-- The row-major list of the positions `(i, j)` of the rows `rows`, the first of
which has index `i`: the iteration space of
`for (i ...) for (j = 0; map[i][j] != 0; j++)`. -/
def positionsFrom : List (List Nat) → Nat → List (Nat × Nat)
  | [], _ => []
  | row :: rest, i => (List.range row.length).map (fun j => (i, j)) ++ positionsFrom rest (i + 1)

/-- The positions visited by the double loop over the first `lines` rows of `m`. -/
def positions (m : List (List Nat)) (lines : Nat) : List (Nat × Nat) :=
  positionsFrom (m.take lines) 0

/-- The function is_valid_direction of ai.c. -/
def is_valid_direction (direction : Nat) : Bool :=
  direction == UP || direction == DOWN || direction == LEFT || direction == RIGHT

/-- The row reached from row `i` by one step in `direction` (lines 95 to 105 of
apply_move_in_place). -/
def targetY (i : Int) (direction : Nat) : Int :=
  if direction = UP then i - 1 else if direction = DOWN then i + 1 else i

/-- The column reached from column `j` by one step in `direction`. -/
def targetX (j : Int) (direction : Nat) : Int :=
  if direction = UP then j else if direction = DOWN then j
  else if direction = LEFT then j - 1 else if direction = RIGHT then j + 1 else j

/-- Modelled from the spec: check_if_piece of the missing utils module, the piece locator.
It records `(x, y)` as the coordinates of the piece when the cell `(y, x)` holds
the digit form or the letter form of `piece`, and returns the board unchanged
otherwise. -/
def check_if_piece (gate : gate_t) (y x : Nat) (piece : Nat) : gate_t :=
  if cellAt gate.map y x = piece ∨ cellAt gate.map y x = piece - 48 + 72 then
    { gate with
      piece_x := Function.update gate.piece_x (piece - 48) (x : Int)
      piece_y := Function.update gate.piece_y (piece - 48) (y : Int) }
  else gate

/-- The piece a cell character belongs to: digits 0 to 9 and letters H to Q. -/
def pieceOf (c : Nat) : Option Nat :=
  if 48 ≤ c ∧ c ≤ 57 then some (c - 48)
  else if 72 ≤ c ∧ c ≤ 81 then some (c - 72)
  else none

/-- Modelled from the spec: part_can_move of the missing utils module, the legality of
one cell.  The cell `(y, x)` of a piece can move in `direction` when its
neighbour in that direction holds a blank, a goal `G`, or the digit or letter
form of the same piece. -/
def part_can_move (gate : gate_t) (y x : Nat) (direction : Nat) : Bool :=
  let dest := cellAt gate.map (targetY y direction) (targetX x direction)
  dest == 32 || dest == 71 ||
    ((pieceOf (cellAt gate.map y x)).isSome && pieceOf dest == pieceOf (cellAt gate.map y x))

/-- The inner loop of find_piece_coordinates over the columns of row `i`. -/
def find_piece_cols (pieceChar i : Nat) : List Nat → Nat → gate_t → gate_t × Bool
  | [], _, state => (state, false)
  | _ :: rest, j, state =>
    let state1 := check_if_piece state i j pieceChar
    if state1.piece_x (pieceChar - 48) ≠ -1 then (state1, true)
    else find_piece_cols pieceChar i rest (j + 1) state1

/-- The outer loop of find_piece_coordinates over the rows. -/
def find_piece_rows (pieceChar : Nat) : List (List Nat) → Nat → gate_t → gate_t × Bool
  | [], _, state => (state, false)
  | row :: rest, i, state =>
    match find_piece_cols pieceChar i row 0 state with
    | (state1, true) => (state1, true)
    | (state1, false) => find_piece_rows pieceChar rest (i + 1) state1

/-- The function find_piece_coordinates of ai.c: reset the coordinates of the piece
to UNKNOWN, then scan the grid in row-major order and stop at the first cell
that check_if_piece accepts.  The board is returned with the flag. -/
def find_piece_coordinates (state : gate_t) (pieceChar : Nat) : gate_t × Bool :=
  if pieceChar < 48 ∨ pieceChar - 48 ≥ MAX_PIECES then (state, false)
  else
    let state0 : gate_t :=
      { state with
        piece_x := Function.update state.piece_x (pieceChar - 48) (-1)
        piece_y := Function.update state.piece_y (pieceChar - 48) (-1) }
    find_piece_rows pieceChar (state0.map.take state0.lines) 0 state0

/-- The legality loop of apply_move_in_place (lines 72 to 81): every cell of the
first `lines` rows that holds the digit or the letter form passes part_can_move. -/
def can_move_all (state : gate_t) (pieceChar letterPiece direction : Nat) : Bool :=
  (positions state.map state.lines).all (fun p =>
    !((cellAt state.map p.1 p.2 == pieceChar || cellAt state.map p.1 p.2 == letterPiece)
        && !part_can_move state p.1 p.2 direction))

/-- The test `occupiedAfterMove` of lines 114 to 126: the neighbour of `(i, j)`
opposite to `direction` holds the piece in the snapshot. -/
def occupiedAfterMove (save : List (List Nat)) (pieceChar letterPiece direction : Nat)
    (i j : Nat) : Bool :=
  (direction == UP &&
      (cellAt save ((i : Int) + 1) j == pieceChar || cellAt save ((i : Int) + 1) j == letterPiece)) ||
  (direction == DOWN &&
      (cellAt save ((i : Int) - 1) j == pieceChar || cellAt save ((i : Int) - 1) j == letterPiece)) ||
  (direction == LEFT &&
      (cellAt save i ((j : Int) + 1) == pieceChar || cellAt save i ((j : Int) + 1) == letterPiece)) ||
  (direction == RIGHT &&
      (cellAt save i ((j : Int) - 1) == pieceChar || cellAt save i ((j : Int) - 1) == letterPiece))

/-- The body of the mutation loop of apply_move_in_place (lines 93 to 133) at the
position `(i, j)`: `save` is map_save, the snapshot, and `map` the grid being
written. -/
def move_cell (save : List (List Nat)) (pieceChar letterPiece direction : Nat)
    (map : List (List Nat)) (p : Nat × Nat) : List (List Nat) :=
  let savedCell := cellAt save p.1 p.2
  if savedCell = pieceChar ∨ savedCell = letterPiece then
    let destinationCell := cellAt save (targetY p.1 direction) (targetX p.2 direction)
    let map1 :=
      if destinationCell = 71 ∨ destinationCell = letterPiece then
        setCell map (targetY p.1 direction) (targetX p.2 direction) letterPiece
      else setCell map (targetY p.1 direction) (targetX p.2 direction) pieceChar
    let occ := occupiedAfterMove save pieceChar letterPiece direction p.1 p.2
    if savedCell = letterPiece ∧ occ = false then setCell map1 p.1 p.2 71
    else if savedCell = pieceChar ∧ occ = false then setCell map1 p.1 p.2 32
    else map1
  else map

/-- The function apply_move_in_place of ai.c.  The result is the board as the call
leaves it together with the returned flag.  The rows of the grid keep their
lengths during the mutation loop, so the loop runs over the positions of the
snapshot. -/
def apply_move_in_place (state : gate_t) (pieceChar direction : Nat) : gate_t × Bool :=
  if is_valid_direction direction = false then (state, false)
  else if pieceChar < 48 ∨ pieceChar - 48 ≥ state.num_pieces then (state, false)
  else
    let letterPiece := pieceChar - 48 + 72
    match find_piece_coordinates state pieceChar with
    | (state1, false) => (state1, false)
    | (state1, true) =>
      if can_move_all state1 pieceChar letterPiece direction = false then (state1, false)
      else
        let save := state1.map.take state1.lines ++ state1.map_save.drop state1.lines
        let state2 : gate_t := { state1 with map_save := save }
        let state3 : gate_t :=
          { state2 with
            map := (positions state2.map state2.lines).foldl
              (move_cell save pieceChar letterPiece direction) state2.map }
        ((find_piece_coordinates state3 pieceChar).1, true)

/-- The function duplicate_state of ai.c: a deep copy of the first `lines` rows of
both grids and of the trail. -/
def duplicate_state (gate : gate_t) : gate_t :=
  { gate with map := gate.map.take gate.lines, map_save := gate.map_save.take gate.lines }

/-- The function apply_action of ai.c: the move is applied to a copy, and on
success the pair (piece, direction) is appended to the trail of the copy.
The result is `none` for the NULL pointer. -/
def apply_action (current_state : gate_t) (piece direction : Nat) : Option gate_t :=
  match apply_move_in_place (duplicate_state current_state) piece direction with
  | (_, false) => none
  | (new_state, true) => some { new_state with soln := new_state.soln ++ [piece, direction] }

/-- The function winning_state of ai.c: the scan runs over the rows of map_save and
reads map; a goal `G` or a letter I to Q refutes the win. -/
def winning_state (gate : gate_t) : Bool :=
  (positions gate.map_save gate.lines).all (fun p =>
    !(cellAt gate.map p.1 p.2 == 71 ||
      (decide (cellAt gate.map p.1 p.2 ≥ 73) && decide (cellAt gate.map p.1 p.2 ≤ 81))))

/-! ## The state packer -/

/-- Modelled from the spec: the helpers getBit, bitOn and bitOff of the missing utils
module act on a key seen as a sequence of bits, in ascending bit index. -/
def getBit (s : List Bool) (idx : Nat) : Bool := s.getD idx false

/-- Modelled from the spec: bitOn sets the bit of index `idx`. -/
def bitOn (s : List Bool) (idx : Nat) : List Bool := s.set idx true

/-- Modelled from the spec: bitOff clears the bit of index `idx`. -/
def bitOff (s : List Bool) (idx : Nat) : List Bool := s.set idx false

/-- The least `b` from `bits` on with `value ≤ 2 ^ b`, searched with `fuel` steps. -/
def ceilLog2From : Nat → Nat → Nat → Nat
  | 0, _, bits => bits
  | fuel + 1, value, bits =>
    if value ≤ 2 ^ bits then bits else ceilLog2From fuel value (bits + 1)

/-- The ceiling of the binary logarithm, 0 for 0 and 1. -/
def ceilLog2 (value : Nat) : Nat := ceilLog2From value value 0

/-- Modelled from the spec: calcBits of the missing utils module, the one function that
getPackedSize, packMap and run_search call for the three field widths.  The
specification gives the ceiling of log2 of the value, and 1 when the value is
at most 2. -/
def calcBits (value : Nat) : Nat := if value ≤ 2 then 1 else ceilLog2 value

/-- The value `pBits = calcBits(gate->num_pieces)`. -/
def pBitsOf (num_pieces : Nat) : Nat := calcBits num_pieces

/-- The values `hBits = calcBits(gate->lines)` and
`wBits = calcBits(gate->num_chars_map / gate->lines)`: calcBits at a grid
dimension. -/
def dimBitsOf (n : Nat) : Nat := calcBits n

/-- The width handed to calcBits and getNewRadixTree: num_chars_map / lines. -/
def widthOf (gate : gate_t) : Nat := gate.num_chars_map / gate.lines

/-- The sum pBits + hBits + wBits of getPackedSize, packMap and run_search, each of
the three given by calcBits. -/
def atomBitsOf (gate : gate_t) : Nat :=
  pBitsOf gate.num_pieces + dimBitsOf gate.lines + dimBitsOf (widthOf gate)

/-- The function getPackedSize of ai.c: the number of bits atomSize * num_pieces. -/
def getPackedSize (gate : gate_t) : Nat := atomBitsOf gate * gate.num_pieces

/-- One field loop of packMap: for `j` below `nbits`, bit `bitIdx + j` of the key is
set when `(value >> j) & 1` is 1 and cleared otherwise. -/
def packField (value : Int) (nbits : Nat) (packedMap : List Bool) (bitIdx : Nat) : List Bool :=
  (List.range nbits).foldl
    (fun s j => if (value / 2 ^ j) % 2 = 1 then bitOn s (bitIdx + j) else bitOff s (bitIdx + j))
    packedMap

/-- The body of the outer loop of packMap for the piece `i`, whose atom starts at
bit `i * (pBits + hBits + wBits)`. -/
def packAtom (gate : gate_t) (pBits hBits wBits : Nat) (packedMap : List Bool) (i : Nat) :
    List Bool :=
  let bitIdx := i * (pBits + hBits + wBits)
  let s1 := packField (i : Int) pBits packedMap bitIdx
  let s2 := packField (gate.piece_y i) hBits s1 (bitIdx + pBits)
  packField (gate.piece_x i) wBits s2 (bitIdx + pBits + hBits)

/-- The function packMap of ai.c, writing into the key `packedMap`. -/
def packMap (gate : gate_t) (packedMap : List Bool) : List Bool :=
  (List.range gate.num_pieces).foldl
    (packAtom gate (pBitsOf gate.num_pieces) (dimBitsOf gate.lines) (dimBitsOf (widthOf gate)))
    packedMap

/-- The call `memset(buffer, 0, bytes)` followed by packMap: a zeroed key of `bytes`
bytes with the state packed into it. -/
def packedKey (gate : gate_t) (packedBytes : Nat) : List Bool :=
  packMap gate (List.replicate (8 * packedBytes) false)

/-! ## Subsets of atoms -/

/-- The inner loop of next_combination: `indices[j] = indices[j - 1] + 1` for the
`count` positions from `j` on. -/
def fill_after : Nat → List Nat → Nat → List Nat
  | 0, indices, _ => indices
  | count + 1, indices, j => fill_after count (indices.set j (indices.getD (j - 1) 0 + 1)) (j + 1)

/-- The outer loop of next_combination, counting `i` down from `k - 1` to 0. -/
def next_combination_from (size totalPieces : Nat) : Nat → List Nat → List Nat × Bool
  | 0, indices => (indices, false)
  | k + 1, indices =>
    if ((indices.getD k 0 : Nat) : Int) < (totalPieces : Int) - ((size : Int) - (k : Int)) then
      (fill_after (size - (k + 1)) (indices.set k (indices.getD k 0 + 1)) (k + 1), true)
    else next_combination_from size totalPieces k indices

/-- The function next_combination of ai.c: the index vector after the step and the
returned flag. -/
def next_combination (indices : List Nat) (size totalPieces : Nat) : List Nat × Bool :=
  next_combination_from size totalPieces size indices

/-- The function pack_subset of ai.c: a zeroed buffer of `destBytes` bytes receives,
atom after atom, the bits of the atoms of `src` named by `indices`. -/
def pack_subset (destBytes : Nat) (src : List Bool) (atomBits : Nat) (indices : List Nat)
    (count : Nat) : List Bool :=
  (List.range count).foldl
    (fun dest k =>
      (List.range atomBits).foldl
        (fun d bit =>
          if getBit src (indices.getD k 0 * atomBits + bit) then bitOn d (k * atomBits + bit)
          else d)
        dest)
    (List.replicate (8 * destBytes) false)

/-! ## The radix trie -/

/-- Modelled from the spec: the radix trie of the missing radix module, a black box in
which two keys of identical content and length are equal.  It is the list of
the stored pairs (length in atoms, key), the last insertion first. -/
structure radixTree where
  keys : List (Nat × List Bool)

/-- Modelled from the spec: getNewRadixTree returns an empty trie. -/
def getNewRadixTree (_num_pieces _lines _width : Nat) : radixTree := ⟨[]⟩

/-- Modelled from the spec: insertRadixTree stores the key with its length. -/
def insertRadixTree (tree : radixTree) (key : List Bool) (size : Nat) : radixTree :=
  ⟨(size, key) :: tree.keys⟩

/-- Modelled from the spec: checkPresent tells whether the key of that length is stored. -/
def checkPresent (tree : radixTree) (key : List Bool) (size : Nat) : Bool :=
  decide ((size, key) ∈ tree.keys)

/-- The number of index vectors a do-while loop over next_combination can visit is
at most `2 ^ numPieces`; the loops below run on that much fuel. -/
def combinationFuel (numPieces : Nat) : Nat := 2 ^ numPieces

/-- The do-while loop of all_combinations_present. -/
def all_combinations_present_loop (tree : radixTree) (packedMap : List Bool)
    (numPieces size atomBits bufferBytes : Nat) : Nat → List Nat → Bool
  | 0, _ => true
  | fuel + 1, indices =>
    if checkPresent tree (pack_subset bufferBytes packedMap atomBits indices size) size = false
    then false
    else
      match next_combination indices size numPieces with
      | (indices1, true) =>
        all_combinations_present_loop tree packedMap numPieces size atomBits bufferBytes fuel indices1
      | (_, false) => true

/-- The function all_combinations_present of ai.c (the pointers are never NULL). -/
def all_combinations_present (tree : radixTree) (packedMap : List Bool)
    (numPieces size atomBits bufferBytes : Nat) : Bool :=
  if size = 0 ∨ size > numPieces then true
  else
    all_combinations_present_loop tree packedMap numPieces size atomBits bufferBytes
      (combinationFuel numPieces) (List.range size)

/-- The do-while loop of insert_all_combinations. -/
def insert_all_combinations_loop (packedMap : List Bool)
    (numPieces size atomBits bufferBytes : Nat) : Nat → radixTree → List Nat → radixTree
  | 0, tree, _ => tree
  | fuel + 1, tree, indices =>
    let tree1 := insertRadixTree tree (pack_subset bufferBytes packedMap atomBits indices size) size
    match next_combination indices size numPieces with
    | (indices1, true) =>
      insert_all_combinations_loop packedMap numPieces size atomBits bufferBytes fuel tree1 indices1
    | (_, false) => tree1

/-- The function insert_all_combinations of ai.c, returning the trie it has filled. -/
def insert_all_combinations (tree : radixTree) (packedMap : List Bool)
    (numPieces size atomBits bufferBytes : Nat) : radixTree :=
  if size = 0 ∨ size > numPieces then tree
  else
    insert_all_combinations_loop packedMap numPieces size atomBits bufferBytes
      (combinationFuel numPieces) tree (List.range size)

/-! ## The priority queue -/

/-- The struct search_node_t of ai.c.  The parent pointer, NULL in every node the
search creates, is left out. -/
structure search_node_t where
  state : gate_t
  depth : Nat
  priority : Nat
  piece : Nat
  direction : Nat

/-- The struct priority_queue_t of ai.c: `nodes` holds the `size` occupied slots of
the array, so `size` is its length. -/
structure priority_queue_t where
  nodes : List search_node_t
  capacity : Nat

/-- The field `size` of the queue. -/
def priority_queue_t.size (pq : priority_queue_t) : Nat := pq.nodes.length

/-- The constant PQ_INITIAL_CAPACITY. -/
abbrev PQ_INITIAL_CAPACITY : Nat := 64

/-- The priority `nodes[idx]->priority`. -/
def prioAt (nodes : List search_node_t) (idx : Nat) : Nat :=
  match nodes.get? idx with
  | some node => node.priority
  | none => 0

/-- The function pq_swap of ai.c on the slots `a` and `b` of the array. -/
def pq_swap (nodes : List search_node_t) (a b : Nat) : List search_node_t :=
  match nodes.get? a, nodes.get? b with
  | some x, some y => (nodes.set a y).set b x
  | _, _ => nodes

/-- The while loop of pq_bubble_up. -/
def pq_bubble_up_loop : Nat → List search_node_t → Nat → List search_node_t
  | 0, nodes, _ => nodes
  | fuel + 1, nodes, idx =>
    if idx > 0 then
      if prioAt nodes idx ≥ prioAt nodes ((idx - 1) / 2) then nodes
      else pq_bubble_up_loop fuel (pq_swap nodes idx ((idx - 1) / 2)) ((idx - 1) / 2)
    else nodes

/-- The function pq_bubble_up of ai.c; the index falls at every turn of the loop,
so `idx` turns suffice. -/
def pq_bubble_up (nodes : List search_node_t) (idx : Nat) : List search_node_t :=
  pq_bubble_up_loop idx nodes idx

/-- The index `smallest` computed by one turn of pq_bubble_down at `idx`. -/
def pq_smallest (nodes : List search_node_t) (idx : Nat) : Nat :=
  let left := idx * 2 + 1
  let right := left + 1
  let smallest :=
    if left < nodes.length ∧ prioAt nodes left < prioAt nodes idx then left else idx
  if right < nodes.length ∧ prioAt nodes right < prioAt nodes smallest then right else smallest

/-- The while loop of pq_bubble_down. -/
def pq_bubble_down_loop : Nat → List search_node_t → Nat → List search_node_t
  | 0, nodes, _ => nodes
  | fuel + 1, nodes, idx =>
    if pq_smallest nodes idx = idx then nodes
    else pq_bubble_down_loop fuel (pq_swap nodes idx (pq_smallest nodes idx)) (pq_smallest nodes idx)

/-- The function pq_bubble_down of ai.c; the index grows at every turn of the loop
and stays below the size, so `size` turns suffice. -/
def pq_bubble_down (nodes : List search_node_t) (idx : Nat) : List search_node_t :=
  pq_bubble_down_loop nodes.length nodes idx

/-- The function init_priority_queue of ai.c. -/
def init_priority_queue : priority_queue_t := ⟨[], PQ_INITIAL_CAPACITY⟩

/-- The function create_search_node of ai.c: the priority is the depth. -/
def create_search_node (state : gate_t) (depth piece direction : Nat) : search_node_t :=
  { state := state, depth := depth, priority := depth, piece := piece, direction := direction }

/-- The function pq_reserve of ai.c: the capacity doubles when the array is full. -/
def pq_reserve (pq : priority_queue_t) : priority_queue_t :=
  if pq.size < pq.capacity then pq else { pq with capacity := pq.capacity * 2 }

/-- The function pq_enqueue of ai.c. -/
def pq_enqueue (pq : priority_queue_t) (node : search_node_t) : priority_queue_t :=
  let pq1 := pq_reserve pq
  { pq1 with nodes := pq_bubble_up (pq1.nodes ++ [node]) pq1.size }

/-- The function pq_dequeue of ai.c: the returned node (`none` for NULL) and the
queue after the call. -/
def pq_dequeue (pq : priority_queue_t) : Option search_node_t × priority_queue_t :=
  match pq.nodes with
  | [] => (none, pq)
  | node :: rest =>
    match rest.getLast? with
    | none => (some node, { pq with nodes := [] })
    | some last => (some node, { pq with nodes := pq_bubble_down (last :: rest.dropLast) 0 })

/-- The function pq_is_empty of ai.c. -/
def pq_is_empty (pq : priority_queue_t) : Bool := pq.size == 0

/-! ## The search -/

/-- The struct search_run_result_t of ai.c; `none` stands for the NULL pointer. -/
structure search_run_result_t where
  solved : Bool
  solution : Option (List Nat)
  final_state : Option gate_t
  expanded : Nat
  generated : Nat
  duplicated : Nat

/-- The local variables of run_search that live across the main loop. -/
structure search_vars where
  pq : priority_queue_t
  expandedStates : radixTree
  partialStates : List radixTree
  result : search_run_result_t

/-- The entry `subsetBytes[i]` of run_search: the bytes of a key of `i + 1` atoms, at
least 1. -/
def subsetBytesOf (atomBits i : Nat) : Nat :=
  if (atomBits * (i + 1) + 7) / 8 = 0 then 1 else (atomBits * (i + 1) + 7) / 8

/-- The trie `partialStates[i]`. -/
def partialAt (partialStates : List radixTree) (i : Nat) : radixTree :=
  match partialStates.get? i with
  | some tree => tree
  | none => ⟨[]⟩

/-- The novelty test of lines 766 to 775 on the key of a successor: the loop over
`size` from 1 to `candidateLimit` sets `skip` and breaks at the first size all of
whose subset keys are present. -/
def novelty_skip (partialStates : List radixTree) (candidatePacked : List Bool)
    (num_pieces noveltyLimit atomBits : Nat) : Bool :=
  (List.range (if num_pieces < noveltyLimit then num_pieces else noveltyLimit)).any (fun s =>
    all_combinations_present (partialAt partialStates s) candidatePacked num_pieces (s + 1)
      atomBits (subsetBytesOf atomBits s))

/-- The insertions of lines 743 to 749 for an expanded state: every subset key of
every size from 1 to `currentLimit` enters the trie of its size. -/
def novelty_insert (partialStates : List radixTree) (packedMap : List Bool)
    (num_pieces noveltyLimit atomBits : Nat) : List radixTree :=
  (List.range (if num_pieces < noveltyLimit then num_pieces else noveltyLimit)).foldl
    (fun trees s =>
      trees.set s (insert_all_combinations (partialAt trees s) packedMap num_pieces (s + 1)
        atomBits (subsetBytesOf atomBits s)))
    partialStates

/-- The body of the two loops of lines 751 to 799 for one piece index and one
direction index. -/
def expand_move (noveltyLimit atomBits packedBytes : Nat) (current : search_node_t)
    (vars : search_vars) (move : Nat × Nat) : search_vars :=
  match apply_action current.state (pieceNames.getD move.1 0) (directions.getD move.2 0) with
  | none => vars
  | some next_state =>
    let candidatePacked := packedKey next_state packedBytes
    let skip :=
      if checkPresent vars.expandedStates candidatePacked next_state.num_pieces then true
      else if noveltyLimit > 0 then
        novelty_skip vars.partialStates candidatePacked next_state.num_pieces noveltyLimit atomBits
      else false
    if skip then
      { vars with result := { vars.result with duplicated := vars.result.duplicated + 1 } }
    else
      { vars with
        pq := pq_enqueue vars.pq
          (create_search_node next_state (current.depth + 1) (pieceNames.getD move.1 0)
            (directions.getD move.2 0))
        result := { vars.result with generated := vars.result.generated + 1 } }

/-- The pairs (piece index, direction index) in the order of the two loops: pieces
ascending, and up, down, left, right within a piece. -/
def moveOrder (num_pieces : Nat) : List (Nat × Nat) :=
  (List.range num_pieces).flatMap (fun piece => (List.range 4).map (fun dir => (piece, dir)))

/-- One turn of the main loop of run_search (lines 714 to 806) on a queue that is
not empty.  A win sets `solved`, which stands for the break. -/
def search_step (noveltyLimit atomBits packedBytes : Nat) (vars : search_vars) : search_vars :=
  match pq_dequeue vars.pq with
  | (none, _) => vars
  | (some current, pq1) =>
    let result1 := { vars.result with expanded := vars.result.expanded + 1 }
    if winning_state current.state then
      { vars with
        pq := pq1
        result := { result1 with
          solved := true, solution := some current.state.soln, final_state := some current.state } }
    else if checkPresent vars.expandedStates (packedKey current.state packedBytes)
        current.state.num_pieces then
      { vars with pq := pq1, result := { result1 with duplicated := result1.duplicated + 1 } }
    else
      let vars1 : search_vars :=
        { pq := pq1
          expandedStates := insertRadixTree vars.expandedStates
            (packedKey current.state packedBytes) current.state.num_pieces
          partialStates :=
            if noveltyLimit > 0 then
              novelty_insert vars.partialStates (packedKey current.state packedBytes)
                current.state.num_pieces noveltyLimit atomBits
            else vars.partialStates
          result := result1 }
      (moveOrder current.state.num_pieces).foldl
        (expand_move noveltyLimit atomBits packedBytes current) vars1

/-- The main loop `while (!pq_is_empty(pq))` of run_search, with its break on a
win, run for at most `fuel` turns. -/
def search_loop (noveltyLimit atomBits packedBytes : Nat) : Nat → search_vars → search_vars
  | 0, vars => vars
  | fuel + 1, vars =>
    if pq_is_empty vars.pq then vars
    else if (search_step noveltyLimit atomBits packedBytes vars).result.solved then
      search_step noveltyLimit atomBits packedBytes vars
    else search_loop noveltyLimit atomBits packedBytes fuel
      (search_step noveltyLimit atomBits packedBytes vars)

/-- The value of `packedBytes` after lines 621 to 623. -/
def clampBytes (packedBytes : Nat) : Nat := if packedBytes = 0 then 1 else packedBytes

/-- The value of `noveltyLimit` after lines 650 to 656. -/
def noveltyLimitOf (init_data : gate_t) (width_limit : Int) : Nat :=
  (if width_limit > (init_data.num_pieces : Int) then (init_data.num_pieces : Int)
   else width_limit).toNat

/-- The variables of run_search when the main loop is entered: the root is in the
queue, the tries are empty, and `generated` is 1. -/
def search_init (init_data : gate_t) (width_limit : Int) : search_vars :=
  { pq := pq_enqueue init_priority_queue
      (create_search_node (duplicate_state init_data) 0 0 0)
    expandedStates := getNewRadixTree init_data.num_pieces init_data.lines (widthOf init_data)
    partialStates := (List.range (noveltyLimitOf init_data width_limit)).map (fun _ =>
      getNewRadixTree init_data.num_pieces init_data.lines (widthOf init_data))
    result :=
      { solved := false, solution := none, final_state := none,
        expanded := 0, generated := 1, duplicated := 0 } }

/-- A number of turns the main loop cannot exceed: every turn pops a node, a key
enters the closed set at most once, there are at most `2 ^ (8 * packedBytes)`
keys, and an expansion pushes at most `4 * num_pieces` nodes. -/
def searchFuel (init_data : gate_t) (packedBytes : Nat) : Nat :=
  (4 * init_data.num_pieces + 1) * 2 ^ (8 * packedBytes) + 1

/-- The function run_search of ai.c, returning the record it fills. -/
def run_search (init_data : gate_t) (width_limit : Int) (packedBytes : Nat) :
    search_run_result_t :=
  (search_loop (noveltyLimitOf init_data width_limit) (atomBitsOf init_data)
    (clampBytes packedBytes) (searchFuel init_data (clampBytes packedBytes))
    (search_init init_data width_limit)).result

/-! ## The scheduler -/

/-- The arguments find_solution hands to report_results. -/
structure report_t where
  solnStr : List Nat
  expanded : Nat
  generated : Nat
  duplicated : Nat
  winning_state_ptr : Option gate_t
  num_pieces : Nat
  solvingWidth : Int
  usedFallback : Bool
  has_won : Bool
  algorithm : Int

/-- The accumulators of find_solution. -/
structure sched_vars where
  has_won : Bool
  soln : Option (List Nat)
  winning_state_ptr : Option gate_t
  totalExpanded : Nat
  totalGenerated : Nat
  totalDuplicated : Nat
  solvingWidth : Int
  usedFallback : Bool

/-- The loop `for (width = 1; width <= maxWidth && !has_won; width++)` of mode 3,
over the widths still to try. -/
def widen_loop (init_data : gate_t) (packedBytes : Nat) : List Nat → sched_vars → sched_vars
  | [], acc => acc
  | width :: rest, acc =>
    if acc.has_won then acc
    else
      let runResult := run_search init_data (width : Int) packedBytes
      let acc1 : sched_vars :=
        { acc with
          totalExpanded := acc.totalExpanded + runResult.expanded
          totalGenerated := acc.totalGenerated + runResult.generated
          totalDuplicated := acc.totalDuplicated + runResult.duplicated }
      if runResult.solved then
        widen_loop init_data packedBytes rest
          { acc1 with
            has_won := true, soln := runResult.solution
            winning_state_ptr := runResult.final_state, solvingWidth := (width : Int) }
      else widen_loop init_data packedBytes rest acc1

/-- The accumulators of find_solution after the branch on `algorithm`. -/
def schedule (init_data : gate_t) (algorithm : Int) (packedBytes : Nat) : sched_vars :=
  if algorithm = 1 then
    let runResult := run_search init_data ((init_data.num_pieces : Int) + 1) packedBytes
    { has_won := runResult.solved, soln := runResult.solution
      winning_state_ptr := runResult.final_state
      totalExpanded := runResult.expanded, totalGenerated := runResult.generated
      totalDuplicated := runResult.duplicated
      solvingWidth := (init_data.num_pieces : Int) + 1, usedFallback := false }
  else if algorithm = 2 then
    let runResult := run_search init_data 0 packedBytes
    { has_won := runResult.solved, soln := runResult.solution
      winning_state_ptr := runResult.final_state
      totalExpanded := runResult.expanded, totalGenerated := runResult.generated
      totalDuplicated := runResult.duplicated
      solvingWidth := 0, usedFallback := false }
  else
    let acc := widen_loop init_data packedBytes
      ((List.range init_data.num_pieces).map (fun w => w + 1))
      { has_won := false, soln := none, winning_state_ptr := none
        totalExpanded := 0, totalGenerated := 0, totalDuplicated := 0
        solvingWidth := -1, usedFallback := false }
    if acc.has_won then acc
    else
      let fallbackResult := run_search init_data 0 packedBytes
      let acc1 : sched_vars :=
        { acc with
          totalExpanded := acc.totalExpanded + fallbackResult.expanded
          totalGenerated := acc.totalGenerated + fallbackResult.generated
          totalDuplicated := acc.totalDuplicated + fallbackResult.duplicated
          usedFallback := true }
      if fallbackResult.solved then
        { acc1 with
          has_won := true, soln := fallbackResult.solution
          winning_state_ptr := fallbackResult.final_state, solvingWidth := 0 }
      else acc1

/-- The function find_solution of ai.c up to the call of report_results, whose
arguments it returns. -/
def find_solution (init_data : gate_t) (algorithm : Int) : report_t :=
  let packedBytes := clampBytes ((getPackedSize init_data + 7) / 8)
  let acc := schedule init_data algorithm packedBytes
  { solnStr := acc.soln.getD [], expanded := acc.totalExpanded, generated := acc.totalGenerated
    duplicated := acc.totalDuplicated, winning_state_ptr := acc.winning_state_ptr
    num_pieces := init_data.num_pieces, solvingWidth := acc.solvingWidth
    usedFallback := acc.usedFallback, has_won := acc.has_won, algorithm := algorithm }

/-! ## Vocabulary of the statements -/

/-- The position `(i, j)` lies inside the grid `m`. -/
def inGrid (m : List (List Nat)) (i j : Int) : Prop :=
  0 ≤ i ∧ 0 ≤ j ∧ i.toNat < m.length ∧ j.toNat < (m.getD i.toNat []).length

instance inGrid_decidable (m : List (List Nat)) (i j : Int) : Decidable (inGrid m i j) := by
  unfold inGrid
  infer_instance

/-- The character `c` is the digit form or the letter form of the piece. -/
def isForm (pieceChar letterPiece c : Nat) : Prop := c = pieceChar ∨ c = letterPiece

instance isForm_decidable (pieceChar letterPiece c : Nat) :
    Decidable (isForm pieceChar letterPiece c) := by
  unfold isForm
  infer_instance

/-- The row from which one step in `direction` leads to row `i`. -/
def sourceY (i : Int) (direction : Nat) : Int :=
  if direction = UP then i + 1 else if direction = DOWN then i - 1 else i

/-- The column from which one step in `direction` leads to column `j`. -/
def sourceX (j : Int) (direction : Nat) : Int :=
  if direction = UP then j else if direction = DOWN then j
  else if direction = LEFT then j + 1 else if direction = RIGHT then j - 1 else j

/-- The value the mutation loop writes at a position entered by the piece. -/
def enteredValue (save : List (List Nat)) (pc lp : Nat) (i j : Int) : Nat :=
  if cellAt save i j = 71 ∨ cellAt save i j = lp then lp else pc

/-- The value the mutation loop writes at a position left by the piece. -/
def vacatedValue (save : List (List Nat)) (lp : Nat) (i j : Int) : Nat :=
  if cellAt save i j = lp then 71 else 32

/-- The turn of the mutation loop at `q` writes the entered value at `(i, j)`. -/
def tgtWrite (save : List (List Nat)) (pc lp d : Nat) (q : Nat × Nat) (i j : Int) : Prop :=
  isForm pc lp (cellAt save q.1 q.2) ∧ (q.1 : Int) = sourceY i d ∧ (q.2 : Int) = sourceX j d

/-- The turn of the mutation loop at `q` writes the vacated value at `(i, j)`. -/
def rstWrite (save : List (List Nat)) (pc lp d : Nat) (q : Nat × Nat) (i j : Int) : Prop :=
  isForm pc lp (cellAt save q.1 q.2) ∧
    ¬ isForm pc lp (cellAt save (sourceY i d) (sourceX j d)) ∧ (q.1 : Int) = i ∧ (q.2 : Int) = j

/-- The board with the coordinates of the piece `idx` set to `(x, y)`. -/
def setCoords (state : gate_t) (idx : Nat) (x y : Int) : gate_t :=
  { state with
    piece_x := Function.update state.piece_x idx x
    piece_y := Function.update state.piece_y idx y }

/-- The test of check_if_piece at a position of the grid `m`. -/
def formAt (m : List (List Nat)) (pieceChar : Nat) (p : Nat × Nat) : Bool :=
  decide (isForm pieceChar (pieceChar - 48 + 72) (cellAt m p.1 p.2))

/-- The first position, in row-major order over the first `lines` rows, at which
the grid holds the digit or letter form of the piece. -/
def firstCell (m : List (List Nat)) (lines pieceChar : Nat) : Option (Nat × Nat) :=
  (positions m lines).find? (formAt m pieceChar)

/-- The snapshot map_save after the copy loop of lines 87 to 89. -/
def snapshotOf (b : gate_t) : List (List Nat) :=
  b.map.take b.lines ++ b.map_save.drop b.lines

/-- The grid after the mutation loop of apply_move_in_place. -/
def movedMap (b : gate_t) (pc d : Nat) : List (List Nat) :=
  (positions b.map b.lines).foldl (move_cell (snapshotOf b) pc (pc - 48 + 72) d) b.map

/-- The coordinates find_piece_coordinates leaves for the piece on the grid `m`. -/
def locate (state : gate_t) (m : List (List Nat)) (pc : Nat) : gate_t :=
  match firstCell m state.lines pc with
  | some p => setCoords state (pc - 48) p.2 p.1
  | none => setCoords state (pc - 48) (-1) (-1)


/-- The moves of a list applied in order with apply_action; `none` as soon as one
of them fails. -/
def apply_moves : gate_t → List (Nat × Nat) → Option gate_t
  | b, [] => some b
  | b, m :: rest =>
    match apply_action b m.1 m.2 with
    | none => none
    | some b1 => apply_moves b1 rest

/-- The text of a trail: the piece character, then the direction character, of
every move. -/
def encodeTrail : List (Nat × Nat) → List Nat
  | [] => []
  | m :: rest => m.1 :: m.2 :: encodeTrail rest

/-- The loop-head state of run_search after at most `n` turns of the main loop. -/
def search_after (init_data : gate_t) (width_limit : Int) (packedBytes n : Nat) : search_vars :=
  search_loop (noveltyLimitOf init_data width_limit) (atomBitsOf init_data)
    (clampBytes packedBytes) n (search_init init_data width_limit)

/-- The variables of run_search after the closed set and the novelty tables have
taken the key of the node being expanded, before its successors are generated. -/
def expand_start (nl ab pb : Nat) (vars : search_vars) (current : search_node_t)
    (pq1 : priority_queue_t) : search_vars :=
  { pq := pq1
    expandedStates := insertRadixTree vars.expandedStates
      (packedKey current.state pb) current.state.num_pieces
    partialStates :=
      if nl > 0 then
        novelty_insert vars.partialStates (packedKey current.state pb)
          current.state.num_pieces nl ab
      else vars.partialStates
    result := { vars.result with expanded := vars.result.expanded + 1 } }


/-- The invariant behind the soundness of the search: every queued node holds a
board reached from the root, and a solved result holds a winning such board
with its trail. -/
def soundInv (root : gate_t) (vars : search_vars) : Prop :=
  (∀ node ∈ vars.pq.nodes, ∃ moves, apply_moves root moves = some node.state) ∧
  (vars.result.solved = true →
    ∃ f moves, vars.result.solution = some f.soln ∧ vars.result.final_state = some f ∧
      winning_state f = true ∧ apply_moves root moves = some f)


/-! ## Boards of the examples -/

/-- The bordered board `#0G#` between two rows of wall: piece 0 is one step left
of the goal. -/
def oneStepBoard : gate_t :=
  { lines := 3, num_chars_map := 12, num_pieces := 1
    map := [[35, 35, 35, 35], [35, 48, 71, 35], [35, 35, 35, 35]]
    map_save := [[35, 35, 35, 35], [35, 48, 71, 35], [35, 35, 35, 35]]
    piece_x := fun k => if k = 0 then 1 else -1
    piece_y := fun k => if k = 0 then 1 else -1
    soln := [] }

/-- A bordered board of 4 rows and 6 columns with two pieces:
the rows are `######`, `# 01G#`, `## ###`, `######`.
Piece 0 reaches the goal only after piece 1 has been parked in the pocket
below, and has to step left and come back for that. -/
def pocketBoard : gate_t :=
  { lines := 4, num_chars_map := 24, num_pieces := 2
    map := [[35, 35, 35, 35, 35, 35], [35, 32, 48, 49, 71, 35],
      [35, 35, 32, 35, 35, 35], [35, 35, 35, 35, 35, 35]]
    map_save := [[35, 35, 35, 35, 35, 35], [35, 32, 48, 49, 71, 35],
      [35, 35, 32, 35, 35, 35], [35, 35, 35, 35, 35, 35]]
    piece_x := fun k => if k = 0 then 2 else if k = 1 then 3 else -1
    piece_y := fun k => if k = 0 then 1 else if k = 1 then 1 else -1
    soln := [] }

/-- The one-row board `0#G` of the specification: a wall stands between piece 0
and the goal. -/
def wallBoard : gate_t :=
  { lines := 1, num_chars_map := 3, num_pieces := 1
    map := [[48, 35, 71]]
    map_save := [[48, 35, 71]]
    piece_x := fun k => if k = 0 then 0 else -1
    piece_y := fun k => if k = 0 then 0 else -1
    soln := [] }

/-- The one-row board `0 G ` of the specification: piece 0 is two steps left of
the goal. -/
def twoStepBoard : gate_t :=
  { lines := 1, num_chars_map := 4, num_pieces := 1
    map := [[48, 32, 71, 32]]
    map_save := [[48, 32, 71, 32]]
    piece_x := fun k => if k = 0 then 0 else -1
    piece_y := fun k => if k = 0 then 0 else -1
    soln := [] }


/-! ## Vocabulary of the reachable boards -/

/-- The character `c` is the digit form or the letter form of the piece `k`. -/
def isPiece (k c : Nat) : Prop := c = 48 + k ∨ c = 72 + k

instance isPiece_decidable (k c : Nat) : Decidable (isPiece k c) := by
  unfold isPiece
  infer_instance

/-- What a cell holds under the pieces `0 .. n - 1`: a goal under a letter form,
a blank under a digit form, the character itself otherwise. -/
def backgroundOf (n c : Nat) : Nat :=
  if c = 71 ∨ (72 ≤ c ∧ c < 72 + n) then 71
  else if c = 32 ∨ (48 ≤ c ∧ c < 48 + n) then 32
  else c

/-- The list of the row lengths of a grid. -/
def shapeOf (m : List (List Nat)) : List Nat := m.map List.length

/-- The board `b` is a placement of the pieces of the board `r`: same
dimensions, same walls and goals under the pieces, every piece `k` below
num_pieces occupies the cells of `r` shifted by the difference of the recorded
coordinates, and the recorded coordinates are the first cell of the piece in
row-major order. -/
structure Placed (r b : gate_t) : Prop where
  lines_eq : b.lines = r.lines
  num_pieces_eq : b.num_pieces = r.num_pieces
  num_chars_eq : b.num_chars_map = r.num_chars_map
  shape : shapeOf b.map = shapeOf r.map
  save_shape : shapeOf b.map_save = shapeOf r.map
  bg : ∀ i j : Int,
    backgroundOf r.num_pieces (cellAt b.map i j) = backgroundOf r.num_pieces (cellAt r.map i j)
  occ : ∀ k, k < r.num_pieces → ∀ i j : Int,
    (isPiece k (cellAt b.map i j) ↔
      isPiece k (cellAt r.map (i - (b.piece_y k - r.piece_y k)) (j - (b.piece_x k - r.piece_x k))))
  first : ∀ k, k < r.num_pieces →
    ∃ p : Nat × Nat, firstCell b.map b.lines (48 + k) = some p ∧
      (p.1 : Int) = b.piece_y k ∧ (p.2 : Int) = b.piece_x k

/-- A board as the loader hands it to the solver: the grid has `lines` rows, none
longer than num_chars_map / lines, the backup grid has the same shape, there are
at most MAX_PIECES pieces, and every piece below num_pieces is on the grid
and recorded at its first cell in row-major order. -/
structure WellFormed (r : gate_t) : Prop where
  rows : r.map.length = r.lines
  width : ∀ row ∈ r.map, row.length ≤ widthOf r
  save_shape : shapeOf r.map_save = shapeOf r.map
  pieces : r.num_pieces ≤ MAX_PIECES
  first : ∀ k, k < r.num_pieces →
    ∃ p : Nat × Nat, firstCell r.map r.lines (48 + k) = some p ∧
      (p.1 : Int) = r.piece_y k ∧ (p.2 : Int) = r.piece_x k

/-- Two boards in the same configuration: they agree on all that the move
engine, the packer and winning_state read. -/
structure sameConfig (a b : gate_t) : Prop where
  lines_eq : a.lines = b.lines
  num_pieces_eq : a.num_pieces = b.num_pieces
  num_chars_eq : a.num_chars_map = b.num_chars_map
  map_eq : a.map = b.map
  save_shape : shapeOf a.map_save = shapeOf b.map_save
  coords : ∀ k, k < a.num_pieces → a.piece_x k = b.piece_x k ∧ a.piece_y k = b.piece_y k

/-- The position `p` comes before `q` in row-major order. -/
def rowMajorLt (p q : Nat × Nat) : Prop := p.1 < q.1 ∨ (p.1 = q.1 ∧ p.2 < q.2)


/-! ## Vocabulary of the heap -/

/-- The heap order of the array: no node has a priority below that of its parent. -/
def heapOrdered (nodes : List search_node_t) : Prop :=
  ∀ i, 0 < i → i < nodes.length → prioAt nodes ((i - 1) / 2) ≤ prioAt nodes i

/-- The heap order with one exception, at the node `idx` that pq_bubble_up is
moving: `idx` may be below its parent, and the children of `idx` are not
below the parent of `idx`. -/
def upInv (nodes : List search_node_t) (idx : Nat) : Prop :=
  (∀ i, 0 < i → i < nodes.length → i ≠ idx → prioAt nodes ((i - 1) / 2) ≤ prioAt nodes i) ∧
  (∀ i, 0 < i → i < nodes.length → (i - 1) / 2 = idx → 0 < idx →
    prioAt nodes ((idx - 1) / 2) ≤ prioAt nodes i)

/-- The heap order with one exception, at the node `idx` that pq_bubble_down is
moving: the children of `idx` may be below it, and they are not below the
parent of `idx`. -/
def downInv (nodes : List search_node_t) (idx : Nat) : Prop :=
  (∀ i, 0 < i → i < nodes.length → (i - 1) / 2 ≠ idx →
    prioAt nodes ((i - 1) / 2) ≤ prioAt nodes i) ∧
  (∀ i, 0 < i → i < nodes.length → (i - 1) / 2 = idx → 0 < idx →
    prioAt nodes ((idx - 1) / 2) ≤ prioAt nodes i)


/-! ## Vocabulary of the search proofs -/

/-- The measure that falls at every turn of the main loop which neither wins nor
finds the queue empty: the keys not yet in the closed set, each weighted by the
nodes an expansion may push plus one, and the nodes in the queue. -/
def searchMeasure (num_pieces packedBytes : Nat) (vars : search_vars) : Nat :=
  (4 * num_pieces + 1) * (2 ^ (8 * packedBytes) - vars.expandedStates.keys.length) +
    vars.pq.nodes.length

/-- What the termination argument keeps: the closed set holds no key twice, its
keys are keys of `num_pieces` atoms in buffers of `packedBytes` bytes, and the
queued boards have `num_pieces` pieces. -/
def termInv (num_pieces packedBytes : Nat) (vars : search_vars) : Prop :=
  vars.expandedStates.keys.Nodup ∧
  (∀ e ∈ vars.expandedStates.keys, e.1 = num_pieces ∧ e.2.length = 8 * packedBytes) ∧
  (∀ node ∈ vars.pq.nodes, node.state.num_pieces = num_pieces)

/-- The invariant of uniform-cost search at the head of the main loop, for the
root board `r`: the queue is a heap of nodes whose priority is their depth and
whose board is reached from `r` in depth moves; every key of the closed set
is the key of a reached board that is not winning; the root is closed or
queued at depth 0; and every successor of a reached closed board is closed or
queued at a depth not above the length of the path that reached it. -/
def ucsInv (r : gate_t) (pb : Nat) (vars : search_vars) : Prop :=
  heapOrdered vars.pq.nodes ∧
  (∀ node ∈ vars.pq.nodes, node.priority = node.depth ∧
    ∃ moves : List (Nat × Nat), moves.length = node.depth ∧
      apply_moves r moves = some node.state) ∧
  (∀ e ∈ vars.expandedStates.keys, ∃ (b : gate_t) (moves : List (Nat × Nat)),
    apply_moves r moves = some b ∧ e = (r.num_pieces, packedKey b pb) ∧
      winning_state b = false) ∧
  ((r.num_pieces, packedKey r pb) ∈ vars.expandedStates.keys ∨
    ∃ node ∈ vars.pq.nodes, packedKey node.state pb = packedKey r pb ∧ node.depth = 0) ∧
  (∀ (moves : List (Nat × Nat)) (b : gate_t) (m : Nat × Nat) (b1 : gate_t),
    apply_moves r moves = some b →
    (r.num_pieces, packedKey b pb) ∈ vars.expandedStates.keys →
    apply_action b m.1 m.2 = some b1 →
    (r.num_pieces, packedKey b1 pb) ∈ vars.expandedStates.keys ∨
      ∃ node ∈ vars.pq.nodes, packedKey node.state pb = packedKey b1 pb ∧
        node.depth ≤ moves.length + 1)

/-- A solved result of uniform-cost search: its board is winning, reached from
`r` by moves whose text is its trail, and no winning board is reached by fewer
moves. -/
def optimalResult (r : gate_t) (vars : search_vars) : Prop :=
  ∃ (f : gate_t) (moves : List (Nat × Nat)),
    vars.result.solution = some f.soln ∧ vars.result.final_state = some f ∧
    winning_state f = true ∧ apply_moves r moves = some f ∧
    ∀ (moves1 : List (Nat × Nat)) (b1 : gate_t), apply_moves r moves1 = some b1 →
      winning_state b1 = true → moves.length ≤ moves1.length

/-- The invariant of the main loop of uniform-cost search, solved or not. -/
def ucsFull (r : gate_t) (pb : Nat) (vars : search_vars) : Prop :=
  (vars.result.solved = false → ucsInv r pb vars) ∧
  (vars.result.solved = true → optimalResult r vars)

/-- The index of a direction character in the array directions[]. -/
def directionIndex (d : Nat) : Nat :=
  if d = UP then 0 else if d = DOWN then 1 else if d = LEFT then 2 else 3


/-! ## Vocabulary of the subset enumeration -/

/-- The index vector that follows `c` among the strictly increasing vectors over
`0 .. n - 1`, read off the recursive structure of the vector: advance the tail if
it can advance, else step the head and restart the tail right behind it. -/
def nextC (n : Nat) : List Nat → Option (List Nat)
  | [] => none
  | a :: rest =>
    match nextC n rest with
    | some r => some (a :: r)
    | none => if a + rest.length + 1 < n then some (List.range' (a + 1) (rest.length + 1)) else none

/-- The strictly increasing vectors of length `k` over `lo .. lo + g - 1`, in
lexicographic order. -/
def combosFrom : Nat → Nat → Nat → List (List Nat)
  | _, _, 0 => [[]]
  | 0, _, _ + 1 => []
  | g + 1, lo, k + 1 =>
    (combosFrom g (lo + 1) k).map (fun c => lo :: c) ++ combosFrom g (lo + 1) (k + 1)

/-- The list is a run of the enumeration: each vector is followed by its
successor, and the last one has none. -/
def chainOK (n : Nat) : List (List Nat) → Prop
  | [] => False
  | [c] => nextC n c = none
  | c :: c1 :: rest => nextC n c = some c1 ∧ chainOK n (c1 :: rest)

/-- The index vectors a do-while loop over next_combination visits from
`indices` on `fuel` turns. -/
def visitedF (size totalPieces : Nat) : Nat → List Nat → List (List Nat)
  | 0, _ => []
  | fuel + 1, indices =>
    indices ::
      (match next_combination indices size totalPieces with
       | (indices1, true) => visitedF size totalPieces fuel indices1
       | (_, false) => [])

/-- The novelty tables of sizes 1 to `limit` as run_search builds them: empty
tries that took, by the insertions of lines 743 to 749, the subset keys of the
packed keys `expanded`, one expanded state after the other. -/
def tablesOf (expanded : List (List Bool)) (num_pieces limit atomBits : Nat) : List radixTree :=
  expanded.foldl (fun trees key => novelty_insert trees key num_pieces limit atomBits)
    ((List.range limit).map (fun _ => getNewRadixTree num_pieces 0 0))

/-- The link between the closed set and the novelty tables at a loop head of
run_search: the queued boards have the root's piece count, and the tables are
those built from the keys of the closed set in the order they entered it. -/
def tablesInv (init_data : gate_t) (nl ab : Nat) (vars : search_vars) : Prop :=
  (∀ node ∈ vars.pq.nodes, node.state.num_pieces = init_data.num_pieces) ∧
  vars.partialStates =
    tablesOf ((vars.expandedStates.keys.map Prod.snd).reverse) init_data.num_pieces nl ab

/-- Two tables no run builds: the table of size 1 is empty, the table of size 2
holds the pair of the two atoms of the pocket board. -/
def pairOnlyTables : List radixTree :=
  [⟨[]⟩, ⟨[(2, pack_subset (subsetBytesOf (atomBitsOf pocketBoard) 1) (packedKey pocketBoard 2)
    (atomBitsOf pocketBoard) [0, 1] 2)]⟩]


/-! ## Vocabulary of the board invariants -/

/-- The entry of invertedDirections[] at the index of `direction` in directions[]:
down for up, up for down, right for left, left for right. -/
def inverseOf (direction : Nat) : Nat := invertedDirections.getD (directionIndex direction) 0

/-- The character marks a goal position: an uncovered goal `G`, or a letter `H` to
`Q`, a piece cell standing on a goal. -/
def isGoal (c : Nat) : Prop := c = 71 ∨ (72 ≤ c ∧ c ≤ 81)

instance isGoal_decidable (c : Nat) : Decidable (isGoal c) := by
  unfold isGoal
  infer_instance

/-- The number of cells of the first `lines` rows of the grid `m` that hold the
digit or letter form of the piece `k`. -/
def pieceCells (m : List (List Nat)) (lines k : Nat) : Nat :=
  (positions m lines).countP (formAt m (48 + k))

/-- The coordinate invariant for the piece `j`: the recorded `(piece_x, piece_y)`
is the first cell, in row-major order, holding the digit or letter form of `j`. -/
def coordsAtFirst (b : gate_t) (j : Nat) : Prop :=
  (firstCell b.map b.lines (48 + j)).map (fun p => ((p.2 : Int), (p.1 : Int))) =
    some (b.piece_x j, b.piece_y j)

instance coordsAtFirst_decidable (b : gate_t) (j : Nat) : Decidable (coordsAtFirst b j) := by
  unfold coordsAtFirst
  infer_instance

/-! ## More boards of the examples -/

/-- The one-row board `H  ` of the specification: piece 0 stands on the goal. -/
def wonBoard : gate_t :=
  { lines := 1, num_chars_map := 3, num_pieces := 1
    map := [[72, 32, 32]]
    map_save := [[72, 32, 32]]
    piece_x := fun k => if k = 0 then 0 else -1
    piece_y := fun k => if k = 0 then 0 else -1
    soln := [] }

/-- The one-row board `0G ` of the specification: piece 0 is one step left of the
goal. -/
def slideBoard : gate_t :=
  { lines := 1, num_chars_map := 3, num_pieces := 1
    map := [[48, 71, 32]]
    map_save := [[48, 71, 32]]
    piece_x := fun k => if k = 0 then 0 else -1
    piece_y := fun k => if k = 0 then 0 else -1
    soln := [] }

/-- The board of two rows and four columns `G   `, `   0`: piece 0 stands in the
last row and the last column. -/
def cornerBoard : gate_t :=
  { lines := 2, num_chars_map := 8, num_pieces := 1
    map := [[71, 32, 32, 32], [32, 32, 32, 48]]
    map_save := [[71, 32, 32, 32], [32, 32, 32, 48]]
    piece_x := fun k => if k = 0 then 3 else -1
    piece_y := fun k => if k = 0 then 1 else -1
    soln := [] }

/-- The board of two rows and four columns `G   `, `0   `: piece 0 stands in the
last row and the first column. -/
def edgeBoard : gate_t :=
  { lines := 2, num_chars_map := 8, num_pieces := 1
    map := [[71, 32, 32, 32], [48, 32, 32, 32]]
    map_save := [[71, 32, 32, 32], [48, 32, 32, 32]]
    piece_x := fun k => if k = 0 then 0 else -1
    piece_y := fun k => if k = 0 then 1 else -1
    soln := [] }

/-- The board of two rows and four columns `G   `, `    ` with one piece announced
and none on the grid: its coordinates are the sentinel -1 that
find_piece_coordinates leaves. -/
def unlocatedBoard : gate_t :=
  { lines := 2, num_chars_map := 8, num_pieces := 1
    map := [[71, 32, 32, 32], [32, 32, 32, 32]]
    map_save := [[71, 32, 32, 32], [32, 32, 32, 32]]
    piece_x := fun _ => -1
    piece_y := fun _ => -1
    soln := [] }


/-- The board reached from `r` by the moves of the list, `r` itself when one of
them fails. -/
def afterMoves (r : gate_t) (moves : List (Nat × Nat)) : gate_t :=
  (apply_moves r moves).getD r

/-- The character a successful move of the piece `k` leaves in a cell that held
`cur`, when the cell the piece comes from held `src`. -/
def movedValue (k src cur : Nat) : Nat :=
  if src = 48 + k ∨ src = 72 + k then (if cur = 71 ∨ cur = 72 + k then 72 + k else 48 + k)
  else if cur = 72 + k then 71
  else if cur = 48 + k then 32
  else cur


/-! ## Vocabulary of the queue and scheduler statements -/

/-- A queue of two nodes built by pq_enqueue: the root of the one-step board at
depth 1 enters first, the root of the won board at depth 0 second. -/
def twoNodeQueue : priority_queue_t :=
  pq_enqueue (pq_enqueue init_priority_queue (create_search_node oneStepBoard 1 48 RIGHT))
    (create_search_node wonBoard 0 0 0)

/-- The format of a trail on a board of `num_pieces` pieces: every character of
even index is a digit that names a piece index below num_pieces, every
character of odd index is one of `u`, `d`, `l`, `r`. -/
def trailFormat (num_pieces : Nat) (t : List Nat) : Prop :=
  ∀ i, i < t.length →
    (i % 2 = 0 → 48 ≤ t.getD i 0 ∧ t.getD i 0 ≤ 57 ∧ t.getD i 0 - 48 < num_pieces) ∧
    (i % 2 = 1 → is_valid_direction (t.getD i 0) = true)

/-- The move names a piece below `num_pieces` by its digit and a direction among
`u`, `d`, `l`, `r`. -/
def properMove (num_pieces : Nat) (m : Nat × Nat) : Prop :=
  48 ≤ m.1 ∧ m.1 ≤ 57 ∧ m.1 - 48 < num_pieces ∧ is_valid_direction m.2 = true

/-- The invariant behind the format of the trails: every queued node holds a
board of the root's piece count whose trail is the text of as many proper
moves as its depth, and the trail of a solved result is the text of proper
moves. -/
def trailInv (init_data : gate_t) (vars : search_vars) : Prop :=
  (∀ node ∈ vars.pq.nodes, node.state.num_pieces = init_data.num_pieces ∧
    ∃ moves : List (Nat × Nat), node.state.soln = encodeTrail moves ∧
      moves.length = node.depth ∧ ∀ m ∈ moves, properMove init_data.num_pieces m) ∧
  (vars.result.solved = true →
    ∃ moves : List (Nat × Nat), vars.result.solution = some (encodeTrail moves) ∧
      ∀ m ∈ moves, properMove init_data.num_pieces m)

/-! ## The scheduler of mode 3 as the specification words it -/

/-- The widths 1, 2, ..., num_pieces in increasing order. -/
def widthsOf (init_data : gate_t) : List Nat := List.range' 1 init_data.num_pieces

/-- The first of the widths 1, ..., num_pieces for which run_search returns
solved, if there is one. -/
def firstSolvingWidth (init_data : gate_t) (packedBytes : Nat) : Option Nat :=
  (widthsOf init_data).find? (fun (w : Nat) => (run_search init_data (w : Int) packedBytes).solved)

/-- The widths whose sub-runs come before the first success: those mode 3 runs
and finds unsolved. -/
def failedWidths (init_data : gate_t) (packedBytes : Nat) : List Nat :=
  (widthsOf init_data).takeWhile (fun (w : Nat) => !(run_search init_data (w : Int) packedBytes).solved)

/-- The sum of a counter over the sub-runs of the widths `ws`. -/
def sumOver (init_data : gate_t) (packedBytes : Nat) (counter : search_run_result_t → Nat)
    (ws : List Nat) : Nat :=
  (ws.map (fun (w : Nat) => counter (run_search init_data (w : Int) packedBytes))).sum

/-- The report of mode 3 as the specification words it: the widths are tried in
increasing order up to the first success, whose trail, final board and width
are reported; when none succeeds the fallback run of width 0 is made and
marked; the counters are summed over the sub-runs made. -/
def mode3Report (init_data : gate_t) (algorithm : Int) : report_t :=
  let packedBytes := clampBytes ((getPackedSize init_data + 7) / 8)
  let failed := failedWidths init_data packedBytes
  match firstSolvingWidth init_data packedBytes with
  | some w =>
    let run := run_search init_data (w : Int) packedBytes
    { solnStr := run.solution.getD []
      expanded := sumOver init_data packedBytes (fun r => r.expanded) failed + run.expanded
      generated := sumOver init_data packedBytes (fun r => r.generated) failed + run.generated
      duplicated := sumOver init_data packedBytes (fun r => r.duplicated) failed + run.duplicated
      winning_state_ptr := run.final_state
      num_pieces := init_data.num_pieces
      solvingWidth := (w : Int)
      usedFallback := false
      has_won := true
      algorithm := algorithm }
  | none =>
    let run := run_search init_data 0 packedBytes
    { solnStr := if run.solved then run.solution.getD [] else []
      expanded := sumOver init_data packedBytes (fun r => r.expanded) failed + run.expanded
      generated := sumOver init_data packedBytes (fun r => r.generated) failed + run.generated
      duplicated := sumOver init_data packedBytes (fun r => r.duplicated) failed + run.duplicated
      winning_state_ptr := if run.solved then run.final_state else none
      num_pieces := init_data.num_pieces
      solvingWidth := if run.solved then 0 else -1
      usedFallback := true
      has_won := run.solved
      algorithm := algorithm }

/-! ## Vocabulary of the expansion order and of the frame of a move -/

/-- The node the body of the two loops of lines 751 to 799 enqueues for one
piece index and one direction index, if it enqueues one: the move succeeds and
the successor is neither in the closed set nor skipped by the novelty test. -/
def successorOf (noveltyLimit atomBits packedBytes : Nat) (current : search_node_t)
    (expandedStates : radixTree) (partialStates : List radixTree) (move : Nat × Nat) :
    Option search_node_t :=
  match apply_action current.state (pieceNames.getD move.1 0) (directions.getD move.2 0) with
  | none => none
  | some next_state =>
    let candidatePacked := packedKey next_state packedBytes
    let skip :=
      if checkPresent expandedStates candidatePacked next_state.num_pieces then true
      else if noveltyLimit > 0 then
        novelty_skip partialStates candidatePacked next_state.num_pieces noveltyLimit atomBits
      else false
    if skip then none
    else some (create_search_node next_state (current.depth + 1) (pieceNames.getD move.1 0)
      (directions.getD move.2 0))

/-- The pair `a` comes before `b` in the lexicographic order of (piece index,
direction index). -/
def moveLt (a b : Nat × Nat) : Prop := a.1 < b.1 ∨ (a.1 = b.1 ∧ a.2 < b.2)

/-- The label of a queued node: its piece character and its direction character. -/
def labelOf (node : search_node_t) : Nat × Nat := (node.piece, node.direction)

/-- The number of positions of the grid of `lines` rows `m` at which the grid
`m1` holds another character. -/
def diffCount (m m1 : List (List Nat)) (lines : Nat) : Nat :=
  (positions m lines).countP (fun p =>
    decide (cellAt m1 (p.1 : Int) (p.2 : Int) ≠ cellAt m (p.1 : Int) (p.2 : Int)))

/-- The number of positions of the grid of `lines` rows `m` that hold the digit or
letter form of the piece `k` in `m` and in `m1`: the cells the piece keeps. -/
def stayCount (m m1 : List (List Nat)) (lines k : Nat) : Nat :=
  (positions m lines).countP (fun p => formAt m (48 + k) p && formAt m1 (48 + k) p)

/-- A bordered board with the two-cell piece 0 lying in a row: the rows are
`######`, `#00 G#`, `######`. -/
def barBoard : gate_t :=
  { lines := 3, num_chars_map := 18, num_pieces := 1
    map := [[35, 35, 35, 35, 35, 35], [35, 48, 48, 32, 71, 35], [35, 35, 35, 35, 35, 35]]
    map_save := [[35, 35, 35, 35, 35, 35], [35, 48, 48, 32, 71, 35], [35, 35, 35, 35, 35, 35]]
    piece_x := fun k => if k = 0 then 1 else -1
    piece_y := fun k => if k = 0 then 1 else -1
    soln := [] }

/-- A bordered board with the two-cell piece 0 standing in a column: the rows are
`#####`, `#0 G#`, `#0  #`, `#####`. -/
def towerBoard : gate_t :=
  { lines := 4, num_chars_map := 20, num_pieces := 1
    map := [[35, 35, 35, 35, 35], [35, 48, 32, 71, 35], [35, 48, 32, 32, 35],
      [35, 35, 35, 35, 35]]
    map_save := [[35, 35, 35, 35, 35], [35, 48, 32, 71, 35], [35, 48, 32, 32, 35],
      [35, 35, 35, 35, 35]]
    piece_x := fun k => if k = 0 then 1 else -1
    piece_y := fun k => if k = 0 then 1 else -1
    soln := [] }


/-! ## The algorithm selector -/

/-- The initial value of the static variable solver_algorithm of ai.c. -/
def solver_algorithm : Int := 3

/-- The function set_solver_algorithm of ai.c: the value of solver_algorithm
after the call, when it held `current` before. -/
def set_solver_algorithm (current algorithm : Int) : Int :=
  if algorithm ≥ 1 ∧ algorithm ≤ 3 then algorithm else current

/-! ## Vocabulary of the queue and counter invariants -/

/-- The invariant of the queue: the array is in heap order and the size is at most
the capacity. -/
def pqInv (pq : priority_queue_t) : Prop :=
  heapOrdered pq.nodes ∧ pq.size ≤ pq.capacity

/-- The queue after a sequence of calls: `some node` stands for pq_enqueue of the
node, `none` for pq_dequeue. -/
def pq_run : priority_queue_t → List (Option search_node_t) → priority_queue_t
  | pq, [] => pq
  | pq, some node :: rest => pq_run (pq_enqueue pq node) rest
  | pq, none :: rest => pq_run (pq_dequeue pq).2 rest

/-- The counter invariant at a loop head of run_search: every generated node has
been popped or is in the queue. -/
def counterInv (vars : search_vars) : Prop :=
  vars.result.generated = vars.result.expanded + vars.pq.nodes.length

/-- Two states of run_search that agree on the queue, the closed set and the
result record; the novelty tables may differ. -/
def sameSearch (a b : search_vars) : Prop :=
  a.pq = b.pq ∧ a.expandedStates = b.expandedStates ∧ a.result = b.result

/-! ## The bit indices the packers touch -/

/-- The bit indices one field loop of packMap hands to bitOn or bitOff. -/
def packFieldTouched (nbits bitIdx : Nat) : List Nat :=
  (List.range nbits).map (fun j => bitIdx + j)

/-- The bit indices the body of the outer loop of packMap touches for the piece
`i`. -/
def packAtomTouched (pBits hBits wBits i : Nat) : List Nat :=
  let bitIdx := i * (pBits + hBits + wBits)
  packFieldTouched pBits bitIdx ++ packFieldTouched hBits (bitIdx + pBits) ++
    packFieldTouched wBits (bitIdx + pBits + hBits)

/-- The bit indices packMap touches in the key, in the order of its loops. -/
def packMapTouched (gate : gate_t) : List Nat :=
  (List.range gate.num_pieces).flatMap
    (packAtomTouched (pBitsOf gate.num_pieces) (dimBitsOf gate.lines) (dimBitsOf (widthOf gate)))

/-- The bit indices of the source key that pack_subset hands to getBit. -/
def pack_subset_reads (atomBits : Nat) (indices : List Nat) (count : Nat) : List Nat :=
  (List.range count).flatMap (fun k =>
    (List.range atomBits).map (fun bit => indices.getD k 0 * atomBits + bit))

/-- The bit indices of the destination buffer that pack_subset hands to bitOn: the
running index `destBit` at the bits of the source that are set. -/
def pack_subset_writes (src : List Bool) (atomBits : Nat) (indices : List Nat) (count : Nat) :
    List Nat :=
  (List.range count).flatMap (fun k =>
    ((List.range atomBits).filter (fun bit =>
      getBit src (indices.getD k 0 * atomBits + bit))).map (fun bit => k * atomBits + bit))

/-! ## The grid indices the mutation loop uses -/

/-- The indices of map_save read by the four tests of `occupiedAfterMove` (lines
114 to 126) at `(i, j)`: the test of the direction of the move reads the
neighbour on the opposite side. -/
def occupied_reads (direction : Nat) (i j : Nat) : List (Int × Int) :=
  (if direction = UP then [((i : Int) + 1, (j : Int))] else []) ++
  (if direction = DOWN then [((i : Int) - 1, (j : Int))] else []) ++
  (if direction = LEFT then [((i : Int), (j : Int) + 1)] else []) ++
  (if direction = RIGHT then [((i : Int), (j : Int) - 1)] else [])

/-- The indices (row, column) of map_save read by the body of the mutation loop
(lines 93 to 133) at the position `p`: the cell itself and, when it holds the
piece, the target and the neighbour opposite to the move. -/
def move_cell_reads (save : List (List Nat)) (pieceChar letterPiece direction : Nat)
    (p : Nat × Nat) : List (Int × Int) :=
  ((p.1 : Int), (p.2 : Int)) ::
    (if cellAt save p.1 p.2 = pieceChar ∨ cellAt save p.1 p.2 = letterPiece then
      (targetY p.1 direction, targetX p.2 direction) :: occupied_reads direction p.1 p.2
    else [])

/-- The indices (row, column) of map written by the body of the mutation loop at
the position `p`: the target and, when the piece does not re-occupy it, the
cell itself. -/
def move_cell_writes (save : List (List Nat)) (pieceChar letterPiece direction : Nat)
    (p : Nat × Nat) : List (Int × Int) :=
  if cellAt save p.1 p.2 = pieceChar ∨ cellAt save p.1 p.2 = letterPiece then
    (targetY p.1 direction, targetX p.2 direction) ::
      (if (cellAt save p.1 p.2 = letterPiece ∧
            occupiedAfterMove save pieceChar letterPiece direction p.1 p.2 = false) ∨
          (cellAt save p.1 p.2 = pieceChar ∧
            occupiedAfterMove save pieceChar letterPiece direction p.1 p.2 = false) then
        [((p.1 : Int), (p.2 : Int))]
      else [])
  else []

/-- Every index of map_save the mutation loop of apply_move_in_place reads. -/
def moveReads (b : gate_t) (pc d : Nat) : List (Int × Int) :=
  (positions b.map b.lines).flatMap (move_cell_reads (snapshotOf b) pc (pc - 48 + 72) d)

/-- Every index of map the mutation loop of apply_move_in_place writes. -/
def moveWrites (b : gate_t) (pc d : Nat) : List (Int × Int) :=
  (positions b.map b.lines).flatMap (move_cell_writes (snapshotOf b) pc (pc - 48 + 72) d)

/-- The index (row, column) lies inside a grid of `lines` rows and `width` columns. -/
def inBounds (lines width : Nat) (a : Int × Int) : Prop :=
  0 ≤ a.1 ∧ a.1 < (lines : Int) ∧ 0 ≤ a.2 ∧ a.2 < (width : Int)

/-! ## The expansions of a run -/

/-- The full key of the node that the turn `turn` of the main loop of run_search
expands, with its length in atoms, if the turn expands a node: the loop has
not ended by a win, the queue gives a node, the node is not winning, and its
key is not in the closed set. -/
def turnKey (init_data : gate_t) (width_limit : Int) (packedBytes turn : Nat) :
    Option (Nat × List Bool) :=
  let vars := search_after init_data width_limit packedBytes turn
  if vars.result.solved then none
  else
    match (pq_dequeue vars.pq).1 with
    | none => none
    | some current =>
      if winning_state current.state then none
      else if checkPresent vars.expandedStates
          (packedKey current.state (clampBytes packedBytes)) current.state.num_pieces then none
      else some (current.state.num_pieces, packedKey current.state (clampBytes packedBytes))


end Ai

namespace Calc

/-! ## The matrices of the calculator (matrix.c) -/

/-- The struct Matrix of matrix.h.  `data i j` is the entry `data[i][j]`.  The
entries, of type double in the source, are values of an arbitrary type: the
functions embedded here only copy them. -/
structure Matrix (α : Type) where
  rows : Nat
  cols : Nat
  data : Nat → Nat → α

/-- The function matrix_create of matrix.c, for allocations that succeed: the
entries of the new matrix hold what the allocator left there, `junk`. -/
def matrix_create {α : Type} (rows cols : Nat) (junk : Nat → Nat → α) : Matrix α :=
  { rows := rows, cols := cols, data := junk }

/-- The assignment `m->data[i][j] = v`. -/
def set_entry {α : Type} (m : Matrix α) (i j : Nat) (v : α) : Matrix α :=
  { m with data := Function.update m.data i (Function.update (m.data i) j v) }

/-- The body of the inner loop of matrix_transpose on the memory (A, result):
`result->data[j][i] = A->data[i][j]`. -/
def transpose_body {α : Type} (i : Nat) (mem : Matrix α × Matrix α) (j : Nat) :
    Matrix α × Matrix α :=
  (mem.1, set_entry mem.2 j i (mem.1.data i j))

/-- The two loops of matrix_transpose on the memory (A, result). -/
def transpose_loops {α : Type} (mem : Matrix α × Matrix α) : Matrix α × Matrix α :=
  (List.range mem.1.rows).foldl
    (fun m i => (List.range m.1.cols).foldl (transpose_body i) m) mem

/-- The memory (A, result) when matrix_transpose returns, for an argument that is
not NULL and allocations that succeed. -/
def matrix_transpose_memory {α : Type} (junk : Nat → Nat → α) (A : Matrix α) :
    Matrix α × Matrix α :=
  transpose_loops (A, matrix_create A.cols A.rows junk)

/-- The function matrix_transpose of matrix.c; `none` stands for the NULL
pointer, and `junk` for the content of the memory matrix_create returns. -/
def matrix_transpose {α : Type} (junk : Nat → Nat → α) : Option (Matrix α) → Option (Matrix α)
  | none => none
  | some A => some (matrix_transpose_memory junk A).2

/-- The matrix `original` of test 8 of test_operations.c: 2 rows, 3 columns, the
entries 1, 2, 3 and 4, 5, 6, assigned one by one to a matrix from
matrix_create. -/
def originalMatrix : Matrix Int :=
  set_entry (set_entry (set_entry (set_entry (set_entry (set_entry
    (matrix_create 2 3 (fun _ _ => 0)) 0 0 1) 0 1 2) 0 2 3) 1 0 4) 1 1 5) 1 2 6

/-! ## The first pass of parse_matrix -/

/-- The character `s[p]` of a NUL-terminated string whose characters before the
terminator are `s`. -/
def charAt (s : List Nat) (p : Nat) : Nat := s.getD p 0

/-- The function isspace of the C library in the C locale: the blank and the
characters 9 to 13. -/
def isspace (c : Nat) : Bool := c == 32 || (decide (9 ≤ c) && decide (c ≤ 13))

/-- The function isdigit of the C library. -/
def isdigit (c : Nat) : Bool := decide (48 ≤ c) && decide (c ≤ 57)

/-- The loop of skip_spaces over the characters from the cursor on. -/
def skip_spaces_loop : List Nat → Nat → Nat
  | [], p => p
  | c :: rest, p => if isspace c then skip_spaces_loop rest (p + 1) else p

/-- The function skip_spaces of matrix.c: the cursor after the call. -/
def skip_spaces (s : List Nat) (p : Nat) : Nat := skip_spaces_loop (s.drop p) p

/-- The variables of the dimension-counting pass of parse_matrix; `returned`
tells that the pass has executed `return NULL`. -/
structure count_vars where
  temp : Nat
  rows : Nat
  cols : Nat
  current_cols : Nat
  returned : Bool

/-- The body of the while loop of the dimension-counting pass (lines 58 to 76).
`strtod_end s p` is the position strtod leaves in `endptr` for the text at `p`;
strtod belongs to the C library and is a parameter here. -/
def count_step (strtod_end : List Nat → Nat → Nat) (s : List Nat) (v : count_vars) :
    count_vars :=
  let t1 := skip_spaces s v.temp
  let number := isdigit (charAt s t1) || charAt s t1 == 46 || charAt s t1 == 45
  let t2 := if number then strtod_end s t1 else t1
  let cc := if number then v.current_cols + 1 else v.current_cols
  let t3 := skip_spaces s t2
  if charAt s t3 = 44 then
    { v with temp := t3 + 1, current_cols := cc }
  else if charAt s t3 = 59 then
    if v.cols = 0 then
      { temp := t3 + 1, rows := v.rows + 1, cols := cc, current_cols := 0, returned := false }
    else if cc ≠ v.cols then
      { v with temp := t3, current_cols := cc, returned := true }
    else
      { temp := t3 + 1, rows := v.rows + 1, cols := v.cols, current_cols := 0, returned := false }
  else
    { v with temp := t3, current_cols := cc }

/-- The test of the while loop of the dimension-counting pass:
`*temp && *temp != ']'`, on a pass that has not returned. -/
def count_continues (s : List Nat) (v : count_vars) : Bool :=
  !v.returned && charAt s v.temp != 0 && charAt s v.temp != 93

/-- The while loop of the dimension-counting pass run for at most `fuel` turns:
`none` when the loop is still running after them. -/
def count_loop (strtod_end : List Nat → Nat → Nat) (s : List Nat) :
    Nat → count_vars → Option count_vars
  | 0, v => if count_continues s v then none else some v
  | fuel + 1, v =>
    if count_continues s v then count_loop strtod_end s fuel (count_step strtod_end s v)
    else some v

/-- The variables of the dimension-counting pass when its loop is entered, for a
text whose first character after the blanks is `[`; `none` when parse_matrix
returns NULL before the pass. -/
def count_start (s : List Nat) : Option count_vars :=
  if charAt s (skip_spaces s 0) ≠ 91 then none
  else some { temp := skip_spaces s 0 + 1, rows := 1, cols := 0, current_cols := 0,
              returned := false }

/-- The dimension-counting pass of parse_matrix (lines 48 to 76) run for at most
`fuel` turns of its loop: `none` when the loop is still running after them. -/
def parse_matrix_first_pass (strtod_end : List Nat → Nat → Nat) (s : List Nat) (fuel : Nat) :
    Option count_vars :=
  match count_start s with
  | none => some { temp := skip_spaces s 0, rows := 1, cols := 0, current_cols := 0,
                   returned := true }
  | some v => count_loop strtod_end s fuel v

end Calc

namespace Ai

/-! ## Grid lemmas -/


theorem cellAt_eq_zero_of_not_inGrid (m : List (List Nat)) (i j : Int) (h : ¬ inGrid m i j) :
    cellAt m i j = 0 := by
  unfold cellAt rowAt
  unfold inGrid at h
  by_cases hj : j < 0
  · simp [hj]
  · by_cases hi : i < 0
    · simp [hi, hj]
    · simp only [hj, hi, if_false]
      by_cases hlen : i.toNat < m.length
      · have : ¬ j.toNat < (m.getD i.toNat []).length := by
          intro hc; exact h ⟨by omega, by omega, hlen, hc⟩
        rw [List.getD_eq_default _ _ (by omega)]
      · rw [List.getD_eq_default m _ (by omega)]
        simp

theorem inGrid_of_cellAt_ne_zero (m : List (List Nat)) (i j : Int) (h : cellAt m i j ≠ 0) :
    inGrid m i j := by
  by_contra hc
  exact h (cellAt_eq_zero_of_not_inGrid m i j hc)

theorem length_setCell (m : List (List Nat)) (i j : Int) (c : Nat) :
    (setCell m i j c).length = m.length := by
  unfold setCell
  split <;> simp

theorem getD_setCell_length (m : List (List Nat)) (i j : Int) (c : Nat) (r : Nat) :
    ((setCell m i j c).getD r []).length = (m.getD r []).length := by
  unfold setCell
  split
  · rfl
  · by_cases hr : r = i.toNat
    · subst hr
      by_cases hlen : i.toNat < m.length
      · simp [List.getD_eq_getElem?_getD, List.getElem?_set, hlen]
      · rw [List.getD_eq_default _ _ (by simp; omega), List.getD_eq_default _ _ (by omega)]
    · simp [List.getD_eq_getElem?_getD, List.getElem?_set, Ne.symm hr]

theorem inGrid_setCell (m : List (List Nat)) (i j : Int) (c : Nat) (a b : Int) :
    inGrid (setCell m i j c) a b ↔ inGrid m a b := by
  unfold inGrid
  rw [length_setCell, getD_setCell_length]

theorem cellAt_setCell (m : List (List Nat)) (i j : Int) (c : Nat) (a b : Int) :
    cellAt (setCell m i j c) a b = if a = i ∧ b = j ∧ inGrid m i j then c else cellAt m a b := by
  by_cases hin : inGrid m i j
  · obtain ⟨hi, hj, hil, hjl⟩ := hin
    have hin : inGrid m i j := ⟨hi, hj, hil, hjl⟩
    unfold setCell
    rw [if_neg (by omega)]
    by_cases hab : a = i ∧ b = j
    · obtain ⟨rfl, rfl⟩ := hab
      rw [if_pos ⟨rfl, rfl, hin⟩]
      unfold cellAt rowAt
      rw [if_neg (by omega), if_neg (by omega)]
      have hjl2 : b.toNat < m[a.toNat].length := by
        simpa [List.getD_eq_getElem?_getD, hil] using hjl
      simp [List.getD_eq_getElem?_getD, List.getElem?_set, hil, hjl2]
    · rw [if_neg (fun h => hab ⟨h.1, h.2.1⟩)]
      unfold cellAt rowAt
      by_cases hb : b < 0
      · simp [hb]
      · rw [if_neg hb, if_neg hb]
        by_cases ha : a < 0
        · simp [ha]
        · rw [if_neg ha, if_neg ha]
          by_cases hai : a = i
          · subst hai
            have hbj : b.toNat ≠ j.toNat := by
              intro hc; apply hab; constructor; rfl; omega
            simp [List.getD_eq_getElem?_getD, List.getElem?_set, hil, Ne.symm hbj]
          · have : i.toNat ≠ a.toNat := by omega
            simp [List.getD_eq_getElem?_getD, List.getElem?_set, this]
  · rw [if_neg (fun h => hin h.2.2)]
    unfold inGrid at hin
    unfold setCell
    split
    · rfl
    · rename_i hneg
      have hi : 0 ≤ i := by omega
      have hj : 0 ≤ j := by omega
      by_cases hil : i.toNat < m.length
      · have hjl : ¬ j.toNat < (m.getD i.toNat []).length := fun hc => hin ⟨hi, hj, hil, hc⟩
        have : (m.getD i.toNat []).set j.toNat c = m.getD i.toNat [] :=
          List.set_eq_of_length_le (by omega)
        rw [this]
        have : m.set i.toNat (m.getD i.toNat []) = m := by
          apply List.ext_getElem?
          intro n
          simp only [List.getElem?_set, List.getD_eq_getElem?_getD]
          split
          · rename_i h; subst h; simp [hil]
          · rfl
        rw [this]
      · rw [List.set_eq_of_length_le (by omega)]

theorem valid_direction_cases (d : Nat) (h : is_valid_direction d = true) :
    d = UP ∨ d = DOWN ∨ d = LEFT ∨ d = RIGHT := by
  simp only [is_valid_direction, Bool.or_eq_true, beq_iff_eq] at h
  tauto

theorem target_eq_iff (d : Nat) (hd : d = UP ∨ d = DOWN ∨ d = LEFT ∨ d = RIGHT) (a b i j : Int) :
    (targetY a d = i ∧ targetX b d = j) ↔ (a = sourceY i d ∧ b = sourceX j d) := by
  unfold targetY targetX sourceY sourceX
  rcases hd with h | h | h | h <;> subst h <;> simp <;> omega

theorem occupiedAfterMove_iff (save : List (List Nat)) (pc lp d : Nat)
    (hd : d = UP ∨ d = DOWN ∨ d = LEFT ∨ d = RIGHT) (i j : Nat) :
    occupiedAfterMove save pc lp d i j = true ↔
      isForm pc lp (cellAt save (sourceY i d) (sourceX j d)) := by
  unfold occupiedAfterMove sourceY sourceX isForm
  rcases hd with h | h | h | h <;> subst h <;> simp

theorem inGrid_move_cell (save : List (List Nat)) (pc lp d : Nat) (m : List (List Nat))
    (q : Nat × Nat) (a b : Int) :
    inGrid (move_cell save pc lp d m q) a b ↔ inGrid m a b := by
  unfold move_cell
  simp only
  split_ifs <;> simp only [inGrid_setCell]

theorem inGrid_foldl_move_cell (save : List (List Nat)) (pc lp d : Nat) (ps : List (Nat × Nat))
    (m : List (List Nat)) (a b : Int) :
    inGrid (ps.foldl (move_cell save pc lp d) m) a b ↔ inGrid m a b := by
  induction ps generalizing m with
  | nil => rfl
  | cons q ps ih => rw [List.foldl_cons, ih, inGrid_move_cell]

theorem target_ne_self (d : Nat) (hd : d = UP ∨ d = DOWN ∨ d = LEFT ∨ d = RIGHT) (a b : Int) :
    ¬ (targetY a d = a ∧ targetX b d = b) := by
  unfold targetY targetX
  rcases hd with h | h | h | h <;> subst h <;> simp

theorem move_cell_eq (save : List (List Nat)) (pc lp d : Nat)
    (hd : d = UP ∨ d = DOWN ∨ d = LEFT ∨ d = RIGHT) (m : List (List Nat)) (q : Nat × Nat)
    (hf : isForm pc lp (cellAt save q.1 q.2)) :
    move_cell save pc lp d m q =
      if isForm pc lp (cellAt save (sourceY q.1 d) (sourceX q.2 d)) then
        setCell m (targetY q.1 d) (targetX q.2 d)
          (enteredValue save pc lp (targetY q.1 d) (targetX q.2 d))
      else
        setCell (setCell m (targetY q.1 d) (targetX q.2 d)
          (enteredValue save pc lp (targetY q.1 d) (targetX q.2 d))) q.1 q.2
          (vacatedValue save lp q.1 q.2) := by
  have hocc := occupiedAfterMove_iff save pc lp d hd q.1 q.2
  have hf2 : cellAt save q.1 q.2 = pc ∨ cellAt save q.1 q.2 = lp := hf
  have hmap1 : (if cellAt save (targetY q.1 d) (targetX q.2 d) = 71 ∨
        cellAt save (targetY q.1 d) (targetX q.2 d) = lp then
        setCell m (targetY q.1 d) (targetX q.2 d) lp
      else setCell m (targetY q.1 d) (targetX q.2 d) pc) =
      setCell m (targetY q.1 d) (targetX q.2 d)
        (enteredValue save pc lp (targetY q.1 d) (targetX q.2 d)) := by
    unfold enteredValue
    split_ifs <;> rfl
  unfold move_cell
  simp only
  rw [if_pos hf2, hmap1]
  by_cases ho : isForm pc lp (cellAt save (sourceY q.1 d) (sourceX q.2 d))
  · have hot : occupiedAfterMove save pc lp d q.1 q.2 = true := hocc.mpr ho
    rw [if_pos ho, hot]
    simp
  · have hof : occupiedAfterMove save pc lp d q.1 q.2 = false := by
      cases h : occupiedAfterMove save pc lp d q.1 q.2
      · rfl
      · exact absurd (hocc.mp h) ho
    rw [if_neg ho, hof]
    unfold vacatedValue
    by_cases hl : cellAt save q.1 q.2 = lp
    · simp [hl]
    · have hp : cellAt save q.1 q.2 = pc := by
        rcases hf2 with h | h
        · exact h
        · exact absurd h hl
      have hne : pc ≠ lp := fun h => hl (hp.trans h)
      simp [hp, hne]

open Classical in
theorem cellAt_move_cell (save : List (List Nat)) (pc lp d : Nat)
    (hd : d = UP ∨ d = DOWN ∨ d = LEFT ∨ d = RIGHT) (m : List (List Nat)) (q : Nat × Nat)
    (i j : Int) (hin : inGrid m i j) :
    cellAt (move_cell save pc lp d m q) i j =
      if tgtWrite save pc lp d q i j then enteredValue save pc lp i j
      else if rstWrite save pc lp d q i j then vacatedValue save lp i j
      else cellAt m i j := by
  by_cases hf : isForm pc lp (cellAt save q.1 q.2)
  · have htgt := target_eq_iff d hd q.1 q.2 i j
    have hne := target_ne_self d hd q.1 q.2
    rw [move_cell_eq save pc lp d hd m q hf]
    by_cases ht : targetY q.1 d = i ∧ targetX q.2 d = j
    · have htw : tgtWrite save pc lp d q i j := ⟨hf, (htgt.mp ht).1, (htgt.mp ht).2⟩
      rw [if_pos htw]
      obtain ⟨ht1, ht2⟩ := ht
      have hq : ¬ (i = (q.1 : Int) ∧ j = (q.2 : Int)) := by
        rintro ⟨h1, h2⟩
        exact hne ⟨ht1.trans h1, ht2.trans h2⟩
      subst ht1 ht2
      split_ifs
      · rw [cellAt_setCell, if_pos ⟨rfl, rfl, hin⟩]
      · rw [cellAt_setCell, if_neg (fun h => hq ⟨h.1, h.2.1⟩), cellAt_setCell,
          if_pos ⟨rfl, rfl, hin⟩]
    · have htw : ¬ tgtWrite save pc lp d q i j := fun h => ht (htgt.mpr ⟨h.2.1, h.2.2⟩)
      rw [if_neg htw]
      by_cases hq : (q.1 : Int) = i ∧ (q.2 : Int) = j
      · obtain ⟨hq1, hq2⟩ := hq
        subst hq1 hq2
        by_cases ho : isForm pc lp (cellAt save (sourceY q.1 d) (sourceX q.2 d))
        · have hrw : ¬ rstWrite save pc lp d q q.1 q.2 := fun h => h.2.1 ho
          rw [if_pos ho, if_neg hrw, cellAt_setCell, if_neg (fun h => ht ⟨h.1.symm, h.2.1.symm⟩)]
        · have hrw : rstWrite save pc lp d q q.1 q.2 := ⟨hf, ho, rfl, rfl⟩
          rw [if_neg ho, if_pos hrw, cellAt_setCell,
            if_pos ⟨rfl, rfl, (inGrid_setCell _ _ _ _ _ _).mpr hin⟩]
      · have hrw : ¬ rstWrite save pc lp d q i j := fun h => hq ⟨h.2.2.1, h.2.2.2⟩
        rw [if_neg hrw]
        split_ifs
        · rw [cellAt_setCell, if_neg (fun h => ht ⟨h.1.symm, h.2.1.symm⟩)]
        · rw [cellAt_setCell, if_neg (fun h => hq ⟨h.1.symm, h.2.1.symm⟩), cellAt_setCell,
            if_neg (fun h => ht ⟨h.1.symm, h.2.1.symm⟩)]
  · have hf2 : ¬ (cellAt save q.1 q.2 = pc ∨ cellAt save q.1 q.2 = lp) := hf
    have h1 : ¬ tgtWrite save pc lp d q i j := fun h => hf h.1
    have h2 : ¬ rstWrite save pc lp d q i j := fun h => hf h.1
    rw [if_neg h1, if_neg h2]
    unfold move_cell
    simp only
    rw [if_neg hf2]

open Classical in
theorem cellAt_foldl_move_cell (save : List (List Nat)) (pc lp d : Nat)
    (hd : d = UP ∨ d = DOWN ∨ d = LEFT ∨ d = RIGHT) (ps : List (Nat × Nat))
    (m : List (List Nat)) (i j : Int) (hin : inGrid m i j) :
    cellAt (ps.foldl (move_cell save pc lp d) m) i j =
      if ∃ q ∈ ps, tgtWrite save pc lp d q i j then enteredValue save pc lp i j
      else if ∃ q ∈ ps, rstWrite save pc lp d q i j then vacatedValue save lp i j
      else cellAt m i j := by
  induction ps generalizing m with
  | nil => simp
  | cons q ps ih =>
    rw [List.foldl_cons, ih _ ((inGrid_move_cell _ _ _ _ _ _ _ _).mpr hin),
      cellAt_move_cell save pc lp d hd m q i j hin]
    have hex : ∀ q1 q2 : Nat × Nat, tgtWrite save pc lp d q1 i j →
        rstWrite save pc lp d q2 i j → False := by
      intro q1 q2 h1 h2
      apply h2.2.1
      have := h1.1
      rw [h1.2.1, h1.2.2] at this
      exact this
    by_cases hA : ∃ q ∈ ps, tgtWrite save pc lp d q i j
    · rw [if_pos hA, if_pos]
      obtain ⟨q1, hq1, h1⟩ := hA
      exact ⟨q1, List.mem_cons_of_mem _ hq1, h1⟩
    · rw [if_neg hA]
      by_cases hB : ∃ q ∈ ps, rstWrite save pc lp d q i j
      · rw [if_pos hB]
        obtain ⟨q2, hq2, h2⟩ := hB
        have hnA : ¬ ∃ q1 ∈ q :: ps, tgtWrite save pc lp d q1 i j := by
          rintro ⟨q1, _, h1⟩
          exact hex q1 q2 h1 h2
        rw [if_neg hnA, if_pos ⟨q2, List.mem_cons_of_mem _ hq2, h2⟩]
      · rw [if_neg hB]
        by_cases hq1 : tgtWrite save pc lp d q i j
        · rw [if_pos hq1, if_pos ⟨q, List.mem_cons_self _ _, hq1⟩]
        · have hnA : ¬ ∃ q1 ∈ q :: ps, tgtWrite save pc lp d q1 i j := by
            rintro ⟨q1, hm, h1⟩
            rcases List.mem_cons.mp hm with h | h
            · exact hq1 (h ▸ h1)
            · exact hA ⟨q1, h, h1⟩
          rw [if_neg hq1, if_neg hnA]
          by_cases hq2 : rstWrite save pc lp d q i j
          · rw [if_pos hq2, if_pos ⟨q, List.mem_cons_self _ _, hq2⟩]
          · have hnB : ¬ ∃ q1 ∈ q :: ps, rstWrite save pc lp d q1 i j := by
              rintro ⟨q1, hm, h1⟩
              rcases List.mem_cons.mp hm with h | h
              · exact hq2 (h ▸ h1)
              · exact hB ⟨q1, h, h1⟩
            rw [if_neg hq2, if_neg hnB]

/-! ## The positions of the double loop and the piece locator -/


theorem mem_positionsFrom (rows : List (List Nat)) (i0 a b : Nat) :
    (a, b) ∈ positionsFrom rows i0 ↔
      i0 ≤ a ∧ a - i0 < rows.length ∧ b < (rows.getD (a - i0) []).length := by
  induction rows generalizing i0 with
  | nil => simp [positionsFrom]
  | cons row rest ih =>
    simp only [positionsFrom, List.mem_append, List.mem_map, List.mem_range, Prod.mk.injEq, ih,
      List.length_cons]
    constructor
    · rintro (⟨j, hj, rfl, rfl⟩ | ⟨h1, h2, h3⟩)
      · simp [hj]
      · refine ⟨by omega, by omega, ?_⟩
        have : a - i0 = (a - (i0 + 1)) + 1 := by omega
        rw [this, List.getD_cons_succ]
        exact h3
    · rintro ⟨h1, h2, h3⟩
      by_cases ha : a = i0
      · left
        subst ha
        simp only [Nat.sub_self, List.getD_cons_zero] at h3
        exact ⟨b, h3, rfl, rfl⟩
      · right
        have : a - i0 = (a - (i0 + 1)) + 1 := by omega
        rw [this, List.getD_cons_succ] at h3
        exact ⟨by omega, by omega, h3⟩

theorem mem_positions (m : List (List Nat)) (lines a b : Nat) :
    (a, b) ∈ positions m lines ↔ a < lines ∧ inGrid m a b := by
  unfold positions inGrid
  rw [mem_positionsFrom]
  simp only [Nat.sub_zero, List.length_take, Int.toNat_ofNat, Nat.zero_le, true_and,
    Int.ofNat_zero_le, lt_min_iff]
  constructor
  · rintro ⟨⟨h1, h2⟩, h3⟩
    refine ⟨h1, h2, ?_⟩
    rwa [List.getD_eq_getElem?_getD, List.getElem?_take_of_lt h1,
      ← List.getD_eq_getElem?_getD] at h3
  · rintro ⟨h1, h2, h3⟩
    refine ⟨⟨h1, h2⟩, ?_⟩
    rwa [List.getD_eq_getElem?_getD, List.getElem?_take_of_lt h1, ← List.getD_eq_getElem?_getD]

theorem check_if_piece_eq (state : gate_t) (y x pc : Nat) :
    check_if_piece state y x pc =
      if formAt state.map pc (y, x) then setCoords state (pc - 48) x y else state := by
  unfold check_if_piece formAt isForm setCoords
  by_cases h : cellAt state.map y x = pc ∨ cellAt state.map y x = pc - 48 + 72
  · simp [h]
  · simp [h]

theorem find_piece_cols_eq (pc i : Nat) (row : List Nat) (j0 : Nat) (state : gate_t)
    (hx : state.piece_x (pc - 48) = -1) :
    find_piece_cols pc i row j0 state =
      match ((List.range' j0 row.length).map (fun j => (i, j))).find? (formAt state.map pc) with
      | some p => (setCoords state (pc - 48) p.2 p.1, true)
      | none => (state, false) := by
  induction row generalizing j0 with
  | nil => simp [find_piece_cols]
  | cons c rest ih =>
    simp only [find_piece_cols, List.length_cons, List.range'_succ, List.map_cons,
      List.find?_cons, check_if_piece_eq]
    by_cases hf : formAt state.map pc (i, j0) = true
    · simp [hf, setCoords]
    · simp only [hf, Bool.false_eq_true, if_false, hx, ne_eq, not_true_eq_false]
      rw [ih (j0 + 1)]

theorem positionsFrom_cons (row : List Nat) (rest : List (List Nat)) (i : Nat) :
    positionsFrom (row :: rest) i =
      (List.range' 0 row.length).map (fun j => (i, j)) ++ positionsFrom rest (i + 1) := by
  simp [positionsFrom, List.range_eq_range']

theorem find_piece_rows_eq (pc : Nat) (rows : List (List Nat)) (i0 : Nat) (state : gate_t)
    (hx : state.piece_x (pc - 48) = -1) :
    find_piece_rows pc rows i0 state =
      match (positionsFrom rows i0).find? (formAt state.map pc) with
      | some p => (setCoords state (pc - 48) p.2 p.1, true)
      | none => (state, false) := by
  induction rows generalizing i0 with
  | nil => simp [find_piece_rows, positionsFrom]
  | cons row rest ih =>
    rw [positionsFrom_cons, List.find?_append]
    simp only [find_piece_rows]
    rw [find_piece_cols_eq pc i0 row 0 state hx]
    cases hfind : ((List.range' 0 row.length).map (fun j => (i0, j))).find? (formAt state.map pc) with
    | some p => simp
    | none =>
      simp only [Option.none_or]
      rw [ih (i0 + 1)]

theorem find_piece_coordinates_eq (state : gate_t) (pc : Nat) (h1 : 48 ≤ pc)
    (h2 : pc - 48 < MAX_PIECES) :
    find_piece_coordinates state pc =
      match firstCell state.map state.lines pc with
      | some p => (setCoords state (pc - 48) p.2 p.1, true)
      | none => (setCoords state (pc - 48) (-1) (-1), false) := by
  unfold find_piece_coordinates
  rw [if_neg (by omega)]
  simp only
  rw [find_piece_rows_eq pc _ 0 _ (by simp)]
  unfold firstCell positions
  simp only
  cases ((positionsFrom (List.take state.lines state.map) 0).find? (formAt state.map pc)) with
  | some p => simp [setCoords]
  | none => simp [setCoords]

/-! ## The move engine -/


theorem can_move_all_congr (s t : gate_t) (pc lp d : Nat) (hm : s.map = t.map)
    (hl : s.lines = t.lines) : can_move_all s pc lp d = can_move_all t pc lp d := by
  unfold can_move_all part_can_move
  rw [hm, hl]

theorem find_piece_coordinates_fst (state : gate_t) (pc : Nat) (h1 : 48 ≤ pc)
    (h2 : pc - 48 < MAX_PIECES) :
    (find_piece_coordinates state pc).1 = locate state state.map pc := by
  rw [find_piece_coordinates_eq state pc h1 h2]
  unfold locate
  cases firstCell state.map state.lines pc <;> rfl

theorem find_piece_coordinates_snd (state : gate_t) (pc : Nat) (h1 : 48 ≤ pc)
    (h2 : pc - 48 < MAX_PIECES) :
    (find_piece_coordinates state pc).2 = (firstCell state.map state.lines pc).isSome := by
  rw [find_piece_coordinates_eq state pc h1 h2]
  cases firstCell state.map state.lines pc <;> rfl

theorem apply_move_in_place_eq (b : gate_t) (pc d : Nat) (hd : is_valid_direction d = true)
    (h1 : 48 ≤ pc) (h2 : pc - 48 < b.num_pieces) (h3 : pc - 48 < MAX_PIECES) :
    apply_move_in_place b pc d =
      if (firstCell b.map b.lines pc).isSome = false then (locate b b.map pc, false)
      else if can_move_all b pc (pc - 48 + 72) d = false then (locate b b.map pc, false)
      else
        (locate { locate b b.map pc with map_save := snapshotOf b, map := movedMap b pc d }
          (movedMap b pc d) pc, true) := by
  unfold apply_move_in_place
  rw [if_neg (by simp [hd]), if_neg (by omega)]
  simp only
  have hfst := find_piece_coordinates_fst b pc h1 h3
  have hsnd := find_piece_coordinates_snd b pc h1 h3
  rcases hfp : find_piece_coordinates b pc with ⟨st1, flag⟩
  rw [hfp] at hfst hsnd
  simp only at hfst hsnd
  subst hfst
  have hmap : (locate b b.map pc).map = b.map := by
    unfold locate; cases firstCell b.map b.lines pc <;> rfl
  have hlines : (locate b b.map pc).lines = b.lines := by
    unfold locate; cases firstCell b.map b.lines pc <;> rfl
  have hsave : (locate b b.map pc).map_save = b.map_save := by
    unfold locate; cases firstCell b.map b.lines pc <;> rfl
  cases flag with
  | false =>
    rw [← hsnd]
    simp
  | true =>
    rw [← hsnd]
    simp only [Bool.true_eq_false, if_false]
    rw [can_move_all_congr (locate b b.map pc) b pc _ d hmap hlines]
    by_cases hc : can_move_all b pc (pc - 48 + 72) d = false
    · simp [hc]
    · rw [if_neg hc, if_neg hc]
      rw [find_piece_coordinates_fst _ pc h1 h3]
      simp only [hmap, hlines, hsave, movedMap, snapshotOf]

theorem apply_move_in_place_guard (b : gate_t) (pc d : Nat)
    (h : (apply_move_in_place b pc d).2 = true) :
    is_valid_direction d = true ∧ 48 ≤ pc ∧ pc - 48 < b.num_pieces ∧ pc - 48 < MAX_PIECES := by
  unfold apply_move_in_place at h
  by_cases hd : is_valid_direction d = false
  · simp [hd] at h
  · rw [if_neg hd] at h
    by_cases hp : pc < 48 ∨ pc - 48 ≥ b.num_pieces
    · simp [hp] at h
    · rw [if_neg hp] at h
      refine ⟨by simpa using hd, by omega, by omega, ?_⟩
      by_contra h3
      have : find_piece_coordinates b pc = (b, false) := by
        unfold find_piece_coordinates
        rw [if_pos (Or.inr (by omega))]
      simp [this] at h

theorem apply_move_in_place_success_iff (b : gate_t) (pc d : Nat) :
    (apply_move_in_place b pc d).2 = true ↔
      is_valid_direction d = true ∧ 48 ≤ pc ∧ pc - 48 < b.num_pieces ∧ pc - 48 < MAX_PIECES ∧
        (firstCell b.map b.lines pc).isSome = true ∧
        can_move_all b pc (pc - 48 + 72) d = true := by
  constructor
  · intro h
    obtain ⟨hd, h1, h2, h3⟩ := apply_move_in_place_guard b pc d h
    refine ⟨hd, h1, h2, h3, ?_⟩
    rw [apply_move_in_place_eq b pc d hd h1 h2 h3] at h
    by_cases hf : (firstCell b.map b.lines pc).isSome = false
    · simp [hf] at h
    · rw [if_neg hf] at h
      by_cases hc : can_move_all b pc (pc - 48 + 72) d = false
      · simp [hc] at h
      · exact ⟨(Bool.not_eq_false _).mp hf, (Bool.not_eq_false _).mp hc⟩
  · rintro ⟨hd, h1, h2, h3, hf, hc⟩
    rw [apply_move_in_place_eq b pc d hd h1 h2 h3]
    simp [hf, hc]

theorem apply_move_in_place_fst (b : gate_t) (pc d : Nat)
    (h : (apply_move_in_place b pc d).2 = true) :
    (apply_move_in_place b pc d).1 =
      locate { locate b b.map pc with map_save := snapshotOf b, map := movedMap b pc d }
        (movedMap b pc d) pc := by
  obtain ⟨hd, h1, h2, h3, hf, hc⟩ := (apply_move_in_place_success_iff b pc d).mp h
  rw [apply_move_in_place_eq b pc d hd h1 h2 h3]
  simp [hf, hc]

theorem locate_map (state : gate_t) (m : List (List Nat)) (pc : Nat) :
    (locate state m pc).map = state.map := by
  unfold locate; cases firstCell m state.lines pc <;> rfl

theorem apply_move_in_place_map (b : gate_t) (pc d : Nat)
    (h : (apply_move_in_place b pc d).2 = true) :
    (apply_move_in_place b pc d).1.map = movedMap b pc d := by
  rw [apply_move_in_place_fst b pc d h, locate_map]

theorem pieceOf_eq_some (c k : Nat) (hk : k < 10) :
    pieceOf c = some k ↔ c = 48 + k ∨ c = 72 + k := by
  unfold pieceOf
  split_ifs with h1 h2
  · simp; omega
  · simp; omega
  · simp; omega

theorem firstCell_isSome (m : List (List Nat)) (lines pc : Nat) :
    (firstCell m lines pc).isSome = true ↔
      ∃ p ∈ positions m lines, isForm pc (pc - 48 + 72) (cellAt m p.1 p.2) := by
  unfold firstCell
  rw [List.find?_isSome]
  simp [formAt]

theorem can_move_all_iff (b : gate_t) (pc lp d : Nat) :
    can_move_all b pc lp d = true ↔
      ∀ p ∈ positions b.map b.lines, isForm pc lp (cellAt b.map p.1 p.2) →
        part_can_move b p.1 p.2 d = true := by
  unfold can_move_all isForm
  rw [List.all_eq_true]
  constructor
  · intro h p hp hf
    have := h p hp
    simp only [Bool.not_eq_true', Bool.and_eq_false_imp, Bool.or_eq_true, beq_iff_eq,
      Bool.not_eq_false'] at this
    simpa using this hf
  · intro h p hp
    simp only [Bool.not_eq_true', Bool.and_eq_false_imp, Bool.or_eq_true, beq_iff_eq,
      Bool.not_eq_false']
    intro hf
    simpa using h p hp hf

theorem part_can_move_iff (b : gate_t) (y x d k : Nat) (hk : k < 10)
    (hf : isForm (48 + k) (72 + k) (cellAt b.map y x)) :
    part_can_move b y x d = true ↔
      (cellAt b.map (targetY y d) (targetX x d) = 32 ∨
        cellAt b.map (targetY y d) (targetX x d) = 71 ∨
        cellAt b.map (targetY y d) (targetX x d) = 48 + k ∨
        cellAt b.map (targetY y d) (targetX x d) = 72 + k) := by
  have hp : pieceOf (cellAt b.map y x) = some k := (pieceOf_eq_some _ k hk).mpr hf
  unfold part_can_move
  simp only [hp, Option.isSome_some, Bool.true_and, Bool.or_eq_true, beq_iff_eq]
  rw [pieceOf_eq_some _ k hk]
  tauto

theorem snapshotOf_eq_map (b : gate_t) (hrows : b.map.length = b.lines)
    (hsave : b.map_save.length = b.lines) : snapshotOf b = b.map := by
  unfold snapshotOf
  rw [List.take_of_length_le (by omega), List.drop_of_length_le (by omega), List.append_nil]

theorem mem_positions_of_cell (b : gate_t) (hrows : b.map.length = b.lines) (i j : Int) (c : Nat)
    (hc : c ≠ 0) (h : cellAt b.map i j = c) :
    0 ≤ i ∧ 0 ≤ j ∧ (i.toNat, j.toNat) ∈ positions b.map b.lines := by
  have hin : inGrid b.map i j := inGrid_of_cellAt_ne_zero _ _ _ (by rw [h]; exact hc)
  obtain ⟨h1, h2, h3, h4⟩ := hin
  refine ⟨h1, h2, ?_⟩
  rw [mem_positions]
  refine ⟨by omega, ?_⟩
  have e1 : ((i.toNat : Nat) : Int) = i := Int.toNat_of_nonneg h1
  have e2 : ((j.toNat : Nat) : Int) = j := Int.toNat_of_nonneg h2
  rw [e1, e2]
  exact ⟨h1, h2, h3, h4⟩

/-- C9 (legality).  On a board whose grid has `lines` rows, for a piece index
`k` below num_pieces (at most MAX_PIECES) that occurs on the grid and a
direction among u, d, l, r, apply_move_in_place succeeds exactly when the
neighbour in that direction of every cell holding the digit or letter form
of `k` holds a blank, a goal, or the digit or letter form of `k`; so a cell of
the piece whose neighbour holds anything else, a wall or another piece, makes
the call return false. -/
theorem apply_move_in_place_legal_iff (b : gate_t) (k d : Nat)
    (hrows : b.map.length = b.lines) (hn : b.num_pieces ≤ MAX_PIECES) (hk : k < b.num_pieces)
    (hocc : ∃ i j : Nat, cellAt b.map i j = 48 + k ∨ cellAt b.map i j = 72 + k)
    (hd : d = UP ∨ d = DOWN ∨ d = LEFT ∨ d = RIGHT) :
    ((apply_move_in_place b (48 + k) d).2 = true ↔
      ∀ i j : Nat, (cellAt b.map i j = 48 + k ∨ cellAt b.map i j = 72 + k) →
        (cellAt b.map (targetY i d) (targetX j d) = 32 ∨
          cellAt b.map (targetY i d) (targetX j d) = 71 ∨
          cellAt b.map (targetY i d) (targetX j d) = 48 + k ∨
          cellAt b.map (targetY i d) (targetX j d) = 72 + k)) ∧
    (∀ i j : Nat, (cellAt b.map i j = 48 + k ∨ cellAt b.map i j = 72 + k) →
        ¬ (cellAt b.map (targetY i d) (targetX j d) = 32 ∨
          cellAt b.map (targetY i d) (targetX j d) = 71 ∨
          cellAt b.map (targetY i d) (targetX j d) = 48 + k ∨
          cellAt b.map (targetY i d) (targetX j d) = 72 + k) →
        (apply_move_in_place b (48 + k) d).2 = false) := by
  have hk10 : k < 10 := by unfold MAX_PIECES at hn; omega
  have hvalid : is_valid_direction d = true := by
    simp only [is_valid_direction, Bool.or_eq_true, beq_iff_eq]
    tauto
  have e1 : 48 + k - 48 = k := by omega
  have e2 : 48 + k - 48 + 72 = 72 + k := by omega
  have hmem : ∀ i j : Nat, (cellAt b.map i j = 48 + k ∨ cellAt b.map i j = 72 + k) →
      (i, j) ∈ positions b.map b.lines := by
    intro i j h
    have hne : cellAt b.map i j ≠ 0 := by omega
    have := mem_positions_of_cell b hrows i j _ hne rfl
    simpa using this.2.2
  have hiff : (apply_move_in_place b (48 + k) d).2 = true ↔
      ∀ i j : Nat, (cellAt b.map i j = 48 + k ∨ cellAt b.map i j = 72 + k) →
        (cellAt b.map (targetY i d) (targetX j d) = 32 ∨
          cellAt b.map (targetY i d) (targetX j d) = 71 ∨
          cellAt b.map (targetY i d) (targetX j d) = 48 + k ∨
          cellAt b.map (targetY i d) (targetX j d) = 72 + k) := by
    rw [apply_move_in_place_success_iff, firstCell_isSome, can_move_all_iff, e2, e1]
    constructor
    · rintro ⟨_, _, _, _, _, hc⟩ i j hf
      exact (part_can_move_iff b i j d k hk10 hf).mp (hc (i, j) (hmem i j hf) hf)
    · intro h
      refine ⟨hvalid, by omega, hk, by unfold MAX_PIECES; omega, ?_, ?_⟩
      · obtain ⟨i, j, hf⟩ := hocc
        exact ⟨(i, j), hmem i j hf, hf⟩
      · intro p _ hf
        exact (part_can_move_iff b p.1 p.2 d k hk10 hf).mpr (h p.1 p.2 hf)
  refine ⟨hiff, ?_⟩
  intro i j hf hblocked
  cases hres : (apply_move_in_place b (48 + k) d).2 with
  | false => rfl
  | true => exact absurd (hiff.mp hres i j hf) hblocked

/-- C9, witness: the one-row board `0G `, piece 0, direction r. -/
theorem apply_move_in_place_legal_iff_witness :
    ((apply_move_in_place
        { lines := 1, num_chars_map := 3, num_pieces := 1, map := [[48, 71, 32]],
          map_save := [[48, 71, 32]], piece_x := fun _ => 0, piece_y := fun _ => 0, soln := [] }
        (48 + 0) RIGHT).2 = true ↔
      ∀ i j : Nat, (cellAt [[48, 71, 32]] i j = 48 + 0 ∨ cellAt [[48, 71, 32]] i j = 72 + 0) →
        (cellAt [[48, 71, 32]] (targetY i RIGHT) (targetX j RIGHT) = 32 ∨
          cellAt [[48, 71, 32]] (targetY i RIGHT) (targetX j RIGHT) = 71 ∨
          cellAt [[48, 71, 32]] (targetY i RIGHT) (targetX j RIGHT) = 48 + 0 ∨
          cellAt [[48, 71, 32]] (targetY i RIGHT) (targetX j RIGHT) = 72 + 0)) ∧
    (∀ i j : Nat, (cellAt [[48, 71, 32]] i j = 48 + 0 ∨ cellAt [[48, 71, 32]] i j = 72 + 0) →
        ¬ (cellAt [[48, 71, 32]] (targetY i RIGHT) (targetX j RIGHT) = 32 ∨
          cellAt [[48, 71, 32]] (targetY i RIGHT) (targetX j RIGHT) = 71 ∨
          cellAt [[48, 71, 32]] (targetY i RIGHT) (targetX j RIGHT) = 48 + 0 ∨
          cellAt [[48, 71, 32]] (targetY i RIGHT) (targetX j RIGHT) = 72 + 0) →
        (apply_move_in_place
          { lines := 1, num_chars_map := 3, num_pieces := 1, map := [[48, 71, 32]],
            map_save := [[48, 71, 32]], piece_x := fun _ => 0, piece_y := fun _ => 0, soln := [] }
          (48 + 0) RIGHT).2 = false) :=
  apply_move_in_place_legal_iff
    { lines := 1, num_chars_map := 3, num_pieces := 1, map := [[48, 71, 32]],
      map_save := [[48, 71, 32]], piece_x := fun _ => 0, piece_y := fun _ => 0, soln := [] }
    0 RIGHT rfl (by decide) (by decide) ⟨0, 0, Or.inl (by decide)⟩ (Or.inr (Or.inr (Or.inr rfl)))

/-- The cell of the grid at `(i, j)` after a successful move of the piece `k`. -/
theorem moved_cell (b : gate_t) (k d : Nat)
    (hrows : b.map.length = b.lines) (hsave : b.map_save.length = b.lines)
    (h : (apply_move_in_place b (48 + k) d).2 = true) (i j : Int) :
    cellAt (apply_move_in_place b (48 + k) d).1.map i j =
      if cellAt b.map (sourceY i d) (sourceX j d) = 48 + k ∨
          cellAt b.map (sourceY i d) (sourceX j d) = 72 + k then
        (if cellAt b.map i j = 71 ∨ cellAt b.map i j = 72 + k then 72 + k else 48 + k)
      else if cellAt b.map i j = 72 + k then 71
      else if cellAt b.map i j = 48 + k then 32
      else cellAt b.map i j := by
  obtain ⟨hvalid, _, hk, hk10, _, hcan⟩ := (apply_move_in_place_success_iff b (48 + k) d).mp h
  have hd := valid_direction_cases d hvalid
  have e1 : 48 + k - 48 = k := by omega
  have e2 : 48 + k - 48 + 72 = 72 + k := by omega
  rw [e1] at hk hk10
  rw [e2] at hcan
  have hk10 : k < 10 := hk10
  rw [apply_move_in_place_map b (48 + k) d h]
  unfold movedMap
  rw [snapshotOf_eq_map b hrows hsave, e2]
  by_cases hin : inGrid b.map i j
  · rw [cellAt_foldl_move_cell b.map (48 + k) (72 + k) d hd _ b.map i j hin]
    by_cases hsrc : cellAt b.map (sourceY i d) (sourceX j d) = 48 + k ∨
        cellAt b.map (sourceY i d) (sourceX j d) = 72 + k
    · have hne : cellAt b.map (sourceY i d) (sourceX j d) ≠ 0 := by omega
      obtain ⟨p1, p2, p3⟩ := mem_positions_of_cell b hrows _ _ _ hne rfl
      have hex : ∃ q ∈ positions b.map b.lines, tgtWrite b.map (48 + k) (72 + k) d q i j := by
        refine ⟨_, p3, ?_, ?_, ?_⟩
        · show isForm _ _ (cellAt b.map ((sourceY i d).toNat : Nat) ((sourceX j d).toNat : Nat))
          rw [Int.toNat_of_nonneg p1, Int.toNat_of_nonneg p2]
          exact hsrc
        · exact Int.toNat_of_nonneg p1
        · exact Int.toNat_of_nonneg p2
      rw [if_pos hex, if_pos hsrc]
      rfl
    · have hnex : ¬ ∃ q ∈ positions b.map b.lines, tgtWrite b.map (48 + k) (72 + k) d q i j := by
        rintro ⟨q, _, hq1, hq2, hq3⟩
        apply hsrc
        rw [← hq2, ← hq3]
        exact hq1
      rw [if_neg hnex, if_neg hsrc]
      by_cases hcell : cellAt b.map i j = 48 + k ∨ cellAt b.map i j = 72 + k
      · have hne : cellAt b.map i j ≠ 0 := by omega
        obtain ⟨p1, p2, p3⟩ := mem_positions_of_cell b hrows _ _ _ hne rfl
        have hex : ∃ q ∈ positions b.map b.lines, rstWrite b.map (48 + k) (72 + k) d q i j := by
          refine ⟨_, p3, ?_, hsrc, ?_, ?_⟩
          · show isForm _ _ (cellAt b.map ((i.toNat : Nat) : Int) ((j.toNat : Nat) : Int))
            rw [Int.toNat_of_nonneg p1, Int.toNat_of_nonneg p2]
            exact hcell
          · exact Int.toNat_of_nonneg p1
          · exact Int.toNat_of_nonneg p2
        rw [if_pos hex]
        unfold vacatedValue
        by_cases hl : cellAt b.map i j = 72 + k
        · rw [if_pos hl, if_pos hl]
        · have hp : cellAt b.map i j = 48 + k := by tauto
          rw [if_neg hl, if_neg hl, if_pos hp]
      · have hnex2 : ¬ ∃ q ∈ positions b.map b.lines,
            rstWrite b.map (48 + k) (72 + k) d q i j := by
          rintro ⟨q, _, hq1, _, hq2, hq3⟩
          apply hcell
          rw [← hq2, ← hq3]
          exact hq1
        rw [if_neg hnex2]
        have h1 : ¬ cellAt b.map i j = 72 + k := fun hc => hcell (Or.inr hc)
        have h2 : ¬ cellAt b.map i j = 48 + k := fun hc => hcell (Or.inl hc)
        rw [if_neg h1, if_neg h2]
  · have hz : cellAt b.map i j = 0 := cellAt_eq_zero_of_not_inGrid _ _ _ hin
    have hz2 : cellAt ((positions b.map b.lines).foldl
        (move_cell b.map (48 + k) (72 + k) d) b.map) i j = 0 :=
      cellAt_eq_zero_of_not_inGrid _ _ _
        (fun hc => hin ((inGrid_foldl_move_cell _ _ _ _ _ _ _ _).mp hc))
    rw [hz2, hz]
    have hsrc : ¬ (cellAt b.map (sourceY i d) (sourceX j d) = 48 + k ∨
        cellAt b.map (sourceY i d) (sourceX j d) = 72 + k) := by
      intro hsrc
      have hne : cellAt b.map (sourceY i d) (sourceX j d) ≠ 0 := by omega
      obtain ⟨p1, p2, p3⟩ := mem_positions_of_cell b hrows _ _ _ hne rfl
      have hform : isForm (48 + k) (72 + k)
          (cellAt b.map ((sourceY i d).toNat : Nat) ((sourceX j d).toNat : Nat)) := by
        rw [Int.toNat_of_nonneg p1, Int.toNat_of_nonneg p2]
        exact hsrc
      have hpm := (can_move_all_iff b _ _ d).mp hcan _ p3 hform
      have hdest := (part_can_move_iff b _ _ d k hk10 hform).mp hpm
      have ht := (target_eq_iff d hd (sourceY i d) (sourceX j d) i j).mpr ⟨rfl, rfl⟩
      simp only [Int.toNat_of_nonneg p1, Int.toNat_of_nonneg p2] at hdest
      rw [ht.1, ht.2, hz] at hdest
      omega
    rw [if_neg hsrc, if_neg (by omega), if_neg (by omega)]

/-- C10 (effect of a successful move).  On a board whose two grids have `lines`
rows, after apply_move_in_place succeeds for the piece `k` in direction `d`,
at every position `(i, j)`: if the position is the neighbour in direction `d`
of a cell of the piece in the old grid, the new grid holds the letter form
of `k` there when the old grid held a goal or the letter form, and the digit
form otherwise; else if the position was a cell of the piece, the new grid
holds a goal where the old cell was the letter form and a blank where it was
the digit form; every other position is unchanged. -/
theorem apply_move_in_place_effect (b : gate_t) (k d : Nat)
    (hrows : b.map.length = b.lines) (hsave : b.map_save.length = b.lines)
    (h : (apply_move_in_place b (48 + k) d).2 = true) (i j : Int) :
    cellAt (apply_move_in_place b (48 + k) d).1.map i j =
      if cellAt b.map (sourceY i d) (sourceX j d) = 48 + k ∨
          cellAt b.map (sourceY i d) (sourceX j d) = 72 + k then
        (if cellAt b.map i j = 71 ∨ cellAt b.map i j = 72 + k then 72 + k else 48 + k)
      else if cellAt b.map i j = 72 + k then 71
      else if cellAt b.map i j = 48 + k then 32
      else cellAt b.map i j :=
  moved_cell b k d hrows hsave h i j

/-- C10, witness: piece 0 slides right on the one-row board `0G `. -/
theorem apply_move_in_place_effect_witness :
    cellAt (apply_move_in_place
        { lines := 1, num_chars_map := 3, num_pieces := 1, map := [[48, 71, 32]],
          map_save := [[48, 71, 32]], piece_x := fun _ => 0, piece_y := fun _ => 0, soln := [] }
        (48 + 0) RIGHT).1.map 0 1 = 72 :=
  apply_move_in_place_effect
    { lines := 1, num_chars_map := 3, num_pieces := 1, map := [[48, 71, 32]],
      map_save := [[48, 71, 32]], piece_x := fun _ => 0, piece_y := fun _ => 0, soln := [] }
    0 RIGHT rfl rfl (by decide) 0 1

/-! ## The priority queue holds what was pushed -/

open Classical in
theorem pq_swap_perm (nodes : List search_node_t) (a b : Nat) :
    (pq_swap nodes a b).Perm nodes := by
  unfold pq_swap
  cases ha : nodes.get? a with
  | none => simp
  | some x =>
    cases hb : nodes.get? b with
    | none => simp
    | some y =>
      simp only
      rw [List.get?_eq_some] at ha hb
      obtain ⟨ha1, ha2⟩ := ha
      obtain ⟨hb1, hb2⟩ := hb
      simp only [List.get_eq_getElem] at ha2 hb2
      rw [List.perm_iff_count]
      intro c
      have hb1' : b < (nodes.set a y).length := by simpa using hb1
      rw [List.count_set _ _ _ _ hb1', List.count_set _ _ _ _ ha1]
      have hget : (nodes.set a y)[b] = y := by
        rw [List.getElem_set]
        split
        · rfl
        · exact hb2
      rw [hget, ha2]
      have hx : (if (x == c) = true then 1 else 0) ≤ List.count c nodes := by
        split
        · rename_i h
          have : x = c := by simpa using h
          subst this
          have hmem : x ∈ nodes := by rw [← ha2]; exact List.getElem_mem _
          exact List.count_pos_iff.mpr hmem
        · omega
      omega

theorem pq_bubble_up_loop_perm (fuel : Nat) (nodes : List search_node_t) (idx : Nat) :
    (pq_bubble_up_loop fuel nodes idx).Perm nodes := by
  induction fuel generalizing nodes idx with
  | zero => exact List.Perm.refl _
  | succ fuel ih =>
    unfold pq_bubble_up_loop
    split_ifs
    · exact List.Perm.refl _
    · exact (ih _ _).trans (pq_swap_perm _ _ _)
    · exact List.Perm.refl _

theorem pq_bubble_down_loop_perm (fuel : Nat) (nodes : List search_node_t) (idx : Nat) :
    (pq_bubble_down_loop fuel nodes idx).Perm nodes := by
  induction fuel generalizing nodes idx with
  | zero => exact List.Perm.refl _
  | succ fuel ih =>
    unfold pq_bubble_down_loop
    split_ifs
    · exact List.Perm.refl _
    · exact (ih _ _).trans (pq_swap_perm _ _ _)

theorem pq_enqueue_perm (pq : priority_queue_t) (node : search_node_t) :
    (pq_enqueue pq node).nodes.Perm (node :: pq.nodes) := by
  unfold pq_enqueue pq_bubble_up
  simp only
  refine (pq_bubble_up_loop_perm _ _ _).trans ?_
  have : (pq_reserve pq).nodes = pq.nodes := by
    unfold pq_reserve; split <;> rfl
  rw [this]
  exact List.perm_append_singleton _ _

theorem pq_dequeue_none (pq : priority_queue_t) (pq1 : priority_queue_t)
    (h : pq_dequeue pq = (none, pq1)) : pq.nodes = [] := by
  unfold pq_dequeue at h
  cases hn : pq.nodes with
  | nil => rfl
  | cons node rest =>
    rw [hn] at h
    simp only at h
    cases hl : rest.getLast? <;> rw [hl] at h <;> simp at h

theorem pq_dequeue_perm (pq : priority_queue_t) (node : search_node_t) (pq1 : priority_queue_t)
    (h : pq_dequeue pq = (some node, pq1)) : pq.nodes.Perm (node :: pq1.nodes) := by
  unfold pq_dequeue at h
  cases hn : pq.nodes with
  | nil => rw [hn] at h; simp at h
  | cons first rest =>
    rw [hn] at h
    simp only at h
    cases hl : rest.getLast? with
    | none =>
      rw [hl] at h
      simp only [Prod.mk.injEq, Option.some.injEq] at h
      obtain ⟨rfl, rfl⟩ := h
      have : rest = [] := by simpa using hl
      simp [this]
    | some last =>
      rw [hl] at h
      simp only [Prod.mk.injEq, Option.some.injEq] at h
      obtain ⟨rfl, rfl⟩ := h
      simp only
      refine List.Perm.cons _ ?_
      unfold pq_bubble_down
      refine List.Perm.symm ((pq_bubble_down_loop_perm _ _ _).trans ?_)
      have hrest : rest = rest.dropLast ++ [last] := by
        have := List.dropLast_append_getLast? last hl
        exact this.symm
      conv_rhs => rw [hrest]
      exact (List.perm_append_singleton _ _).symm

theorem pq_is_empty_iff (pq : priority_queue_t) : pq_is_empty pq = true ↔ pq.nodes = [] := by
  unfold pq_is_empty priority_queue_t.size
  simp

/-! ## Invariants of the main loop -/

theorem search_loop_invariant (nl ab pb : Nat) (P : search_vars → Prop)
    (hstep : ∀ vars, P vars → pq_is_empty vars.pq = false → P (search_step nl ab pb vars))
    (fuel : Nat) (vars : search_vars) (h : P vars) : P (search_loop nl ab pb fuel vars) := by
  induction fuel generalizing vars with
  | zero => exact h
  | succ fuel ih =>
    unfold search_loop
    by_cases he : pq_is_empty vars.pq = true
    · rw [if_pos he]; exact h
    · rw [if_neg he]
      have he2 : pq_is_empty vars.pq = false := by simpa using he
      split_ifs
      · exact hstep vars h he2
      · exact ih _ (hstep vars h he2)

theorem expand_move_tries (nl ab pb : Nat) (current : search_node_t) (vars : search_vars)
    (move : Nat × Nat) :
    (expand_move nl ab pb current vars move).expandedStates = vars.expandedStates ∧
      (expand_move nl ab pb current vars move).partialStates = vars.partialStates := by
  unfold expand_move
  split
  · exact ⟨rfl, rfl⟩
  · simp only
    split_ifs <;> exact ⟨rfl, rfl⟩

theorem foldl_expand_move_tries (nl ab pb : Nat) (current : search_node_t)
    (moves : List (Nat × Nat)) (vars : search_vars) :
    (moves.foldl (expand_move nl ab pb current) vars).expandedStates = vars.expandedStates ∧
      (moves.foldl (expand_move nl ab pb current) vars).partialStates = vars.partialStates := by
  induction moves generalizing vars with
  | nil => exact ⟨rfl, rfl⟩
  | cons m rest ih =>
    rw [List.foldl_cons]
    obtain ⟨h1, h2⟩ := ih (expand_move nl ab pb current vars m)
    obtain ⟨h3, h4⟩ := expand_move_tries nl ab pb current vars m
    exact ⟨h1.trans h3, h2.trans h4⟩

theorem checkPresent_iff (tree : radixTree) (key : List Bool) (size : Nat) :
    checkPresent tree key size = true ↔ (size, key) ∈ tree.keys := by
  unfold checkPresent
  simp

theorem search_step_none (nl ab pb : Nat) (vars : search_vars) (pq1 : priority_queue_t)
    (h : pq_dequeue vars.pq = (none, pq1)) : search_step nl ab pb vars = vars := by
  unfold search_step
  rw [h]

theorem search_step_win (nl ab pb : Nat) (vars : search_vars) (current : search_node_t)
    (pq1 : priority_queue_t) (h : pq_dequeue vars.pq = (some current, pq1))
    (hw : winning_state current.state = true) :
    search_step nl ab pb vars =
      { vars with
        pq := pq1
        result := { vars.result with
          expanded := vars.result.expanded + 1
          solved := true, solution := some current.state.soln
          final_state := some current.state } } := by
  unfold search_step
  rw [h]
  simp only [hw, if_true]

theorem search_step_dup (nl ab pb : Nat) (vars : search_vars) (current : search_node_t)
    (pq1 : priority_queue_t) (h : pq_dequeue vars.pq = (some current, pq1))
    (hw : winning_state current.state = false)
    (hc : checkPresent vars.expandedStates (packedKey current.state pb)
      current.state.num_pieces = true) :
    search_step nl ab pb vars =
      { vars with
        pq := pq1
        result := { vars.result with
          expanded := vars.result.expanded + 1
          duplicated := vars.result.duplicated + 1 } } := by
  unfold search_step
  rw [h]
  simp only [hw, hc, Bool.false_eq_true, if_false, if_true]

theorem search_step_expand (nl ab pb : Nat) (vars : search_vars) (current : search_node_t)
    (pq1 : priority_queue_t) (h : pq_dequeue vars.pq = (some current, pq1))
    (hw : winning_state current.state = false)
    (hc : checkPresent vars.expandedStates (packedKey current.state pb)
      current.state.num_pieces = false) :
    search_step nl ab pb vars =
      (moveOrder current.state.num_pieces).foldl (expand_move nl ab pb current)
        (expand_start nl ab pb vars current pq1) := by
  unfold search_step expand_start
  rw [h]
  simp only [hw, hc, Bool.false_eq_true, if_false]

theorem search_step_keys_nodup (nl ab pb : Nat) (vars : search_vars)
    (h : vars.expandedStates.keys.Nodup) :
    (search_step nl ab pb vars).expandedStates.keys.Nodup := by
  rcases hdq : pq_dequeue vars.pq with ⟨_ | current, pq1⟩
  · rw [search_step_none nl ab pb vars pq1 hdq]; exact h
  · cases hw : winning_state current.state with
    | true => rw [search_step_win nl ab pb vars current pq1 hdq hw]; exact h
    | false =>
      cases hc : checkPresent vars.expandedStates (packedKey current.state pb)
          current.state.num_pieces with
      | true => rw [search_step_dup nl ab pb vars current pq1 hdq hw hc]; exact h
      | false =>
        rw [search_step_expand nl ab pb vars current pq1 hdq hw hc,
          (foldl_expand_move_tries nl ab pb _ _ _).1]
        simp only [expand_start, insertRadixTree]
        refine List.nodup_cons.mpr ⟨?_, h⟩
        intro hmem
        have := (checkPresent_iff _ _ _).mpr hmem
        rw [hc] at this
        exact Bool.false_ne_true this

theorem search_step_empty (nl ab pb : Nat) (vars : search_vars)
    (h : pq_is_empty vars.pq = true) : search_step nl ab pb vars = vars := by
  rw [pq_is_empty_iff] at h
  have hd : pq_dequeue vars.pq = (none, vars.pq) := by
    unfold pq_dequeue
    rw [h]
  exact search_step_none nl ab pb vars _ hd

/-- One more turn of fuel runs one more turn of the loop, unless the loop has
ended by a win. -/
theorem search_loop_succ (nl ab pb : Nat) (t : Nat) (v : search_vars)
    (hv : v.result.solved = false) :
    search_loop nl ab pb (t + 1) v =
      if (search_loop nl ab pb t v).result.solved = true then search_loop nl ab pb t v
      else search_step nl ab pb (search_loop nl ab pb t v) := by
  induction t generalizing v with
  | zero =>
    have h0 : search_loop nl ab pb 0 v = v := rfl
    rw [h0, hv]
    simp only [Bool.false_eq_true, if_false]
    unfold search_loop
    by_cases he : pq_is_empty v.pq = true
    · rw [if_pos he, search_step_empty nl ab pb v he]
    · rw [if_neg he]
      split_ifs <;> rfl
  | succ t ih =>
    by_cases he : pq_is_empty v.pq = true
    · have h1 : ∀ n, search_loop nl ab pb (n + 1) v = v := by
        intro n
        have e : search_loop nl ab pb (n + 1) v =
            if pq_is_empty v.pq = true then v
            else if (search_step nl ab pb v).result.solved = true then search_step nl ab pb v
            else search_loop nl ab pb n (search_step nl ab pb v) := rfl
        rw [e, if_pos he]
      rw [h1 (t + 1), h1 t, hv]
      simp only [Bool.false_eq_true, if_false]
      rw [search_step_empty nl ab pb v he]
    · by_cases hs : (search_step nl ab pb v).result.solved = true
      · have h1 : ∀ n, search_loop nl ab pb (n + 1) v = search_step nl ab pb v := by
          intro n
          have e : search_loop nl ab pb (n + 1) v =
              if pq_is_empty v.pq = true then v
              else if (search_step nl ab pb v).result.solved = true then search_step nl ab pb v
              else search_loop nl ab pb n (search_step nl ab pb v) := rfl
          rw [e, if_neg he, if_pos hs]
        rw [h1 (t + 1), h1 t, if_pos hs]
      · have h1 : ∀ n, search_loop nl ab pb (n + 1) v =
            search_loop nl ab pb n (search_step nl ab pb v) := by
          intro n
          have e : search_loop nl ab pb (n + 1) v =
              if pq_is_empty v.pq = true then v
              else if (search_step nl ab pb v).result.solved = true then search_step nl ab pb v
              else search_loop nl ab pb n (search_step nl ab pb v) := rfl
          rw [e, if_neg he, if_neg hs]
        rw [h1 (t + 1), h1 t]
        exact ih _ (by simpa using hs)

theorem search_after_succ (init_data : gate_t) (width_limit : Int) (packedBytes t : Nat) :
    search_after init_data width_limit packedBytes (t + 1) =
      if (search_after init_data width_limit packedBytes t).result.solved = true then
        search_after init_data width_limit packedBytes t
      else search_step (noveltyLimitOf init_data width_limit) (atomBitsOf init_data)
        (clampBytes packedBytes) (search_after init_data width_limit packedBytes t) := by
  unfold search_after
  exact search_loop_succ _ _ _ t _ rfl

/-- The effect of one turn on the closed set and on `generated`: a turn that
expands a node puts the key of that node, and nothing else, into the closed
set; any other turn leaves the closed set and `generated` as they were. -/
theorem turn_effect (init_data : gate_t) (width_limit : Int) (packedBytes t : Nat) :
    match turnKey init_data width_limit packedBytes t with
    | some k =>
      (search_after init_data width_limit packedBytes (t + 1)).expandedStates.keys =
          k :: (search_after init_data width_limit packedBytes t).expandedStates.keys ∧
        k ∉ (search_after init_data width_limit packedBytes t).expandedStates.keys
    | none =>
      (search_after init_data width_limit packedBytes (t + 1)).expandedStates.keys =
          (search_after init_data width_limit packedBytes t).expandedStates.keys ∧
        (search_after init_data width_limit packedBytes (t + 1)).result.generated =
          (search_after init_data width_limit packedBytes t).result.generated := by
  rw [search_after_succ]
  unfold turnKey
  simp only
  generalize search_after init_data width_limit packedBytes t = vars
  by_cases hs : vars.result.solved = true
  · rw [if_pos hs, if_pos hs]
    exact ⟨rfl, rfl⟩
  · rw [if_neg hs, if_neg hs]
    rcases hdq : pq_dequeue vars.pq with ⟨_ | current, pq1⟩
    · rw [search_step_none _ _ _ vars pq1 hdq]
      exact ⟨rfl, rfl⟩
    · simp only
      cases hw : winning_state current.state with
      | true =>
        rw [search_step_win _ _ _ vars current pq1 hdq hw]
        simp only [if_true]
        refine ⟨?_, ?_⟩ <;> first | rfl | trivial
      | false =>
        cases hc : checkPresent vars.expandedStates
            (packedKey current.state (clampBytes packedBytes)) current.state.num_pieces with
        | true =>
          rw [search_step_dup _ _ _ vars current pq1 hdq hw hc]
          simp only [Bool.false_eq_true, if_false, if_true]
          refine ⟨?_, ?_⟩ <;> first | rfl | trivial
        | false =>
          rw [search_step_expand _ _ _ vars current pq1 hdq hw hc,
            (foldl_expand_move_tries _ _ _ _ _ _).1]
          simp only [Bool.false_eq_true, if_false]
          refine ⟨rfl, ?_⟩
          intro hmem
          have := (checkPresent_iff _ _ _).mpr hmem
          rw [hc] at this
          exact Bool.false_ne_true this

/-- The closed set is the record of the expansions: at every loop head it holds
the keys of the nodes expanded so far, the last one first. -/
theorem closed_set_trace (init_data : gate_t) (width_limit : Int) (packedBytes n : Nat) :
    (search_after init_data width_limit packedBytes n).expandedStates.keys =
      ((List.range n).filterMap (turnKey init_data width_limit packedBytes)).reverse := by
  induction n with
  | zero => rfl
  | succ n ih =>
    have h := turn_effect init_data width_limit packedBytes n
    rw [List.range_succ, List.filterMap_append, List.reverse_append]
    cases hk : turnKey init_data width_limit packedBytes n with
    | none =>
      rw [hk] at h
      simp only [List.filterMap_cons, hk, List.filterMap_nil, List.reverse_nil, List.nil_append]
      rw [h.1, ih]
    | some k =>
      rw [hk] at h
      simp only [List.filterMap_cons, hk, List.filterMap_nil, List.reverse_cons, List.reverse_nil,
        List.nil_append, List.singleton_append]
      rw [h.1, ih]

/-- No key is expanded at two turns of a run. -/
theorem turnKey_once (init_data : gate_t) (width_limit : Int) (packedBytes t1 t2 : Nat)
    (k : Nat × List Bool) (hlt : t1 < t2)
    (h1 : turnKey init_data width_limit packedBytes t1 = some k) :
    turnKey init_data width_limit packedBytes t2 ≠ some k := by
  intro h2
  have h := turn_effect init_data width_limit packedBytes t2
  rw [h2] at h
  apply h.2
  rw [closed_set_trace, List.mem_reverse, List.mem_filterMap]
  exact ⟨t1, List.mem_range.mpr hlt, h1⟩

set_option maxRecDepth 100000 in
/-- C8 (closed-set correctness).  In a run of run_search, for every width limit:
the closed set at a loop head is the list of the full keys of the nodes
expanded by the turns so far, and it holds no key twice.  A turn that expands a
node, that is, generates its successors, inserts the key of that node and
nothing else; no key is expanded at two turns.  A popped node that is not
winning and whose key is in the closed set only counts: the turn removes it
from the queue, adds one to `expanded` and one to `duplicated`, and leaves the
closed set, the novelty tables, `generated` and the rest of the queue as they
were; every turn that expands no node leaves `generated` and the closed set as
they were.  On the pocket board under uniform-cost search the turns 0 to 6
expand a node each and turn 7 pops a node whose key is closed: the closed set
stays at 7 keys and `generated` at 12. -/
theorem closed_set_never_reinserts (init_data : gate_t) (width_limit : Int)
    (packedBytes n : Nat) :
    (search_after init_data width_limit packedBytes n).expandedStates.keys.Nodup ∧
    (∀ (current : search_node_t) (pq1 : priority_queue_t),
      pq_dequeue (search_after init_data width_limit packedBytes n).pq = (some current, pq1) →
      winning_state current.state = false →
      checkPresent (search_after init_data width_limit packedBytes n).expandedStates
        (packedKey current.state (clampBytes packedBytes)) current.state.num_pieces = true →
      search_step (noveltyLimitOf init_data width_limit) (atomBitsOf init_data)
          (clampBytes packedBytes) (search_after init_data width_limit packedBytes n) =
        { search_after init_data width_limit packedBytes n with
          pq := pq1
          result :=
            { (search_after init_data width_limit packedBytes n).result with
              expanded := (search_after init_data width_limit packedBytes n).result.expanded + 1
              duplicated :=
                (search_after init_data width_limit packedBytes n).result.duplicated + 1 } }) ∧
    (search_after init_data width_limit packedBytes n).expandedStates.keys =
      ((List.range n).filterMap (turnKey init_data width_limit packedBytes)).reverse ∧
    (∀ (current : search_node_t) (pq1 : priority_queue_t),
      pq_dequeue (search_after init_data width_limit packedBytes n).pq = (some current, pq1) →
      winning_state current.state = false →
      checkPresent (search_after init_data width_limit packedBytes n).expandedStates
        (packedKey current.state (clampBytes packedBytes)) current.state.num_pieces = false →
      (search_step (noveltyLimitOf init_data width_limit) (atomBitsOf init_data)
          (clampBytes packedBytes)
          (search_after init_data width_limit packedBytes n)).expandedStates.keys =
        (current.state.num_pieces, packedKey current.state (clampBytes packedBytes)) ::
          (search_after init_data width_limit packedBytes n).expandedStates.keys) ∧
    (∀ (t1 t2 : Nat) (k : Nat × List Bool), t1 < t2 →
      turnKey init_data width_limit packedBytes t1 = some k →
      turnKey init_data width_limit packedBytes t2 ≠ some k) ∧
    (∀ k, turnKey init_data width_limit packedBytes n = some k →
      (search_after init_data width_limit packedBytes (n + 1)).expandedStates.keys =
          k :: (search_after init_data width_limit packedBytes n).expandedStates.keys ∧
        k ∉ (search_after init_data width_limit packedBytes n).expandedStates.keys) ∧
    (turnKey init_data width_limit packedBytes n = none →
      (search_after init_data width_limit packedBytes (n + 1)).expandedStates.keys =
          (search_after init_data width_limit packedBytes n).expandedStates.keys ∧
        (search_after init_data width_limit packedBytes (n + 1)).result.generated =
          (search_after init_data width_limit packedBytes n).result.generated) ∧
    ((List.range 9).map (fun t => (turnKey pocketBoard 0 2 t).isSome) =
        [true, true, true, true, true, true, true, false, true] ∧
      (search_after pocketBoard 0 2 7).expandedStates.keys.length = 7 ∧
      (search_after pocketBoard 0 2 8).expandedStates.keys.length = 7 ∧
      (search_after pocketBoard 0 2 7).result.generated = 12 ∧
      (search_after pocketBoard 0 2 8).result.generated = 12) := by
  have heff := turn_effect init_data width_limit packedBytes n
  refine ⟨?_, ?_, closed_set_trace init_data width_limit packedBytes n, ?_,
    fun t1 t2 k hlt h1 => turnKey_once init_data width_limit packedBytes t1 t2 k hlt h1,
    ?_, ?_, by decide!⟩
  · unfold search_after
    apply search_loop_invariant _ _ _ (fun vars => vars.expandedStates.keys.Nodup)
    · intro vars hv _
      exact search_step_keys_nodup _ _ _ vars hv
    · simp [search_init, getNewRadixTree]
  · intro current pq1 hdq hw hc
    exact search_step_dup _ _ _ _ current pq1 hdq hw hc
  · intro current pq1 hdq hw hc
    rw [search_step_expand _ _ _ _ current pq1 hdq hw hc,
      (foldl_expand_move_tries _ _ _ _ _ _).1]
    rfl
  · intro k hk
    rw [hk] at heff
    exact heff
  · intro hk
    rw [hk] at heff
    exact heff

/-! ## Soundness of the search -/

theorem locate_soln (state : gate_t) (m : List (List Nat)) (pc : Nat) :
    (locate state m pc).soln = state.soln := by
  unfold locate; cases firstCell m state.lines pc <;> rfl

theorem apply_action_some (b : gate_t) (p d : Nat) (b1 : gate_t)
    (h : apply_action b p d = some b1) :
    (apply_move_in_place (duplicate_state b) p d).2 = true ∧
      b1 = { (apply_move_in_place (duplicate_state b) p d).1 with
        soln := (apply_move_in_place (duplicate_state b) p d).1.soln ++ [p, d] } := by
  unfold apply_action at h
  rcases hm : apply_move_in_place (duplicate_state b) p d with ⟨st, flag⟩
  rw [hm] at h
  cases flag with
  | false => simp at h
  | true =>
    simp only [Option.some.injEq] at h
    exact ⟨rfl, h.symm⟩

theorem apply_action_soln (b : gate_t) (p d : Nat) (b1 : gate_t)
    (h : apply_action b p d = some b1) : b1.soln = b.soln ++ [p, d] := by
  obtain ⟨hs, rfl⟩ := apply_action_some b p d b1 h
  simp only
  rw [apply_move_in_place_fst _ p d hs, locate_soln]
  simp only [locate_soln]
  rfl

theorem apply_moves_soln (b : gate_t) (moves : List (Nat × Nat)) (b1 : gate_t)
    (h : apply_moves b moves = some b1) : b1.soln = b.soln ++ encodeTrail moves := by
  induction moves generalizing b with
  | nil =>
    simp only [apply_moves, Option.some.injEq] at h
    subst h
    simp [encodeTrail]
  | cons m rest ih =>
    simp only [apply_moves] at h
    cases ha : apply_action b m.1 m.2 with
    | none => rw [ha] at h; simp at h
    | some b2 =>
      rw [ha] at h
      simp only at h
      rw [ih b2 h, apply_action_soln b m.1 m.2 b2 ha]
      simp [encodeTrail]

theorem apply_moves_snoc (b : gate_t) (moves : List (Nat × Nat)) (m : Nat × Nat) (b1 b2 : gate_t)
    (h : apply_moves b moves = some b1) (h2 : apply_action b1 m.1 m.2 = some b2) :
    apply_moves b (moves ++ [m]) = some b2 := by
  induction moves generalizing b with
  | nil =>
    simp only [apply_moves, Option.some.injEq] at h
    subst h
    simp [apply_moves, h2]
  | cons m0 rest ih =>
    simp only [apply_moves] at h
    cases ha : apply_action b m0.1 m0.2 with
    | none => rw [ha] at h; simp at h
    | some b3 =>
      rw [ha] at h
      simp only at h
      simp only [List.cons_append, apply_moves, ha]
      exact ih b3 h

theorem duplicate_state_idem (b : gate_t) : duplicate_state (duplicate_state b) = duplicate_state b := by
  unfold duplicate_state
  simp [List.take_take]

theorem apply_action_duplicate (b : gate_t) (p d : Nat) :
    apply_action (duplicate_state b) p d = apply_action b p d := by
  unfold apply_action
  rw [duplicate_state_idem]

theorem apply_moves_duplicate (b : gate_t) (moves : List (Nat × Nat)) (hne : moves ≠ []) :
    apply_moves (duplicate_state b) moves = apply_moves b moves := by
  cases moves with
  | nil => exact absurd rfl hne
  | cons m rest => simp only [apply_moves, apply_action_duplicate]

theorem expand_move_result (nl ab pb : Nat) (current : search_node_t) (vars : search_vars)
    (move : Nat × Nat) :
    (expand_move nl ab pb current vars move).result.solved = vars.result.solved ∧
      (expand_move nl ab pb current vars move).result.solution = vars.result.solution ∧
      (expand_move nl ab pb current vars move).result.final_state = vars.result.final_state ∧
      (expand_move nl ab pb current vars move).result.expanded = vars.result.expanded := by
  unfold expand_move
  split
  · exact ⟨rfl, rfl, rfl, rfl⟩
  · simp only
    split_ifs <;> exact ⟨rfl, rfl, rfl, rfl⟩

theorem foldl_expand_move_result (nl ab pb : Nat) (current : search_node_t)
    (moves : List (Nat × Nat)) (vars : search_vars) :
    (moves.foldl (expand_move nl ab pb current) vars).result.solved = vars.result.solved ∧
      (moves.foldl (expand_move nl ab pb current) vars).result.solution = vars.result.solution ∧
      (moves.foldl (expand_move nl ab pb current) vars).result.final_state =
        vars.result.final_state ∧
      (moves.foldl (expand_move nl ab pb current) vars).result.expanded =
        vars.result.expanded := by
  induction moves generalizing vars with
  | nil => exact ⟨rfl, rfl, rfl, rfl⟩
  | cons m rest ih =>
    rw [List.foldl_cons]
    obtain ⟨h1, h2, h3, h4⟩ := ih (expand_move nl ab pb current vars m)
    obtain ⟨h5, h6, h7, h8⟩ := expand_move_result nl ab pb current vars m
    exact ⟨h1.trans h5, h2.trans h6, h3.trans h7, h4.trans h8⟩

theorem expand_move_mem (nl ab pb : Nat) (current : search_node_t) (vars : search_vars)
    (move : Nat × Nat) (node : search_node_t)
    (h : node ∈ (expand_move nl ab pb current vars move).pq.nodes) :
    node ∈ vars.pq.nodes ∨
      ∃ next, apply_action current.state (pieceNames.getD move.1 0) (directions.getD move.2 0) =
          some next ∧
        node = create_search_node next (current.depth + 1) (pieceNames.getD move.1 0)
          (directions.getD move.2 0) := by
  unfold expand_move at h
  cases ha : apply_action current.state (pieceNames.getD move.1 0) (directions.getD move.2 0) with
  | none => rw [ha] at h; exact Or.inl h
  | some next =>
    rw [ha] at h
    simp only at h
    split_ifs at h
    all_goals first
      | exact Or.inl h
      | (rcases List.mem_cons.mp ((pq_enqueue_perm _ _).mem_iff.mp h) with h1 | h1
         · exact Or.inr ⟨next, rfl, h1⟩
         · exact Or.inl h1)

theorem foldl_expand_move_mem (nl ab pb : Nat) (current : search_node_t)
    (moves : List (Nat × Nat)) (vars : search_vars) (node : search_node_t)
    (h : node ∈ (moves.foldl (expand_move nl ab pb current) vars).pq.nodes) :
    node ∈ vars.pq.nodes ∨
      ∃ (move : Nat × Nat) (next : gate_t),
        apply_action current.state (pieceNames.getD move.1 0) (directions.getD move.2 0) =
          some next ∧
        node = create_search_node next (current.depth + 1) (pieceNames.getD move.1 0)
          (directions.getD move.2 0) := by
  induction moves generalizing vars with
  | nil => exact Or.inl h
  | cons m rest ih =>
    rw [List.foldl_cons] at h
    rcases ih _ h with h1 | h1
    · rcases expand_move_mem nl ab pb current vars m node h1 with h2 | ⟨next, h2, h3⟩
      · exact Or.inl h2
      · exact Or.inr ⟨m, next, h2, h3⟩
    · exact Or.inr h1

theorem search_step_soundInv (nl ab pb : Nat) (root : gate_t) (vars : search_vars)
    (h : soundInv root vars) : soundInv root (search_step nl ab pb vars) := by
  obtain ⟨hq, hr⟩ := h
  rcases hdq : pq_dequeue vars.pq with ⟨_ | current, pq1⟩
  · rw [search_step_none nl ab pb vars pq1 hdq]; exact ⟨hq, hr⟩
  · have hperm := pq_dequeue_perm vars.pq current pq1 hdq
    have hcur : ∃ moves, apply_moves root moves = some current.state :=
      hq current (hperm.mem_iff.mpr (List.mem_cons_self _ _))
    have hrest : ∀ node ∈ pq1.nodes, ∃ moves, apply_moves root moves = some node.state :=
      fun node hn => hq node (hperm.mem_iff.mpr (List.mem_cons_of_mem _ hn))
    cases hw : winning_state current.state with
    | true =>
      rw [search_step_win nl ab pb vars current pq1 hdq hw]
      refine ⟨hrest, fun _ => ?_⟩
      obtain ⟨moves, hm⟩ := hcur
      exact ⟨current.state, moves, rfl, rfl, hw, hm⟩
    | false =>
      cases hc : checkPresent vars.expandedStates (packedKey current.state pb)
          current.state.num_pieces with
      | true =>
        rw [search_step_dup nl ab pb vars current pq1 hdq hw hc]
        exact ⟨hrest, hr⟩
      | false =>
        rw [search_step_expand nl ab pb vars current pq1 hdq hw hc]
        obtain ⟨h1, h2, h3, _⟩ := foldl_expand_move_result nl ab pb current
          (moveOrder current.state.num_pieces) (expand_start nl ab pb vars current pq1)
        constructor
        · intro node hn
          rcases foldl_expand_move_mem nl ab pb current _ _ node hn with h4 | ⟨mv, next, h4, h5⟩
          · exact hrest node h4
          · obtain ⟨moves, hm⟩ := hcur
            refine ⟨moves ++ [(pieceNames.getD mv.1 0, directions.getD mv.2 0)], ?_⟩
            rw [h5]
            exact apply_moves_snoc root moves _ current.state next hm h4
        · rw [h1, h2, h3]
          exact hr

theorem search_init_soundInv (init_data : gate_t) (width_limit : Int) :
    soundInv (duplicate_state init_data) (search_init init_data width_limit) := by
  constructor
  · intro node hn
    have := (pq_enqueue_perm init_priority_queue
      (create_search_node (duplicate_state init_data) 0 0 0)).mem_iff.mp hn
    simp only [init_priority_queue, List.mem_singleton] at this
    subst this
    exact ⟨[], rfl⟩
  · intro h
    simp [search_init] at h

/-- C1 (soundness of the search).  On a board whose grid has `lines` rows, for
every width limit: if run_search returns solved, its trail is the trail of
the initial board (empty for a board fresh from the loader) followed by the
text of a sequence of (piece, direction) pairs, applying those pairs in order
to the initial board with apply_action succeeds at every step and ends in a
board whose grid is the grid of the returned final board, and winning_state
holds of the final board. -/
theorem run_search_sound (init_data : gate_t) (width_limit : Int) (packedBytes : Nat)
    (hrows : init_data.map.length = init_data.lines)
    (hsolved : (run_search init_data width_limit packedBytes).solved = true) :
    ∃ (t : List Nat) (f : gate_t) (moves : List (Nat × Nat)) (b : gate_t),
      (run_search init_data width_limit packedBytes).solution = some t ∧
      (run_search init_data width_limit packedBytes).final_state = some f ∧
      t = init_data.soln ++ encodeTrail moves ∧
      apply_moves init_data moves = some b ∧ b.map = f.map ∧ winning_state f = true := by
  have hinv : soundInv (duplicate_state init_data)
      (search_loop (noveltyLimitOf init_data width_limit) (atomBitsOf init_data)
        (clampBytes packedBytes) (searchFuel init_data (clampBytes packedBytes))
        (search_init init_data width_limit)) :=
    search_loop_invariant _ _ _ (soundInv (duplicate_state init_data))
      (fun vars hv _ => search_step_soundInv _ _ _ _ vars hv) _ _
      (search_init_soundInv init_data width_limit)
  obtain ⟨f, moves, h1, h2, h3, h4⟩ := hinv.2 hsolved
  have hsoln := apply_moves_soln _ moves f h4
  have hdup : (duplicate_state init_data).soln = init_data.soln := rfl
  rw [hdup] at hsoln
  by_cases hne : moves = []
  · subst hne
    simp only [apply_moves, Option.some.injEq] at h4
    refine ⟨f.soln, f, [], init_data, h1, h2, hsoln, rfl, ?_, h3⟩
    rw [← h4]
    unfold duplicate_state
    simp only
    rw [List.take_of_length_le (by omega)]
  · rw [apply_moves_duplicate init_data moves hne] at h4
    exact ⟨f.soln, f, moves, f, h1, h2, hsoln, h4, rfl, h3⟩

/-! ## Shapes of grids -/

theorem shapeOf_setCell (m : List (List Nat)) (i j : Int) (c : Nat) :
    shapeOf (setCell m i j c) = shapeOf m := by
  unfold shapeOf
  apply List.ext_getElem
  · simp [length_setCell]
  · intro n h1 h2
    simp only [List.getElem_map]
    have h3 : n < (setCell m i j c).length := by simpa using h1
    have h4 : n < m.length := by simpa using h2
    have := getD_setCell_length m i j c n
    rw [List.getD_eq_getElem _ _ h3, List.getD_eq_getElem _ _ h4] at this
    exact this

theorem shapeOf_move_cell (save : List (List Nat)) (pc lp d : Nat) (m : List (List Nat))
    (q : Nat × Nat) : shapeOf (move_cell save pc lp d m q) = shapeOf m := by
  unfold move_cell
  simp only
  split_ifs <;> simp only [shapeOf_setCell]

theorem shapeOf_foldl_move_cell (save : List (List Nat)) (pc lp d : Nat)
    (ps : List (Nat × Nat)) (m : List (List Nat)) :
    shapeOf (ps.foldl (move_cell save pc lp d) m) = shapeOf m := by
  induction ps generalizing m with
  | nil => rfl
  | cons q ps ih => rw [List.foldl_cons, ih, shapeOf_move_cell]

theorem shapeOf_length (m1 m2 : List (List Nat)) (h : shapeOf m1 = shapeOf m2) :
    m1.length = m2.length := by
  have := congrArg List.length h
  simpa [shapeOf] using this

theorem shapeOf_row (m1 m2 : List (List Nat)) (h : shapeOf m1 = shapeOf m2) (i : Nat) :
    (m1.getD i []).length = (m2.getD i []).length := by
  have h1 : ∀ m : List (List Nat), (shapeOf m).getD i 0 = (m.getD i []).length := by
    intro m
    unfold shapeOf
    simp [List.getD_eq_getElem?_getD, List.getElem?_map]
    cases m[i]? <;> simp
  rw [← h1 m1, ← h1 m2, h]

theorem inGrid_of_shapeOf (m1 m2 : List (List Nat)) (h : shapeOf m1 = shapeOf m2) (i j : Int) :
    inGrid m1 i j ↔ inGrid m2 i j := by
  unfold inGrid
  rw [shapeOf_length m1 m2 h, shapeOf_row m1 m2 h]

theorem positions_of_shapeOf (m1 m2 : List (List Nat)) (h : shapeOf m1 = shapeOf m2)
    (lines : Nat) : positions m1 lines = positions m2 lines := by
  unfold positions
  have hshape : shapeOf (m1.take lines) = shapeOf (m2.take lines) := by
    unfold shapeOf at *
    rw [List.map_take, List.map_take, h]
  generalize m1.take lines = a at hshape
  generalize m2.take lines = b at hshape
  generalize (0 : Nat) = i0
  induction a generalizing b i0 with
  | nil =>
    cases b with
    | nil => rfl
    | cons _ _ => simp [shapeOf] at hshape
  | cons r1 rest ih =>
    cases b with
    | nil => simp [shapeOf] at hshape
    | cons r2 rest2 =>
      simp only [shapeOf, List.map_cons, List.cons.injEq] at hshape
      simp only [positionsFrom, hshape.1]
      rw [ih rest2 hshape.2]

theorem grid_ext (m1 m2 : List (List Nat)) (h : shapeOf m1 = shapeOf m2)
    (hc : ∀ i j : Nat, cellAt m1 i j = cellAt m2 i j) : m1 = m2 := by
  have hl := shapeOf_length m1 m2 h
  apply List.ext_getElem hl
  intro i h1 h2
  have hr := shapeOf_row m1 m2 h i
  rw [List.getD_eq_getElem _ _ h1, List.getD_eq_getElem _ _ h2] at hr
  apply List.ext_getElem hr
  intro j h3 h4
  have := hc i j
  unfold cellAt rowAt at this
  simp only [Int.toNat_ofNat] at this
  rw [if_neg (by omega), if_neg (by omega), if_neg (by omega), if_neg (by omega)] at this
  rw [List.getD_eq_getElem _ _ h1, List.getD_eq_getElem _ _ h2,
    List.getD_eq_getElem _ _ h3, List.getD_eq_getElem _ _ h4] at this
  exact this

/-! ## The first cell of a piece -/

theorem pairwise_positionsFrom (rows : List (List Nat)) (i0 : Nat) :
    (positionsFrom rows i0).Pairwise rowMajorLt := by
  induction rows generalizing i0 with
  | nil => simp [positionsFrom]
  | cons row rest ih =>
    simp only [positionsFrom]
    rw [List.pairwise_append]
    refine ⟨?_, ih (i0 + 1), ?_⟩
    · rw [List.pairwise_map]
      have : (List.range row.length).Pairwise (· < ·) := List.pairwise_lt_range _
      exact this.imp (fun h => Or.inr ⟨rfl, h⟩)
    · intro p hp q hq
      simp only [List.mem_map, List.mem_range] at hp
      obtain ⟨j, _, rfl⟩ := hp
      obtain ⟨a, b⟩ := q
      rw [mem_positionsFrom] at hq
      exact Or.inl (by simp only; omega)

theorem find?_of_pairwise (pred : Nat × Nat → Bool) (l : List (Nat × Nat))
    (hs : l.Pairwise rowMajorLt) (p : Nat × Nat) :
    l.find? pred = some p ↔
      p ∈ l ∧ pred p = true ∧ ∀ q ∈ l, rowMajorLt q p → pred q = false := by
  induction l with
  | nil => simp
  | cons a l ih =>
    rw [List.pairwise_cons] at hs
    obtain ⟨ha, hl⟩ := hs
    rw [List.find?_cons]
    cases hpa : pred a with
    | true =>
      simp only [Option.some.injEq]
      constructor
      · rintro rfl
        refine ⟨List.mem_cons_self _ _, hpa, ?_⟩
        intro q hq hlt
        rcases List.mem_cons.mp hq with rfl | hq
        · unfold rowMajorLt at hlt; omega
        · have := ha q hq
          unfold rowMajorLt at hlt this; omega
      · rintro ⟨hp, _, hmin⟩
        rcases List.mem_cons.mp hp with rfl | hp
        · rfl
        · have := hmin a (List.mem_cons_self _ _) (ha p hp)
          rw [hpa] at this
          exact absurd this (by simp)
    | false =>
      simp only
      rw [ih hl]
      constructor
      · rintro ⟨hp, hpp, hmin⟩
        refine ⟨List.mem_cons_of_mem _ hp, hpp, ?_⟩
        intro q hq hlt
        rcases List.mem_cons.mp hq with rfl | hq
        · exact hpa
        · exact hmin q hq hlt
      · rintro ⟨hp, hpp, hmin⟩
        rcases List.mem_cons.mp hp with rfl | hp
        · rw [hpa] at hpp; exact absurd hpp (by simp)
        · exact ⟨hp, hpp, fun q hq hlt => hmin q (List.mem_cons_of_mem _ hq) hlt⟩

theorem firstCell_eq_some_iff (m : List (List Nat)) (lines pc : Nat) (p : Nat × Nat) :
    firstCell m lines pc = some p ↔
      p ∈ positions m lines ∧ formAt m pc p = true ∧
        ∀ q ∈ positions m lines, rowMajorLt q p → formAt m pc q = false := by
  unfold firstCell
  exact find?_of_pairwise _ _ (pairwise_positionsFrom _ _) p

theorem formAt_iff (m : List (List Nat)) (k : Nat) (p : Nat × Nat) :
    formAt m (48 + k) p = true ↔ isPiece k (cellAt m p.1 p.2) := by
  unfold formAt isForm isPiece
  have : 48 + k - 48 + 72 = 72 + k := by omega
  rw [this]
  simp

theorem formAt_false_iff (m : List (List Nat)) (k : Nat) (p : Nat × Nat) :
    formAt m (48 + k) p = false ↔ ¬ isPiece k (cellAt m p.1 p.2) := by
  rw [← formAt_iff]
  simp

theorem mem_positions_of_isPiece (m : List (List Nat)) (lines : Nat) (hrows : m.length = lines)
    (k : Nat) (i j : Int) (h : isPiece k (cellAt m i j)) :
    0 ≤ i ∧ 0 ≤ j ∧ (i.toNat, j.toNat) ∈ positions m lines := by
  have hne : cellAt m i j ≠ 0 := by unfold isPiece at h; omega
  have hin : inGrid m i j := inGrid_of_cellAt_ne_zero _ _ _ hne
  obtain ⟨h1, h2, h3, h4⟩ := hin
  refine ⟨h1, h2, ?_⟩
  rw [mem_positions]
  refine ⟨by omega, ?_⟩
  rw [Int.toNat_of_nonneg h1, Int.toNat_of_nonneg h2]
  exact ⟨h1, h2, h3, h4⟩

theorem firstCell_shift (m1 m2 : List (List Nat)) (lines k : Nat) (dy dx : Int)
    (h1 : m1.length = lines) (h2 : m2.length = lines)
    (hocc : ∀ i j : Int, isPiece k (cellAt m2 i j) ↔ isPiece k (cellAt m1 (i - dy) (j - dx)))
    (p : Nat × Nat) (hp : firstCell m1 lines (48 + k) = some p) :
    ∃ q : Nat × Nat, firstCell m2 lines (48 + k) = some q ∧
      (q.1 : Int) = p.1 + dy ∧ (q.2 : Int) = p.2 + dx := by
  rw [firstCell_eq_some_iff] at hp
  obtain ⟨_, hform, hmin⟩ := hp
  rw [formAt_iff] at hform
  have hform2 : isPiece k (cellAt m2 ((p.1 : Int) + dy) ((p.2 : Int) + dx)) := by
    rw [hocc]
    have e1 : (p.1 : Int) + dy - dy = p.1 := by omega
    have e2 : (p.2 : Int) + dx - dx = p.2 := by omega
    rw [e1, e2]
    exact hform
  obtain ⟨n1, n2, hmem⟩ := mem_positions_of_isPiece m2 lines h2 k _ _ hform2
  refine ⟨(((p.1 : Int) + dy).toNat, ((p.2 : Int) + dx).toNat), ?_,
    Int.toNat_of_nonneg n1, Int.toNat_of_nonneg n2⟩
  rw [firstCell_eq_some_iff]
  refine ⟨hmem, ?_, ?_⟩
  · rw [formAt_iff]
    simp only [Int.toNat_of_nonneg n1, Int.toNat_of_nonneg n2]
    exact hform2
  · intro q _ hlt
    rw [formAt_false_iff]
    intro hq
    rw [hocc] at hq
    obtain ⟨r1, r2, hmem1⟩ := mem_positions_of_isPiece m1 lines h1 k _ _ hq
    have := hmin _ hmem1 (by
      unfold rowMajorLt at hlt ⊢
      simp only at hlt ⊢
      omega)
    rw [formAt_false_iff] at this
    apply this
    simp only [Int.toNat_of_nonneg r1, Int.toNat_of_nonneg r2]
    exact hq

theorem find?_congr_mem (f g : Nat × Nat → Bool) (l : List (Nat × Nat))
    (h : ∀ x ∈ l, f x = g x) : l.find? f = l.find? g := by
  induction l with
  | nil => rfl
  | cons a l ih =>
    rw [List.find?_cons, List.find?_cons, h a (List.mem_cons_self _ _),
      ih (fun x hx => h x (List.mem_cons_of_mem _ hx))]

theorem firstCell_congr (m1 m2 : List (List Nat)) (lines k : Nat)
    (hshape : shapeOf m1 = shapeOf m2)
    (hocc : ∀ i j : Int, isPiece k (cellAt m2 i j) ↔ isPiece k (cellAt m1 i j)) :
    firstCell m2 lines (48 + k) = firstCell m1 lines (48 + k) := by
  unfold firstCell
  rw [positions_of_shapeOf m1 m2 hshape]
  apply find?_congr_mem
  intro p _
  have h1 := formAt_iff m1 k p
  have h2 := formAt_iff m2 k p
  have h3 := hocc p.1 p.2
  cases ha : formAt m1 (48 + k) p <;> cases hb : formAt m2 (48 + k) p <;> simp_all

/-! ## A move shifts one piece and leaves the rest of the grid -/

theorem source_eq_sub (d : Nat) (i j : Int) :
    sourceY i d = i - targetY 0 d ∧ sourceX j d = j - targetX 0 d := by
  unfold sourceY sourceX targetY targetX
  constructor <;> split_ifs <;> omega

theorem legal_target (b : gate_t) (k d : Nat) (hrows : b.map.length = b.lines)
    (h : (apply_move_in_place b (48 + k) d).2 = true) (i j : Int)
    (hsrc : isPiece k (cellAt b.map (sourceY i d) (sourceX j d))) :
    cellAt b.map i j = 32 ∨ cellAt b.map i j = 71 ∨ cellAt b.map i j = 48 + k ∨
      cellAt b.map i j = 72 + k := by
  obtain ⟨hvalid, _, _, hk10, _, hcan⟩ := (apply_move_in_place_success_iff b (48 + k) d).mp h
  have hd := valid_direction_cases d hvalid
  have e2 : 48 + k - 48 + 72 = 72 + k := by omega
  have hk10 : k < 10 := by
    have : 48 + k - 48 = k := by omega
    rw [this] at hk10
    exact hk10
  rw [e2] at hcan
  obtain ⟨p1, p2, p3⟩ := mem_positions_of_isPiece b.map b.lines hrows k _ _ hsrc
  have hform : isForm (48 + k) (72 + k)
      (cellAt b.map ((sourceY i d).toNat : Nat) ((sourceX j d).toNat : Nat)) := by
    rw [Int.toNat_of_nonneg p1, Int.toNat_of_nonneg p2]
    exact hsrc
  have hpm := (can_move_all_iff b _ _ d).mp hcan _ p3 hform
  have hdest := (part_can_move_iff b _ _ d k hk10 hform).mp hpm
  have ht := (target_eq_iff d hd (sourceY i d) (sourceX j d) i j).mpr ⟨rfl, rfl⟩
  simp only [Int.toNat_of_nonneg p1, Int.toNat_of_nonneg p2] at hdest
  rw [ht.1, ht.2] at hdest
  exact hdest

theorem success_index (b : gate_t) (k d : Nat)
    (h : (apply_move_in_place b (48 + k) d).2 = true) : k < b.num_pieces ∧ k < 10 := by
  obtain ⟨_, _, h1, h2, _, _⟩ := (apply_move_in_place_success_iff b (48 + k) d).mp h
  have : 48 + k - 48 = k := by omega
  rw [this] at h1 h2
  exact ⟨h1, h2⟩

theorem moved_isPiece_self (b : gate_t) (k d : Nat) (hrows : b.map.length = b.lines)
    (hsave : b.map_save.length = b.lines)
    (h : (apply_move_in_place b (48 + k) d).2 = true) (i j : Int) :
    isPiece k (cellAt (apply_move_in_place b (48 + k) d).1.map i j) ↔
      isPiece k (cellAt b.map (sourceY i d) (sourceX j d)) := by
  have hk := (success_index b k d h).2
  rw [moved_cell b k d hrows hsave h i j]
  unfold isPiece
  split_ifs <;> omega

theorem moved_isPiece_other (b : gate_t) (k d : Nat) (hrows : b.map.length = b.lines)
    (hsave : b.map_save.length = b.lines)
    (h : (apply_move_in_place b (48 + k) d).2 = true) (k1 : Nat) (hk1 : k1 < 10)
    (hne : k1 ≠ k) (i j : Int) :
    isPiece k1 (cellAt (apply_move_in_place b (48 + k) d).1.map i j) ↔
      isPiece k1 (cellAt b.map i j) := by
  have hk := (success_index b k d h).2
  have hleg := legal_target b k d hrows h i j
  rw [moved_cell b k d hrows hsave h i j]
  unfold isPiece at *
  split_ifs with h1 h2 h3 h4
  · have := hleg h1; omega
  · have := hleg h1; omega
  · omega
  · omega
  · rfl

theorem moved_background (b : gate_t) (k d : Nat) (hrows : b.map.length = b.lines)
    (hsave : b.map_save.length = b.lines)
    (h : (apply_move_in_place b (48 + k) d).2 = true) (n : Nat) (hkn : k < n) (i j : Int) :
    backgroundOf n (cellAt (apply_move_in_place b (48 + k) d).1.map i j) =
      backgroundOf n (cellAt b.map i j) := by
  have hk := (success_index b k d h).2
  have hleg := legal_target b k d hrows h i j
  rw [moved_cell b k d hrows hsave h i j]
  unfold isPiece at hleg
  unfold backgroundOf
  split_ifs <;> first | rfl | omega

/-! ## The fields of the board after a move -/

theorem locate_fields (state : gate_t) (m : List (List Nat)) (pc : Nat) :
    (locate state m pc).lines = state.lines ∧
      (locate state m pc).num_pieces = state.num_pieces ∧
      (locate state m pc).num_chars_map = state.num_chars_map ∧
      (locate state m pc).map = state.map ∧
      (locate state m pc).map_save = state.map_save ∧
      (locate state m pc).soln = state.soln := by
  unfold locate
  cases firstCell m state.lines pc <;> exact ⟨rfl, rfl, rfl, rfl, rfl, rfl⟩

theorem locate_coords_other (state : gate_t) (m : List (List Nat)) (pc k : Nat)
    (h : k ≠ pc - 48) :
    (locate state m pc).piece_x k = state.piece_x k ∧
      (locate state m pc).piece_y k = state.piece_y k := by
  unfold locate setCoords
  cases firstCell m state.lines pc <;> simp [Function.update_noteq h]

theorem locate_coords_self (state : gate_t) (m : List (List Nat)) (pc : Nat) (p : Nat × Nat)
    (h : firstCell m state.lines pc = some p) :
    (locate state m pc).piece_x (pc - 48) = p.2 ∧
      (locate state m pc).piece_y (pc - 48) = p.1 := by
  unfold locate setCoords
  rw [h]
  simp

theorem duplicate_state_eq (b : gate_t) (h1 : b.map.length ≤ b.lines)
    (h2 : b.map_save.length ≤ b.lines) : duplicate_state b = b := by
  unfold duplicate_state
  rw [List.take_of_length_le h1, List.take_of_length_le h2]

/-- The board apply_action returns, field by field, on a board whose two grids
have `lines` rows. -/
theorem apply_action_fields (b : gate_t) (k d : Nat) (b1 : gate_t)
    (hrows : b.map.length = b.lines) (hsave : b.map_save.length = b.lines)
    (h : apply_action b (48 + k) d = some b1) :
    (apply_move_in_place b (48 + k) d).2 = true ∧
      b1.lines = b.lines ∧ b1.num_pieces = b.num_pieces ∧
      b1.num_chars_map = b.num_chars_map ∧
      b1.map = (apply_move_in_place b (48 + k) d).1.map ∧
      b1.map_save = b.map ∧
      (∀ k1, k1 ≠ k → b1.piece_x k1 = b.piece_x k1 ∧ b1.piece_y k1 = b.piece_y k1) ∧
      (∀ p, firstCell b1.map b.lines (48 + k) = some p →
        b1.piece_x k = p.2 ∧ b1.piece_y k = p.1) := by
  obtain ⟨hs, rfl⟩ := apply_action_some b (48 + k) d b1 h
  rw [duplicate_state_eq b (by omega) (by omega)] at hs ⊢
  have e1 : 48 + k - 48 = k := by omega
  have hfst := apply_move_in_place_fst b (48 + k) d hs
  have hmap := apply_move_in_place_map b (48 + k) d hs
  refine ⟨hs, ?_, ?_, ?_, rfl, ?_, ?_, ?_⟩
  · simp only; rw [hfst, (locate_fields _ _ _).1]; simp only [(locate_fields _ _ _).1]
  · simp only; rw [hfst, (locate_fields _ _ _).2.1]; simp only [(locate_fields _ _ _).2.1]
  · simp only; rw [hfst, (locate_fields _ _ _).2.2.1]; simp only [(locate_fields _ _ _).2.2.1]
  · simp only; rw [hfst, (locate_fields _ _ _).2.2.2.2.1]
    simp only
    exact snapshotOf_eq_map b hrows hsave
  · intro k1 hk1
    simp only
    rw [hfst]
    have hne : k1 ≠ 48 + k - 48 := by omega
    obtain ⟨h1, h2⟩ := locate_coords_other
      { locate b b.map (48 + k) with map_save := snapshotOf b, map := movedMap b (48 + k) d }
      (movedMap b (48 + k) d) (48 + k) k1 hne
    obtain ⟨h3, h4⟩ := locate_coords_other b b.map (48 + k) k1 hne
    exact ⟨h1.trans h3, h2.trans h4⟩
  · intro p hp
    simp only at hp ⊢
    rw [hmap] at hp
    rw [hfst]
    have hl : ({ locate b b.map (48 + k) with
        map_save := snapshotOf b, map := movedMap b (48 + k) d } : gate_t).lines = b.lines :=
      (locate_fields b b.map (48 + k)).1
    have := locate_coords_self
      { locate b b.map (48 + k) with map_save := snapshotOf b, map := movedMap b (48 + k) d }
      (movedMap b (48 + k) d) (48 + k) p (by rw [hl]; exact hp)
    rw [e1] at this
    exact this

/-! ## Reachable boards are placements of the initial pieces -/

theorem apply_action_index (b : gate_t) (pc d : Nat) (b1 : gate_t)
    (h : apply_action b pc d = some b1) :
    48 ≤ pc ∧ pc - 48 < b.num_pieces ∧ pc - 48 < MAX_PIECES ∧
      is_valid_direction d = true := by
  obtain ⟨hs, _⟩ := apply_action_some b pc d b1 h
  obtain ⟨h1, h2, h3, h4⟩ := apply_move_in_place_guard _ pc d hs
  exact ⟨h2, h3, h4, h1⟩

theorem Placed.rows {r b : gate_t} (hP : Placed r b) (hr : r.map.length = r.lines) :
    b.map.length = b.lines ∧ b.map_save.length = b.lines := by
  have h1 := shapeOf_length _ _ hP.shape
  have h2 := shapeOf_length _ _ hP.save_shape
  have h3 := hP.lines_eq
  omega

theorem Placed.refl (r : gate_t) (hwf : WellFormed r) : Placed r r where
  lines_eq := rfl
  num_pieces_eq := rfl
  num_chars_eq := rfl
  shape := rfl
  save_shape := hwf.save_shape
  bg := fun _ _ => rfl
  occ := fun k _ i j => by simp
  first := hwf.first

theorem Placed.step {r b b1 : gate_t} (hr : r.map.length = r.lines)
    (hn : r.num_pieces ≤ MAX_PIECES) (hP : Placed r b) (pc d : Nat)
    (h : apply_action b pc d = some b1) : Placed r b1 := by
  obtain ⟨hpc, _, _, _⟩ := apply_action_index b pc d b1 h
  obtain ⟨k, rfl⟩ : ∃ k, pc = 48 + k := ⟨pc - 48, by omega⟩
  obtain ⟨hrows, hsave⟩ := hP.rows hr
  obtain ⟨hs, f1, f2, f3, f4, f5, f6, f7⟩ := apply_action_fields b k d b1 hrows hsave h
  obtain ⟨hkn, hk10⟩ := success_index b k d hs
  rw [hP.num_pieces_eq] at hkn
  have hn10 : r.num_pieces ≤ 10 := hn
  have hshape : shapeOf b1.map = shapeOf b.map := by
    rw [f4, apply_move_in_place_map b (48 + k) d hs]
    exact shapeOf_foldl_move_cell _ _ _ _ _ _
  have hselfocc : ∀ i j : Int, isPiece k (cellAt b1.map i j) ↔
      isPiece k (cellAt b.map (i - targetY 0 d) (j - targetX 0 d)) := by
    intro i j
    rw [f4, moved_isPiece_self b k d hrows hsave hs i j, (source_eq_sub d i j).1,
      (source_eq_sub d i j).2]
  obtain ⟨p, hp1, hp2, hp3⟩ := hP.first k hkn
  have hb1rows : b1.map.length = b.lines := by
    rw [shapeOf_length _ _ hshape]; exact hrows
  obtain ⟨q, hq1, hq2, hq3⟩ := firstCell_shift b.map b1.map b.lines k (targetY 0 d)
    (targetX 0 d) hrows hb1rows hselfocc p hp1
  obtain ⟨hx, hy⟩ := f7 q hq1
  refine ⟨f1.trans hP.lines_eq, f2.trans hP.num_pieces_eq, f3.trans hP.num_chars_eq,
    hshape.trans hP.shape, ?_, ?_, ?_, ?_⟩
  · rw [f5]; exact hP.shape
  · intro i j
    rw [f4, moved_background b k d hrows hsave hs r.num_pieces hkn i j]
    exact hP.bg i j
  · intro k1 hk1 i j
    by_cases hk : k1 = k
    · subst hk
      rw [hselfocc, hP.occ k1 hk1]
      have e1 : i - targetY 0 d - (b.piece_y k1 - r.piece_y k1) =
          i - (b1.piece_y k1 - r.piece_y k1) := by omega
      have e2 : j - targetX 0 d - (b.piece_x k1 - r.piece_x k1) =
          j - (b1.piece_x k1 - r.piece_x k1) := by omega
      rw [e1, e2]
    · rw [f4, moved_isPiece_other b k d hrows hsave hs k1 (by omega) hk i j, hP.occ k1 hk1,
        (f6 k1 hk).1, (f6 k1 hk).2]
  · intro k1 hk1
    by_cases hk : k1 = k
    · subst hk
      refine ⟨q, ?_, by omega, by omega⟩
      rw [f1]; exact hq1
    · obtain ⟨p1, hp4, hp5, hp6⟩ := hP.first k1 hk1
      refine ⟨p1, ?_, ?_, ?_⟩
      · rw [f1, ← hp4]
        apply firstCell_congr b.map b1.map b.lines k1 hshape.symm
        intro i j
        rw [f4, moved_isPiece_other b k d hrows hsave hs k1 (by omega) hk i j]
      · rw [(f6 k1 hk).2]; exact hp5
      · rw [(f6 k1 hk).1]; exact hp6

theorem Placed.of_moves {r : gate_t} (hwf : WellFormed r) (moves : List (Nat × Nat))
    (b b1 : gate_t) (hP : Placed r b) (h : apply_moves b moves = some b1) : Placed r b1 := by
  induction moves generalizing b with
  | nil =>
    simp only [apply_moves, Option.some.injEq] at h
    subst h; exact hP
  | cons m rest ih =>
    simp only [apply_moves] at h
    cases ha : apply_action b m.1 m.2 with
    | none => rw [ha] at h; simp at h
    | some b2 =>
      rw [ha] at h
      exact ih b2 (hP.step hwf.rows hwf.pieces m.1 m.2 ha) h

/-! ## Boards with the same recorded coordinates are the same configuration -/

theorem cell_determined (n c1 c2 : Nat) (hn : n ≤ 10)
    (hbg : backgroundOf n c1 = backgroundOf n c2)
    (hocc : ∀ k, k < n → (isPiece k c1 ↔ isPiece k c2)) : c1 = c2 := by
  unfold backgroundOf at hbg
  unfold isPiece at hocc
  by_cases h1 : (48 ≤ c1 ∧ c1 < 48 + n) ∨ (72 ≤ c1 ∧ c1 < 72 + n)
  · rcases h1 with h1 | h1
    · have := (hocc (c1 - 48) (by omega)).mp (Or.inl (by omega))
      split_ifs at hbg <;> omega
    · have := (hocc (c1 - 72) (by omega)).mp (Or.inr (by omega))
      split_ifs at hbg <;> omega
  · by_cases h2 : (48 ≤ c2 ∧ c2 < 48 + n) ∨ (72 ≤ c2 ∧ c2 < 72 + n)
    · rcases h2 with h2 | h2
      · have := (hocc (c2 - 48) (by omega)).mpr (Or.inl (by omega))
        omega
      · have := (hocc (c2 - 72) (by omega)).mpr (Or.inr (by omega))
        omega
    · split_ifs at hbg <;> omega

theorem sameConfig_of_coords {r a b : gate_t} (hn : r.num_pieces ≤ MAX_PIECES)
    (ha : Placed r a) (hb : Placed r b)
    (hc : ∀ k, k < r.num_pieces → a.piece_x k = b.piece_x k ∧ a.piece_y k = b.piece_y k) :
    sameConfig a b where
  lines_eq := ha.lines_eq.trans hb.lines_eq.symm
  num_pieces_eq := ha.num_pieces_eq.trans hb.num_pieces_eq.symm
  num_chars_eq := ha.num_chars_eq.trans hb.num_chars_eq.symm
  map_eq := by
    apply grid_ext _ _ (ha.shape.trans hb.shape.symm)
    intro i j
    apply cell_determined r.num_pieces _ _ hn
    · rw [ha.bg, hb.bg]
    · intro k hk
      rw [ha.occ k hk, hb.occ k hk, (hc k hk).1, (hc k hk).2]
  save_shape := ha.save_shape.trans hb.save_shape.symm
  coords := fun k hk => hc k (by rw [← ha.num_pieces_eq]; exact hk)

theorem sameConfig.symm {a b : gate_t} (h : sameConfig a b) : sameConfig b a where
  lines_eq := h.lines_eq.symm
  num_pieces_eq := h.num_pieces_eq.symm
  num_chars_eq := h.num_chars_eq.symm
  map_eq := h.map_eq.symm
  save_shape := h.save_shape.symm
  coords := fun k hk => by
    have := h.coords k (by rw [h.num_pieces_eq]; exact hk)
    exact ⟨this.1.symm, this.2.symm⟩

theorem sameConfig.success {a b : gate_t} (h : sameConfig a b) (pc d : Nat) :
    (apply_move_in_place a pc d).2 = (apply_move_in_place b pc d).2 := by
  have e : ((apply_move_in_place a pc d).2 = true) ↔ ((apply_move_in_place b pc d).2 = true) := by
    rw [apply_move_in_place_success_iff, apply_move_in_place_success_iff,
      can_move_all_congr a b pc _ d h.map_eq h.lines_eq, h.map_eq, h.lines_eq, h.num_pieces_eq]
  cases h1 : (apply_move_in_place a pc d).2 <;> cases h2 : (apply_move_in_place b pc d).2 <;>
    simp_all

theorem sameConfig.follow {a b a1 : gate_t} (h : sameConfig a b)
    (ha : a.map.length = a.lines ∧ a.map_save.length = a.lines)
    (hb : b.map.length = b.lines ∧ b.map_save.length = b.lines) (pc d : Nat)
    (h1 : apply_action a pc d = some a1) :
    ∃ b1, apply_action b pc d = some b1 ∧ sameConfig a1 b1 := by
  obtain ⟨hpc, _, _, _⟩ := apply_action_index a pc d a1 h1
  obtain ⟨k, rfl⟩ : ∃ k, pc = 48 + k := ⟨pc - 48, by omega⟩
  obtain ⟨hs, f1, f2, f3, f4, f5, f6, f7⟩ := apply_action_fields a k d a1 ha.1 ha.2 h1
  have hs2 : (apply_move_in_place b (48 + k) d).2 = true := by
    rw [← h.success]; exact hs
  have hdup : duplicate_state b = b := duplicate_state_eq b (by omega) (by omega)
  have hb1 : apply_action b (48 + k) d =
      some { (apply_move_in_place b (48 + k) d).1 with
        soln := (apply_move_in_place b (48 + k) d).1.soln ++ [48 + k, d] } := by
    unfold apply_action
    rw [hdup]
    rcases hm : apply_move_in_place b (48 + k) d with ⟨st, flag⟩
    rw [hm] at hs2
    simp only at hs2
    subst hs2
    rfl
  refine ⟨_, hb1, ?_⟩
  obtain ⟨_, g1, g2, g3, g4, g5, g6, g7⟩ := apply_action_fields b k d _ hb.1 hb.2 hb1
  have hmap : a1.map = ({ (apply_move_in_place b (48 + k) d).1 with
      soln := (apply_move_in_place b (48 + k) d).1.soln ++ [48 + k, d] } : gate_t).map := by
    rw [f4, g4, apply_move_in_place_map a _ d hs, apply_move_in_place_map b _ d hs2]
    unfold movedMap
    rw [snapshotOf_eq_map a ha.1 ha.2, snapshotOf_eq_map b hb.1 hb.2, h.map_eq, h.lines_eq]
  refine ⟨by rw [f1, g1, h.lines_eq], by rw [f2, g2, h.num_pieces_eq],
    by rw [f3, g3, h.num_chars_eq], hmap, by rw [f5, g5, h.map_eq], ?_⟩
  intro k1 hk1
  rw [f2] at hk1
  by_cases hk : k1 = k
  · subst hk
    obtain ⟨hsi, _⟩ := success_index a k1 d hs
    have hfirst : (firstCell a1.map a.lines (48 + k1)).isSome = true := by
      rw [firstCell_isSome]
      obtain ⟨_, _, _, _, hfc, _⟩ := (apply_move_in_place_success_iff a (48 + k1) d).mp hs
      rw [firstCell_isSome] at hfc
      obtain ⟨p, hp, hform⟩ := hfc
      have e2 : 48 + k1 - 48 + 72 = 72 + k1 := by omega
      rw [e2] at hform ⊢
      have hnew : isPiece k1 (cellAt a1.map (targetY p.1 d) (targetX p.2 d)) := by
        rw [f4, moved_isPiece_self a k1 d ha.1 ha.2 hs]
        obtain ⟨hv, _⟩ := apply_move_in_place_guard a _ d hs
        have := (target_eq_iff d (valid_direction_cases d hv) p.1 p.2 _ _).mp ⟨rfl, rfl⟩
        rw [← this.1, ← this.2]
        exact hform
      have ha1rows : a1.map.length = a.lines := by
        have : shapeOf a1.map = shapeOf a.map := by
          rw [f4, apply_move_in_place_map a (48 + k1) d hs]
          exact shapeOf_foldl_move_cell _ _ _ _ _ _
        rw [shapeOf_length _ _ this]; exact ha.1
      obtain ⟨n1, n2, hmem⟩ := mem_positions_of_isPiece a1.map a.lines ha1rows k1 _ _ hnew
      refine ⟨_, hmem, ?_⟩
      show isForm _ _ _
      simp only [Int.toNat_of_nonneg n1, Int.toNat_of_nonneg n2]
      exact hnew
    obtain ⟨p, hp⟩ := Option.isSome_iff_exists.mp hfirst
    have hp2 : firstCell ({ (apply_move_in_place b (48 + k1) d).1 with
        soln := (apply_move_in_place b (48 + k1) d).1.soln ++ [48 + k1, d] } : gate_t).map
        b.lines (48 + k1) = some p := by
      rw [← hmap, ← h.lines_eq]; exact hp
    obtain ⟨x1, y1⟩ := f7 p hp
    obtain ⟨x2, y2⟩ := g7 p hp2
    exact ⟨x1.trans x2.symm, y1.trans y2.symm⟩
  · obtain ⟨x1, y1⟩ := f6 k1 hk
    obtain ⟨x2, y2⟩ := g6 k1 hk
    obtain ⟨x3, y3⟩ := h.coords k1 hk1
    exact ⟨x1.trans (x3.trans x2.symm), y1.trans (y3.trans y2.symm)⟩

theorem sameConfig_winning {a b : gate_t} (h : sameConfig a b) :
    winning_state a = winning_state b := by
  unfold winning_state
  rw [positions_of_shapeOf _ _ h.save_shape, h.lines_eq, h.map_eq]

theorem sameConfig_packedKey {a b : gate_t} (h : sameConfig a b) (pb : Nat) :
    packedKey a pb = packedKey b pb := by
  unfold packedKey packMap widthOf
  rw [h.num_pieces_eq, h.lines_eq, h.num_chars_eq]
  apply List.foldl_ext
  intro s i hi
  rw [List.mem_range] at hi
  unfold packAtom
  rw [← h.num_pieces_eq] at hi
  rw [(h.coords i hi).1, (h.coords i hi).2]

/-! ## The packed key determines the recorded coordinates -/

theorem getBit_set (s : List Bool) (i t : Nat) (x : Bool) :
    getBit (s.set i x) t = if i = t ∧ t < s.length then x else getBit s t := by
  unfold getBit
  simp only [List.getD_eq_getElem?_getD, List.getElem?_set]
  by_cases h : i = t
  · subst h
    by_cases hl : i < s.length
    · simp [hl]
    · simp [hl, List.getElem?_eq_none (Nat.le_of_not_lt hl)]
  · simp [h]

theorem getBit_bitOn (s : List Bool) (i t : Nat) :
    getBit (bitOn s i) t = if i = t ∧ t < s.length then true else getBit s t :=
  getBit_set s i t true

theorem getBit_bitOff (s : List Bool) (i t : Nat) :
    getBit (bitOff s i) t = if i = t ∧ t < s.length then false else getBit s t :=
  getBit_set s i t false

theorem length_bitOn (s : List Bool) (i : Nat) : (bitOn s i).length = s.length := by
  simp [bitOn]

theorem length_bitOff (s : List Bool) (i : Nat) : (bitOff s i).length = s.length := by
  simp [bitOff]

theorem length_packField (v : Int) (nbits : Nat) (s : List Bool) (idx : Nat) :
    (packField v nbits s idx).length = s.length := by
  unfold packField
  induction nbits with
  | zero => simp
  | succ n ih =>
    rw [List.range_succ, List.foldl_append]
    simp only [List.foldl_cons, List.foldl_nil]
    split_ifs
    · rw [length_bitOn, ih]
    · rw [length_bitOff, ih]

theorem getBit_packField (v : Int) (nbits : Nat) (s : List Bool) (idx t : Nat) :
    getBit (packField v nbits s idx) t =
      if idx ≤ t ∧ t < idx + nbits ∧ t < s.length then decide ((v / 2 ^ (t - idx)) % 2 = 1)
      else getBit s t := by
  induction nbits with
  | zero =>
    have : ¬ (idx ≤ t ∧ t < idx + 0 ∧ t < s.length) := by omega
    rw [if_neg this]
    simp [packField]
  | succ n ih =>
    have hlen := length_packField v n s idx
    unfold packField at ih hlen ⊢
    rw [List.range_succ, List.foldl_append]
    simp only [List.foldl_cons, List.foldl_nil]
    by_cases hb : (v / 2 ^ n) % 2 = 1
    · rw [if_pos hb, getBit_bitOn, hlen, ih]
      by_cases h1 : idx + n = t ∧ t < s.length
      · rw [if_pos h1, if_pos (by omega)]
        have : t - idx = n := by omega
        rw [this]
        simp [hb]
      · rw [if_neg h1]
        by_cases h2 : idx ≤ t ∧ t < idx + n ∧ t < s.length
        · rw [if_pos h2, if_pos (by omega)]
        · rw [if_neg h2, if_neg (by omega)]
    · rw [if_neg hb, getBit_bitOff, hlen, ih]
      by_cases h1 : idx + n = t ∧ t < s.length
      · rw [if_pos h1, if_pos (by omega)]
        have : t - idx = n := by omega
        rw [this]
        simp [hb]
      · rw [if_neg h1]
        by_cases h2 : idx ≤ t ∧ t < idx + n ∧ t < s.length
        · rw [if_pos h2, if_pos (by omega)]
        · rw [if_neg h2, if_neg (by omega)]

theorem length_packAtom (g : gate_t) (pB hB wB : Nat) (s : List Bool) (i : Nat) :
    (packAtom g pB hB wB s i).length = s.length := by
  unfold packAtom
  simp only [length_packField]

theorem getBit_packAtom_outside (g : gate_t) (pB hB wB : Nat) (s : List Bool) (i t : Nat)
    (h : t < i * (pB + hB + wB) ∨ (i + 1) * (pB + hB + wB) ≤ t) :
    getBit (packAtom g pB hB wB s i) t = getBit s t := by
  unfold packAtom
  simp only
  have e : (i + 1) * (pB + hB + wB) = i * (pB + hB + wB) + (pB + hB + wB) := by ring
  rw [e] at h
  rw [getBit_packField, if_neg (by omega), getBit_packField, if_neg (by omega),
    getBit_packField, if_neg (by omega)]

theorem getBit_packAtom_y (g : gate_t) (pB hB wB : Nat) (s : List Bool) (i j : Nat)
    (hj : j < hB) (hlen : (i + 1) * (pB + hB + wB) ≤ s.length) :
    getBit (packAtom g pB hB wB s i) (i * (pB + hB + wB) + pB + j) =
      decide ((g.piece_y i / 2 ^ j) % 2 = 1) := by
  unfold packAtom
  simp only
  have e : (i + 1) * (pB + hB + wB) = i * (pB + hB + wB) + (pB + hB + wB) := by ring
  rw [e] at hlen
  rw [getBit_packField, if_neg (by omega), getBit_packField, length_packField,
    if_pos (by omega)]
  have : i * (pB + hB + wB) + pB + j - (i * (pB + hB + wB) + pB) = j := by omega
  rw [this]

theorem getBit_packAtom_x (g : gate_t) (pB hB wB : Nat) (s : List Bool) (i j : Nat)
    (hj : j < wB) (hlen : (i + 1) * (pB + hB + wB) ≤ s.length) :
    getBit (packAtom g pB hB wB s i) (i * (pB + hB + wB) + pB + hB + j) =
      decide ((g.piece_x i / 2 ^ j) % 2 = 1) := by
  unfold packAtom
  simp only
  have e : (i + 1) * (pB + hB + wB) = i * (pB + hB + wB) + (pB + hB + wB) := by ring
  rw [e] at hlen
  rw [getBit_packField, length_packField, length_packField, if_pos (by omega)]
  have : i * (pB + hB + wB) + pB + hB + j - (i * (pB + hB + wB) + pB + hB) = j := by omega
  rw [this]

theorem length_foldl_packAtom (g : gate_t) (pB hB wB : Nat) (s : List Bool) (n : Nat) :
    ((List.range n).foldl (packAtom g pB hB wB) s).length = s.length := by
  induction n with
  | zero => simp
  | succ n ih =>
    rw [List.range_succ, List.foldl_append]
    simp only [List.foldl_cons, List.foldl_nil, length_packAtom, ih]

theorem getBit_foldl_packAtom (g : gate_t) (pB hB wB : Nat) (s : List Bool) (n i t : Nat)
    (hi : i < n) (ht : i * (pB + hB + wB) ≤ t ∧ t < (i + 1) * (pB + hB + wB)) :
    getBit ((List.range n).foldl (packAtom g pB hB wB) s) t =
      getBit (packAtom g pB hB wB ((List.range i).foldl (packAtom g pB hB wB) s) i) t := by
  induction n with
  | zero => omega
  | succ n ih =>
    rw [List.range_succ, List.foldl_append]
    simp only [List.foldl_cons, List.foldl_nil]
    by_cases hin : i = n
    · subst hin; rfl
    · have hlt : i < n := by omega
      rw [getBit_packAtom_outside, ih hlt]
      left
      have : (i + 1) * (pB + hB + wB) ≤ n * (pB + hB + wB) :=
        Nat.mul_le_mul_right _ (by omega)
      omega

theorem int_eq_of_bits (v1 v2 : Int) (nb : Nat) (h1 : 0 ≤ v1) (h2 : 0 ≤ v2)
    (h3 : v1 < 2 ^ nb) (h4 : v2 < 2 ^ nb)
    (h : ∀ j, j < nb → (decide ((v1 / 2 ^ j) % 2 = 1) = decide ((v2 / 2 ^ j) % 2 = 1))) :
    v1 = v2 := by
  obtain ⟨a, rfl⟩ := Int.eq_ofNat_of_zero_le h1
  obtain ⟨b, rfl⟩ := Int.eq_ofNat_of_zero_le h2
  have ha : a < 2 ^ nb := by exact_mod_cast h3
  have hb : b < 2 ^ nb := by exact_mod_cast h4
  congr 1
  apply Nat.eq_of_testBit_eq
  intro j
  by_cases hj : j < nb
  · rw [Nat.testBit_to_div_mod, Nat.testBit_to_div_mod]
    have := h j hj
    have c1 : ((a : Int) / 2 ^ j) % 2 = ((a / 2 ^ j % 2 : Nat) : Int) := by push_cast; rfl
    have c2 : ((b : Int) / 2 ^ j) % 2 = ((b / 2 ^ j % 2 : Nat) : Int) := by push_cast; rfl
    rw [c1, c2] at this
    have d1 : (((a / 2 ^ j % 2 : Nat) : Int) = 1) ↔ (a / 2 ^ j % 2 = 1) := by
      constructor
      · intro h; exact_mod_cast h
      · intro h; exact_mod_cast h
    have d2 : (((b / 2 ^ j % 2 : Nat) : Int) = 1) ↔ (b / 2 ^ j % 2 = 1) := by
      constructor
      · intro h; exact_mod_cast h
      · intro h; exact_mod_cast h
    simp only [d1, d2] at this
    exact this
  · have hle : nb ≤ j := by omega
    have h5 : a < 2 ^ j := lt_of_lt_of_le ha (Nat.pow_le_pow_right (by omega) hle)
    have h6 : b < 2 ^ j := lt_of_lt_of_le hb (Nat.pow_le_pow_right (by omega) hle)
    rw [Nat.testBit_lt_two_pow h5, Nat.testBit_lt_two_pow h6]

theorem le_two_pow_ceilLog2From (fuel value bits : Nat) (h : value ≤ 2 ^ (bits + fuel)) :
    value ≤ 2 ^ ceilLog2From fuel value bits := by
  induction fuel generalizing bits with
  | zero => simpa [ceilLog2From] using h
  | succ fuel ih =>
    unfold ceilLog2From
    split_ifs with hv
    · exact hv
    · apply ih
      have : bits + 1 + fuel = bits + (fuel + 1) := by omega
      rw [this]; exact h

theorem le_two_pow_ceilLog2 (value : Nat) : value ≤ 2 ^ ceilLog2 value := by
  unfold ceilLog2
  apply le_two_pow_ceilLog2From
  simp only [Nat.zero_add]
  exact Nat.le_of_lt (Nat.lt_two_pow value)

theorem le_two_pow_calcBits (value : Nat) : value ≤ 2 ^ calcBits value := by
  unfold calcBits
  split_ifs with h
  · omega
  · exact le_two_pow_ceilLog2 value

theorem Placed.coords_range {r b : gate_t} (hwf : WellFormed r) (hP : Placed r b) (k : Nat)
    (hk : k < r.num_pieces) :
    0 ≤ b.piece_y k ∧ b.piece_y k < r.lines ∧ 0 ≤ b.piece_x k ∧ b.piece_x k < widthOf r := by
  obtain ⟨p, hp, hy, hx⟩ := hP.first k hk
  rw [firstCell_eq_some_iff] at hp
  obtain ⟨hmem, _, _⟩ := hp
  obtain ⟨p1, p2⟩ := p
  rw [mem_positions] at hmem
  obtain ⟨h1, _, _, h3, h4⟩ := hmem
  simp only [Int.toNat_ofNat] at h3 h4
  rw [shapeOf_row _ _ hP.shape] at h4
  rw [shapeOf_length _ _ hP.shape] at h3
  have hrow : (r.map.getD p1 []).length ≤ widthOf r := by
    apply hwf.width
    rw [List.getD_eq_getElem _ _ h3]
    exact List.getElem_mem _
  simp only at hy hx
  rw [hP.lines_eq] at h1
  omega

theorem Placed.atomBits {r b : gate_t} (hP : Placed r b) :
    b.num_pieces = r.num_pieces ∧ b.lines = r.lines ∧ widthOf b = widthOf r := by
  refine ⟨hP.num_pieces_eq, hP.lines_eq, ?_⟩
  unfold widthOf
  rw [hP.num_chars_eq, hP.lines_eq]

theorem length_packedKey (b : gate_t) (pb : Nat) : (packedKey b pb).length = 8 * pb := by
  unfold packedKey packMap
  rw [length_foldl_packAtom]
  simp

theorem Placed.key_bits_y {r b : gate_t} (hP : Placed r b) (pb : Nat)
    (hpb : getPackedSize r ≤ 8 * pb) (k j : Nat) (hk : k < r.num_pieces)
    (hj : j < dimBitsOf r.lines) :
    getBit (packedKey b pb) (k * atomBitsOf r + pBitsOf r.num_pieces + j) =
      decide ((b.piece_y k / 2 ^ j) % 2 = 1) := by
  obtain ⟨e1, e2, e3⟩ := hP.atomBits
  unfold packedKey packMap
  rw [e1, e2, e3]
  have hab : atomBitsOf r =
      pBitsOf r.num_pieces + dimBitsOf r.lines + dimBitsOf (widthOf r) := rfl
  have hle : (k + 1) * atomBitsOf r ≤ 8 * pb := by
    have : (k + 1) * atomBitsOf r ≤ r.num_pieces * atomBitsOf r :=
      Nat.mul_le_mul_right _ (by omega)
    unfold getPackedSize at hpb
    rw [Nat.mul_comm] at hpb
    omega
  rw [hab] at hle ⊢
  have e : (k + 1) * (pBitsOf r.num_pieces + dimBitsOf r.lines + dimBitsOf (widthOf r)) =
      k * (pBitsOf r.num_pieces + dimBitsOf r.lines + dimBitsOf (widthOf r)) +
        (pBitsOf r.num_pieces + dimBitsOf r.lines + dimBitsOf (widthOf r)) := by ring
  rw [getBit_foldl_packAtom _ _ _ _ _ _ k _ hk (by omega), getBit_packAtom_y _ _ _ _ _ _ _ hj]
  rw [length_foldl_packAtom]
  simpa using hle

theorem Placed.key_bits_x {r b : gate_t} (hP : Placed r b) (pb : Nat)
    (hpb : getPackedSize r ≤ 8 * pb) (k j : Nat) (hk : k < r.num_pieces)
    (hj : j < dimBitsOf (widthOf r)) :
    getBit (packedKey b pb)
        (k * atomBitsOf r + pBitsOf r.num_pieces + dimBitsOf r.lines + j) =
      decide ((b.piece_x k / 2 ^ j) % 2 = 1) := by
  obtain ⟨e1, e2, e3⟩ := hP.atomBits
  unfold packedKey packMap
  rw [e1, e2, e3]
  have hab : atomBitsOf r =
      pBitsOf r.num_pieces + dimBitsOf r.lines + dimBitsOf (widthOf r) := rfl
  have hle : (k + 1) * atomBitsOf r ≤ 8 * pb := by
    have : (k + 1) * atomBitsOf r ≤ r.num_pieces * atomBitsOf r :=
      Nat.mul_le_mul_right _ (by omega)
    unfold getPackedSize at hpb
    rw [Nat.mul_comm] at hpb
    omega
  rw [hab] at hle ⊢
  have e : (k + 1) * (pBitsOf r.num_pieces + dimBitsOf r.lines + dimBitsOf (widthOf r)) =
      k * (pBitsOf r.num_pieces + dimBitsOf r.lines + dimBitsOf (widthOf r)) +
        (pBitsOf r.num_pieces + dimBitsOf r.lines + dimBitsOf (widthOf r)) := by ring
  rw [getBit_foldl_packAtom _ _ _ _ _ _ k _ hk (by omega), getBit_packAtom_x _ _ _ _ _ _ _ hj]
  rw [length_foldl_packAtom]
  simpa using hle

/-- Two placements of the same pieces with the same packed key record the same
coordinates for every piece below num_pieces, when the key buffer holds the
packed size. -/
theorem coords_of_packedKey {r a b : gate_t} (hwf : WellFormed r) (ha : Placed r a)
    (hb : Placed r b) (pb : Nat) (hpb : getPackedSize r ≤ 8 * pb)
    (h : packedKey a pb = packedKey b pb) (k : Nat) (hk : k < r.num_pieces) :
    a.piece_x k = b.piece_x k ∧ a.piece_y k = b.piece_y k := by
  obtain ⟨a1, a2, a3, a4⟩ := ha.coords_range hwf k hk
  obtain ⟨b1, b2, b3, b4⟩ := hb.coords_range hwf k hk
  have hl : (r.lines : Int) ≤ 2 ^ dimBitsOf r.lines := by
    have := le_two_pow_calcBits r.lines
    unfold dimBitsOf
    exact_mod_cast this
  have hw : (widthOf r : Int) ≤ 2 ^ dimBitsOf (widthOf r) := by
    have := le_two_pow_calcBits (widthOf r)
    unfold dimBitsOf
    exact_mod_cast this
  constructor
  · apply int_eq_of_bits _ _ (dimBitsOf (widthOf r)) a3 b3 (by omega) (by omega)
    intro j hj
    rw [← ha.key_bits_x pb hpb k j hk hj, ← hb.key_bits_x pb hpb k j hk hj, h]
  · apply int_eq_of_bits _ _ (dimBitsOf r.lines) a1 b1 (by omega) (by omega)
    intro j hj
    rw [← ha.key_bits_y pb hpb k j hk hj, ← hb.key_bits_y pb hpb k j hk hj, h]

/-- Two boards reached from a well-formed board are in the same configuration
as soon as their packed keys agree. -/
theorem sameConfig_of_packedKey {r a b : gate_t} (hwf : WellFormed r) (ha : Placed r a)
    (hb : Placed r b) (pb : Nat) (hpb : getPackedSize r ≤ 8 * pb)
    (h : packedKey a pb = packedKey b pb) : sameConfig a b :=
  sameConfig_of_coords hwf.pieces ha hb (coords_of_packedKey hwf ha hb pb hpb h)

/-! ## The heap order -/

theorem length_pq_swap (nodes : List search_node_t) (a b : Nat) :
    (pq_swap nodes a b).length = nodes.length := by
  unfold pq_swap
  cases nodes.get? a <;> cases nodes.get? b <;> simp

theorem prioAt_pq_swap (nodes : List search_node_t) (a b i : Nat) (ha : a < nodes.length)
    (hb : b < nodes.length) :
    prioAt (pq_swap nodes a b) i =
      if i = b then prioAt nodes a else if i = a then prioAt nodes b else prioAt nodes i := by
  unfold pq_swap prioAt
  have h1 : nodes.get? a = some nodes[a] := by simp [List.getElem?_eq_getElem ha]
  have h2 : nodes.get? b = some nodes[b] := by simp [List.getElem?_eq_getElem hb]
  rw [h1, h2]
  simp only [List.get?_eq_getElem?, List.getElem?_set, List.length_set]
  by_cases hib : i = b
  · subst hib
    simp [hb, List.getElem?_eq_getElem ha]
  · by_cases hia : i = a
    · subst hia
      simp [hib, Ne.symm hib, ha, List.getElem?_eq_getElem hb]
    · simp [hib, hia, Ne.symm hib, Ne.symm hia]

theorem heapOrdered_of_upInv_zero (nodes : List search_node_t) (h : upInv nodes 0) :
    heapOrdered nodes := by
  intro i h1 h2
  exact h.1 i h1 h2 (by omega)

theorem pq_bubble_up_loop_ordered (fuel : Nat) (nodes : List search_node_t) (idx : Nat)
    (hfuel : idx ≤ fuel) (hidx : idx < nodes.length) (h : upInv nodes idx) :
    heapOrdered (pq_bubble_up_loop fuel nodes idx) := by
  induction fuel generalizing nodes idx with
  | zero =>
    have : idx = 0 := by omega
    subst this
    exact heapOrdered_of_upInv_zero nodes h
  | succ fuel ih =>
    unfold pq_bubble_up_loop
    by_cases h0 : idx > 0
    · rw [if_pos h0]
      have hp : (idx - 1) / 2 < idx := by omega
      by_cases hge : prioAt nodes idx ≥ prioAt nodes ((idx - 1) / 2)
      · rw [if_pos hge]
        intro i h1 h2
        by_cases hi : i = idx
        · subst hi; exact hge
        · exact h.1 i h1 h2 hi
      · rw [if_neg hge]
        have hplen : (idx - 1) / 2 < nodes.length := by omega
        apply ih _ _ (by omega) (by rw [length_pq_swap]; exact hplen)
        have hsw := fun i => prioAt_pq_swap nodes idx ((idx - 1) / 2) i hidx hplen
        constructor
        · intro i h1 h2 h3
          rw [length_pq_swap] at h2
          rw [hsw i, hsw ((i - 1) / 2)]
          rw [if_neg h3]
          by_cases hi : i = idx
          · subst hi
            rw [if_pos rfl, if_pos rfl]
            omega
          · rw [if_neg hi]
            by_cases hpi : (i - 1) / 2 = (idx - 1) / 2
            · rw [if_pos hpi]
              have := h.1 i h1 h2 hi
              rw [hpi] at this
              omega
            · rw [if_neg hpi]
              by_cases hpi2 : (i - 1) / 2 = idx
              · rw [if_pos hpi2]
                exact h.2 i h1 h2 hpi2 h0
              · rw [if_neg hpi2]
                exact h.1 i h1 h2 hi
        · intro i h1 h2 h3 h4
          rw [length_pq_swap] at h2
          rw [hsw i, hsw (((idx - 1) / 2 - 1) / 2)]
          have hg1 : ((idx - 1) / 2 - 1) / 2 ≠ (idx - 1) / 2 := by omega
          have hg2 : ((idx - 1) / 2 - 1) / 2 ≠ idx := by omega
          rw [if_neg hg1, if_neg hg2]
          have hgp := h.1 ((idx - 1) / 2) h4 hplen (by omega)
          have hine : i ≠ (idx - 1) / 2 := by omega
          rw [if_neg hine]
          by_cases hi : i = idx
          · rw [if_pos hi]; exact hgp
          · rw [if_neg hi]
            have := h.1 i h1 h2 hi
            rw [h3] at this
            omega
    · rw [if_neg h0]
      have : idx = 0 := by omega
      subst this
      exact heapOrdered_of_upInv_zero nodes h

theorem prioAt_append_left (nodes : List search_node_t) (node : search_node_t) (i : Nat)
    (h : i < nodes.length) : prioAt (nodes ++ [node]) i = prioAt nodes i := by
  unfold prioAt
  simp [List.getElem?_append_left h]

theorem pq_enqueue_ordered (pq : priority_queue_t) (node : search_node_t)
    (h : heapOrdered pq.nodes) : heapOrdered (pq_enqueue pq node).nodes := by
  unfold pq_enqueue pq_bubble_up
  simp only
  have hn : (pq_reserve pq).nodes = pq.nodes := by
    unfold pq_reserve; split <;> rfl
  have hs : (pq_reserve pq).size = pq.nodes.length := by
    unfold priority_queue_t.size; rw [hn]
  rw [hn, hs]
  apply pq_bubble_up_loop_ordered _ _ _ (Nat.le_refl _) (by simp)
  constructor
  · intro i h1 h2 h3
    simp only [List.length_append, List.length_singleton] at h2
    have hi : i < pq.nodes.length := by omega
    rw [prioAt_append_left _ _ _ hi, prioAt_append_left _ _ _ (by omega)]
    exact h i h1 hi
  · intro i h1 h2 h3 _
    simp only [List.length_append, List.length_singleton] at h2
    omega

theorem pq_smallest_cases (nodes : List search_node_t) (idx : Nat) :
    (pq_smallest nodes idx = idx ∧
      (idx * 2 + 1 < nodes.length → prioAt nodes idx ≤ prioAt nodes (idx * 2 + 1)) ∧
      (idx * 2 + 2 < nodes.length → prioAt nodes idx ≤ prioAt nodes (idx * 2 + 2))) ∨
    ((pq_smallest nodes idx = idx * 2 + 1 ∨ pq_smallest nodes idx = idx * 2 + 2) ∧
      pq_smallest nodes idx < nodes.length ∧
      prioAt nodes (pq_smallest nodes idx) < prioAt nodes idx ∧
      (idx * 2 + 1 < nodes.length →
        prioAt nodes (pq_smallest nodes idx) ≤ prioAt nodes (idx * 2 + 1)) ∧
      (idx * 2 + 2 < nodes.length →
        prioAt nodes (pq_smallest nodes idx) ≤ prioAt nodes (idx * 2 + 2))) := by
  unfold pq_smallest
  simp only
  have e : idx * 2 + 1 + 1 = idx * 2 + 2 := rfl
  rw [e]
  by_cases h1 : idx * 2 + 1 < nodes.length ∧ prioAt nodes (idx * 2 + 1) < prioAt nodes idx
  · rw [if_pos h1]
    by_cases h2 : idx * 2 + 2 < nodes.length ∧
        prioAt nodes (idx * 2 + 2) < prioAt nodes (idx * 2 + 1)
    · rw [if_pos h2]
      right
      exact ⟨Or.inr rfl, h2.1, by omega, fun _ => by omega, fun _ => by omega⟩
    · rw [if_neg h2]
      right
      exact ⟨Or.inl rfl, h1.1, h1.2, fun _ => by omega, fun h => by omega⟩
  · rw [if_neg h1]
    by_cases h2 : idx * 2 + 2 < nodes.length ∧ prioAt nodes (idx * 2 + 2) < prioAt nodes idx
    · rw [if_pos h2]
      right
      exact ⟨Or.inr rfl, h2.1, h2.2, fun h => by omega, fun _ => by omega⟩
    · rw [if_neg h2]
      left
      exact ⟨rfl, fun h => by omega, fun h => by omega⟩

theorem pq_bubble_down_loop_ordered (fuel : Nat) (nodes : List search_node_t) (idx : Nat)
    (hfuel : nodes.length ≤ idx + fuel) (h : downInv nodes idx) :
    heapOrdered (pq_bubble_down_loop fuel nodes idx) := by
  induction fuel generalizing nodes idx with
  | zero =>
    unfold pq_bubble_down_loop
    intro i h1 h2
    exact h.1 i h1 h2 (by omega)
  | succ fuel ih =>
    unfold pq_bubble_down_loop
    rcases pq_smallest_cases nodes idx with ⟨hs, hl, hr⟩ | ⟨hs, hslen, hlt, hl, hr⟩
    · rw [if_pos hs]
      intro i h1 h2
      by_cases hp : (i - 1) / 2 = idx
      · rw [hp]
        have : i = idx * 2 + 1 ∨ i = idx * 2 + 2 := by omega
        rcases this with rfl | rfl
        · exact hl h2
        · exact hr h2
      · exact h.1 i h1 h2 hp
    · have hne : pq_smallest nodes idx ≠ idx := by omega
      rw [if_neg hne]
      have hidx : idx < nodes.length := by omega
      apply ih _ _ (by rw [length_pq_swap]; omega)
      have hsw := fun i => prioAt_pq_swap nodes idx (pq_smallest nodes idx) i hidx hslen
      generalize pq_smallest nodes idx = s at *
      have hps : (s - 1) / 2 = idx := by omega
      constructor
      · intro i h1 h2 h3
        rw [length_pq_swap] at h2
        rw [hsw i, hsw ((i - 1) / 2)]
        rw [if_neg h3]
        by_cases hpi : (i - 1) / 2 = idx
        · rw [if_pos hpi]
          have hi : i = idx * 2 + 1 ∨ i = idx * 2 + 2 := by omega
          by_cases his : i = s
          · rw [if_pos his]; omega
          · rw [if_neg his, if_neg (by omega)]
            rcases hi with rfl | rfl
            · exact hl h2
            · exact hr h2
        · rw [if_neg hpi]
          by_cases his : i = s
          · omega
          · rw [if_neg his]
            by_cases hii : i = idx
            · rw [if_pos hii]
              subst hii
              have h0 : 0 < i := h1
              have := h.2 s (by omega) hslen hps h0
              exact this
            · rw [if_neg hii]
              exact h.1 i h1 h2 hpi
      · intro i h1 h2 h3 h4
        rw [length_pq_swap] at h2
        rw [hsw i, hsw ((s - 1) / 2)]
        rw [hps, if_neg (by omega), if_pos rfl, if_neg (by omega), if_neg (by omega)]
        have := h.1 i h1 h2 (by omega)
        rw [h3] at this
        exact this

theorem heapOrdered_root_le (nodes : List search_node_t) (h : heapOrdered nodes) (i : Nat)
    (hi : i < nodes.length) : prioAt nodes 0 ≤ prioAt nodes i := by
  induction i using Nat.strong_induction_on with
  | _ i ih =>
    by_cases h0 : i = 0
    · subst h0; exact Nat.le_refl _
    · have := h i (by omega) hi
      have := ih ((i - 1) / 2) (by omega) (by omega)
      omega

theorem prioAt_of_get? (nodes : List search_node_t) (i : Nat) (x : search_node_t)
    (h : nodes.get? i = some x) : prioAt nodes i = x.priority := by
  unfold prioAt
  rw [h]

theorem heapOrdered_min (nodes : List search_node_t) (h : heapOrdered nodes)
    (first : search_node_t) (rest : List search_node_t) (hn : nodes = first :: rest)
    (x : search_node_t) (hx : x ∈ nodes) : first.priority ≤ x.priority := by
  obtain ⟨i, hi, hxi⟩ := List.getElem_of_mem hx
  have h1 := heapOrdered_root_le nodes h i hi
  have h2 : prioAt nodes 0 = first.priority := by
    apply prioAt_of_get?
    rw [hn]; rfl
  have h3 : prioAt nodes i = x.priority := by
    apply prioAt_of_get?
    rw [List.get?_eq_getElem?, List.getElem?_eq_getElem hi, hxi]
  omega

theorem prioAt_replace_root (first last : search_node_t) (rest : List search_node_t) (j : Nat)
    (h1 : 0 < j) (h2 : j < rest.length) :
    prioAt (last :: rest.dropLast) j = prioAt (first :: rest) j := by
  unfold prioAt
  obtain ⟨j1, rfl⟩ : ∃ j1, j = j1 + 1 := ⟨j - 1, by omega⟩
  simp only [List.get?_eq_getElem?, List.getElem?_cons_succ]
  rw [List.dropLast_eq_take, List.getElem?_take_of_lt (by omega)]

theorem pq_dequeue_ordered (pq : priority_queue_t) (node : search_node_t)
    (pq1 : priority_queue_t) (h : heapOrdered pq.nodes)
    (hd : pq_dequeue pq = (some node, pq1)) :
    heapOrdered pq1.nodes ∧ ∀ x ∈ pq.nodes, node.priority ≤ x.priority := by
  unfold pq_dequeue at hd
  cases hn : pq.nodes with
  | nil => rw [hn] at hd; simp at hd
  | cons first rest =>
    rw [hn] at hd
    simp only at hd
    have hmin : ∀ x ∈ first :: rest, first.priority ≤ x.priority := by
      intro x hx
      exact heapOrdered_min pq.nodes h first rest hn x (by rw [hn]; exact hx)
    cases hl : rest.getLast? with
    | none =>
      rw [hl] at hd
      simp only [Prod.mk.injEq, Option.some.injEq] at hd
      obtain ⟨rfl, rfl⟩ := hd
      refine ⟨?_, hmin⟩
      intro i _ h2
      simp at h2
    | some last =>
      rw [hl] at hd
      simp only [Prod.mk.injEq, Option.some.injEq] at hd
      obtain ⟨rfl, rfl⟩ := hd
      refine ⟨?_, hmin⟩
      simp only
      unfold pq_bubble_down
      apply pq_bubble_down_loop_ordered _ _ _ (by omega)
      have hlen : (last :: rest.dropLast).length = rest.length := by
        have : rest ≠ [] := by
          intro hc; rw [hc] at hl; simp at hl
        simp only [List.length_cons, List.length_dropLast]
        have := List.length_pos.mpr this
        omega
      rw [hn] at h
      constructor
      · intro i h1 h2 h3
        rw [hlen] at h2
        rw [prioAt_replace_root first last rest i h1 h2,
          prioAt_replace_root first last rest _ (by omega) (by omega)]
        exact h i h1 (by simp; omega)
      · intro i _ _ _ h4
        omega

/-! ## Termination of the main loop -/

theorem nodup_bitlists_length (l : List (List Bool)) (L : Nat) (hn : l.Nodup)
    (hl : ∀ k ∈ l, k.length = L) : l.length ≤ 2 ^ L := by
  let f : List Bool → (Fin L → Bool) := fun k i => k.getD i.val false
  have hinj : ∀ a ∈ l, ∀ b ∈ l, f a = f b → a = b := by
    intro a ha b hb hab
    apply List.ext_getElem
    · rw [hl a ha, hl b hb]
    · intro i h1 h2
      have hi : i < L := by rw [← hl a ha]; exact h1
      have := congrFun hab ⟨i, hi⟩
      simp only [f] at this
      rw [List.getD_eq_getElem _ _ h1, List.getD_eq_getElem _ _ h2] at this
      exact this
  have hmap : (l.map f).Nodup := List.Nodup.map_on hinj hn
  have := List.Nodup.length_le_card hmap
  simpa using this

theorem closed_length_le (n pb : Nat) (keys : List (Nat × List Bool)) (hn : keys.Nodup)
    (hk : ∀ e ∈ keys, e.1 = n ∧ e.2.length = 8 * pb) : keys.length ≤ 2 ^ (8 * pb) := by
  have hinj : ∀ a ∈ keys, ∀ b ∈ keys, a.2 = b.2 → a = b := by
    intro a ha b hb hab
    apply Prod.ext
    · rw [(hk a ha).1, (hk b hb).1]
    · exact hab
  have hmap : (keys.map Prod.snd).Nodup := List.Nodup.map_on hinj hn
  have := nodup_bitlists_length (keys.map Prod.snd) (8 * pb) hmap (by
    intro k hkm
    rw [List.mem_map] at hkm
    obtain ⟨e, he, rfl⟩ := hkm
    exact (hk e he).2)
  simpa using this

theorem apply_action_num_pieces (b : gate_t) (p d : Nat) (b1 : gate_t)
    (h : apply_action b p d = some b1) : b1.num_pieces = b.num_pieces := by
  obtain ⟨hs, rfl⟩ := apply_action_some b p d b1 h
  simp only
  rw [apply_move_in_place_fst _ p d hs, (locate_fields _ _ _).2.1]
  simp only [(locate_fields _ _ _).2.1]
  rfl

theorem length_moveOrder (n : Nat) : (moveOrder n).length = 4 * n := by
  unfold moveOrder
  induction n with
  | zero => simp
  | succ n ih =>
    rw [List.range_succ, List.flatMap_append, List.length_append, ih]
    simp
    omega

theorem expand_move_cases (nl ab pb : Nat) (current : search_node_t) (vars : search_vars)
    (move : Nat × Nat) :
    expand_move nl ab pb current vars move = vars ∨
    expand_move nl ab pb current vars move =
      { vars with result := { vars.result with duplicated := vars.result.duplicated + 1 } } ∨
    ∃ next, apply_action current.state (pieceNames.getD move.1 0) (directions.getD move.2 0) =
        some next ∧
      checkPresent vars.expandedStates (packedKey next pb) next.num_pieces = false ∧
      expand_move nl ab pb current vars move =
        { vars with
          pq := pq_enqueue vars.pq
            (create_search_node next (current.depth + 1) (pieceNames.getD move.1 0)
              (directions.getD move.2 0))
          result := { vars.result with generated := vars.result.generated + 1 } } := by
  unfold expand_move
  cases ha : apply_action current.state (pieceNames.getD move.1 0) (directions.getD move.2 0) with
  | none => exact Or.inl rfl
  | some next =>
    simp only
    cases hc : checkPresent vars.expandedStates (packedKey next pb) next.num_pieces with
    | true => exact Or.inr (Or.inl (by simp))
    | false =>
      simp only [Bool.false_eq_true, if_false]
      by_cases hnl : nl > 0
      · simp only [hnl, if_true]
        cases hs : novelty_skip vars.partialStates (packedKey next pb) next.num_pieces nl ab with
        | true => exact Or.inr (Or.inl (by simp))
        | false => exact Or.inr (Or.inr ⟨next, rfl, hc, by simp⟩)
      · simp only [hnl, if_false]
        exact Or.inr (Or.inr ⟨next, rfl, hc, by simp⟩)

theorem expand_move_length (nl ab pb : Nat) (current : search_node_t) (vars : search_vars)
    (move : Nat × Nat) :
    (expand_move nl ab pb current vars move).pq.nodes.length ≤ vars.pq.nodes.length + 1 := by
  rcases expand_move_cases nl ab pb current vars move with h | h | ⟨next, _, _, h⟩
  · rw [h]; omega
  · rw [h]; simp only; omega
  · rw [h]
    simp only
    have := (pq_enqueue_perm vars.pq (create_search_node next (current.depth + 1)
      (pieceNames.getD move.1 0) (directions.getD move.2 0))).length_eq
    simp only [List.length_cons] at this
    omega

theorem foldl_expand_move_length (nl ab pb : Nat) (current : search_node_t)
    (moves : List (Nat × Nat)) (vars : search_vars) :
    (moves.foldl (expand_move nl ab pb current) vars).pq.nodes.length ≤
      vars.pq.nodes.length + moves.length := by
  induction moves generalizing vars with
  | nil => simp
  | cons m rest ih =>
    rw [List.foldl_cons]
    have h1 := ih (expand_move nl ab pb current vars m)
    have h2 := expand_move_length nl ab pb current vars m
    simp only [List.length_cons]
    omega

theorem search_step_termInv (nl ab pb n : Nat) (vars : search_vars) (h : termInv n pb vars) :
    termInv n pb (search_step nl ab pb vars) := by
  obtain ⟨h1, h2, h3⟩ := h
  rcases hdq : pq_dequeue vars.pq with ⟨_ | current, pq1⟩
  · rw [search_step_none nl ab pb vars pq1 hdq]; exact ⟨h1, h2, h3⟩
  · have hperm := pq_dequeue_perm vars.pq current pq1 hdq
    have hcur : current.state.num_pieces = n :=
      h3 current (hperm.mem_iff.mpr (List.mem_cons_self _ _))
    have hrest : ∀ node ∈ pq1.nodes, node.state.num_pieces = n :=
      fun node hn => h3 node (hperm.mem_iff.mpr (List.mem_cons_of_mem _ hn))
    cases hw : winning_state current.state with
    | true =>
      rw [search_step_win nl ab pb vars current pq1 hdq hw]
      exact ⟨h1, h2, hrest⟩
    | false =>
      cases hc : checkPresent vars.expandedStates (packedKey current.state pb)
          current.state.num_pieces with
      | true =>
        rw [search_step_dup nl ab pb vars current pq1 hdq hw hc]
        exact ⟨h1, h2, hrest⟩
      | false =>
        have hnd := search_step_keys_nodup nl ab pb vars h1
        rw [search_step_expand nl ab pb vars current pq1 hdq hw hc] at hnd ⊢
        refine ⟨hnd, ?_, ?_⟩
        · rw [(foldl_expand_move_tries nl ab pb _ _ _).1]
          intro e he
          simp only [expand_start, insertRadixTree, List.mem_cons] at he
          rcases he with rfl | he
          · exact ⟨hcur, length_packedKey _ _⟩
          · exact h2 e he
        · intro node hn
          rcases foldl_expand_move_mem nl ab pb current _ _ node hn with h4 | ⟨mv, next, h4, h5⟩
          · exact hrest node h4
          · rw [h5]
            simp only [create_search_node]
            rw [apply_action_num_pieces _ _ _ _ h4, hcur]

theorem search_step_measure (nl ab pb n : Nat) (vars : search_vars) (h : termInv n pb vars)
    (hne : pq_is_empty vars.pq = false)
    (hns : (search_step nl ab pb vars).result.solved = false) :
    searchMeasure n pb (search_step nl ab pb vars) < searchMeasure n pb vars := by
  have hinv := search_step_termInv nl ab pb n vars h
  obtain ⟨h1, h2, h3⟩ := h
  rcases hdq : pq_dequeue vars.pq with ⟨_ | current, pq1⟩
  · have := pq_dequeue_none vars.pq pq1 hdq
    have he := (pq_is_empty_iff vars.pq).mpr this
    rw [he] at hne
    exact absurd hne (by simp)
  · have hperm := pq_dequeue_perm vars.pq current pq1 hdq
    have hlen := hperm.length_eq
    simp only [List.length_cons] at hlen
    have hcur : current.state.num_pieces = n :=
      h3 current (hperm.mem_iff.mpr (List.mem_cons_self _ _))
    cases hw : winning_state current.state with
    | true =>
      rw [search_step_win nl ab pb vars current pq1 hdq hw] at hns
      simp at hns
    | false =>
      cases hc : checkPresent vars.expandedStates (packedKey current.state pb)
          current.state.num_pieces with
      | true =>
        rw [search_step_dup nl ab pb vars current pq1 hdq hw hc]
        unfold searchMeasure
        simp only
        omega
      | false =>
        rw [search_step_expand nl ab pb vars current pq1 hdq hw hc] at hinv ⊢
        have hk := closed_length_le n pb _ hinv.1 hinv.2.1
        have hq := foldl_expand_move_length nl ab pb current
          (moveOrder current.state.num_pieces) (expand_start nl ab pb vars current pq1)
        rw [length_moveOrder] at hq
        unfold searchMeasure
        rw [(foldl_expand_move_tries nl ab pb _ _ _).1] at hk ⊢
        generalize ((moveOrder current.state.num_pieces).foldl (expand_move nl ab pb current)
          (expand_start nl ab pb vars current pq1)).pq.nodes.length = len at hq ⊢
        rw [hcur] at hq
        simp only [expand_start, insertRadixTree, List.length_cons] at hk hq ⊢
        have e : 2 ^ (8 * pb) - vars.expandedStates.keys.length =
            (2 ^ (8 * pb) - (vars.expandedStates.keys.length + 1)) + 1 := by omega
        rw [e, Nat.mul_add]
        omega

theorem search_loop_terminal (nl ab pb n : Nat) (fuel : Nat) (vars : search_vars)
    (h : termInv n pb vars) (hm : searchMeasure n pb vars ≤ fuel) :
    (search_loop nl ab pb fuel vars).result.solved = true ∨
      pq_is_empty (search_loop nl ab pb fuel vars).pq = true := by
  induction fuel generalizing vars with
  | zero =>
    right
    unfold search_loop
    rw [pq_is_empty_iff]
    unfold searchMeasure at hm
    have : vars.pq.nodes.length = 0 := by omega
    exact List.length_eq_zero.mp this
  | succ fuel ih =>
    unfold search_loop
    by_cases he : pq_is_empty vars.pq = true
    · rw [if_pos he]; exact Or.inr he
    · rw [if_neg he]
      have he2 : pq_is_empty vars.pq = false := by simpa using he
      by_cases hs : (search_step nl ab pb vars).result.solved = true
      · rw [if_pos hs]; exact Or.inl hs
      · rw [if_neg hs]
        have hs2 : (search_step nl ab pb vars).result.solved = false := by simpa using hs
        apply ih _ (search_step_termInv nl ab pb n vars h)
        have := search_step_measure nl ab pb n vars h he2 hs2
        omega

theorem search_loop_stable (nl ab pb : Nat) (fuel extra : Nat) (vars : search_vars)
    (hv : vars.result.solved = false)
    (h : (search_loop nl ab pb fuel vars).result.solved = true ∨
      pq_is_empty (search_loop nl ab pb fuel vars).pq = true) :
    search_loop nl ab pb (fuel + extra) vars = search_loop nl ab pb fuel vars := by
  induction fuel generalizing vars with
  | zero =>
    unfold search_loop at h
    rcases h with h | h
    · rw [hv] at h; exact absurd h (by simp)
    · cases extra with
      | zero => rfl
      | succ extra =>
        simp only [Nat.zero_add]
        unfold search_loop
        rw [if_pos h]
  | succ fuel ih =>
    have e : fuel + 1 + extra = (fuel + extra) + 1 := by omega
    rw [e]
    unfold search_loop at h ⊢
    by_cases he : pq_is_empty vars.pq = true
    · rw [if_pos he, if_pos he]
    · rw [if_neg he] at h ⊢
      rw [if_neg he]
      by_cases hs : (search_step nl ab pb vars).result.solved = true
      · rw [if_pos hs, if_pos hs]
      · rw [if_neg hs] at h ⊢
        rw [if_neg hs]
        exact ih _ (by simpa using hs) h

theorem search_init_termInv (init_data : gate_t) (width_limit : Int) (pb : Nat) :
    termInv (duplicate_state init_data).num_pieces pb (search_init init_data width_limit) := by
  refine ⟨?_, ?_, ?_⟩
  · simp [search_init, getNewRadixTree]
  · simp [search_init, getNewRadixTree]
  · intro node hn
    have := (pq_enqueue_perm init_priority_queue
      (create_search_node (duplicate_state init_data) 0 0 0)).mem_iff.mp hn
    simp only [init_priority_queue, List.mem_singleton] at this
    subst this
    rfl

theorem search_init_measure (init_data : gate_t) (width_limit : Int) (pb : Nat) :
    searchMeasure init_data.num_pieces pb (search_init init_data width_limit) =
      searchFuel init_data pb := by
  unfold searchMeasure searchFuel
  have := (pq_enqueue_perm init_priority_queue
    (create_search_node (duplicate_state init_data) 0 0 0)).length_eq
  simp only [init_priority_queue, List.length_cons, List.length_nil] at this
  simp only [search_init, getNewRadixTree, List.length_nil, Nat.sub_zero]
  simp only [init_priority_queue]
  rw [this]

/-- The main loop of run_search ends by its own condition, for every board and
every width limit: after searchFuel turns the search is solved or the queue is
empty, and more fuel does not change the outcome. -/
theorem run_search_terminates (init_data : gate_t) (width_limit : Int) (packedBytes : Nat) :
    ((search_after init_data width_limit packedBytes
        (searchFuel init_data (clampBytes packedBytes))).result.solved = true ∨
      pq_is_empty (search_after init_data width_limit packedBytes
        (searchFuel init_data (clampBytes packedBytes))).pq = true) ∧
    ∀ extra, search_after init_data width_limit packedBytes
        (searchFuel init_data (clampBytes packedBytes) + extra) =
      search_after init_data width_limit packedBytes
        (searchFuel init_data (clampBytes packedBytes)) := by
  have hterm := search_loop_terminal (noveltyLimitOf init_data width_limit)
    (atomBitsOf init_data) (clampBytes packedBytes) init_data.num_pieces
    (searchFuel init_data (clampBytes packedBytes)) (search_init init_data width_limit)
    (search_init_termInv init_data width_limit _)
    (by rw [search_init_measure])
  refine ⟨hterm, fun extra => ?_⟩
  unfold search_after
  exact search_loop_stable _ _ _ _ extra _ rfl hterm

/-! ## Uniform-cost search: the frontier invariant -/

theorem search_loop_invariant2 (nl ab pb : Nat) (P : search_vars → Prop)
    (hstep : ∀ vars, P vars → vars.result.solved = false → pq_is_empty vars.pq = false →
      P (search_step nl ab pb vars))
    (fuel : Nat) (vars : search_vars) (h : P vars) (hs : vars.result.solved = false) :
    P (search_loop nl ab pb fuel vars) := by
  induction fuel generalizing vars with
  | zero => exact h
  | succ fuel ih =>
    unfold search_loop
    by_cases he : pq_is_empty vars.pq = true
    · rw [if_pos he]; exact h
    · rw [if_neg he]
      have he2 : pq_is_empty vars.pq = false := by simpa using he
      by_cases hsol : (search_step nl ab pb vars).result.solved = true
      · rw [if_pos hsol]; exact hstep vars h hs he2
      · rw [if_neg hsol]
        exact ih _ (hstep vars h hs he2) (by simpa using hsol)

theorem apply_moves_snoc_inv (b : gate_t) (moves : List (Nat × Nat)) (m : Nat × Nat)
    (b2 : gate_t) (h : apply_moves b (moves ++ [m]) = some b2) :
    ∃ b1, apply_moves b moves = some b1 ∧ apply_action b1 m.1 m.2 = some b2 := by
  induction moves generalizing b with
  | nil =>
    simp only [List.nil_append, apply_moves] at h
    cases ha : apply_action b m.1 m.2 with
    | none => rw [ha] at h; simp at h
    | some b3 =>
      rw [ha] at h
      simp only [Option.some.injEq] at h
      subst h
      exact ⟨b, rfl, ha⟩
  | cons m0 rest ih =>
    simp only [List.cons_append, apply_moves] at h ⊢
    cases ha : apply_action b m0.1 m0.2 with
    | none => rw [ha] at h; simp at h
    | some b3 =>
      rw [ha] at h
      simp only at h ⊢
      exact ih b3 h

theorem reached_placed {r : gate_t} (hwf : WellFormed r) (moves : List (Nat × Nat))
    (b : gate_t) (h : apply_moves r moves = some b) : Placed r b :=
  Placed.of_moves hwf moves r b (Placed.refl r hwf) h

theorem reached_sameConfig {r : gate_t} (hwf : WellFormed r) (pb : Nat)
    (hpb : getPackedSize r ≤ 8 * pb) (m1 m2 : List (Nat × Nat)) (b1 b2 : gate_t)
    (h1 : apply_moves r m1 = some b1) (h2 : apply_moves r m2 = some b2)
    (hk : packedKey b1 pb = packedKey b2 pb) : sameConfig b1 b2 :=
  sameConfig_of_packedKey hwf (reached_placed hwf m1 b1 h1) (reached_placed hwf m2 b2 h2)
    pb hpb hk

theorem ucsInv_frontier {r : gate_t} {pb : Nat} {vars : search_vars} (h : ucsInv r pb vars)
    (moves : List (Nat × Nat)) (b : gate_t) (hb : apply_moves r moves = some b) :
    (r.num_pieces, packedKey b pb) ∈ vars.expandedStates.keys ∨
      ∃ node ∈ vars.pq.nodes, node.depth ≤ moves.length := by
  obtain ⟨_, _, _, h0, h2⟩ := h
  induction moves using List.reverseRecOn generalizing b with
  | nil =>
    simp only [apply_moves, Option.some.injEq] at hb
    subst hb
    rcases h0 with h0 | ⟨node, hn, _, hd⟩
    · exact Or.inl h0
    · exact Or.inr ⟨node, hn, by omega⟩
  | append_singleton ms m ih =>
    obtain ⟨b0, hb0, ha⟩ := apply_moves_snoc_inv r ms m b hb
    rcases ih b0 hb0 with hc | ⟨node, hn, hd⟩
    · rcases h2 ms b0 m b hb0 hc ha with h3 | ⟨node, hn, _, hd⟩
      · exact Or.inl h3
      · exact Or.inr ⟨node, hn, by simp only [List.length_append, List.length_singleton]; omega⟩
    · exact Or.inr ⟨node, hn, by simp only [List.length_append, List.length_singleton]; omega⟩

theorem ucsInv_closed_not_winning {r : gate_t} {pb : Nat} {vars : search_vars}
    (hwf : WellFormed r) (hpb : getPackedSize r ≤ 8 * pb) (h : ucsInv r pb vars)
    (moves : List (Nat × Nat)) (b : gate_t) (hb : apply_moves r moves = some b)
    (hc : (r.num_pieces, packedKey b pb) ∈ vars.expandedStates.keys) :
    winning_state b = false := by
  obtain ⟨b0, moves0, h1, h2, h3⟩ := h.2.2.1 _ hc
  simp only [Prod.mk.injEq, true_and] at h2
  have := reached_sameConfig hwf pb hpb moves moves0 b b0 hb h1 h2
  rw [sameConfig_winning this]
  exact h3

theorem move_in_moveOrder (n pc d : Nat) (h1 : 48 ≤ pc) (h2 : pc - 48 < n)
    (h3 : pc - 48 < MAX_PIECES) (h4 : is_valid_direction d = true) :
    (pc - 48, directionIndex d) ∈ moveOrder n ∧ pieceNames.getD (pc - 48) 0 = pc ∧
      directions.getD (directionIndex d) 0 = d := by
  have hd := valid_direction_cases d h4
  refine ⟨?_, ?_, ?_⟩
  · unfold moveOrder
    rw [List.mem_flatMap]
    refine ⟨pc - 48, List.mem_range.mpr h2, ?_⟩
    rw [List.mem_map]
    refine ⟨directionIndex d, List.mem_range.mpr ?_, rfl⟩
    unfold directionIndex
    split_ifs <;> omega
  · have h5 : pc - 48 < 10 := h3
    obtain ⟨k, hk⟩ : ∃ k, k = pc - 48 := ⟨_, rfl⟩
    rw [← hk] at h5 ⊢
    have hpc : pc = 48 + k := by omega
    subst hpc
    unfold pieceNames
    interval_cases k <;> rfl
  · unfold directionIndex directions
    rcases hd with h | h | h | h <;> subst h <;> rfl

theorem expand_move_ordered (nl ab pb : Nat) (current : search_node_t) (vars : search_vars)
    (move : Nat × Nat) (h : heapOrdered vars.pq.nodes) :
    heapOrdered (expand_move nl ab pb current vars move).pq.nodes := by
  rcases expand_move_cases nl ab pb current vars move with h1 | h1 | ⟨next, _, _, h1⟩
  · rw [h1]; exact h
  · rw [h1]; exact h
  · rw [h1]; exact pq_enqueue_ordered _ _ h

theorem foldl_expand_move_ordered (nl ab pb : Nat) (current : search_node_t)
    (moves : List (Nat × Nat)) (vars : search_vars) (h : heapOrdered vars.pq.nodes) :
    heapOrdered (moves.foldl (expand_move nl ab pb current) vars).pq.nodes := by
  induction moves generalizing vars with
  | nil => exact h
  | cons m rest ih =>
    rw [List.foldl_cons]
    exact ih _ (expand_move_ordered nl ab pb current vars m h)

theorem expand_move_mono (nl ab pb : Nat) (current : search_node_t) (vars : search_vars)
    (move : Nat × Nat) (node : search_node_t) (h : node ∈ vars.pq.nodes) :
    node ∈ (expand_move nl ab pb current vars move).pq.nodes := by
  rcases expand_move_cases nl ab pb current vars move with h1 | h1 | ⟨next, _, _, h1⟩
  · rw [h1]; exact h
  · rw [h1]; exact h
  · rw [h1]
    exact (pq_enqueue_perm _ _).mem_iff.mpr (List.mem_cons_of_mem _ h)

theorem foldl_expand_move_mono (nl ab pb : Nat) (current : search_node_t)
    (moves : List (Nat × Nat)) (vars : search_vars) (node : search_node_t)
    (h : node ∈ vars.pq.nodes) :
    node ∈ (moves.foldl (expand_move nl ab pb current) vars).pq.nodes := by
  induction moves generalizing vars with
  | nil => exact h
  | cons m rest ih =>
    rw [List.foldl_cons]
    exact ih _ (expand_move_mono nl ab pb current vars m node h)

theorem expand_move_covers (ab pb : Nat) (current : search_node_t) (vars : search_vars)
    (move : Nat × Nat) (next : gate_t)
    (ha : apply_action current.state (pieceNames.getD move.1 0) (directions.getD move.2 0) =
      some next) :
    checkPresent vars.expandedStates (packedKey next pb) next.num_pieces = true ∨
      create_search_node next (current.depth + 1) (pieceNames.getD move.1 0)
        (directions.getD move.2 0) ∈ (expand_move 0 ab pb current vars move).pq.nodes := by
  cases hc : checkPresent vars.expandedStates (packedKey next pb) next.num_pieces with
  | true => exact Or.inl rfl
  | false =>
    right
    unfold expand_move
    rw [ha]
    simp only [hc, Bool.false_eq_true, if_false, gt_iff_lt, Nat.lt_irrefl]
    exact (pq_enqueue_perm _ _).mem_iff.mpr (List.mem_cons_self _ _)

theorem foldl_expand_move_covers (ab pb : Nat) (current : search_node_t)
    (moves : List (Nat × Nat)) (vars : search_vars) (move : Nat × Nat) (hm : move ∈ moves)
    (next : gate_t)
    (ha : apply_action current.state (pieceNames.getD move.1 0) (directions.getD move.2 0) =
      some next) :
    checkPresent vars.expandedStates (packedKey next pb) next.num_pieces = true ∨
      create_search_node next (current.depth + 1) (pieceNames.getD move.1 0)
        (directions.getD move.2 0) ∈ (moves.foldl (expand_move 0 ab pb current) vars).pq.nodes := by
  induction moves generalizing vars with
  | nil => simp at hm
  | cons m rest ih =>
    rw [List.foldl_cons]
    rcases List.mem_cons.mp hm with rfl | hm
    · rcases expand_move_covers ab pb current vars move next ha with h | h
      · exact Or.inl h
      · exact Or.inr (foldl_expand_move_mono 0 ab pb current rest _ _ h)
    · have := ih (expand_move 0 ab pb current vars m) hm
      rw [(expand_move_tries 0 ab pb current vars m).1] at this
      exact this

theorem search_step_ucsFull {r : gate_t} (hwf : WellFormed r) (ab pb : Nat)
    (hpb : getPackedSize r ≤ 8 * pb) (vars : search_vars) (h : ucsFull r pb vars)
    (hs : vars.result.solved = false) :
    ucsFull r pb (search_step 0 ab pb vars) := by
  have hinv := h.1 hs
  obtain ⟨hheap, hsound, hclosed, h0, h2⟩ := hinv
  rcases hdq : pq_dequeue vars.pq with ⟨_ | current, pq1⟩
  · rw [search_step_none 0 ab pb vars pq1 hdq]; exact h
  · have hperm := pq_dequeue_perm vars.pq current pq1 hdq
    obtain ⟨hheap1, hmin⟩ := pq_dequeue_ordered vars.pq current pq1 hheap hdq
    have hcurmem : current ∈ vars.pq.nodes := hperm.mem_iff.mpr (List.mem_cons_self _ _)
    obtain ⟨hprio, movesc, hlenc, hreachc⟩ := hsound current hcurmem
    have hsplit : ∀ node ∈ vars.pq.nodes, node = current ∨ node ∈ pq1.nodes := by
      intro node hn
      exact List.mem_cons.mp (hperm.mem_iff.mp hn)
    have hrest : ∀ node ∈ pq1.nodes, node ∈ vars.pq.nodes :=
      fun node hn => hperm.mem_iff.mpr (List.mem_cons_of_mem _ hn)
    have hplaced := reached_placed hwf movesc current.state hreachc
    have hnum : current.state.num_pieces = r.num_pieces := hplaced.num_pieces_eq
    cases hw : winning_state current.state with
    | true =>
      rw [search_step_win 0 ab pb vars current pq1 hdq hw]
      refine ⟨fun hc => by simp at hc, fun _ => ?_⟩
      refine ⟨current.state, movesc, rfl, rfl, hw, hreachc, ?_⟩
      intro moves1 b1 hb1 hw1
      rcases ucsInv_frontier (h.1 hs) moves1 b1 hb1 with hc | ⟨node, hn, hd⟩
      · have := ucsInv_closed_not_winning hwf hpb (h.1 hs) moves1 b1 hb1 hc
        rw [hw1] at this
        exact absurd this (by simp)
      · have h3 := hmin node hn
        have h4 := (hsound node hn).1
        omega
    | false =>
      cases hc : checkPresent vars.expandedStates (packedKey current.state pb)
          current.state.num_pieces with
      | true =>
        rw [search_step_dup 0 ab pb vars current pq1 hdq hw hc]
        have hckey : (r.num_pieces, packedKey current.state pb) ∈ vars.expandedStates.keys := by
          rw [← hnum]; exact (checkPresent_iff _ _ _).mp hc
        refine ⟨fun _ => ?_, fun hc2 => by simp only at hc2; rw [hs] at hc2; simp at hc2⟩
        refine ⟨hheap1, fun node hn => hsound node (hrest node hn), hclosed, ?_, ?_⟩
        · rcases h0 with h0 | ⟨node, hn, hk, hd⟩
          · exact Or.inl h0
          · rcases hsplit node hn with rfl | hn1
            · left; rw [← hk]; exact hckey
            · exact Or.inr ⟨node, hn1, hk, hd⟩
        · intro moves b m b1 hb hcb ha
          rcases h2 moves b m b1 hb hcb ha with h3 | ⟨node, hn, hk, hd⟩
          · exact Or.inl h3
          · rcases hsplit node hn with rfl | hn1
            · left; rw [← hk]; exact hckey
            · exact Or.inr ⟨node, hn1, hk, hd⟩
      | false =>
        rw [search_step_expand 0 ab pb vars current pq1 hdq hw hc]
        have hnotin : (r.num_pieces, packedKey current.state pb) ∉ vars.expandedStates.keys := by
          intro hmem
          rw [← hnum] at hmem
          have := (checkPresent_iff _ _ _).mpr hmem
          rw [hc] at this
          exact absurd this (by simp)
        obtain ⟨r1, r2, r3, _⟩ := foldl_expand_move_result 0 ab pb current
          (moveOrder current.state.num_pieces) (expand_start 0 ab pb vars current pq1)
        have hkeys := (foldl_expand_move_tries 0 ab pb current
          (moveOrder current.state.num_pieces) (expand_start 0 ab pb vars current pq1)).1
        have hkeys2 : (expand_start 0 ab pb vars current pq1).expandedStates.keys =
            (r.num_pieces, packedKey current.state pb) :: vars.expandedStates.keys := by
          simp only [expand_start, insertRadixTree, hnum]
        have hsolved : ((moveOrder current.state.num_pieces).foldl
            (expand_move 0 ab pb current)
            (expand_start 0 ab pb vars current pq1)).result.solved = false := by
          rw [r1]; exact hs
        refine ⟨fun _ => ?_, fun hc2 => by rw [hsolved] at hc2; simp at hc2⟩
        have hmono : ∀ node ∈ pq1.nodes, node ∈ ((moveOrder current.state.num_pieces).foldl
            (expand_move 0 ab pb current) (expand_start 0 ab pb vars current pq1)).pq.nodes :=
          fun node hn => foldl_expand_move_mono 0 ab pb current _ _ node hn
        refine ⟨foldl_expand_move_ordered 0 ab pb current _ _ hheap1, ?_, ?_, ?_, ?_⟩
        · intro node hn
          rcases foldl_expand_move_mem 0 ab pb current _ _ node hn with h4 | ⟨mv, next, h4, h5⟩
          · exact hsound node (hrest node h4)
          · rw [h5]
            refine ⟨rfl, movesc ++ [(pieceNames.getD mv.1 0, directions.getD mv.2 0)], ?_, ?_⟩
            · simp only [List.length_append, List.length_singleton, create_search_node, hlenc]
            · exact apply_moves_snoc r movesc _ current.state next hreachc h4
        · intro e he
          rw [hkeys, hkeys2] at he
          rcases List.mem_cons.mp he with rfl | he
          · exact ⟨current.state, movesc, hreachc, rfl, hw⟩
          · exact hclosed e he
        · rw [hkeys, hkeys2]
          rcases h0 with h0 | ⟨node, hn, hk, hd⟩
          · exact Or.inl (List.mem_cons_of_mem _ h0)
          · rcases hsplit node hn with rfl | hn1
            · left; rw [← hk]; exact List.mem_cons_self _ _
            · exact Or.inr ⟨node, hmono node hn1, hk, hd⟩
        · intro moves b m b1 hb hcb ha
          rw [hkeys, hkeys2] at hcb ⊢
          rcases List.mem_cons.mp hcb with hnew | hold
          · simp only [Prod.mk.injEq, true_and] at hnew
            have hcfg := reached_sameConfig hwf pb hpb moves movesc b current.state hb hreachc hnew
            have hpb1 := reached_placed hwf moves b hb
            obtain ⟨c1, hc1, hcfg1⟩ := hcfg.follow (hpb1.rows hwf.rows) (hplaced.rows hwf.rows)
              m.1 m.2 ha
            obtain ⟨i1, i2, i3, i4⟩ := apply_action_index current.state m.1 m.2 c1 hc1
            obtain ⟨j1, j2, j3⟩ := move_in_moveOrder current.state.num_pieces m.1 m.2 i1 i2 i3 i4
            have hkey1 : packedKey b1 pb = packedKey c1 pb := sameConfig_packedKey hcfg1 pb
            have hc1n : c1.num_pieces = r.num_pieces := by
              rw [apply_action_num_pieces _ _ _ _ hc1]; exact hnum
            have hcov := foldl_expand_move_covers ab pb current
              (moveOrder current.state.num_pieces) (expand_start 0 ab pb vars current pq1)
              (m.1 - 48, directionIndex m.2) j1 c1 (by rw [j2, j3]; exact hc1)
            rcases hcov with hpres | hchild
            · left
              have := (checkPresent_iff _ _ _).mp hpres
              rw [hkeys2, hc1n, ← hkey1] at this
              exact this
            · right
              refine ⟨_, hchild, ?_, ?_⟩
              · simp only [create_search_node]; exact hkey1.symm
              · simp only [create_search_node]
                rcases ucsInv_frontier (h.1 hs) moves b hb with hcl | ⟨node, hn, hd⟩
                · rw [hnew] at hcl
                  exact absurd hcl hnotin
                · have h3 := hmin node hn
                  have h4 := (hsound node hn).1
                  omega
          · rcases h2 moves b m b1 hb hold ha with h3 | ⟨node, hn, hk, hd⟩
            · exact Or.inl (List.mem_cons_of_mem _ h3)
            · rcases hsplit node hn with rfl | hn1
              · left; rw [← hk]; exact List.mem_cons_self _ _
              · exact Or.inr ⟨node, hmono node hn1, hk, hd⟩

theorem WellFormed.duplicate {r : gate_t} (hwf : WellFormed r) : duplicate_state r = r := by
  apply duplicate_state_eq
  · rw [hwf.rows]
  · rw [shapeOf_length _ _ hwf.save_shape, hwf.rows]

theorem search_init_ucsFull {r : gate_t} (hwf : WellFormed r) (pb : Nat) (width_limit : Int) :
    ucsFull r pb (search_init r width_limit) := by
  refine ⟨fun _ => ?_, fun h => by simp [search_init] at h⟩
  have hmem : ∀ node ∈ (search_init r width_limit).pq.nodes,
      node = create_search_node r 0 0 0 := by
    intro node hn
    have := (pq_enqueue_perm init_priority_queue
      (create_search_node (duplicate_state r) 0 0 0)).mem_iff.mp hn
    simp only [init_priority_queue, List.mem_singleton] at this
    rw [hwf.duplicate] at this
    exact this
  have hroot : create_search_node r 0 0 0 ∈ (search_init r width_limit).pq.nodes := by
    have := (pq_enqueue_perm init_priority_queue
      (create_search_node (duplicate_state r) 0 0 0)).mem_iff.mpr (List.mem_cons_self _ _)
    have e : create_search_node r 0 0 0 = create_search_node (duplicate_state r) 0 0 0 := by
      rw [hwf.duplicate]
    rw [e]
    exact this
  refine ⟨?_, ?_, ?_, ?_, ?_⟩
  · apply pq_enqueue_ordered
    intro i _ h2
    simp [init_priority_queue] at h2
  · intro node hn
    rw [hmem node hn]
    exact ⟨rfl, [], rfl, rfl⟩
  · intro e he
    simp [search_init, getNewRadixTree] at he
  · exact Or.inr ⟨_, hroot, rfl, rfl⟩
  · intro moves b m b1 _ hc
    simp [search_init, getNewRadixTree] at hc

theorem noveltyLimitOf_zero (r : gate_t) : noveltyLimitOf r 0 = 0 := by
  unfold noveltyLimitOf
  split_ifs with h
  · omega
  · rfl

theorem search_after_ucsFull {r : gate_t} (hwf : WellFormed r) (packedBytes : Nat)
    (hpb : getPackedSize r ≤ 8 * clampBytes packedBytes) (n : Nat) :
    ucsFull r (clampBytes packedBytes) (search_after r 0 packedBytes n) := by
  unfold search_after
  rw [noveltyLimitOf_zero]
  exact search_loop_invariant2 0 _ _ (ucsFull r (clampBytes packedBytes))
    (fun vars hv hs _ => search_step_ucsFull hwf _ _ hpb vars hv hs) n _
    (search_init_ucsFull hwf _ 0) rfl

theorem length_encodeTrail (moves : List (Nat × Nat)) :
    (encodeTrail moves).length = 2 * moves.length := by
  induction moves with
  | nil => rfl
  | cons m rest ih => simp only [encodeTrail, List.length_cons, ih]; omega

theorem run_search_eq_search_after (init_data : gate_t) (width_limit : Int) (packedBytes : Nat) :
    run_search init_data width_limit packedBytes =
      (search_after init_data width_limit packedBytes
        (searchFuel init_data (clampBytes packedBytes))).result := rfl

theorem oneStepBoard_wellFormed : WellFormed oneStepBoard where
  rows := rfl
  width := by decide
  save_shape := rfl
  pieces := by decide
  first := by
    intro k hk
    have : k = 0 := by
      have : k < 1 := hk
      omega
    subst this
    exact ⟨(1, 1), by decide, rfl, rfl⟩

theorem ucs_complete_aux (init_data : gate_t) (packedBytes : Nat) (hwf : WellFormed init_data)
    (hpb : getPackedSize init_data ≤ 8 * clampBytes packedBytes) :
    (run_search init_data 0 packedBytes).solved = true ↔
      ∃ (moves : List (Nat × Nat)) (b : gate_t),
        apply_moves init_data moves = some b ∧ winning_state b = true := by
  obtain ⟨hterm, _⟩ := run_search_terminates init_data 0 packedBytes
  have hfull := search_after_ucsFull hwf packedBytes hpb
    (searchFuel init_data (clampBytes packedBytes))
  rw [run_search_eq_search_after]
  constructor
  · intro hs
    obtain ⟨f, moves, _, _, hw, hm, _⟩ := hfull.2 hs
    exact ⟨moves, f, hm, hw⟩
  · rintro ⟨moves, b, hm, hw⟩
    by_contra hns
    have hns2 : (search_after init_data 0 packedBytes
        (searchFuel init_data (clampBytes packedBytes))).result.solved = false := by
      simpa using hns
    have hinv := hfull.1 hns2
    rcases hterm with hs | he
    · exact hns hs
    · rw [pq_is_empty_iff] at he
      rcases ucsInv_frontier hinv moves b hm with hc | ⟨node, hn, _⟩
      · have := ucsInv_closed_not_winning hwf hpb hinv moves b hm hc
        rw [hw] at this
        exact absurd this (by simp)
      · rw [he] at hn
        simp at hn

set_option maxRecDepth 100000 in
/-- C3 (completeness of uniform-cost search).  For a well-formed board and a key
buffer that holds the packed size, run_search with width limit 0 terminates:
after searchFuel turns of the main loop the search is solved or its queue is
empty, and more turns change nothing.  It returns solved exactly when some
winning board is reached from the initial board by a sequence of moves that
apply_action accepts.  On the one-row board `0#G` it returns unsolved. -/
theorem ucs_complete (init_data : gate_t) (packedBytes : Nat) (hwf : WellFormed init_data)
    (hpb : getPackedSize init_data ≤ 8 * clampBytes packedBytes) :
    ((search_after init_data 0 packedBytes
        (searchFuel init_data (clampBytes packedBytes))).result.solved = true ∨
      pq_is_empty (search_after init_data 0 packedBytes
        (searchFuel init_data (clampBytes packedBytes))).pq = true) ∧
    (∀ extra, search_after init_data 0 packedBytes
        (searchFuel init_data (clampBytes packedBytes) + extra) =
      search_after init_data 0 packedBytes (searchFuel init_data (clampBytes packedBytes))) ∧
    ((run_search init_data 0 packedBytes).solved = true ↔
      ∃ (moves : List (Nat × Nat)) (b : gate_t),
        apply_moves init_data moves = some b ∧ winning_state b = true) ∧
    (run_search wallBoard 0 1).solved = false := by
  obtain ⟨hterm, hstable⟩ := run_search_terminates init_data 0 packedBytes
  exact ⟨hterm, hstable, ucs_complete_aux init_data packedBytes hwf hpb, by decide!⟩

set_option maxRecDepth 100000 in
/-- C3, witness: the bordered board `#0G#` with a key buffer of one byte. -/
theorem ucs_complete_witness :
    ((search_after oneStepBoard 0 1
        (searchFuel oneStepBoard (clampBytes 1))).result.solved = true ∨
      pq_is_empty (search_after oneStepBoard 0 1
        (searchFuel oneStepBoard (clampBytes 1))).pq = true) ∧
    (∀ extra, search_after oneStepBoard 0 1
        (searchFuel oneStepBoard (clampBytes 1) + extra) =
      search_after oneStepBoard 0 1 (searchFuel oneStepBoard (clampBytes 1))) ∧
    ((run_search oneStepBoard 0 1).solved = true ↔
      ∃ (moves : List (Nat × Nat)) (b : gate_t),
        apply_moves oneStepBoard moves = some b ∧ winning_state b = true) ∧
    (run_search wallBoard 0 1).solved = false :=
  ucs_complete oneStepBoard 1 oneStepBoard_wellFormed (by decide)

set_option maxRecDepth 100000 in
/-- C2 (optimality of uniform-cost search).  For a well-formed board with an
empty trail, from which some winning board is reached by moves that
apply_action accepts, and a key buffer that holds the packed size, run_search
with width limit 0 returns solved; its trail is the text of a sequence of
moves that leads from the initial board to the returned winning board, and
its number of moves, length / 2, is at most the length of every sequence of
moves from the initial board to a winning board.  On the one-row board
`0 G ` the trail is `0r0r`. -/
theorem ucs_optimal (init_data : gate_t) (packedBytes : Nat) (hwf : WellFormed init_data)
    (hpb : getPackedSize init_data ≤ 8 * clampBytes packedBytes)
    (hsoln : init_data.soln = [])
    (hsolvable : ∃ (moves : List (Nat × Nat)) (b : gate_t),
      apply_moves init_data moves = some b ∧ winning_state b = true) :
    (run_search init_data 0 packedBytes).solved = true ∧
    (∃ (t : List Nat) (moves : List (Nat × Nat)) (f : gate_t),
      (run_search init_data 0 packedBytes).solution = some t ∧
      (run_search init_data 0 packedBytes).final_state = some f ∧
      t = encodeTrail moves ∧ apply_moves init_data moves = some f ∧
      winning_state f = true ∧ t.length / 2 = moves.length ∧
      ∀ (moves1 : List (Nat × Nat)) (b1 : gate_t), apply_moves init_data moves1 = some b1 →
        winning_state b1 = true → t.length / 2 ≤ moves1.length) ∧
    (run_search twoStepBoard 0 1).solution = some [48, 114, 48, 114] := by
  have hsolved := (ucs_complete_aux init_data packedBytes hwf hpb).mpr hsolvable
  have hfull := search_after_ucsFull hwf packedBytes hpb
    (searchFuel init_data (clampBytes packedBytes))
  refine ⟨hsolved, ?_, by decide!⟩
  rw [run_search_eq_search_after] at hsolved ⊢
  obtain ⟨f, moves, h1, h2, hw, hm, hopt⟩ := hfull.2 hsolved
  have hsol := apply_moves_soln init_data moves f hm
  rw [hsoln, List.nil_append] at hsol
  have hlen : f.soln.length / 2 = moves.length := by
    rw [hsol, length_encodeTrail]
    omega
  refine ⟨f.soln, moves, f, h1, h2, hsol, hm, hw, hlen, ?_⟩
  intro moves1 b1 hb1 hw1
  rw [hlen]
  exact hopt moves1 b1 hb1 hw1

set_option maxRecDepth 100000 in
/-- C2, witness: the bordered board `#0G#` with a key buffer of one byte; the move
`0r` wins. -/
theorem ucs_optimal_witness :
    (run_search oneStepBoard 0 1).solved = true ∧
    (∃ (t : List Nat) (moves : List (Nat × Nat)) (f : gate_t),
      (run_search oneStepBoard 0 1).solution = some t ∧
      (run_search oneStepBoard 0 1).final_state = some f ∧
      t = encodeTrail moves ∧ apply_moves oneStepBoard moves = some f ∧
      winning_state f = true ∧ t.length / 2 = moves.length ∧
      ∀ (moves1 : List (Nat × Nat)) (b1 : gate_t), apply_moves oneStepBoard moves1 = some b1 →
        winning_state b1 = true → t.length / 2 ≤ moves1.length) ∧
    (run_search twoStepBoard 0 1).solution = some [48, 114, 48, 114] :=
  ucs_optimal oneStepBoard 1 oneStepBoard_wellFormed (by decide) rfl
    (by
      have h : ((apply_moves oneStepBoard [(48, 114)]).map winning_state) = some true := by
        decide!
      cases hb : apply_moves oneStepBoard [(48, 114)] with
      | none => rw [hb] at h; simp at h
      | some b =>
        rw [hb] at h
        simp only [Option.map_some', Option.some.injEq] at h
        exact ⟨[(48, 114)], b, hb, h⟩)

set_option maxRecDepth 100000 in
/-- C1, witness: the search on the bordered board `#0G#` with width limit 0. -/
theorem run_search_sound_witness :
    ∃ (t : List Nat) (f : gate_t) (moves : List (Nat × Nat)) (b : gate_t),
      (run_search oneStepBoard 0 1).solution = some t ∧
      (run_search oneStepBoard 0 1).final_state = some f ∧
      t = oneStepBoard.soln ++ encodeTrail moves ∧
      apply_moves oneStepBoard moves = some b ∧ b.map = f.map ∧ winning_state f = true :=
  run_search_sound oneStepBoard 0 1 rfl (by decide!)

/-! ## The novelty test as the code runs it -/

set_option maxRecDepth 100000 in
/-- C4, the code at a failing input.  On the pocket board with width limit 2, the
third node popped is the board after `1r`; its successor by `0d` is not in the
closed set and the pair of its two atoms is absent from the table of size 2,
yet the novelty test skips it, because the table of size 1 alone holds both of
its atoms.  The triple is (in the closed set, skipped, all pairs present). -/
theorem novelty_skip_despite_new_pair :
    ((pq_dequeue (search_after pocketBoard 2 2 2).pq).1.bind (fun current =>
      (apply_action current.state 48 DOWN).map (fun next_state =>
        (checkPresent (search_after pocketBoard 2 2 3).expandedStates
            (packedKey next_state 2) next_state.num_pieces,
          novelty_skip (search_after pocketBoard 2 2 3).partialStates
            (packedKey next_state 2) next_state.num_pieces 2 (atomBitsOf pocketBoard),
          all_combinations_present (partialAt (search_after pocketBoard 2 2 3).partialStates 1)
            (packedKey next_state 2) next_state.num_pieces 2 (atomBitsOf pocketBoard)
            (subsetBytesOf (atomBitsOf pocketBoard) 1))))) =
      some (false, true, false) := by
  decide!

set_option maxRecDepth 100000 in
/-- C5, the code at a failing input.  On the pocket board, which has two pieces,
run_search with width limit 2 and with width limit 3 returns unsolved, while
with width limit 0 it returns solved with the trail `0l1l1d0r0r0r`. -/
theorem iw_at_num_pieces_differs_from_ucs :
    ((run_search pocketBoard 2 2).solved, (run_search pocketBoard 3 2).solved,
      (run_search pocketBoard 0 2).solved, (run_search pocketBoard 0 2).solution) =
    (false, false, true, some [48, 108, 49, 108, 49, 100, 48, 114, 48, 114, 48, 114]) := by
  decide!

set_option maxRecDepth 100000 in
/-- C6, the code at a failing input.  On the pocket board every solution passes
through a board both of whose atoms were seen before, so width 1 fails and a
width-2 search that asks for a new pair would succeed; the code fails at
width 1 and at width 2 alike, and mode 3 wins only by the fallback, with
solvingWidth 0. -/
theorem mode3_solves_only_by_fallback :
    ((run_search pocketBoard 1 2).solved, (run_search pocketBoard 2 2).solved,
      (find_solution pocketBoard 3).has_won, (find_solution pocketBoard 3).solvingWidth,
      (find_solution pocketBoard 3).usedFallback) =
    (false, false, true, 0, true) := by
  decide!

/-! ## The enumeration of the index vectors -/

theorem fill_after_spec (count : Nat) (pre : List Nat) (x : Nat) (suf : List Nat)
    (h : suf.length = count) :
    fill_after count (pre ++ x :: suf) (pre.length + 1) = pre ++ x :: List.range' (x + 1) count := by
  induction count generalizing pre x suf with
  | zero =>
    have : suf = [] := List.length_eq_zero.mp h
    subst this
    simp [fill_after]
  | succ count ih =>
    obtain ⟨y, suf1, rfl⟩ : ∃ y suf1, suf = y :: suf1 := by
      cases suf with
      | nil => simp at h
      | cons y suf1 => exact ⟨y, suf1, rfl⟩
    simp only [List.length_cons, Nat.add_right_cancel_iff] at h
    unfold fill_after
    have hget : (pre ++ x :: y :: suf1).getD (pre.length + 1 - 1) 0 = x := by
      rw [List.getD_eq_getElem?_getD, List.getElem?_append_right (by omega)]
      simp
    have hset : (pre ++ x :: y :: suf1).set (pre.length + 1) (x + 1) =
        (pre ++ [x]) ++ (x + 1) :: suf1 := by
      rw [List.set_append_right _ _ (by omega)]
      simp
    rw [hget, hset]
    have := ih (pre ++ [x]) (x + 1) suf1 h
    simp only [List.length_append, List.length_singleton] at this
    rw [this]
    simp [List.range'_succ]

theorem nextC_append_some (n : Nat) (pre x x1 : List Nat) (h : nextC n x = some x1) :
    nextC n (pre ++ x) = some (pre ++ x1) := by
  induction pre with
  | nil => exact h
  | cons p pre ih =>
    show nextC n (p :: (pre ++ x)) = some (p :: (pre ++ x1))
    rw [nextC, ih]

theorem next_combination_from_eq (n : Nat) (k : Nat) (pre suf : List Nat) (hk : pre.length = k)
    (hs : nextC n suf = none) :
    next_combination_from (pre.length + suf.length) n k (pre ++ suf) =
      match nextC n (pre ++ suf) with
      | some c1 => (c1, true)
      | none => (pre ++ suf, false) := by
  induction k generalizing pre suf with
  | zero =>
    have : pre = [] := List.length_eq_zero.mp hk
    subst this
    simp only [List.nil_append, next_combination_from, hs]
  | succ k ih =>
    obtain ⟨pre1, a, rfl⟩ : ∃ pre1 a, pre = pre1 ++ [a] := by
      have hne : pre ≠ [] := by intro hc; rw [hc] at hk; simp at hk
      exact ⟨pre.dropLast, pre.getLast hne, (List.dropLast_append_getLast hne).symm⟩
    simp only [List.length_append, List.length_singleton, Nat.add_right_cancel_iff] at hk
    have hlist : pre1 ++ [a] ++ suf = pre1 ++ a :: suf := by simp
    rw [hlist]
    unfold next_combination_from
    have hget : (pre1 ++ a :: suf).getD k 0 = a := by
      rw [← hk, List.getD_eq_getElem?_getD, List.getElem?_append_right (by omega)]
      simp
    have hsz : (pre1 ++ [a]).length + suf.length = k + 1 + suf.length := by
      simp only [List.length_append, List.length_singleton, hk]
    rw [hget, hsz]
    by_cases hc : a + suf.length + 1 < n
    · have hcond : ((a : Nat) : Int) <
          (n : Int) - (((k + 1 + suf.length : Nat) : Int) - (k : Int)) := by
        push_cast
        omega
      rw [if_pos hcond]
      have hset : (pre1 ++ a :: suf).set k (a + 1) = pre1 ++ (a + 1) :: suf := by
        rw [← hk, List.set_append_right _ _ (by omega)]
        simp
      have hcount : k + 1 + suf.length - (k + 1) = suf.length := by omega
      rw [hset, hcount]
      have hfill := fill_after_spec suf.length pre1 (a + 1) suf rfl
      rw [hk] at hfill
      rw [hfill]
      have hnext : nextC n (a :: suf) = some (List.range' (a + 1) (suf.length + 1)) := by
        simp only [nextC, hs, if_pos hc]
      rw [nextC_append_some n pre1 _ _ hnext]
      simp [List.range'_succ]
    · have hcond : ¬ ((a : Nat) : Int) <
          (n : Int) - (((k + 1 + suf.length : Nat) : Int) - (k : Int)) := by
        push_cast
        omega
      rw [if_neg hcond]
      have hnext : nextC n (a :: suf) = none := by
        simp only [nextC, hs, if_neg hc]
      have := ih pre1 (a :: suf) hk hnext
      have hlen : k + 1 + suf.length = pre1.length + (a :: suf).length := by
        simp only [List.length_cons]; omega
      rw [hlen]
      exact this

theorem next_combination_eq (n : Nat) (c : List Nat) :
    next_combination c c.length n =
      match nextC n c with
      | some c1 => (c1, true)
      | none => (c, false) := by
  unfold next_combination
  have := next_combination_from_eq n c.length c [] rfl rfl
  simpa using this

theorem combosFrom_length (g lo k : Nat) (c : List Nat) (h : c ∈ combosFrom g lo k) :
    c.length = k := by
  induction g generalizing lo k c with
  | zero =>
    cases k with
    | zero => simp [combosFrom] at h; subst h; rfl
    | succ k => simp [combosFrom] at h
  | succ g ih =>
    cases k with
    | zero => simp [combosFrom] at h; subst h; rfl
    | succ k =>
      simp only [combosFrom, List.mem_append, List.mem_map] at h
      rcases h with ⟨c1, hc1, rfl⟩ | h
      · simp [ih _ _ _ hc1]
      · exact ih _ _ _ h

theorem combosFrom_bounds (g lo k : Nat) (c : List Nat) (h : c ∈ combosFrom g lo k) :
    ∀ x ∈ c, lo ≤ x ∧ x < lo + g := by
  induction g generalizing lo k c with
  | zero =>
    cases k with
    | zero => simp [combosFrom] at h; subst h; simp
    | succ k => simp [combosFrom] at h
  | succ g ih =>
    cases k with
    | zero => simp [combosFrom] at h; subst h; simp
    | succ k =>
      simp only [combosFrom, List.mem_append, List.mem_map] at h
      rcases h with ⟨c1, hc1, rfl⟩ | h
      · intro x hx
        rcases List.mem_cons.mp hx with rfl | hx
        · omega
        · have := ih _ _ _ hc1 x hx; omega
      · intro x hx
        have := ih _ _ _ h x hx; omega

theorem combosFrom_empty (g lo k : Nat) (h : g < k) : combosFrom g lo k = [] := by
  induction g generalizing lo k with
  | zero =>
    cases k with
    | zero => omega
    | succ k => rfl
  | succ g ih =>
    cases k with
    | zero => omega
    | succ k =>
      simp only [combosFrom]
      rw [ih _ _ (by omega), ih _ _ (by omega)]
      rfl

theorem combosFrom_card (g lo k : Nat) : (combosFrom g lo k).length ≤ 2 ^ g := by
  induction g generalizing lo k with
  | zero =>
    cases k with
    | zero => simp [combosFrom]
    | succ k => simp [combosFrom]
  | succ g ih =>
    cases k with
    | zero => simp only [combosFrom, List.length_singleton]; exact Nat.one_le_two_pow
    | succ k =>
      simp only [combosFrom, List.length_append, List.length_map]
      have h1 := ih (lo + 1) k
      have h2 := ih (lo + 1) (k + 1)
      rw [Nat.pow_succ]
      omega

theorem chainOK_append (n : Nat) (l1 l2 : List (List Nat)) (c : List Nat)
    (h1 : ∀ last, (l1.getLast? = some last) → nextC n last = some c)
    (hc1 : ∀ (i : Nat) (a b : List Nat), l1.get? i = some a → l1.get? (i + 1) = some b →
      nextC n a = some b)
    (hne : l1 ≠ []) (h2 : chainOK n (c :: l2)) : chainOK n (l1 ++ c :: l2) := by
  induction l1 with
  | nil => exact absurd rfl hne
  | cons a l1 ih =>
    cases l1 with
    | nil =>
      simp only [List.singleton_append, chainOK]
      exact ⟨h1 a rfl, h2⟩
    | cons b l1 =>
      simp only [List.cons_append, chainOK]
      refine ⟨hc1 0 a b rfl rfl, ?_⟩
      apply ih
      · intro last hl
        apply h1
        simpa using hl
      · intro i x y hx hy
        exact hc1 (i + 1) x y hx hy
      · simp

theorem chainOK_of_links (n : Nat) (l : List (List Nat)) (hne : l ≠ [])
    (hc1 : ∀ (i : Nat) (a b : List Nat), l.get? i = some a → l.get? (i + 1) = some b →
      nextC n a = some b)
    (h1 : ∀ last, l.getLast? = some last → nextC n last = none) : chainOK n l := by
  induction l with
  | nil => exact absurd rfl hne
  | cons a l ih =>
    cases l with
    | nil =>
      simp only [chainOK]
      exact h1 a rfl
    | cons b l =>
      simp only [chainOK]
      refine ⟨hc1 0 a b rfl rfl, ?_⟩
      apply ih
      · simp
      · intro i x y hx hy
        exact hc1 (i + 1) x y hx hy
      · intro last hl
        apply h1
        simpa using hl

theorem chainOK_links (n : Nat) (l : List (List Nat)) (h : chainOK n l) :
    (∀ (i : Nat) (a b : List Nat), l.get? i = some a → l.get? (i + 1) = some b →
      nextC n a = some b) ∧
    (∀ last, l.getLast? = some last → nextC n last = none) := by
  induction l with
  | nil => exact absurd h (by simp [chainOK])
  | cons a l ih =>
    cases l with
    | nil =>
      simp only [chainOK] at h
      refine ⟨?_, ?_⟩
      · intro i x y _ hy
        simp at hy
      · intro last hl
        simp at hl
        subst hl
        exact h
    | cons b l =>
      simp only [chainOK] at h
      obtain ⟨h1, h2⟩ := h
      obtain ⟨ih1, ih2⟩ := ih h2
      refine ⟨?_, ?_⟩
      · intro i x y hx hy
        cases i with
        | zero =>
          simp at hx hy
          subst hx hy
          exact h1
        | succ i => exact ih1 i x y hx hy
      · intro last hl
        apply ih2
        simpa using hl

theorem combosFrom_chain (g lo k : Nat) (h : k ≤ g) :
    chainOK (lo + g) (combosFrom g lo k) ∧ (combosFrom g lo k).head? = some (List.range' lo k) := by
  induction g generalizing lo k with
  | zero =>
    have : k = 0 := by omega
    subst this
    simp [combosFrom, chainOK, nextC]
  | succ g ih =>
    cases k with
    | zero => simp [combosFrom, chainOK, nextC]
    | succ k =>
      have hk : k ≤ g := by omega
      obtain ⟨hch, hhead⟩ := ih (lo + 1) k hk
      have hn : lo + 1 + g = lo + (g + 1) := by omega
      rw [hn] at hch
      obtain ⟨hlinks, hlast⟩ := chainOK_links _ _ hch
      have hne : combosFrom g (lo + 1) k ≠ [] := by
        intro hc; rw [hc] at hhead; simp at hhead
      simp only [combosFrom]
      constructor
      · by_cases hk2 : k + 1 ≤ g
        · obtain ⟨hch2, hhead2⟩ := ih (lo + 1) (k + 1) hk2
          rw [hn] at hch2
          obtain ⟨c2, l2, hl2⟩ : ∃ c2 l2, combosFrom g (lo + 1) (k + 1) = c2 :: l2 := by
            cases hcc : combosFrom g (lo + 1) (k + 1) with
            | nil => rw [hcc] at hhead2; simp at hhead2
            | cons c2 l2 => exact ⟨c2, l2, rfl⟩
          rw [hl2] at hch2 hhead2 ⊢
          simp only [List.head?_cons, Option.some.injEq] at hhead2
          apply chainOK_append
          · intro last hl
            rw [List.getLast?_map] at hl
            cases hgl : (combosFrom g (lo + 1) k).getLast? with
            | none => rw [hgl] at hl; simp at hl
            | some c =>
              rw [hgl] at hl
              simp only [Option.map_some', Option.some.injEq] at hl
              subst hl
              have hlen := combosFrom_length _ _ _ c (List.mem_of_getLast?_eq_some hgl)
              simp only [nextC, hlast c hgl, hlen]
              rw [if_pos (by omega), hhead2]
          · intro i a b ha hb
            rw [List.get?_map] at ha hb
            cases hga : (combosFrom g (lo + 1) k).get? i with
            | none => rw [hga] at ha; simp at ha
            | some a1 =>
              cases hgb : (combosFrom g (lo + 1) k).get? (i + 1) with
              | none => rw [hgb] at hb; simp at hb
              | some b1 =>
                rw [hga] at ha; rw [hgb] at hb
                simp only [Option.map_some', Option.some.injEq] at ha hb
                subst ha hb
                simp only [nextC, hlinks i a1 b1 hga hgb]
          · simpa using hne
          · exact hch2
        · rw [combosFrom_empty g (lo + 1) (k + 1) (by omega), List.append_nil]
          apply chainOK_of_links
          · simpa using hne
          · intro i a b ha hb
            rw [List.get?_map] at ha hb
            cases hga : (combosFrom g (lo + 1) k).get? i with
            | none => rw [hga] at ha; simp at ha
            | some a1 =>
              cases hgb : (combosFrom g (lo + 1) k).get? (i + 1) with
              | none => rw [hgb] at hb; simp at hb
              | some b1 =>
                rw [hga] at ha; rw [hgb] at hb
                simp only [Option.map_some', Option.some.injEq] at ha hb
                subst ha hb
                simp only [nextC, hlinks i a1 b1 hga hgb]
          · intro last hl
            rw [List.getLast?_map] at hl
            cases hgl : (combosFrom g (lo + 1) k).getLast? with
            | none => rw [hgl] at hl; simp at hl
            | some c =>
              rw [hgl] at hl
              simp only [Option.map_some', Option.some.injEq] at hl
              subst hl
              have hlen := combosFrom_length _ _ _ c (List.mem_of_getLast?_eq_some hgl)
              simp only [nextC, hlast c hgl, hlen]
              rw [if_neg (by omega)]
      · rw [List.head?_append_of_ne_nil _ (by simpa using hne), List.head?_map, hhead]
        simp [List.range'_succ]

/-! ## The do-while loops over the index vectors -/

theorem visitedF_of_chain (n size : Nat) (l : List (List Nat)) (c : List Nat)
    (hch : chainOK n (c :: l)) (hlen : ∀ x ∈ c :: l, x.length = size) (fuel : Nat)
    (hf : (c :: l).length ≤ fuel) : visitedF size n fuel c = c :: l := by
  induction l generalizing c fuel with
  | nil =>
    cases fuel with
    | zero => simp at hf
    | succ fuel =>
      simp only [chainOK] at hch
      have hsz : c.length = size := hlen c (by simp)
      unfold visitedF
      rw [← hsz, next_combination_eq, hch]
  | cons c1 l ih =>
    cases fuel with
    | zero => simp at hf
    | succ fuel =>
      simp only [chainOK] at hch
      have hsz : c.length = size := hlen c (by simp)
      unfold visitedF
      have hnext : next_combination c size n = (c1, true) := by
        rw [← hsz, next_combination_eq, hch.1]
      rw [hnext]
      simp only
      rw [ih c1 hch.2 (fun x hx => hlen x (List.mem_cons_of_mem _ hx)) fuel
        (by simp only [List.length_cons] at hf ⊢; omega)]

theorem visitedF_eq_combosFrom (n k : Nat) (h : k ≤ n) :
    visitedF k n (combinationFuel n) (List.range k) = combosFrom n 0 k := by
  obtain ⟨hch, hhead⟩ := combosFrom_chain n 0 k h
  rw [Nat.zero_add] at hch
  cases hl : combosFrom n 0 k with
  | nil => rw [hl] at hhead; simp at hhead
  | cons c l =>
    rw [hl] at hch hhead
    simp only [List.head?_cons, Option.some.injEq] at hhead
    rw [List.range_eq_range', ← hhead]
    apply visitedF_of_chain n k l c hch
    · intro x hx
      exact combosFrom_length n 0 k x (by rw [hl]; exact hx)
    · have := combosFrom_card n 0 k
      rw [hl] at this
      exact this

theorem all_combinations_present_loop_eq (tree : radixTree) (key : List Bool)
    (n size ab bytes fuel : Nat) (c : List Nat) :
    all_combinations_present_loop tree key n size ab bytes fuel c =
      (visitedF size n fuel c).all
        (fun c1 => checkPresent tree (pack_subset bytes key ab c1 size) size) := by
  induction fuel generalizing c with
  | zero => simp [all_combinations_present_loop, visitedF]
  | succ fuel ih =>
    unfold all_combinations_present_loop visitedF
    rw [List.all_cons]
    cases hp : checkPresent tree (pack_subset bytes key ab c size) size with
    | false => simp
    | true =>
      simp only [Bool.true_eq_false, if_false, Bool.true_and]
      rcases hn : next_combination c size n with ⟨c1, b⟩
      cases b with
      | true => simp only [ih]
      | false => simp

theorem insert_all_combinations_loop_keys (key : List Bool) (n size ab bytes fuel : Nat)
    (tree : radixTree) (c : List Nat) (x : Nat × List Bool) :
    x ∈ (insert_all_combinations_loop key n size ab bytes fuel tree c).keys ↔
      x ∈ tree.keys ∨ ∃ c1 ∈ visitedF size n fuel c, x = (size, pack_subset bytes key ab c1 size) := by
  induction fuel generalizing tree c with
  | zero => simp [insert_all_combinations_loop, visitedF]
  | succ fuel ih =>
    unfold insert_all_combinations_loop visitedF
    simp only
    rcases hn : next_combination c size n with ⟨c1, b⟩
    cases b with
    | true =>
      simp only [ih, insertRadixTree, List.mem_cons]
      constructor
      · rintro ((h | h) | ⟨c2, hc2, h⟩)
        · exact Or.inr ⟨c, Or.inl rfl, h⟩
        · exact Or.inl h
        · exact Or.inr ⟨c2, Or.inr hc2, h⟩
      · rintro (h | ⟨c2, rfl | hc2, h⟩)
        · exact Or.inl (Or.inr h)
        · exact Or.inl (Or.inl h)
        · exact Or.inr ⟨c2, hc2, h⟩
    | false =>
      simp only [insertRadixTree, List.mem_cons, List.not_mem_nil, or_false]
      constructor
      · rintro (h | h)
        · exact Or.inr ⟨c, rfl, h⟩
        · exact Or.inl h
      · rintro (h | ⟨c2, rfl, h⟩)
        · exact Or.inr h
        · exact Or.inl h

/-- The test all_combinations_present on a size between 1 and the number of
pieces: every strictly increasing index vector of that length has its key in
the trie. -/
theorem all_combinations_present_iff (tree : radixTree) (key : List Bool) (n size ab bytes : Nat)
    (h1 : 1 ≤ size) (h2 : size ≤ n) :
    all_combinations_present tree key n size ab bytes = true ↔
      ∀ c ∈ combosFrom n 0 size, (size, pack_subset bytes key ab c size) ∈ tree.keys := by
  unfold all_combinations_present
  rw [if_neg (by omega), all_combinations_present_loop_eq, visitedF_eq_combosFrom n size h2,
    List.all_eq_true]
  simp only [checkPresent_iff]

/-- The insertions of insert_all_combinations on a size between 1 and the number
of pieces: the trie gains the key of every strictly increasing index vector of
that length. -/
theorem insert_all_combinations_keys (tree : radixTree) (key : List Bool) (n size ab bytes : Nat)
    (h1 : 1 ≤ size) (h2 : size ≤ n) (x : Nat × List Bool) :
    x ∈ (insert_all_combinations tree key n size ab bytes).keys ↔
      x ∈ tree.keys ∨ ∃ c ∈ combosFrom n 0 size, x = (size, pack_subset bytes key ab c size) := by
  unfold insert_all_combinations
  rw [if_neg (by omega), insert_all_combinations_loop_keys, visitedF_eq_combosFrom n size h2]

theorem mem_combosFrom (g lo k : Nat) (c : List Nat) (hlen : c.length = k)
    (hs : c.Pairwise (fun a b => a < b)) (hb : ∀ x ∈ c, lo ≤ x ∧ x < lo + g) :
    c ∈ combosFrom g lo k := by
  induction g generalizing lo k c with
  | zero =>
    cases c with
    | nil => subst hlen; simp [combosFrom]
    | cons x c => have := hb x (by simp); omega
  | succ g ih =>
    cases c with
    | nil => subst hlen; simp [combosFrom]
    | cons x c =>
      simp only [List.length_cons] at hlen
      subst hlen
      simp only [combosFrom, List.mem_append, List.mem_map]
      rw [List.pairwise_cons] at hs
      have hx := hb x (by simp)
      by_cases hxl : x = lo
      · left
        refine ⟨c, ih (lo + 1) c.length c rfl hs.2 ?_, by rw [hxl]⟩
        intro y hy
        have h1 := hs.1 y hy
        have h2 := hb y (List.mem_cons_of_mem _ hy)
        omega
      · right
        apply ih (lo + 1) (c.length + 1) (x :: c) (by simp) (List.pairwise_cons.mpr hs)
        intro y hy
        rcases List.mem_cons.mp hy with rfl | hy
        · omega
        · have h1 := hs.1 y hy
          have h2 := hb y (List.mem_cons_of_mem _ hy)
          omega

/-- Every index below `n` occurs, at some position, in one of the vectors of
length `k` the loops visit (1 ≤ k ≤ n). -/
theorem combosFrom_covers (n k i : Nat) (h1 : 1 ≤ k) (h2 : k ≤ n) (hi : i < n) :
    ∃ c ∈ combosFrom n 0 k, ∃ t, t < k ∧ c.getD t 0 = i := by
  refine ⟨List.range' (min i (n - k)) k, ?_, i - min i (n - k), by omega, ?_⟩
  · apply mem_combosFrom
    · simp
    · exact List.pairwise_lt_range' _ _
    · intro x hx
      rw [List.mem_range'_1] at hx
      omega
  · rw [List.getD_eq_getElem?_getD, List.getElem?_range' _ _ (by omega)]
    simp only [Option.getD_some]
    omega

/-! ## The bits of a subset key -/

theorem length_pack_inner (src : List Bool) (ab x t m : Nat) (d : List Bool) :
    ((List.range m).foldl
      (fun d bit => if getBit src (x * ab + bit) then bitOn d (t * ab + bit) else d) d).length =
      d.length := by
  induction m with
  | zero => simp
  | succ m ih =>
    rw [List.range_succ, List.foldl_append]
    simp only [List.foldl_cons, List.foldl_nil]
    split_ifs
    · rw [length_bitOn, ih]
    · exact ih

theorem getBit_pack_inner (src : List Bool) (ab x t m : Nat) (d : List Bool) (p : Nat) :
    getBit ((List.range m).foldl
      (fun d bit => if getBit src (x * ab + bit) then bitOn d (t * ab + bit) else d) d) p =
      if (t * ab ≤ p ∧ p < t * ab + m ∧ p < d.length) ∧ getBit src (x * ab + (p - t * ab)) = true
      then true else getBit d p := by
  induction m with
  | zero =>
    rw [if_neg (by omega)]
    simp
  | succ m ih =>
    have hlen := length_pack_inner src ab x t m d
    rw [List.range_succ, List.foldl_append]
    simp only [List.foldl_cons, List.foldl_nil]
    by_cases hb : getBit src (x * ab + m) = true
    · rw [if_pos hb, getBit_bitOn, hlen, ih]
      by_cases hp : t * ab + m = p
      · have e : p - t * ab = m := by omega
        by_cases hl : p < d.length
        · rw [if_pos ⟨hp, hl⟩, if_pos]
          exact ⟨⟨by omega, by omega, hl⟩, by rw [e]; exact hb⟩
        · rw [if_neg (by tauto), if_neg (by tauto), if_neg (by tauto)]
      · rw [if_neg (by tauto)]
        by_cases hc : (t * ab ≤ p ∧ p < t * ab + m ∧ p < d.length) ∧
            getBit src (x * ab + (p - t * ab)) = true
        · rw [if_pos hc, if_pos ⟨⟨hc.1.1, by omega, hc.1.2.2⟩, hc.2⟩]
        · rw [if_neg hc, if_neg]
          rintro ⟨⟨h1, h2, h3⟩, h4⟩
          exact hc ⟨⟨h1, by omega, h3⟩, h4⟩
    · rw [if_neg hb, ih]
      by_cases hc : (t * ab ≤ p ∧ p < t * ab + m ∧ p < d.length) ∧
          getBit src (x * ab + (p - t * ab)) = true
      · rw [if_pos hc, if_pos ⟨⟨hc.1.1, by omega, hc.1.2.2⟩, hc.2⟩]
      · rw [if_neg hc, if_neg]
        rintro ⟨⟨h1, h2, h3⟩, h4⟩
        by_cases hp : t * ab + m = p
        · have e : p - t * ab = m := by omega
          rw [e] at h4
          exact hb h4
        · exact hc ⟨⟨h1, by omega, h3⟩, h4⟩

theorem length_pack_subset (bytes : Nat) (src : List Bool) (ab : Nat) (c : List Nat) (k : Nat) :
    (pack_subset bytes src ab c k).length = 8 * bytes := by
  unfold pack_subset
  induction k with
  | zero => simp
  | succ k ih =>
    rw [List.range_succ, List.foldl_append]
    simp only [List.foldl_cons, List.foldl_nil]
    rw [length_pack_inner, ih]

/-- The bits of the buffer pack_subset fills: bit `p` below `count * atomBits`
is the bit `p % atomBits` of the source atom named by `indices[p / atomBits]`, every
other bit is 0. -/
theorem getBit_pack_subset (bytes : Nat) (src : List Bool) (ab : Nat) (c : List Nat) (k p : Nat) :
    getBit (pack_subset bytes src ab c k) p =
      (decide (p < k * ab ∧ p < 8 * bytes) && getBit src (c.getD (p / ab) 0 * ab + p % ab)) := by
  induction k with
  | zero => simp [pack_subset, getBit]
  | succ k ih =>
    have hlen := length_pack_subset bytes src ab c k
    unfold pack_subset at ih hlen ⊢
    rw [List.range_succ, List.foldl_append]
    simp only [List.foldl_cons, List.foldl_nil]
    rw [getBit_pack_inner, hlen, ih]
    have hmul : (k + 1) * ab = k * ab + ab := by ring
    rw [hmul]
    by_cases hin : k * ab ≤ p ∧ p < k * ab + ab
    · have hab : 0 < ab := by omega
      have hdiv : p / ab = k := Nat.div_eq_of_lt_le hin.1 (by rw [Nat.succ_mul]; exact hin.2)
      have hmod : p % ab = p - k * ab := by
        have := Nat.div_add_mod p ab
        rw [hdiv, Nat.mul_comm] at this
        omega
      rw [hdiv, hmod]
      by_cases hl : p < 8 * bytes
      · by_cases hb : getBit src (c.getD k 0 * ab + (p - k * ab)) = true
        · rw [if_pos ⟨⟨hin.1, hin.2, hl⟩, hb⟩, hb]
          simp only [Bool.and_true]
          symm
          rw [decide_eq_true_iff]
          exact ⟨by omega, hl⟩
        · rw [if_neg (by tauto)]
          have hb2 : getBit src (c.getD k 0 * ab + (p - k * ab)) = false := by simpa using hb
          rw [hb2]
          simp
      · rw [if_neg (by tauto)]
        have e1 : decide (p < k * ab ∧ p < 8 * bytes) = false := by
          rw [decide_eq_false_iff_not]; tauto
        have e2 : decide (p < k * ab + ab ∧ p < 8 * bytes) = false := by
          rw [decide_eq_false_iff_not]; tauto
        rw [e1, e2]
    · rw [if_neg (by tauto)]
      have e : decide (p < k * ab ∧ p < 8 * bytes) = decide (p < k * ab + ab ∧ p < 8 * bytes) := by
        rw [decide_eq_decide]
        constructor
        · rintro ⟨h1, h2⟩; exact ⟨by omega, h2⟩
        · rintro ⟨h1, h2⟩; exact ⟨by omega, h2⟩
      rw [e]

theorem subsetBytesOf_fits (ab s : Nat) : ab * (s + 1) ≤ 8 * subsetBytesOf ab s := by
  unfold subsetBytesOf
  generalize ab * (s + 1) = x
  split_ifs <;> omega

theorem list_bool_ext (a b : List Bool) (hl : a.length = b.length)
    (h : ∀ p, getBit a p = getBit b p) : a = b := by
  apply List.ext_getElem hl
  intro i h1 h2
  have := h i
  unfold getBit at this
  rw [List.getD_eq_getElem?_getD, List.getD_eq_getElem?_getD, List.getElem?_eq_getElem h1,
    List.getElem?_eq_getElem h2] at this
  simpa using this

/-- The key of the single atom `i`, as pack_subset builds it, is determined by the
bits of that atom. -/
theorem pack_subset_single (bytes : Nat) (src1 src2 : List Bool) (ab i j : Nat)
    (h : ∀ bit, bit < ab → getBit src1 (i * ab + bit) = getBit src2 (j * ab + bit)) :
    pack_subset bytes src1 ab [i] 1 = pack_subset bytes src2 ab [j] 1 := by
  apply list_bool_ext
  · rw [length_pack_subset, length_pack_subset]
  · intro p
    rw [getBit_pack_subset, getBit_pack_subset]
    by_cases hp : p < 1 * ab ∧ p < 8 * bytes
    · have h1 : p / ab = 0 := Nat.div_eq_of_lt (by omega)
      have h2 : p % ab = p := Nat.mod_eq_of_lt (by omega)
      rw [h1, h2]
      simp only [List.getD_cons_zero]
      rw [h p (by omega)]
    · have e : decide (p < 1 * ab ∧ p < 8 * bytes) = false := by
        rw [decide_eq_false_iff_not]; exact hp
      rw [e]
      simp

/-- Reading an atom back from a subset key that fits its buffer. -/
theorem getBit_pack_subset_atom (bytes : Nat) (src : List Bool) (ab : Nat) (c : List Nat)
    (k t bit : Nat) (ht : t < k) (hbit : bit < ab) (hfit : ab * k ≤ 8 * bytes) :
    getBit (pack_subset bytes src ab c k) (t * ab + bit) = getBit src (c.getD t 0 * ab + bit) := by
  rw [getBit_pack_subset]
  have h1 : (t * ab + bit) / ab = t := by
    rw [Nat.add_comm, Nat.add_mul_div_right _ _ (by omega), Nat.div_eq_of_lt hbit, Nat.zero_add]
  have h2 : (t * ab + bit) % ab = bit := by
    rw [Nat.add_comm, Nat.add_mul_mod_self_right, Nat.mod_eq_of_lt hbit]
  rw [h1, h2]
  have h3 : t * ab + bit < k * ab := by
    have : (t + 1) * ab ≤ k * ab := Nat.mul_le_mul_right _ ht
    rw [Nat.succ_mul] at this
    omega
  have h4 : t * ab + bit < 8 * bytes := by
    rw [Nat.mul_comm ab k] at hfit
    omega
  have e : decide (t * ab + bit < k * ab ∧ t * ab + bit < 8 * bytes) = true := by
    rw [decide_eq_true_iff]; exact ⟨h3, h4⟩
  rw [e, Bool.true_and]

/-! ## The novelty tables built by the insertions -/

theorem partialAt_set (trees : List radixTree) (i s : Nat) (v : radixTree) :
    partialAt (trees.set i v) s = if s = i ∧ i < trees.length then v else partialAt trees s := by
  unfold partialAt
  rw [List.get?_eq_getElem?, List.get?_eq_getElem?, List.getElem?_set]
  by_cases h : i = s
  · subst h
    by_cases hl : i < trees.length
    · simp [hl]
    · simp [hl, List.getElem?_eq_none (Nat.le_of_not_lt hl)]
  · rw [if_neg h, if_neg (by intro hc; exact h hc.1.symm)]

theorem foldl_set_partialAt (F : Nat → radixTree → radixTree) (m : Nat) (trees : List radixTree) :
    ((List.range m).foldl (fun ts s => ts.set s (F s (partialAt ts s))) trees).length =
        trees.length ∧
      ∀ s, partialAt ((List.range m).foldl (fun ts s => ts.set s (F s (partialAt ts s))) trees) s =
        if s < m ∧ s < trees.length then F s (partialAt trees s) else partialAt trees s := by
  induction m with
  | zero =>
    refine ⟨by simp, ?_⟩
    intro s
    rw [if_neg (by omega)]
    simp
  | succ m ih =>
    obtain ⟨hlen, hat⟩ := ih
    rw [List.range_succ, List.foldl_append]
    simp only [List.foldl_cons, List.foldl_nil]
    refine ⟨by rw [List.length_set, hlen], ?_⟩
    intro s
    have hm : partialAt ((List.range m).foldl (fun ts s => ts.set s (F s (partialAt ts s))) trees) m =
        partialAt trees m := by
      rw [hat m, if_neg (by omega)]
    rw [partialAt_set, hlen, hm, hat s]
    by_cases hs : s = m
    · subst hs
      by_cases hl : s < trees.length
      · rw [if_pos ⟨rfl, hl⟩, if_pos ⟨by omega, hl⟩]
      · rw [if_neg (by tauto), if_neg (by tauto), if_neg (by tauto)]
    · rw [if_neg (by tauto)]
      by_cases hc : s < m ∧ s < trees.length
      · rw [if_pos hc, if_pos ⟨by omega, hc.2⟩]
      · rw [if_neg hc, if_neg (by omega)]

theorem novelty_insert_spec (trees : List radixTree) (key : List Bool) (n limit ab : Nat) :
    (novelty_insert trees key n limit ab).length = trees.length ∧
      ∀ s, partialAt (novelty_insert trees key n limit ab) s =
        if s < (if n < limit then n else limit) ∧ s < trees.length then
          insert_all_combinations (partialAt trees s) key n (s + 1) ab (subsetBytesOf ab s)
        else partialAt trees s := by
  unfold novelty_insert
  exact foldl_set_partialAt
    (fun s t => insert_all_combinations t key n (s + 1) ab (subsetBytesOf ab s)) _ trees

theorem foldl_novelty_insert_keys (E : List (List Bool)) (n limit ab : Nat)
    (trees : List radixTree) (hlen : trees.length = limit) :
    (E.foldl (fun ts key => novelty_insert ts key n limit ab) trees).length = limit ∧
      ∀ s, s < limit → s < n → ∀ x,
        x ∈ (partialAt (E.foldl (fun ts key => novelty_insert ts key n limit ab) trees) s).keys ↔
          x ∈ (partialAt trees s).keys ∨
            ∃ e ∈ E, ∃ c ∈ combosFrom n 0 (s + 1),
              x = (s + 1, pack_subset (subsetBytesOf ab s) e ab c (s + 1)) := by
  induction E generalizing trees with
  | nil =>
    refine ⟨hlen, ?_⟩
    intro s _ _ x
    simp
  | cons e E ih =>
    obtain ⟨hl1, hat1⟩ := novelty_insert_spec trees e n limit ab
    obtain ⟨hl2, hat2⟩ := ih (novelty_insert trees e n limit ab) (hl1.trans hlen)
    rw [List.foldl_cons]
    refine ⟨hl2, ?_⟩
    intro s hs hn x
    rw [hat2 s hs hn x, hat1 s, if_pos ⟨by split_ifs <;> omega, by omega⟩,
      insert_all_combinations_keys _ _ _ _ _ _ (by omega) (by omega)]
    constructor
    · rintro ((h | ⟨c, hc, h⟩) | ⟨e1, he1, c, hc, h⟩)
      · exact Or.inl h
      · exact Or.inr ⟨e, List.mem_cons_self _ _, c, hc, h⟩
      · exact Or.inr ⟨e1, List.mem_cons_of_mem _ he1, c, hc, h⟩
    · rintro (h | ⟨e1, he1, c, hc, h⟩)
      · exact Or.inl (Or.inl h)
      · rcases List.mem_cons.mp he1 with rfl | he1
        · exact Or.inl (Or.inr ⟨c, hc, h⟩)
        · exact Or.inr ⟨e1, he1, c, hc, h⟩

/-- The keys of the table of size `s + 1` built from the expanded keys: the
subset keys of that size of the expanded keys. -/
theorem tablesOf_keys (E : List (List Bool)) (n limit ab s : Nat) (hs : s < limit) (hn : s < n)
    (x : Nat × List Bool) :
    x ∈ (partialAt (tablesOf E n limit ab) s).keys ↔
      ∃ e ∈ E, ∃ c ∈ combosFrom n 0 (s + 1),
        x = (s + 1, pack_subset (subsetBytesOf ab s) e ab c (s + 1)) := by
  unfold tablesOf
  rw [(foldl_novelty_insert_keys E n limit ab _ (by simp)).2 s hs hn x]
  have : (partialAt ((List.range limit).map (fun _ => getNewRadixTree n 0 0)) s).keys = [] := by
    unfold partialAt
    rw [List.get?_eq_getElem?, List.getElem?_map]
    cases (List.range limit)[s]? <;> rfl
  rw [this]
  simp

/-- On tables built from expanded keys, a size all of whose subset keys are
present makes every single atom of the candidate present in the table of size 1. -/
theorem all_present_at_size_one (E : List (List Bool)) (cand : List Bool) (n limit ab s : Nat)
    (hs : s < limit) (hn : s < n)
    (h : all_combinations_present (partialAt (tablesOf E n limit ab) s) cand n (s + 1) ab
      (subsetBytesOf ab s) = true) :
    all_combinations_present (partialAt (tablesOf E n limit ab) 0) cand n 1 ab
      (subsetBytesOf ab 0) = true := by
  rw [all_combinations_present_iff _ _ _ _ _ _ (by omega) (by omega)] at h
  rw [all_combinations_present_iff _ _ _ _ _ _ (by omega) (by omega)]
  intro c1 hc1
  have hlen1 := combosFrom_length _ _ _ c1 hc1
  obtain ⟨i, rfl⟩ : ∃ i, c1 = [i] := by
    cases c1 with
    | nil => simp at hlen1
    | cons i t =>
      cases t with
      | nil => exact ⟨i, rfl⟩
      | cons _ _ => simp at hlen1
  have hi : i < n := by
    have := combosFrom_bounds _ _ _ _ hc1 i (by simp)
    omega
  obtain ⟨c, hc, t, ht, hct⟩ := combosFrom_covers n (s + 1) i (by omega) (by omega) hi
  have hin := h c hc
  rw [tablesOf_keys E n limit ab s hs hn] at hin
  obtain ⟨e, he, c2, hc2, heq⟩ := hin
  have hkey : pack_subset (subsetBytesOf ab s) cand ab c (s + 1) =
      pack_subset (subsetBytesOf ab s) e ab c2 (s + 1) := (Prod.mk.inj heq).2
  have hlen2 := combosFrom_length _ _ _ c2 hc2
  have hj : c2.getD t 0 < n := by
    have hmem : c2.getD t 0 ∈ c2 := by
      rw [List.getD_eq_getElem?_getD, List.getElem?_eq_getElem (by omega)]
      exact List.getElem_mem _
    have := combosFrom_bounds _ _ _ _ hc2 _ hmem
    omega
  have hatom : ∀ bit, bit < ab →
      getBit cand (i * ab + bit) = getBit e (c2.getD t 0 * ab + bit) := by
    intro bit hbit
    have h1 := getBit_pack_subset_atom (subsetBytesOf ab s) cand ab c (s + 1) t bit ht hbit
      (subsetBytesOf_fits ab s)
    have h2 := getBit_pack_subset_atom (subsetBytesOf ab s) e ab c2 (s + 1) t bit ht hbit
      (subsetBytesOf_fits ab s)
    rw [hct] at h1
    rw [← h1, ← h2, hkey]
  rw [tablesOf_keys E n limit ab 0 (by omega) (by omega)]
  refine ⟨e, he, [c2.getD t 0], ?_, ?_⟩
  · apply mem_combosFrom
    · rfl
    · simp
    · intro x hx
      simp only [List.mem_singleton] at hx
      subst hx
      omega
  · rw [pack_subset_single (subsetBytesOf ab 0) cand e ab i (c2.getD t 0) hatom]

theorem novelty_skip_iff (trees : List radixTree) (cand : List Bool) (n limit ab : Nat) :
    novelty_skip trees cand n limit ab = true ↔
      ∃ s, s < limit ∧ s < n ∧
        all_combinations_present (partialAt trees s) cand n (s + 1) ab (subsetBytesOf ab s) =
          true := by
  unfold novelty_skip
  rw [List.any_eq_true]
  constructor
  · rintro ⟨s, hs, h⟩
    rw [List.mem_range] at hs
    refine ⟨s, ?_, ?_, h⟩ <;> split_ifs at hs <;> omega
  · rintro ⟨s, h1, h2, h⟩
    refine ⟨s, ?_, h⟩
    rw [List.mem_range]
    split_ifs <;> omega

/-- On tables built from expanded keys, the test of lines 766 to 775 gives the
same answer at every limit from 1 on that the tables cover. -/
theorem novelty_skip_collapse (E : List (List Bool)) (cand : List Bool) (n limit ab w : Nat)
    (hw : 1 ≤ w) (hle : w ≤ limit) :
    novelty_skip (tablesOf E n limit ab) cand n w ab =
      novelty_skip (tablesOf E n limit ab) cand n 1 ab := by
  rw [Bool.eq_iff_iff, novelty_skip_iff, novelty_skip_iff]
  constructor
  · rintro ⟨s, h1, h2, h⟩
    exact ⟨0, by omega, by omega, all_present_at_size_one E cand n limit ab s (by omega) h2 h⟩
  · rintro ⟨s, h1, h2, h⟩
    have : s = 0 := by omega
    subst this
    exact ⟨0, by omega, h2, h⟩

/-! ## The novelty tables of a run -/

theorem novelty_insert_zero (trees : List radixTree) (key : List Bool) (n ab : Nat) :
    novelty_insert trees key n 0 ab = trees := by
  unfold novelty_insert
  simp

theorem tablesOf_snoc (E : List (List Bool)) (key : List Bool) (n limit ab : Nat) :
    tablesOf (E ++ [key]) n limit ab = novelty_insert (tablesOf E n limit ab) key n limit ab := by
  unfold tablesOf
  rw [List.foldl_append]
  rfl

theorem tablesOf_zero (E : List (List Bool)) (n ab : Nat) : tablesOf E n 0 ab = [] := by
  unfold tablesOf
  induction E with
  | nil => rfl
  | cons e E ih =>
    rw [List.foldl_cons, novelty_insert_zero]
    exact ih

theorem search_init_tablesInv (init_data : gate_t) (width_limit : Int) (ab : Nat) :
    tablesInv init_data (noveltyLimitOf init_data width_limit) ab
      (search_init init_data width_limit) := by
  constructor
  · intro node hn
    have := (pq_enqueue_perm init_priority_queue
      (create_search_node (duplicate_state init_data) 0 0 0)).mem_iff.mp hn
    simp only [init_priority_queue, List.mem_singleton] at this
    subst this
    rfl
  · rfl

theorem search_step_tablesInv (init_data : gate_t) (nl ab pb : Nat) (vars : search_vars)
    (h : tablesInv init_data nl ab vars) : tablesInv init_data nl ab (search_step nl ab pb vars) := by
  obtain ⟨hq, ht⟩ := h
  rcases hdq : pq_dequeue vars.pq with ⟨_ | current, pq1⟩
  · rw [search_step_none nl ab pb vars pq1 hdq]; exact ⟨hq, ht⟩
  · have hperm := pq_dequeue_perm vars.pq current pq1 hdq
    have hcur : current.state.num_pieces = init_data.num_pieces :=
      hq current (hperm.mem_iff.mpr (List.mem_cons_self _ _))
    have hrest : ∀ node ∈ pq1.nodes, node.state.num_pieces = init_data.num_pieces :=
      fun node hn => hq node (hperm.mem_iff.mpr (List.mem_cons_of_mem _ hn))
    cases hw : winning_state current.state with
    | true =>
      rw [search_step_win nl ab pb vars current pq1 hdq hw]
      exact ⟨hrest, ht⟩
    | false =>
      cases hc : checkPresent vars.expandedStates (packedKey current.state pb)
          current.state.num_pieces with
      | true =>
        rw [search_step_dup nl ab pb vars current pq1 hdq hw hc]
        exact ⟨hrest, ht⟩
      | false =>
        rw [search_step_expand nl ab pb vars current pq1 hdq hw hc]
        obtain ⟨he, hp⟩ := foldl_expand_move_tries nl ab pb current
          (moveOrder current.state.num_pieces) (expand_start nl ab pb vars current pq1)
        constructor
        · intro node hn
          rcases foldl_expand_move_mem nl ab pb current _ _ node hn with h1 | ⟨move, next, h1, h2⟩
          · exact hrest node h1
          · rw [h2]
            show next.num_pieces = init_data.num_pieces
            rw [apply_action_num_pieces _ _ _ _ h1, hcur]
        · rw [he, hp]
          show (if nl > 0 then novelty_insert vars.partialStates (packedKey current.state pb)
              current.state.num_pieces nl ab else vars.partialStates) =
            tablesOf ((((current.state.num_pieces, packedKey current.state pb) ::
              vars.expandedStates.keys).map Prod.snd).reverse) init_data.num_pieces nl ab
          rw [List.map_cons, List.reverse_cons, tablesOf_snoc, ← ht, hcur]
          by_cases hnl : nl > 0
          · rw [if_pos hnl]
          · have : nl = 0 := by omega
            subst this
            rw [if_neg hnl, novelty_insert_zero]

theorem search_after_tablesInv (init_data : gate_t) (width_limit : Int) (packedBytes n : Nat) :
    tablesInv init_data (noveltyLimitOf init_data width_limit) (atomBitsOf init_data)
      (search_after init_data width_limit packedBytes n) := by
  unfold search_after
  exact search_loop_invariant _ _ _ (tablesInv init_data _ _)
    (fun vars hv _ => search_step_tablesInv init_data _ _ _ vars hv) n _
    (search_init_tablesInv init_data width_limit _)

/-! ## Monotonicity of the novelty test -/

set_option maxRecDepth 100000 in
/-- A remark on tables that no run of run_search builds: with two pieces, an empty
table of size 1 and a table of size 2 that holds the pair of the candidate's
two atoms, the test of lines 766 to 775 passes the candidate at limit 1 and
skips it at limit 2.  The insertions of lines 743 to 749 fill every size at
once, so the test never meets such tables. -/
theorem novelty_not_monotone_on_arbitrary_tables :
    novelty_skip pairOnlyTables (packedKey pocketBoard 2) 2 1 (atomBitsOf pocketBoard) = false ∧
      novelty_skip pairOnlyTables (packedKey pocketBoard 2) 2 2 (atomBitsOf pocketBoard) = true := by
  decide!

theorem getBit_packAtom_id (g : gate_t) (pB hB wB : Nat) (s : List Bool) (i j : Nat)
    (hj : j < pB) (hlen : (i + 1) * (pB + hB + wB) ≤ s.length) :
    getBit (packAtom g pB hB wB s i) (i * (pB + hB + wB) + j) =
      decide (((i : Int) / 2 ^ j) % 2 = 1) := by
  unfold packAtom
  simp only
  have e : (i + 1) * (pB + hB + wB) = i * (pB + hB + wB) + (pB + hB + wB) := by ring
  rw [e] at hlen
  rw [getBit_packField, if_neg (by omega), getBit_packField, if_neg (by omega),
    getBit_packField, if_pos (by omega)]
  have : i * (pB + hB + wB) + j - i * (pB + hB + wB) = j := by omega
  rw [this]

theorem atom_fits (g : gate_t) (buf : List Bool) (i : Nat) (hi : i < g.num_pieces)
    (hbuf : getPackedSize g ≤ buf.length) :
    (i + 1) * (pBitsOf g.num_pieces + dimBitsOf g.lines + dimBitsOf (widthOf g)) ≤ buf.length := by
  have h1 : (i + 1) * atomBitsOf g ≤ g.num_pieces * atomBitsOf g :=
    Nat.mul_le_mul_right _ (by omega)
  unfold getPackedSize at hbuf
  rw [Nat.mul_comm] at hbuf
  unfold atomBitsOf at h1 hbuf
  omega

theorem getBit_packMap_id (g : gate_t) (buf : List Bool) (i j : Nat) (hi : i < g.num_pieces)
    (hj : j < pBitsOf g.num_pieces) (hbuf : getPackedSize g ≤ buf.length) :
    getBit (packMap g buf) (i * atomBitsOf g + j) = decide (((i : Int) / 2 ^ j) % 2 = 1) := by
  have hfit := atom_fits g buf i hi hbuf
  unfold packMap atomBitsOf
  have e : (i + 1) * (pBitsOf g.num_pieces + dimBitsOf g.lines + dimBitsOf (widthOf g)) =
      i * (pBitsOf g.num_pieces + dimBitsOf g.lines + dimBitsOf (widthOf g)) +
        (pBitsOf g.num_pieces + dimBitsOf g.lines + dimBitsOf (widthOf g)) := by ring
  rw [getBit_foldl_packAtom _ _ _ _ _ _ i _ hi (by omega), getBit_packAtom_id _ _ _ _ _ _ _ hj]
  rw [length_foldl_packAtom]
  exact hfit

theorem getBit_packMap_y (g : gate_t) (buf : List Bool) (i j : Nat) (hi : i < g.num_pieces)
    (hj : j < dimBitsOf g.lines) (hbuf : getPackedSize g ≤ buf.length) :
    getBit (packMap g buf) (i * atomBitsOf g + pBitsOf g.num_pieces + j) =
      decide ((g.piece_y i / 2 ^ j) % 2 = 1) := by
  have hfit := atom_fits g buf i hi hbuf
  unfold packMap atomBitsOf
  have e : (i + 1) * (pBitsOf g.num_pieces + dimBitsOf g.lines + dimBitsOf (widthOf g)) =
      i * (pBitsOf g.num_pieces + dimBitsOf g.lines + dimBitsOf (widthOf g)) +
        (pBitsOf g.num_pieces + dimBitsOf g.lines + dimBitsOf (widthOf g)) := by ring
  rw [getBit_foldl_packAtom _ _ _ _ _ _ i _ hi (by omega), getBit_packAtom_y _ _ _ _ _ _ _ hj]
  rw [length_foldl_packAtom]
  exact hfit

theorem getBit_packMap_x (g : gate_t) (buf : List Bool) (i j : Nat) (hi : i < g.num_pieces)
    (hj : j < dimBitsOf (widthOf g)) (hbuf : getPackedSize g ≤ buf.length) :
    getBit (packMap g buf)
        (i * atomBitsOf g + pBitsOf g.num_pieces + dimBitsOf g.lines + j) =
      decide ((g.piece_x i / 2 ^ j) % 2 = 1) := by
  have hfit := atom_fits g buf i hi hbuf
  unfold packMap atomBitsOf
  have e : (i + 1) * (pBitsOf g.num_pieces + dimBitsOf g.lines + dimBitsOf (widthOf g)) =
      i * (pBitsOf g.num_pieces + dimBitsOf g.lines + dimBitsOf (widthOf g)) +
        (pBitsOf g.num_pieces + dimBitsOf g.lines + dimBitsOf (widthOf g)) := by ring
  rw [getBit_foldl_packAtom _ _ _ _ _ _ i _ hi (by omega), getBit_packAtom_x _ _ _ _ _ _ _ hj]
  rw [length_foldl_packAtom]
  exact hfit

theorem getBit_foldl_packAtom_beyond (g : gate_t) (pB hB wB : Nat) (s : List Bool) (n t : Nat)
    (ht : n * (pB + hB + wB) ≤ t) :
    getBit ((List.range n).foldl (packAtom g pB hB wB) s) t = getBit s t := by
  induction n with
  | zero => simp
  | succ n ih =>
    rw [List.range_succ, List.foldl_append]
    simp only [List.foldl_cons, List.foldl_nil]
    rw [getBit_packAtom_outside _ _ _ _ _ _ _ (Or.inr ht)]
    apply ih
    have : n * (pB + hB + wB) ≤ (n + 1) * (pB + hB + wB) := Nat.mul_le_mul_right _ (by omega)
    omega

theorem getBit_packMap_beyond (g : gate_t) (buf : List Bool) (t : Nat)
    (ht : getPackedSize g ≤ t) : getBit (packMap g buf) t = getBit buf t := by
  unfold packMap
  apply getBit_foldl_packAtom_beyond
  unfold getPackedSize atomBitsOf at ht
  rw [Nat.mul_comm]
  exact ht

/-- C17 (atom layout).  In a key buffer that holds the packed size, packMap
leaves the atom of every piece `i` below num_pieces at bit offset
`i * atomBits`: its first pBits bits hold `i`, the next hBits bits hold
piece_y[i], the next wBits bits hold piece_x[i], each field least significant
bit first, bit `j` of a field being set exactly when `(value >> j) & 1` is 1. -/
theorem packMap_atom_layout (gate : gate_t) (packedMap : List Bool) (i : Nat)
    (hi : i < gate.num_pieces) (hbuf : getPackedSize gate ≤ packedMap.length) :
    (∀ j, j < pBitsOf gate.num_pieces →
      getBit (packMap gate packedMap) (i * atomBitsOf gate + j) =
        decide (((i : Int) / 2 ^ j) % 2 = 1)) ∧
    (∀ j, j < dimBitsOf gate.lines →
      getBit (packMap gate packedMap) (i * atomBitsOf gate + pBitsOf gate.num_pieces + j) =
        decide ((gate.piece_y i / 2 ^ j) % 2 = 1)) ∧
    (∀ j, j < dimBitsOf (widthOf gate) →
      getBit (packMap gate packedMap)
          (i * atomBitsOf gate + pBitsOf gate.num_pieces + dimBitsOf gate.lines + j) =
        decide ((gate.piece_x i / 2 ^ j) % 2 = 1)) :=
  ⟨fun j hj => getBit_packMap_id gate packedMap i j hi hj hbuf,
    fun j hj => getBit_packMap_y gate packedMap i j hi hj hbuf,
    fun j hj => getBit_packMap_x gate packedMap i j hi hj hbuf⟩

/-- C17 at a concrete input: the atom of piece 1 of the pocket board in a zeroed
key of two bytes. -/
theorem packMap_atom_layout_witness :
    (1 < pocketBoard.num_pieces ∧
      getPackedSize pocketBoard ≤ (List.replicate 16 false).length) ∧
    ((∀ j, j < pBitsOf pocketBoard.num_pieces →
      getBit (packMap pocketBoard (List.replicate 16 false)) (1 * atomBitsOf pocketBoard + j) =
        decide ((((1 : Nat) : Int) / 2 ^ j) % 2 = 1)) ∧
    (∀ j, j < dimBitsOf pocketBoard.lines →
      getBit (packMap pocketBoard (List.replicate 16 false))
          (1 * atomBitsOf pocketBoard + pBitsOf pocketBoard.num_pieces + j) =
        decide ((pocketBoard.piece_y 1 / 2 ^ j) % 2 = 1)) ∧
    (∀ j, j < dimBitsOf (widthOf pocketBoard) →
      getBit (packMap pocketBoard (List.replicate 16 false))
          (1 * atomBitsOf pocketBoard + pBitsOf pocketBoard.num_pieces +
            dimBitsOf pocketBoard.lines + j) =
        decide ((pocketBoard.piece_x 1 / 2 ^ j) % 2 = 1))) :=
  ⟨⟨by decide, by decide⟩,
    packMap_atom_layout pocketBoard (List.replicate 16 false) 1 (by decide) (by decide)⟩

/-! ## Injectivity of the packed key -/

set_option maxRecDepth 100000 in
/-- C16, a counterexample to the claim as stated for every two boards.  The
boards `G   `/`   0` and `G   `/`    ` have one piece, two rows and four
columns, so hBits is 1 and wBits is 2; the first records piece 0 in the last
row and the last column, at (x, y) = (3, 1), the second records the sentinel
(-1, -1), which is what find_piece_coordinates leaves on its grid; the bit of
the y field and the two bits of the x field are 1 in both keys, and the keys
are equal, whether the id field of the one piece has 1 bit or none. -/
theorem packMap_sentinel_collision :
    cornerBoard.num_pieces = unlocatedBoard.num_pieces ∧
      cornerBoard.lines = unlocatedBoard.lines ∧
      widthOf cornerBoard = widthOf unlocatedBoard ∧
      cornerBoard.piece_x 0 ≠ unlocatedBoard.piece_x 0 ∧
      cornerBoard.piece_y 0 ≠ unlocatedBoard.piece_y 0 ∧
      ((find_piece_coordinates unlocatedBoard 48).1.piece_x 0 = unlocatedBoard.piece_x 0 ∧
        (find_piece_coordinates unlocatedBoard 48).1.piece_y 0 = unlocatedBoard.piece_y 0) ∧
      (dimBitsOf cornerBoard.lines = 1 ∧ dimBitsOf (widthOf cornerBoard) = 2) ∧
      packMap cornerBoard (List.replicate 8 false) =
        packMap unlocatedBoard (List.replicate 8 false) ∧
      packAtom cornerBoard 0 1 2 (List.replicate 8 false) 0 =
        packAtom unlocatedBoard 0 1 2 (List.replicate 8 false) 0 := by
  decide!

theorem two_pow_dimBits (n : Nat) : (n : Int) ≤ 2 ^ dimBitsOf n := by
  have := le_two_pow_calcBits n
  unfold dimBitsOf
  exact_mod_cast this

/-- C16 (amended: injectivity on located pieces).  For two boards with the same
num_pieces, lines and width whose recorded coordinates all lie inside the
grid, and key buffers that hold the packed size: if the coordinate vectors
differ at some piece below num_pieces, the keys packMap writes differ at some
bit below `num_pieces * atomBits`. -/
theorem packMap_injective_on_located (a b : gate_t) (bufA bufB : List Bool)
    (hn : a.num_pieces = b.num_pieces) (hl : a.lines = b.lines) (hw : widthOf a = widthOf b)
    (hbufA : getPackedSize a ≤ bufA.length) (hbufB : getPackedSize b ≤ bufB.length)
    (hra : ∀ i, i < a.num_pieces →
      0 ≤ a.piece_y i ∧ a.piece_y i < a.lines ∧ 0 ≤ a.piece_x i ∧ a.piece_x i < widthOf a)
    (hrb : ∀ i, i < b.num_pieces →
      0 ≤ b.piece_y i ∧ b.piece_y i < b.lines ∧ 0 ≤ b.piece_x i ∧ b.piece_x i < widthOf b)
    (hdiff : ∃ i, i < a.num_pieces ∧ (a.piece_x i ≠ b.piece_x i ∨ a.piece_y i ≠ b.piece_y i)) :
    ∃ t, t < getPackedSize a ∧ getBit (packMap a bufA) t ≠ getBit (packMap b bufB) t := by
  by_contra hall
  push_neg at hall
  obtain ⟨i, hi, hne⟩ := hdiff
  have hib : i < b.num_pieces := by omega
  obtain ⟨a1, a2, a3, a4⟩ := hra i hi
  obtain ⟨b1, b2, b3, b4⟩ := hrb i hib
  have hab : atomBitsOf a = atomBitsOf b := by
    unfold atomBitsOf
    rw [hn, hl, hw]
  have hlt : ∀ off, off < atomBitsOf a → i * atomBitsOf a + off < getPackedSize a := by
    intro off hoff
    have : (i + 1) * atomBitsOf a ≤ a.num_pieces * atomBitsOf a :=
      Nat.mul_le_mul_right _ (by omega)
    unfold getPackedSize
    rw [Nat.mul_comm (atomBitsOf a)]
    rw [Nat.succ_mul] at this
    omega
  have hL := two_pow_dimBits a.lines
  have hW := two_pow_dimBits (widthOf a)
  have hx : a.piece_x i = b.piece_x i := by
    apply int_eq_of_bits _ _ (dimBitsOf (widthOf a)) a3 b3 (by omega) (by rw [hw] at hW ⊢; omega)
    intro j hj
    have h1 := getBit_packMap_x a bufA i j hi hj hbufA
    have h2 := getBit_packMap_x b bufB i j hib (by rw [← hw]; exact hj) hbufB
    rw [← hab, ← hn, ← hl] at h2
    rw [← h1, ← h2]
    apply hall
    have := hlt (pBitsOf a.num_pieces + dimBitsOf a.lines + j) (by unfold atomBitsOf; omega)
    omega
  have hy : a.piece_y i = b.piece_y i := by
    apply int_eq_of_bits _ _ (dimBitsOf a.lines) a1 b1 (by omega) (by rw [hl] at hL ⊢; omega)
    intro j hj
    have h1 := getBit_packMap_y a bufA i j hi hj hbufA
    have h2 := getBit_packMap_y b bufB i j hib (by rw [← hl]; exact hj) hbufB
    rw [← hab, ← hn] at h2
    rw [← h1, ← h2]
    apply hall
    have := hlt (pBitsOf a.num_pieces + j) (by unfold atomBitsOf; omega)
    omega
  rcases hne with h | h
  · exact h hx
  · exact h hy

/-- C16 at a concrete input: the boards `G   `/`0   ` and `G   `/`   0`, piece 0 at
column 0 and at column 3 of the last row. -/
theorem packMap_injective_on_located_witness :
    ∃ t, t < getPackedSize edgeBoard ∧
      getBit (packMap edgeBoard (List.replicate 8 false)) t ≠
        getBit (packMap cornerBoard (List.replicate 8 false)) t :=
  packMap_injective_on_located edgeBoard cornerBoard (List.replicate 8 false)
    (List.replicate 8 false) rfl rfl (by decide) (by decide) (by decide)
    (by
      intro i hi
      have : i = 0 := by
        have : edgeBoard.num_pieces = 1 := rfl
        omega
      subst this
      decide)
    (by
      intro i hi
      have : i = 0 := by
        have : cornerBoard.num_pieces = 1 := rfl
        omega
      subst this
      decide)
    ⟨0, by decide, Or.inl (by decide)⟩

/-! ## The subset key and the full key -/

/-- C18 (subset key).  For every source key, atom size and index list (strictly
increasing or not) whose atoms fit the destination buffer, pack_subset leaves
a buffer of `destBytes` bytes in which bit `j * atomBits + b` is the source
bit `indices[j] * atomBits + b` for every position `j` of the list and every
`b` below atomBits, and every bit from `count * atomBits` on is 0. -/
theorem pack_subset_bits (destBytes : Nat) (src : List Bool) (atomBits : Nat)
    (indices : List Nat) (hfit : atomBits * indices.length ≤ 8 * destBytes) :
    (pack_subset destBytes src atomBits indices indices.length).length = 8 * destBytes ∧
    (∀ (j : Nat) (hj : j < indices.length) (b : Nat), b < atomBits →
      getBit (pack_subset destBytes src atomBits indices indices.length) (j * atomBits + b) =
        getBit src (indices.get ⟨j, hj⟩ * atomBits + b)) ∧
    (∀ p, indices.length * atomBits ≤ p →
      getBit (pack_subset destBytes src atomBits indices indices.length) p = false) := by
  refine ⟨length_pack_subset _ _ _ _ _, ?_, ?_⟩
  · intro j hj b hb
    rw [getBit_pack_subset_atom destBytes src atomBits indices indices.length j b hj hb hfit]
    congr 2
    rw [List.getD_eq_getElem _ _ hj]
    rfl
  · intro p hp
    rw [getBit_pack_subset]
    have : decide (p < indices.length * atomBits ∧ p < 8 * destBytes) = false := by
      rw [decide_eq_false_iff_not]
      omega
    rw [this]
    rfl

/-- C18 at a concrete input: the pair of the two atoms of the pocket board in a
buffer of two bytes. -/
theorem pack_subset_bits_witness :
    atomBitsOf pocketBoard * [0, 1].length ≤ 8 * 2 ∧
    ((pack_subset 2 (packedKey pocketBoard 2) (atomBitsOf pocketBoard) [0, 1]
        [0, 1].length).length = 8 * 2 ∧
    (∀ (j : Nat) (hj : j < [0, 1].length) (b : Nat), b < atomBitsOf pocketBoard →
      getBit (pack_subset 2 (packedKey pocketBoard 2) (atomBitsOf pocketBoard) [0, 1]
          [0, 1].length) (j * atomBitsOf pocketBoard + b) =
        getBit (packedKey pocketBoard 2)
          (([0, 1] : List Nat).get ⟨j, hj⟩ * atomBitsOf pocketBoard + b)) ∧
    (∀ p, [0, 1].length * atomBitsOf pocketBoard ≤ p →
      getBit (pack_subset 2 (packedKey pocketBoard 2) (atomBitsOf pocketBoard) [0, 1]
          [0, 1].length) p = false)) :=
  ⟨by decide, pack_subset_bits 2 (packedKey pocketBoard 2) (atomBitsOf pocketBoard) [0, 1]
    (by decide)⟩

theorem getBit_beyond_length (s : List Bool) (p : Nat) (h : s.length ≤ p) :
    getBit s p = false := by
  unfold getBit
  rw [List.getD_eq_getElem?_getD, List.getElem?_eq_none h]
  rfl

theorem getBit_packedKey_beyond (g : gate_t) (bytes p : Nat) (h : getPackedSize g ≤ p) :
    getBit (packedKey g bytes) p = false := by
  unfold packedKey
  rw [getBit_packMap_beyond g _ p h]
  unfold getBit
  rw [List.getD_eq_getElem?_getD]
  by_cases hp : p < (List.replicate (8 * bytes) false).length
  · rw [List.getElem?_eq_getElem hp]
    simp
  · rw [List.getElem?_eq_none (by omega)]
    rfl

/-- C19 (the full key is the subset key of all the atoms).  For every board and
every buffer size, pack_subset applied to the key packMap writes into a
zeroed buffer, with the index list 0, 1, ..., num_pieces - 1, gives that key
again, bit for bit. -/
theorem pack_subset_all_atoms (gate : gate_t) (packedBytes : Nat) :
    pack_subset packedBytes (packedKey gate packedBytes) (atomBitsOf gate)
        (List.range gate.num_pieces) gate.num_pieces =
      packedKey gate packedBytes := by
  apply list_bool_ext
  · rw [length_pack_subset, length_packedKey]
  · intro p
    rw [getBit_pack_subset]
    by_cases hp : p < gate.num_pieces * atomBitsOf gate
    · have hab : 0 < atomBitsOf gate := by
        rcases Nat.eq_zero_or_pos (atomBitsOf gate) with h0 | h0
        · rw [h0] at hp; omega
        · exact h0
      have hdiv : p / atomBitsOf gate < gate.num_pieces := by
        rw [Nat.div_lt_iff_lt_mul hab]
        exact hp
      have hget : (List.range gate.num_pieces).getD (p / atomBitsOf gate) 0 =
          p / atomBitsOf gate := by
        rw [List.getD_eq_getElem?_getD, List.getElem?_range hdiv]
        rfl
      have hidx : p / atomBitsOf gate * atomBitsOf gate + p % atomBitsOf gate = p := by
        rw [Nat.mul_comm]
        exact Nat.div_add_mod p (atomBitsOf gate)
      rw [hget, hidx]
      by_cases hl : p < 8 * packedBytes
      · have : decide (p < gate.num_pieces * atomBitsOf gate ∧ p < 8 * packedBytes) = true := by
          rw [decide_eq_true_iff]; exact ⟨hp, hl⟩
        rw [this, Bool.true_and]
      · have : decide (p < gate.num_pieces * atomBitsOf gate ∧ p < 8 * packedBytes) = false := by
          rw [decide_eq_false_iff_not]; tauto
        rw [this, Bool.false_and, getBit_beyond_length]
        rw [length_packedKey]
        omega
    · have : decide (p < gate.num_pieces * atomBitsOf gate ∧ p < 8 * packedBytes) = false := by
        rw [decide_eq_false_iff_not]; tauto
      rw [this, Bool.false_and, getBit_packedKey_beyond]
      unfold getPackedSize
      rw [Nat.mul_comm]
      omega

/-! ## The enumeration visits every subset once, in lexicographic order -/

theorem combosFrom_increasing (g lo k : Nat) (c : List Nat) (h : c ∈ combosFrom g lo k) :
    c.Pairwise (fun a b => a < b) := by
  induction g generalizing lo k c with
  | zero =>
    cases k with
    | zero => simp [combosFrom] at h; subst h; exact List.Pairwise.nil
    | succ k => simp [combosFrom] at h
  | succ g ih =>
    cases k with
    | zero => simp [combosFrom] at h; subst h; exact List.Pairwise.nil
    | succ k =>
      simp only [combosFrom, List.mem_append, List.mem_map] at h
      rcases h with ⟨c1, hc1, rfl⟩ | h
      · rw [List.pairwise_cons]
        refine ⟨?_, ih _ _ _ hc1⟩
        intro x hx
        have := combosFrom_bounds _ _ _ _ hc1 x hx
        omega
      · exact ih _ _ _ h

theorem mem_combosFrom_iff (n k : Nat) (c : List Nat) :
    c ∈ combosFrom n 0 k ↔
      c.length = k ∧ c.Pairwise (fun a b => a < b) ∧ ∀ x ∈ c, x < n := by
  constructor
  · intro h
    refine ⟨combosFrom_length _ _ _ _ h, combosFrom_increasing _ _ _ _ h, ?_⟩
    intro x hx
    have := combosFrom_bounds _ _ _ _ h x hx
    omega
  · rintro ⟨h1, h2, h3⟩
    apply mem_combosFrom _ _ _ _ h1 h2
    intro x hx
    have := h3 x hx
    omega

theorem lex_irrefl (l : List Nat) : ¬ List.Lex (fun a b => a < b) l l := by
  induction l with
  | nil => intro h; cases h
  | cons a l ih =>
    intro h
    cases h with
    | cons h1 => exact ih h1
    | rel h1 => exact Nat.lt_irrefl _ h1

theorem combosFrom_lex (g lo k : Nat) :
    (combosFrom g lo k).Pairwise (List.Lex (fun a b => a < b)) := by
  induction g generalizing lo k with
  | zero =>
    cases k with
    | zero => simp [combosFrom]
    | succ k => simp [combosFrom]
  | succ g ih =>
    cases k with
    | zero => simp [combosFrom]
    | succ k =>
      simp only [combosFrom]
      rw [List.pairwise_append]
      refine ⟨?_, ih _ _, ?_⟩
      · rw [List.pairwise_map]
        exact (ih (lo + 1) k).imp (fun h => List.Lex.cons h)
      · intro x hx y hy
        rw [List.mem_map] at hx
        obtain ⟨c, _, rfl⟩ := hx
        have hlen := combosFrom_length _ _ _ _ hy
        cases y with
        | nil => simp at hlen
        | cons y0 y1 =>
          have := combosFrom_bounds _ _ _ _ hy y0 (by simp)
          exact List.Lex.rel (by omega)

theorem insert_all_combinations_loop_list (key : List Bool) (n size ab bytes fuel : Nat)
    (tree : radixTree) (c : List Nat) :
    (insert_all_combinations_loop key n size ab bytes fuel tree c).keys =
      ((visitedF size n fuel c).map
        (fun c1 => (size, pack_subset bytes key ab c1 size))).reverse ++ tree.keys := by
  induction fuel generalizing tree c with
  | zero => simp [insert_all_combinations_loop, visitedF]
  | succ fuel ih =>
    unfold insert_all_combinations_loop visitedF
    simp only
    rcases hn : next_combination c size n with ⟨c1, b⟩
    cases b with
    | true =>
      simp only [ih, insertRadixTree, List.map_cons, List.reverse_cons, List.append_assoc,
        List.singleton_append]
    | false =>
      simp [insertRadixTree]

theorem visitedF_stable (n k fuel : Nat) (h : k ≤ n) (hf : combinationFuel n ≤ fuel) :
    visitedF k n fuel (List.range k) = combosFrom n 0 k := by
  obtain ⟨hch, hhead⟩ := combosFrom_chain n 0 k h
  rw [Nat.zero_add] at hch
  cases hl : combosFrom n 0 k with
  | nil => rw [hl] at hhead; simp at hhead
  | cons c l =>
    rw [hl] at hch hhead
    simp only [List.head?_cons, Option.some.injEq] at hhead
    rw [List.range_eq_range', ← hhead]
    apply visitedF_of_chain n k l c hch
    · intro x hx
      exact combosFrom_length n 0 k x (by rw [hl]; exact hx)
    · have := combosFrom_card n 0 k
      rw [hl] at this
      unfold combinationFuel at hf
      omega

theorem combosFrom_last (n k : Nat) (h : k ≤ n) :
    ∃ last, (combosFrom n 0 k).getLast? = some last ∧ (next_combination last k n).2 = false := by
  obtain ⟨hch, hhead⟩ := combosFrom_chain n 0 k h
  rw [Nat.zero_add] at hch
  obtain ⟨_, hlast⟩ := chainOK_links _ _ hch
  cases hg : (combosFrom n 0 k).getLast? with
  | none =>
    rw [List.getLast?_eq_none_iff] at hg
    rw [hg] at hhead
    simp at hhead
  | some last =>
    refine ⟨last, rfl, ?_⟩
    have hlen := combosFrom_length _ _ _ _ (List.mem_of_getLast?_eq_some hg)
    rw [← hlen, next_combination_eq, hlast last hg]

/-- C20 (the enumeration of the subsets).  For 1 ≤ size ≤ numPieces, the
do-while loop driven by next_combination from the start vector 0, ..., size - 1
ends by the test of the loop, a larger fuel changing nothing; the index
vectors it visits are exactly the strictly increasing sequences of length
`size` over 0 .. numPieces - 1, each once, in strictly increasing
lexicographic order.  So insert_all_combinations inserts the keys of these
vectors, in that order and nothing else, and all_combinations_present tests
them. -/
theorem next_combination_enumerates (numPieces size : Nat) (h1 : 1 ≤ size)
    (h2 : size ≤ numPieces) :
    (∀ fuel, combinationFuel numPieces ≤ fuel →
      visitedF size numPieces fuel (List.range size) =
        visitedF size numPieces (combinationFuel numPieces) (List.range size)) ∧
    (∃ last,
      (visitedF size numPieces (combinationFuel numPieces) (List.range size)).getLast? =
        some last ∧
      (next_combination last size numPieces).2 = false) ∧
    (∀ c, c ∈ visitedF size numPieces (combinationFuel numPieces) (List.range size) ↔
      c.length = size ∧ c.Pairwise (fun a b => a < b) ∧ ∀ x ∈ c, x < numPieces) ∧
    (visitedF size numPieces (combinationFuel numPieces) (List.range size)).Nodup ∧
    (visitedF size numPieces (combinationFuel numPieces) (List.range size)).Pairwise
      (List.Lex (fun a b => a < b)) ∧
    (∀ (tree : radixTree) (packedMap : List Bool) (atomBits bufferBytes : Nat),
      (insert_all_combinations tree packedMap numPieces size atomBits bufferBytes).keys =
        ((visitedF size numPieces (combinationFuel numPieces) (List.range size)).map
          (fun c => (size, pack_subset bufferBytes packedMap atomBits c size))).reverse ++
          tree.keys) ∧
    (∀ (tree : radixTree) (packedMap : List Bool) (atomBits bufferBytes : Nat),
      all_combinations_present tree packedMap numPieces size atomBits bufferBytes =
        (visitedF size numPieces (combinationFuel numPieces) (List.range size)).all
          (fun c => checkPresent tree (pack_subset bufferBytes packedMap atomBits c size)
            size)) := by
  have hv := visitedF_stable numPieces size (combinationFuel numPieces) h2 (Nat.le_refl _)
  rw [hv]
  refine ⟨?_, combosFrom_last numPieces size h2, mem_combosFrom_iff numPieces size, ?_,
    combosFrom_lex numPieces 0 size, ?_, ?_⟩
  · intro fuel hf
    exact visitedF_stable numPieces size fuel h2 hf
  · have hne : (combosFrom numPieces 0 size).Pairwise (fun a b => a ≠ b) :=
      (combosFrom_lex numPieces 0 size).imp (fun {a b} hab heq => by
        subst heq
        exact lex_irrefl a hab)
    exact hne
  · intro tree packedMap atomBits bufferBytes
    unfold insert_all_combinations
    rw [if_neg (by omega), insert_all_combinations_loop_list, hv]
  · intro tree packedMap atomBits bufferBytes
    unfold all_combinations_present
    rw [if_neg (by omega), all_combinations_present_loop_eq, hv]

set_option maxRecDepth 100000 in
/-- C20 at a concrete input: the pairs among three pieces are visited in the
order 01, 02, 12. -/
theorem next_combination_enumerates_witness :
    (1 ≤ 2 ∧ 2 ≤ 3) ∧
    visitedF 2 3 (combinationFuel 3) (List.range 2) = [[0, 1], [0, 2], [1, 2]] ∧
    ((∀ fuel, combinationFuel 3 ≤ fuel →
      visitedF 2 3 fuel (List.range 2) = visitedF 2 3 (combinationFuel 3) (List.range 2)) ∧
    (∃ last,
      (visitedF 2 3 (combinationFuel 3) (List.range 2)).getLast? = some last ∧
      (next_combination last 2 3).2 = false) ∧
    (∀ c, c ∈ visitedF 2 3 (combinationFuel 3) (List.range 2) ↔
      c.length = 2 ∧ c.Pairwise (fun a b => a < b) ∧ ∀ x ∈ c, x < 3) ∧
    (visitedF 2 3 (combinationFuel 3) (List.range 2)).Nodup ∧
    (visitedF 2 3 (combinationFuel 3) (List.range 2)).Pairwise
      (List.Lex (fun a b => a < b)) ∧
    (∀ (tree : radixTree) (packedMap : List Bool) (atomBits bufferBytes : Nat),
      (insert_all_combinations tree packedMap 3 2 atomBits bufferBytes).keys =
        ((visitedF 2 3 (combinationFuel 3) (List.range 2)).map
          (fun c => (2, pack_subset bufferBytes packedMap atomBits c 2))).reverse ++
          tree.keys) ∧
    (∀ (tree : radixTree) (packedMap : List Bool) (atomBits bufferBytes : Nat),
      all_combinations_present tree packedMap 3 2 atomBits bufferBytes =
        (visitedF 2 3 (combinationFuel 3) (List.range 2)).all
          (fun c => checkPresent tree (pack_subset bufferBytes packedMap atomBits c 2) 2))) :=
  ⟨⟨by decide, by decide⟩, by decide, next_combination_enumerates 3 2 (by decide) (by decide)⟩

/-! ## The winning test -/

theorem winning_state_iff_cells (gate : gate_t) (hshape : shapeOf gate.map_save = shapeOf gate.map) :
    winning_state gate = true ↔
      ∀ i j : Nat, i < gate.lines → inGrid gate.map i j →
        cellAt gate.map i j ≠ 71 ∧ ¬ (73 ≤ cellAt gate.map i j ∧ cellAt gate.map i j ≤ 81) := by
  unfold winning_state
  rw [positions_of_shapeOf _ _ hshape, List.all_eq_true]
  constructor
  · intro h i j hi hin
    have := h (i, j) ((mem_positions _ _ _ _).mpr ⟨hi, hin⟩)
    simp only [Bool.not_eq_true', Bool.or_eq_false_iff, beq_eq_false_iff_ne, ne_eq,
      Bool.and_eq_false_imp, decide_eq_true_eq, decide_eq_false_iff_not] at this
    exact ⟨this.1, fun hc => this.2 hc.1 hc.2⟩
  · intro h p hp
    obtain ⟨i, j⟩ := p
    obtain ⟨hi, hin⟩ := (mem_positions _ _ _ _).mp hp
    have := h i j hi hin
    simp only [Bool.not_eq_true', Bool.or_eq_false_iff, beq_eq_false_iff_ne, ne_eq,
      Bool.and_eq_false_imp, decide_eq_true_eq, decide_eq_false_iff_not]
    exact ⟨this.1, fun h1 h2 => this.2 ⟨h1, h2⟩⟩

/-- C14 (the winning test).  On a board whose backup grid has the shape of its
grid, winning_state returns true exactly when no cell of the first `lines` rows
of the grid holds `G` and none holds a letter `I` to `Q`; a cell holding `H` does
not prevent the win. -/
theorem winning_state_iff (gate : gate_t) (hshape : shapeOf gate.map_save = shapeOf gate.map) :
    winning_state gate = true ↔
      ∀ i j : Nat, i < gate.lines → inGrid gate.map i j →
        cellAt gate.map i j ≠ 71 ∧ ¬ (73 ≤ cellAt gate.map i j ∧ cellAt gate.map i j ≤ 81) :=
  winning_state_iff_cells gate hshape

/-- C14 at a concrete input: the board `H  ` is won, its only letter being `H`. -/
theorem winning_state_iff_witness :
    shapeOf wonBoard.map_save = shapeOf wonBoard.map ∧ winning_state wonBoard = true ∧
    cellAt wonBoard.map 0 0 = 72 ∧
    (winning_state wonBoard = true ↔
      ∀ i j : Nat, i < wonBoard.lines → inGrid wonBoard.map i j →
        cellAt wonBoard.map i j ≠ 71 ∧
          ¬ (73 ≤ cellAt wonBoard.map i j ∧ cellAt wonBoard.map i j ≤ 81)) :=
  ⟨rfl, by decide, by decide, winning_state_iff wonBoard rfl⟩

/-! ## The board after a move in place -/

/-- The fields of the board apply_move_in_place leaves on success, on a board
whose two grids have `lines` rows. -/
theorem moved_fields (b : gate_t) (k d : Nat) (hrows : b.map.length = b.lines)
    (hsave : b.map_save.length = b.lines)
    (h : (apply_move_in_place b (48 + k) d).2 = true) :
    (apply_move_in_place b (48 + k) d).1.lines = b.lines ∧
      (apply_move_in_place b (48 + k) d).1.num_pieces = b.num_pieces ∧
      (apply_move_in_place b (48 + k) d).1.num_chars_map = b.num_chars_map ∧
      shapeOf (apply_move_in_place b (48 + k) d).1.map = shapeOf b.map ∧
      (apply_move_in_place b (48 + k) d).1.map_save = b.map ∧
      (∀ j, j ≠ k →
        (apply_move_in_place b (48 + k) d).1.piece_x j = b.piece_x j ∧
          (apply_move_in_place b (48 + k) d).1.piece_y j = b.piece_y j) ∧
      (∀ p, firstCell (apply_move_in_place b (48 + k) d).1.map b.lines (48 + k) = some p →
        (apply_move_in_place b (48 + k) d).1.piece_x k = p.2 ∧
          (apply_move_in_place b (48 + k) d).1.piece_y k = p.1) := by
  have e1 : 48 + k - 48 = k := by omega
  have hfst := apply_move_in_place_fst b (48 + k) d h
  have hmap := apply_move_in_place_map b (48 + k) d h
  refine ⟨?_, ?_, ?_, ?_, ?_, ?_, ?_⟩
  · rw [hfst, (locate_fields _ _ _).1]; simp only [(locate_fields _ _ _).1]
  · rw [hfst, (locate_fields _ _ _).2.1]; simp only [(locate_fields _ _ _).2.1]
  · rw [hfst, (locate_fields _ _ _).2.2.1]; simp only [(locate_fields _ _ _).2.2.1]
  · rw [hmap]
    unfold movedMap
    exact shapeOf_foldl_move_cell _ _ _ _ _ _
  · rw [hfst, (locate_fields _ _ _).2.2.2.2.1]
    simp only
    exact snapshotOf_eq_map b hrows hsave
  · intro j hj
    rw [hfst]
    have hne : j ≠ 48 + k - 48 := by omega
    obtain ⟨h1, h2⟩ := locate_coords_other
      { locate b b.map (48 + k) with map_save := snapshotOf b, map := movedMap b (48 + k) d }
      (movedMap b (48 + k) d) (48 + k) j hne
    obtain ⟨h3, h4⟩ := locate_coords_other b b.map (48 + k) j hne
    exact ⟨h1.trans h3, h2.trans h4⟩
  · intro p hp
    rw [hmap] at hp
    rw [hfst]
    have hl : ({ locate b b.map (48 + k) with
        map_save := snapshotOf b, map := movedMap b (48 + k) d } : gate_t).lines = b.lines :=
      (locate_fields b b.map (48 + k)).1
    have := locate_coords_self
      { locate b b.map (48 + k) with map_save := snapshotOf b, map := movedMap b (48 + k) d }
      (movedMap b (48 + k) d) (48 + k) p (by rw [hl]; exact hp)
    rw [e1] at this
    exact this

theorem moved_rows (b : gate_t) (k d : Nat) (hrows : b.map.length = b.lines)
    (hsave : b.map_save.length = b.lines)
    (h : (apply_move_in_place b (48 + k) d).2 = true) :
    (apply_move_in_place b (48 + k) d).1.map.length = (apply_move_in_place b (48 + k) d).1.lines ∧
      (apply_move_in_place b (48 + k) d).1.map_save.length =
        (apply_move_in_place b (48 + k) d).1.lines := by
  obtain ⟨f1, _, _, f4, f5, _, _⟩ := moved_fields b k d hrows hsave h
  rw [f1, f5, shapeOf_length _ _ f4]
  exact ⟨hrows, hrows⟩

/-- A move keeps the goal positions: a cell holds `G` or a letter `H` to `Q` after
the move exactly when it did before. -/
theorem moved_goal (b : gate_t) (k d : Nat) (hrows : b.map.length = b.lines)
    (hsave : b.map_save.length = b.lines)
    (h : (apply_move_in_place b (48 + k) d).2 = true) (i j : Int) :
    isGoal (cellAt (apply_move_in_place b (48 + k) d).1.map i j) ↔
      isGoal (cellAt b.map i j) := by
  have hk := (success_index b k d h).2
  have hleg := legal_target b k d hrows h i j
  rw [moved_cell b k d hrows hsave h i j]
  unfold isPiece at hleg
  unfold isGoal
  split_ifs with h1 h2 h3 h4
  · omega
  · have := hleg h1; omega
  · omega
  · omega
  · rfl

theorem direction_algebra (d : Nat) (hd : d = UP ∨ d = DOWN ∨ d = LEFT ∨ d = RIGHT)
    (i j : Int) :
    (inverseOf d = UP ∨ inverseOf d = DOWN ∨ inverseOf d = LEFT ∨ inverseOf d = RIGHT) ∧
      targetY i (inverseOf d) = sourceY i d ∧ targetX j (inverseOf d) = sourceX j d ∧
      sourceY i (inverseOf d) = targetY i d ∧ sourceX j (inverseOf d) = targetX j d ∧
      sourceY (targetY i d) d = i ∧ sourceX (targetX j d) d = j ∧
      targetY (sourceY i d) d = i ∧ targetX (sourceX j d) d = j := by
  rcases hd with h | h | h | h <;> subst h
  · refine ⟨Or.inr (Or.inl rfl), ?_⟩
    have : inverseOf UP = DOWN := rfl
    rw [this]
    unfold targetY targetX sourceY sourceX
    simp
  · refine ⟨Or.inl rfl, ?_⟩
    have : inverseOf DOWN = UP := rfl
    rw [this]
    unfold targetY targetX sourceY sourceX
    simp
  · refine ⟨Or.inr (Or.inr (Or.inr rfl)), ?_⟩
    have : inverseOf LEFT = RIGHT := rfl
    rw [this]
    unfold targetY targetX sourceY sourceX
    simp
  · refine ⟨Or.inr (Or.inr (Or.inl rfl)), ?_⟩
    have : inverseOf RIGHT = LEFT := rfl
    rw [this]
    unfold targetY targetX sourceY sourceX
    simp

theorem is_valid_direction_of_cases (d : Nat)
    (hd : d = UP ∨ d = DOWN ∨ d = LEFT ∨ d = RIGHT) : is_valid_direction d = true := by
  rcases hd with h | h | h | h <;> subst h <;> rfl

/-- After a move the piece is still on the grid. -/
theorem moved_piece_present (b : gate_t) (k d : Nat) (hrows : b.map.length = b.lines)
    (hsave : b.map_save.length = b.lines)
    (h : (apply_move_in_place b (48 + k) d).2 = true) :
    ∃ p, firstCell (apply_move_in_place b (48 + k) d).1.map b.lines (48 + k) = some p := by
  obtain ⟨hvalid, _, _, _, hfc, _⟩ := (apply_move_in_place_success_iff b (48 + k) d).mp h
  have hd := valid_direction_cases d hvalid
  have e2 : 48 + k - 48 + 72 = 72 + k := by omega
  rw [firstCell_isSome, e2] at hfc
  obtain ⟨p, _, hform⟩ := hfc
  obtain ⟨_, _, _, _, _, h6, h7, _, _⟩ := direction_algebra d hd p.1 p.2
  have hpiece : isPiece k (cellAt (apply_move_in_place b (48 + k) d).1.map
      (targetY p.1 d) (targetX p.2 d)) := by
    rw [moved_isPiece_self b k d hrows hsave h, h6, h7]
    exact hform
  obtain ⟨r1, r2⟩ := moved_rows b k d hrows hsave h
  obtain ⟨f1, _⟩ := moved_fields b k d hrows hsave h
  rw [f1] at r1
  obtain ⟨q1, q2, q3⟩ := mem_positions_of_isPiece _ b.lines r1 k _ _ hpiece
  have hsome : (firstCell (apply_move_in_place b (48 + k) d).1.map b.lines (48 + k)).isSome =
      true := by
    rw [firstCell_isSome, e2]
    refine ⟨_, q3, ?_⟩
    simp only [Int.toNat_of_nonneg q1, Int.toNat_of_nonneg q2]
    exact hpiece
  exact Option.isSome_iff_exists.mp hsome

theorem coordsAtFirst_iff (b : gate_t) (j : Nat) :
    coordsAtFirst b j ↔
      ∃ p : Nat × Nat, firstCell b.map b.lines (48 + j) = some p ∧
        (p.1 : Int) = b.piece_y j ∧ (p.2 : Int) = b.piece_x j := by
  unfold coordsAtFirst
  cases firstCell b.map b.lines (48 + j) with
  | none => simp
  | some p =>
    simp only [Option.map_some', Option.some.injEq, Prod.mk.injEq, exists_eq_left']
    tauto

/-! ## The coordinate invariant -/

theorem moved_firstCell_other (b : gate_t) (k d : Nat) (hrows : b.map.length = b.lines)
    (hsave : b.map_save.length = b.lines)
    (h : (apply_move_in_place b (48 + k) d).2 = true) (j : Nat) (hj : j < 10) (hne : j ≠ k) :
    firstCell (apply_move_in_place b (48 + k) d).1.map b.lines (48 + j) =
      firstCell b.map b.lines (48 + j) := by
  obtain ⟨_, _, _, f4, _⟩ := moved_fields b k d hrows hsave h
  exact firstCell_congr b.map _ b.lines j f4.symm
    (fun i1 j1 => moved_isPiece_other b k d hrows hsave h j hj hne i1 j1)

theorem moved_coordsAtFirst (b : gate_t) (k d : Nat) (hrows : b.map.length = b.lines)
    (hsave : b.map_save.length = b.lines)
    (h : (apply_move_in_place b (48 + k) d).2 = true) (j : Nat) (hj : j < 10)
    (hinv : j ≠ k → coordsAtFirst b j) :
    coordsAtFirst (apply_move_in_place b (48 + k) d).1 j := by
  obtain ⟨f1, _, _, _, _, f6, f7⟩ := moved_fields b k d hrows hsave h
  by_cases hjk : j = k
  · subst hjk
    obtain ⟨p, hp⟩ := moved_piece_present b j d hrows hsave h
    obtain ⟨hx, hy⟩ := f7 p hp
    rw [coordsAtFirst_iff, f1]
    exact ⟨p, hp, hy.symm, hx.symm⟩
  · obtain ⟨p, hp, hy, hx⟩ := (coordsAtFirst_iff b j).mp (hinv hjk)
    obtain ⟨gx, gy⟩ := f6 j hjk
    rw [coordsAtFirst_iff, f1, moved_firstCell_other b k d hrows hsave h j hj hjk]
    exact ⟨p, hp, by rw [gy]; exact hy, by rw [gx]; exact hx⟩

/-- C15 (coordinate invariant).  On a board with at most MAX_PIECES pieces whose
two grids have `lines` rows, if every recorded `(piece_x[j], piece_y[j])` is the
first cell of the piece `j` in row-major order, then after a successful
apply_move_in_place for the piece `k` the same holds on the result for every
piece: the coordinates of `k` are those of its new first cell, and every other
piece keeps both its coordinates and its first cell. -/
theorem coordinate_invariant_step (b : gate_t) (k d : Nat) (hrows : b.map.length = b.lines)
    (hsave : b.map_save.length = b.lines) (hn : b.num_pieces ≤ MAX_PIECES)
    (h : (apply_move_in_place b (48 + k) d).2 = true)
    (hinv : ∀ j, j < b.num_pieces → coordsAtFirst b j) :
    (∀ j, j < b.num_pieces → coordsAtFirst (apply_move_in_place b (48 + k) d).1 j) ∧
    (∃ p, firstCell (apply_move_in_place b (48 + k) d).1.map b.lines (48 + k) = some p ∧
      (apply_move_in_place b (48 + k) d).1.piece_x k = p.2 ∧
      (apply_move_in_place b (48 + k) d).1.piece_y k = p.1) ∧
    (∀ j, j < b.num_pieces → j ≠ k →
      (apply_move_in_place b (48 + k) d).1.piece_x j = b.piece_x j ∧
      (apply_move_in_place b (48 + k) d).1.piece_y j = b.piece_y j ∧
      firstCell (apply_move_in_place b (48 + k) d).1.map b.lines (48 + j) =
        firstCell b.map b.lines (48 + j)) := by
  have hM : MAX_PIECES = 10 := rfl
  obtain ⟨_, _, _, _, _, f6, f7⟩ := moved_fields b k d hrows hsave h
  refine ⟨?_, ?_, ?_⟩
  · intro j hj
    exact moved_coordsAtFirst b k d hrows hsave h j (by omega) (fun _ => hinv j hj)
  · obtain ⟨p, hp⟩ := moved_piece_present b k d hrows hsave h
    exact ⟨p, hp, f7 p hp⟩
  · intro j hj hne
    exact ⟨(f6 j hne).1, (f6 j hne).2,
      moved_firstCell_other b k d hrows hsave h j (by omega) hne⟩

set_option maxRecDepth 100000 in
/-- C15 at a concrete input: piece 0 of the pocket board steps left. -/
theorem coordinate_invariant_step_witness :
    (pocketBoard.map.length = pocketBoard.lines ∧
      pocketBoard.map_save.length = pocketBoard.lines ∧
      pocketBoard.num_pieces ≤ MAX_PIECES ∧
      (apply_move_in_place pocketBoard (48 + 0) LEFT).2 = true ∧
      (∀ j, j < pocketBoard.num_pieces → coordsAtFirst pocketBoard j)) ∧
    ((∀ j, j < pocketBoard.num_pieces →
      coordsAtFirst (apply_move_in_place pocketBoard (48 + 0) LEFT).1 j) ∧
    (∃ p, firstCell (apply_move_in_place pocketBoard (48 + 0) LEFT).1.map pocketBoard.lines
        (48 + 0) = some p ∧
      (apply_move_in_place pocketBoard (48 + 0) LEFT).1.piece_x 0 = p.2 ∧
      (apply_move_in_place pocketBoard (48 + 0) LEFT).1.piece_y 0 = p.1) ∧
    (∀ j, j < pocketBoard.num_pieces → j ≠ 0 →
      (apply_move_in_place pocketBoard (48 + 0) LEFT).1.piece_x j = pocketBoard.piece_x j ∧
      (apply_move_in_place pocketBoard (48 + 0) LEFT).1.piece_y j = pocketBoard.piece_y j ∧
      firstCell (apply_move_in_place pocketBoard (48 + 0) LEFT).1.map pocketBoard.lines
          (48 + j) =
        firstCell pocketBoard.map pocketBoard.lines (48 + j))) :=
  ⟨⟨rfl, rfl, by decide, by decide!, by decide!⟩,
    coordinate_invariant_step pocketBoard 0 LEFT rfl rfl (by decide) (by decide!) (by decide!)⟩

/-! ## Boards reached by successful moves -/

theorem apply_moves_afterMoves (r : gate_t) (moves : List (Nat × Nat))
    (h : (apply_moves r moves).isSome = true) :
    apply_moves r moves = some (afterMoves r moves) := by
  unfold afterMoves
  cases hm : apply_moves r moves with
  | none => rw [hm] at h; simp at h
  | some b => rfl

/-- Induction over the boards reached from `r` by successful moves, all of which
keep the number of rows and the shape of the grid. -/
theorem reach_induction (r : gate_t) (P : gate_t → Prop)
    (hstep : ∀ (b : gate_t) (k d : Nat) (b1 : gate_t), b.map.length = b.lines →
      b.map_save.length = b.lines → b.lines = r.lines → shapeOf b.map = shapeOf r.map →
      apply_action b (48 + k) d = some b1 → P b → P b1)
    (moves : List (Nat × Nat)) (b0 b : gate_t)
    (h0 : P b0 ∧ b0.map.length = b0.lines ∧ b0.map_save.length = b0.lines ∧
      b0.lines = r.lines ∧ shapeOf b0.map = shapeOf r.map)
    (h : apply_moves b0 moves = some b) :
    P b ∧ b.map.length = b.lines ∧ b.map_save.length = b.lines ∧
      b.lines = r.lines ∧ shapeOf b.map = shapeOf r.map := by
  induction moves generalizing b0 with
  | nil =>
    simp only [apply_moves, Option.some.injEq] at h
    subst h; exact h0
  | cons m rest ih =>
    simp only [apply_moves] at h
    cases ha : apply_action b0 m.1 m.2 with
    | none => rw [ha] at h; simp at h
    | some b2 =>
      rw [ha] at h
      obtain ⟨hP, r1, r2, r3, r4⟩ := h0
      obtain ⟨hidx, _⟩ := apply_action_index b0 m.1 m.2 b2 ha
      have epc : m.1 = 48 + (m.1 - 48) := by omega
      rw [epc] at ha
      obtain ⟨hs, f1, _, _, f4, f5, _, _⟩ := apply_action_fields b0 (m.1 - 48) m.2 b2 r1 r2 ha
      obtain ⟨_, _, _, g4, _⟩ := moved_fields b0 (m.1 - 48) m.2 r1 r2 hs
      apply ih b2 _ h
      refine ⟨hstep b0 (m.1 - 48) m.2 b2 r1 r2 r3 r4 ha hP, ?_, ?_, ?_, ?_⟩
      · rw [f4, f1, shapeOf_length _ _ g4]; exact r1
      · rw [f5, f1]; exact r1
      · rw [f1]; exact r3
      · rw [f4, g4]; exact r4

/-! ## The goal positions -/

theorem reached_goal (r : gate_t) (hrows : r.map.length = r.lines)
    (hshape : shapeOf r.map_save = shapeOf r.map) (moves : List (Nat × Nat)) (b : gate_t)
    (h : apply_moves r moves = some b) :
    ((∀ i j : Int, isGoal (cellAt b.map i j) ↔ isGoal (cellAt r.map i j)) ∧
      shapeOf b.map_save = shapeOf r.map) ∧
    b.map.length = b.lines ∧ b.map_save.length = b.lines ∧
      b.lines = r.lines ∧ shapeOf b.map = shapeOf r.map := by
  have hsave : r.map_save.length = r.lines := by
    rw [shapeOf_length _ _ hshape]; exact hrows
  apply reach_induction r
    (fun b => (∀ i j : Int, isGoal (cellAt b.map i j) ↔ isGoal (cellAt r.map i j)) ∧
      shapeOf b.map_save = shapeOf r.map) _ moves r b
    ⟨⟨fun _ _ => Iff.rfl, hshape⟩, hrows, hsave, rfl, rfl⟩ h
  intro b0 k d b1 r1 r2 _ r4 ha hP
  obtain ⟨hs, _, _, _, f4, f5, _, _⟩ := apply_action_fields b0 k d b1 r1 r2 ha
  refine ⟨?_, ?_⟩
  · intro i j
    rw [f4, moved_goal b0 k d r1 r2 hs i j]
    exact hP.1 i j
  · rw [f5]; exact r4

/-- C13 (goal positions).  On every board reached by successful moves from an
initial board whose grid has `lines` rows and whose backup grid has the shape
of the grid, the cells that hold `G` or a letter `H` to `Q` are those of the
initial board; so winning_state holds exactly when every goal position of
the initial board holds `H`, the letter of piece 0. -/
theorem goal_positions_invariant (r : gate_t) (hrows : r.map.length = r.lines)
    (hshape : shapeOf r.map_save = shapeOf r.map) (moves : List (Nat × Nat)) (b : gate_t)
    (h : apply_moves r moves = some b) :
    (∀ i j : Int, isGoal (cellAt b.map i j) ↔ isGoal (cellAt r.map i j)) ∧
    (winning_state b = true ↔
      ∀ i j : Int, isGoal (cellAt r.map i j) → cellAt b.map i j = 72) := by
  obtain ⟨⟨hgoal, hsv⟩, r1, _, _, r4⟩ := reached_goal r hrows hshape moves b h
  refine ⟨hgoal, ?_⟩
  rw [winning_state_iff_cells b (hsv.trans r4.symm)]
  constructor
  · intro hwin i j hg
    have hgb := (hgoal i j).mpr hg
    have hne : cellAt b.map i j ≠ 0 := by unfold isGoal at hgb; omega
    obtain ⟨p1, p2, p3, p4⟩ := inGrid_of_cellAt_ne_zero _ _ _ hne
    have hin : inGrid b.map (i.toNat : Nat) (j.toNat : Nat) := by
      rw [Int.toNat_of_nonneg p1, Int.toNat_of_nonneg p2]
      exact ⟨p1, p2, p3, p4⟩
    have := hwin i.toNat j.toNat (by omega) hin
    rw [Int.toNat_of_nonneg p1, Int.toNat_of_nonneg p2] at this
    unfold isGoal at hgb
    omega
  · intro hall i j _ _
    by_cases hg : isGoal (cellAt b.map i j)
    · have := hall i j ((hgoal i j).mp hg)
      omega
    · unfold isGoal at hg
      omega

set_option maxRecDepth 100000 in
/-- C13 at a concrete input: the board `0G ` after `0r`, where the only goal
position holds `H` and the board is won. -/
theorem goal_positions_invariant_witness :
    (slideBoard.map.length = slideBoard.lines ∧
      shapeOf slideBoard.map_save = shapeOf slideBoard.map ∧
      apply_moves slideBoard [(48, RIGHT)] = some (afterMoves slideBoard [(48, RIGHT)])) ∧
    winning_state (afterMoves slideBoard [(48, RIGHT)]) = true ∧
    ((∀ i j : Int, isGoal (cellAt (afterMoves slideBoard [(48, RIGHT)]).map i j) ↔
      isGoal (cellAt slideBoard.map i j)) ∧
    (winning_state (afterMoves slideBoard [(48, RIGHT)]) = true ↔
      ∀ i j : Int, isGoal (cellAt slideBoard.map i j) →
        cellAt (afterMoves slideBoard [(48, RIGHT)]).map i j = 72)) :=
  ⟨⟨rfl, rfl, apply_moves_afterMoves _ _ (by decide!)⟩, by decide!,
    goal_positions_invariant slideBoard rfl rfl [(48, RIGHT)]
      (afterMoves slideBoard [(48, RIGHT)]) (apply_moves_afterMoves _ _ (by decide!))⟩

/-! ## The size of a piece -/

theorem nodup_positions (m : List (List Nat)) (lines : Nat) : (positions m lines).Nodup := by
  unfold positions
  have hne : (positionsFrom (m.take lines) 0).Pairwise (fun a b => a ≠ b) :=
    (pairwise_positionsFrom (m.take lines) 0).imp (fun {a b} hab heq => by
      subst heq
      unfold rowMajorLt at hab
      omega)
  exact hne

/-- The neighbour of a cell of the moved piece lies inside the grid. -/
theorem target_nonneg (b : gate_t) (k d : Nat) (hrows : b.map.length = b.lines)
    (h : (apply_move_in_place b (48 + k) d).2 = true) (p : Nat × Nat)
    (hp : isPiece k (cellAt b.map p.1 p.2)) :
    0 ≤ targetY p.1 d ∧ 0 ≤ targetX p.2 d := by
  obtain ⟨hvalid, _⟩ := (apply_move_in_place_success_iff b (48 + k) d).mp h
  have hd := valid_direction_cases d hvalid
  obtain ⟨_, _, _, _, _, h6, h7, _, _⟩ := direction_algebra d hd p.1 p.2
  have hleg := legal_target b k d hrows h (targetY p.1 d) (targetX p.2 d)
    (by rw [h6, h7]; exact hp)
  have hne : cellAt b.map (targetY p.1 d) (targetX p.2 d) ≠ 0 := by omega
  obtain ⟨q1, q2, _, _⟩ := inGrid_of_cellAt_ne_zero _ _ _ hne
  exact ⟨q1, q2⟩

theorem moved_pieceCells_self (b : gate_t) (k d : Nat) (hrows : b.map.length = b.lines)
    (hsave : b.map_save.length = b.lines)
    (h : (apply_move_in_place b (48 + k) d).2 = true) :
    pieceCells (apply_move_in_place b (48 + k) d).1.map b.lines k =
      pieceCells b.map b.lines k := by
  obtain ⟨hvalid, _⟩ := (apply_move_in_place_success_iff b (48 + k) d).mp h
  have hd := valid_direction_cases d hvalid
  obtain ⟨f1, _, _, f4, _⟩ := moved_fields b k d hrows hsave h
  obtain ⟨r1, _⟩ := moved_rows b k d hrows hsave h
  rw [f1] at r1
  unfold pieceCells
  rw [positions_of_shapeOf _ _ f4, List.countP_eq_length_filter, List.countP_eq_length_filter]
  have hperm : ((positions b.map b.lines).filter
        (formAt (apply_move_in_place b (48 + k) d).1.map (48 + k))).Perm
      (((positions b.map b.lines).filter (formAt b.map (48 + k))).map
        (fun p => ((targetY p.1 d).toNat, (targetX p.2 d).toNat))) := by
    rw [List.perm_ext_iff_of_nodup ((nodup_positions _ _).filter _)]
    · intro q
      rw [List.mem_filter, List.mem_map, formAt_iff]
      constructor
      · rintro ⟨_, hq2⟩
        rw [moved_isPiece_self b k d hrows hsave h] at hq2
        obtain ⟨s1, s2, s3⟩ := mem_positions_of_isPiece b.map b.lines hrows k _ _ hq2
        obtain ⟨_, _, _, _, _, _, _, h8, h9⟩ := direction_algebra d hd q.1 q.2
        refine ⟨((sourceY q.1 d).toNat, (sourceX q.2 d).toNat), ?_, ?_⟩
        · rw [List.mem_filter, formAt_iff]
          refine ⟨s3, ?_⟩
          simp only [Int.toNat_of_nonneg s1, Int.toNat_of_nonneg s2]
          exact hq2
        · simp only [Int.toNat_of_nonneg s1, Int.toNat_of_nonneg s2, h8, h9, Int.toNat_ofNat]
      · rintro ⟨p, hp, rfl⟩
        rw [List.mem_filter, formAt_iff] at hp
        obtain ⟨t1, t2⟩ := target_nonneg b k d hrows h p hp.2
        obtain ⟨_, _, _, _, _, h6, h7, _, _⟩ := direction_algebra d hd p.1 p.2
        have hpiece : isPiece k (cellAt (apply_move_in_place b (48 + k) d).1.map
            (targetY p.1 d) (targetX p.2 d)) := by
          rw [moved_isPiece_self b k d hrows hsave h, h6, h7]
          exact hp.2
        obtain ⟨_, _, q3⟩ := mem_positions_of_isPiece _ b.lines r1 k _ _ hpiece
        rw [positions_of_shapeOf _ _ f4] at q3
        refine ⟨q3, ?_⟩
        simp only [Int.toNat_of_nonneg t1, Int.toNat_of_nonneg t2]
        exact hpiece
    · apply List.Nodup.map_on _ ((nodup_positions _ _).filter _)
      intro p hp q hq heq
      rw [List.mem_filter, formAt_iff] at hp hq
      obtain ⟨t1, t2⟩ := target_nonneg b k d hrows h p hp.2
      obtain ⟨u1, u2⟩ := target_nonneg b k d hrows h q hq.2
      simp only [Prod.mk.injEq] at heq
      have e1 : targetY p.1 d = targetY q.1 d := by
        have := congrArg (fun n : Nat => (n : Int)) heq.1
        simp only [Int.toNat_of_nonneg t1, Int.toNat_of_nonneg u1] at this
        exact this
      have e2 : targetX p.2 d = targetX q.2 d := by
        have := congrArg (fun n : Nat => (n : Int)) heq.2
        simp only [Int.toNat_of_nonneg t2, Int.toNat_of_nonneg u2] at this
        exact this
      have hpq := (target_eq_iff d hd p.1 p.2 (targetY q.1 d) (targetX q.2 d)).mp ⟨e1, e2⟩
      obtain ⟨_, _, _, _, _, h6, h7, _, _⟩ := direction_algebra d hd q.1 q.2
      rw [h6, h7] at hpq
      obtain ⟨p1, p2⟩ := p
      obtain ⟨q1, q2⟩ := q
      simp only at hpq
      simp only [Prod.mk.injEq]
      omega
  rw [hperm.length_eq, List.length_map]

theorem moved_pieceCells (b : gate_t) (k d : Nat) (hrows : b.map.length = b.lines)
    (hsave : b.map_save.length = b.lines)
    (h : (apply_move_in_place b (48 + k) d).2 = true) (j : Nat) (hj : j < 10) :
    pieceCells (apply_move_in_place b (48 + k) d).1.map b.lines j =
      pieceCells b.map b.lines j := by
  by_cases hjk : j = k
  · subst hjk
    exact moved_pieceCells_self b j d hrows hsave h
  · obtain ⟨_, _, _, f4, _⟩ := moved_fields b k d hrows hsave h
    unfold pieceCells
    rw [positions_of_shapeOf _ _ f4]
    apply List.countP_congr
    intro p _
    rw [formAt_iff, formAt_iff]
    exact moved_isPiece_other b k d hrows hsave h j hj hjk p.1 p.2

/-- C12 (piece size).  On a board whose two grids have `lines` rows, for every
piece index `j` below MAX_PIECES: a successful apply_move_in_place, for `j`
or for any other piece, leaves the number of cells holding the digit or
letter form of `j` unchanged; hence on every board reached by successful
moves the number is that of the initial board. -/
theorem piece_size_invariant (b : gate_t) (hrows : b.map.length = b.lines)
    (hsave : b.map_save.length = b.lines) (j : Nat) (hj : j < MAX_PIECES) :
    (∀ k d, (apply_move_in_place b (48 + k) d).2 = true →
      pieceCells (apply_move_in_place b (48 + k) d).1.map b.lines j =
        pieceCells b.map b.lines j) ∧
    (∀ (moves : List (Nat × Nat)) (b1 : gate_t), apply_moves b moves = some b1 →
      pieceCells b1.map b1.lines j = pieceCells b.map b.lines j) := by
  have hj10 : j < 10 := hj
  refine ⟨fun k d h => moved_pieceCells b k d hrows hsave h j hj10, ?_⟩
  intro moves b1 h
  refine (reach_induction b
    (fun c => pieceCells c.map c.lines j = pieceCells b.map b.lines j) ?_ moves b b1
    ⟨rfl, hrows, hsave, rfl, rfl⟩ h).1
  intro b0 k d b2 r1 r2 _ _ ha hP
  obtain ⟨hs, f1, _, _, f4, _, _, _⟩ := apply_action_fields b0 k d b2 r1 r2 ha
  show pieceCells b2.map b2.lines j = pieceCells b.map b.lines j
  rw [f4, f1, moved_pieceCells b0 k d r1 r2 hs j hj10]
  exact hP

set_option maxRecDepth 100000 in
/-- C12 at a concrete input: piece 1 of the pocket board keeps its one cell when
piece 0 steps left and after the moves `0l`, `1l`, `1d`. -/
theorem piece_size_invariant_witness :
    (pocketBoard.map.length = pocketBoard.lines ∧
      pocketBoard.map_save.length = pocketBoard.lines ∧ 1 < MAX_PIECES) ∧
    pieceCells pocketBoard.map pocketBoard.lines 1 = 1 ∧
    (apply_move_in_place pocketBoard (48 + 0) LEFT).2 = true ∧
    (apply_moves pocketBoard [(48, LEFT), (49, LEFT), (49, DOWN)]).isSome = true ∧
    ((∀ k d, (apply_move_in_place pocketBoard (48 + k) d).2 = true →
      pieceCells (apply_move_in_place pocketBoard (48 + k) d).1.map pocketBoard.lines 1 =
        pieceCells pocketBoard.map pocketBoard.lines 1) ∧
    (∀ (moves : List (Nat × Nat)) (b1 : gate_t), apply_moves pocketBoard moves = some b1 →
      pieceCells b1.map b1.lines 1 = pieceCells pocketBoard.map pocketBoard.lines 1)) :=
  ⟨⟨rfl, rfl, by decide⟩, by decide, by decide!, by decide!,
    piece_size_invariant pocketBoard rfl rfl 1 (by decide)⟩

/-! ## Reversibility of a move -/

/-- After a move of the piece `k` in direction `d`, the move of `k` in the inverse
direction is legal. -/
theorem reverse_succeeds (b : gate_t) (k d : Nat) (hrows : b.map.length = b.lines)
    (hsave : b.map_save.length = b.lines)
    (h : (apply_move_in_place b (48 + k) d).2 = true) :
    (apply_move_in_place (apply_move_in_place b (48 + k) d).1 (48 + k) (inverseOf d)).2 =
      true := by
  obtain ⟨hvalid, _⟩ := (apply_move_in_place_success_iff b (48 + k) d).mp h
  have hd := valid_direction_cases d hvalid
  obtain ⟨hkn, hk10⟩ := success_index b k d h
  obtain ⟨f1, f2, _⟩ := moved_fields b k d hrows hsave h
  obtain ⟨p0, hp0⟩ := moved_piece_present b k d hrows hsave h
  have e1 : 48 + k - 48 = k := by omega
  have e2 : 48 + k - 48 + 72 = 72 + k := by omega
  rw [apply_move_in_place_success_iff]
  refine ⟨is_valid_direction_of_cases _ (direction_algebra d hd 0 0).1, by omega, ?_, ?_, ?_, ?_⟩
  · rw [e1, f2]; exact hkn
  · rw [e1]; exact hk10
  · rw [f1, hp0]; rfl
  · rw [can_move_all_iff, e2]
    intro p _ hform
    rw [part_can_move_iff _ _ _ _ k hk10 hform]
    obtain ⟨_, h2, h3, _⟩ := direction_algebra d hd p.1 p.2
    rw [h2, h3]
    have hsrc : isPiece k (cellAt b.map (sourceY p.1 d) (sourceX p.2 d)) :=
      (moved_isPiece_self b k d hrows hsave h p.1 p.2).mp hform
    rw [moved_cell b k d hrows hsave h (sourceY p.1 d) (sourceX p.2 d)]
    unfold isPiece at hsrc
    split_ifs <;> omega

theorem moved_cell_value (b : gate_t) (k d : Nat) (hrows : b.map.length = b.lines)
    (hsave : b.map_save.length = b.lines)
    (h : (apply_move_in_place b (48 + k) d).2 = true) (i j : Int) :
    cellAt (apply_move_in_place b (48 + k) d).1.map i j =
      movedValue k (cellAt b.map (sourceY i d) (sourceX j d)) (cellAt b.map i j) := by
  rw [moved_cell b k d hrows hsave h i j]
  rfl

theorem movedValue_back (k a s t : Nat) (hk : k < 10)
    (hL2 : s = 48 + k ∨ s = 72 + k → a = 32 ∨ a = 71 ∨ a = 48 + k ∨ a = 72 + k) :
    movedValue k (movedValue k a t) (movedValue k s a) = a := by
  have hu : (movedValue k a t = 48 + k ∨ movedValue k a t = 72 + k) ↔
      (a = 48 + k ∨ a = 72 + k) := by
    unfold movedValue
    split_ifs with h1 h2 h3 h4
    · exact ⟨fun _ => h1, fun _ => Or.inr rfl⟩
    · exact ⟨fun _ => h1, fun _ => Or.inl rfl⟩
    · exact ⟨fun hc => by omega, fun hc => absurd hc h1⟩
    · exact ⟨fun hc => by omega, fun hc => absurd hc h1⟩
    · exact ⟨fun hc => by omega, fun hc => absurd hc h1⟩
  generalize movedValue k a t = u at hu
  by_cases ha : a = 48 + k ∨ a = 72 + k
  · have hup := hu.mpr ha
    generalize hv : movedValue k s a = v
    unfold movedValue at hv ⊢
    rw [if_pos hup]
    split_ifs at hv ⊢ <;> omega
  · have hun : ¬ (u = 48 + k ∨ u = 72 + k) := fun hc => ha (hu.mp hc)
    generalize hv : movedValue k s a = v
    unfold movedValue at hv ⊢
    rw [if_neg hun]
    by_cases hs : s = 48 + k ∨ s = 72 + k
    · have hl2 := hL2 hs
      rw [if_pos hs] at hv
      split_ifs at hv ⊢ <;> omega
    · rw [if_neg hs] at hv
      split_ifs at hv ⊢ <;> omega

/-- The grid after a move and the inverse move is the grid before. -/
theorem reverse_cell (b : gate_t) (k d : Nat) (hrows : b.map.length = b.lines)
    (hsave : b.map_save.length = b.lines)
    (h : (apply_move_in_place b (48 + k) d).2 = true) (i j : Int) :
    cellAt (apply_move_in_place (apply_move_in_place b (48 + k) d).1 (48 + k)
        (inverseOf d)).1.map i j = cellAt b.map i j := by
  obtain ⟨hvalid, _⟩ := (apply_move_in_place_success_iff b (48 + k) d).mp h
  have hd := valid_direction_cases d hvalid
  obtain ⟨_, hk10⟩ := success_index b k d h
  obtain ⟨r1, r2⟩ := moved_rows b k d hrows hsave h
  have h2 := reverse_succeeds b k d hrows hsave h
  obtain ⟨_, _, _, h4, h5, h6, h7, _, _⟩ := direction_algebra d hd i j
  have hL2 := legal_target b k d hrows h i j
  rw [moved_cell_value _ k (inverseOf d) r1 r2 h2 i j, h4, h5,
    moved_cell_value b k d hrows hsave h (targetY i d) (targetX j d), h6, h7,
    moved_cell_value b k d hrows hsave h i j]
  exact movedValue_back k _ _ _ hk10 hL2

/-- C11 (reversibility).  On a board whose two grids have `lines` rows and on
which the recorded coordinates of the piece `k` are those of its first cell:
if apply_move_in_place succeeds for `k` in direction `d`, it succeeds on the
result for `k` in the inverse direction, and leaves a board with the grid and
the coordinates piece_x, piece_y of every piece of the board before the two
moves.  The inverse, read from invertedDirections[], swaps up with down and
left with right. -/
theorem apply_move_reversible (b : gate_t) (k d : Nat) (hrows : b.map.length = b.lines)
    (hsave : b.map_save.length = b.lines) (hcoord : coordsAtFirst b k)
    (h : (apply_move_in_place b (48 + k) d).2 = true) :
    (apply_move_in_place (apply_move_in_place b (48 + k) d).1 (48 + k) (inverseOf d)).2 =
        true ∧
      (apply_move_in_place (apply_move_in_place b (48 + k) d).1 (48 + k)
        (inverseOf d)).1.map = b.map ∧
      (apply_move_in_place (apply_move_in_place b (48 + k) d).1 (48 + k)
        (inverseOf d)).1.piece_x = b.piece_x ∧
      (apply_move_in_place (apply_move_in_place b (48 + k) d).1 (48 + k)
        (inverseOf d)).1.piece_y = b.piece_y ∧
      (inverseOf UP = DOWN ∧ inverseOf DOWN = UP ∧ inverseOf LEFT = RIGHT ∧
        inverseOf RIGHT = LEFT) := by
  obtain ⟨r1, r2⟩ := moved_rows b k d hrows hsave h
  have h2 := reverse_succeeds b k d hrows hsave h
  obtain ⟨f1, _, _, f4, _, f6, _⟩ := moved_fields b k d hrows hsave h
  obtain ⟨_, _, _, g4, _, g6, g7⟩ := moved_fields _ k (inverseOf d) r1 r2 h2
  have hmap : (apply_move_in_place (apply_move_in_place b (48 + k) d).1 (48 + k)
      (inverseOf d)).1.map = b.map :=
    grid_ext _ _ (g4.trans f4) (fun i j => reverse_cell b k d hrows hsave h i j)
  obtain ⟨p, hp, hy, hx⟩ := (coordsAtFirst_iff b k).mp hcoord
  rw [hmap, f1] at g7
  obtain ⟨gx, gy⟩ := g7 p hp
  refine ⟨h2, hmap, ?_, ?_, rfl, rfl, rfl, rfl⟩
  · funext j
    by_cases hjk : j = k
    · subst hjk; rw [gx, hx]
    · rw [(g6 j hjk).1, (f6 j hjk).1]
  · funext j
    by_cases hjk : j = k
    · subst hjk; rw [gy, hy]
    · rw [(g6 j hjk).2, (f6 j hjk).2]

set_option maxRecDepth 100000 in
/-- C11 at a concrete input: piece 0 of the pocket board steps left and back. -/
theorem apply_move_reversible_witness :
    (pocketBoard.map.length = pocketBoard.lines ∧
      pocketBoard.map_save.length = pocketBoard.lines ∧ coordsAtFirst pocketBoard 0 ∧
      (apply_move_in_place pocketBoard (48 + 0) LEFT).2 = true) ∧
    ((apply_move_in_place (apply_move_in_place pocketBoard (48 + 0) LEFT).1 (48 + 0)
        (inverseOf LEFT)).2 = true ∧
      (apply_move_in_place (apply_move_in_place pocketBoard (48 + 0) LEFT).1 (48 + 0)
        (inverseOf LEFT)).1.map = pocketBoard.map ∧
      (apply_move_in_place (apply_move_in_place pocketBoard (48 + 0) LEFT).1 (48 + 0)
        (inverseOf LEFT)).1.piece_x = pocketBoard.piece_x ∧
      (apply_move_in_place (apply_move_in_place pocketBoard (48 + 0) LEFT).1 (48 + 0)
        (inverseOf LEFT)).1.piece_y = pocketBoard.piece_y ∧
      (inverseOf UP = DOWN ∧ inverseOf DOWN = UP ∧ inverseOf LEFT = RIGHT ∧
        inverseOf RIGHT = LEFT)) :=
  ⟨⟨rfl, rfl, by decide!, by decide!⟩,
    apply_move_reversible pocketBoard 0 LEFT rfl rfl (by decide!) (by decide!)⟩

/-! ## The priority queue as a bag with a least element -/

theorem heapOrdered_nil : heapOrdered [] := by
  intro i _ h2
  simp at h2

theorem pq_dequeue_some (pq : priority_queue_t) (h : pq.nodes ≠ []) :
    ∃ node pq1, pq_dequeue pq = (some node, pq1) := by
  unfold pq_dequeue
  cases hn : pq.nodes with
  | nil => exact absurd hn h
  | cons first rest =>
    simp only
    cases rest.getLast? with
    | none => exact ⟨_, _, rfl⟩
    | some last => exact ⟨_, _, rfl⟩

theorem pq_dequeue_nil (pq : priority_queue_t) (h : pq.nodes = []) :
    pq_dequeue pq = (none, pq) := by
  unfold pq_dequeue
  rw [h]

/-- C22 (priority queue).  On a queue in heap order: pq_dequeue on a queue that
is not empty returns a node whose priority is at most that of every node of
the queue, and leaves the nodes of the queue without the returned one, as a
multiset, again in heap order; pq_enqueue adds the given node and nothing
else, and keeps the heap order; pq_dequeue on an empty queue returns NULL and
leaves the queue as it is.  The priority of a node made by
create_search_node is its depth. -/
theorem pq_pop_min (pq : priority_queue_t) (hord : heapOrdered pq.nodes) :
    (pq.nodes ≠ [] →
      ∃ node pq1, pq_dequeue pq = (some node, pq1) ∧
        (∀ x ∈ pq.nodes, node.priority ≤ x.priority) ∧
        pq.nodes.Perm (node :: pq1.nodes) ∧ heapOrdered pq1.nodes) ∧
    (∀ node, (pq_enqueue pq node).nodes.Perm (node :: pq.nodes) ∧
      heapOrdered (pq_enqueue pq node).nodes) ∧
    (pq.nodes = [] → pq_dequeue pq = (none, pq)) ∧
    (∀ (state : gate_t) (depth piece direction : Nat),
      (create_search_node state depth piece direction).priority = depth) := by
  refine ⟨?_, ?_, pq_dequeue_nil pq, fun _ _ _ _ => rfl⟩
  · intro hne
    obtain ⟨node, pq1, hd⟩ := pq_dequeue_some pq hne
    obtain ⟨h1, h2⟩ := pq_dequeue_ordered pq node pq1 hord hd
    exact ⟨node, pq1, hd, h2, pq_dequeue_perm pq node pq1 hd, h1⟩
  · intro node
    exact ⟨pq_enqueue_perm pq node, pq_enqueue_ordered pq node hord⟩

set_option maxRecDepth 100000 in
/-- C22 at a concrete input: from the queue that took a node of depth 1 and then a
node of depth 0, pq_dequeue returns the node of depth 0. -/
theorem pq_pop_min_witness :
    heapOrdered twoNodeQueue.nodes ∧
    (pq_dequeue twoNodeQueue).1.map (fun node => node.depth) = some 0 ∧
    ((twoNodeQueue.nodes ≠ [] →
      ∃ node pq1, pq_dequeue twoNodeQueue = (some node, pq1) ∧
        (∀ x ∈ twoNodeQueue.nodes, node.priority ≤ x.priority) ∧
        twoNodeQueue.nodes.Perm (node :: pq1.nodes) ∧ heapOrdered pq1.nodes) ∧
    (∀ node, (pq_enqueue twoNodeQueue node).nodes.Perm (node :: twoNodeQueue.nodes) ∧
      heapOrdered (pq_enqueue twoNodeQueue node).nodes) ∧
    (twoNodeQueue.nodes = [] → pq_dequeue twoNodeQueue = (none, twoNodeQueue)) ∧
    (∀ (state : gate_t) (depth piece direction : Nat),
      (create_search_node state depth piece direction).priority = depth)) :=
  ⟨pq_enqueue_ordered _ _ (pq_enqueue_ordered _ _ heapOrdered_nil), by decide!,
    pq_pop_min twoNodeQueue (pq_enqueue_ordered _ _ (pq_enqueue_ordered _ _ heapOrdered_nil))⟩

/-! ## The size of the packed key -/

/-- C30, the code at a failing input.  On the pocket board, with two pieces and
atoms of 6 bits, getPackedSize returns 12, the number of bits of the key
`atomSize * num_pieces`; two bytes hold these 12 bits and one byte does not,
so the number of bytes required is 2 and the value returned is not it. -/
theorem getPackedSize_not_bytes :
    pocketBoard.num_pieces * atomBitsOf pocketBoard = 12 ∧
      getPackedSize pocketBoard = 12 ∧
      pocketBoard.num_pieces * atomBitsOf pocketBoard ≤ 8 * 2 ∧
      ¬ pocketBoard.num_pieces * atomBitsOf pocketBoard ≤ 8 * 1 ∧
      2 < getPackedSize pocketBoard ∧
      clampBytes ((getPackedSize pocketBoard + 7) / 8) = 2 := by
  decide

/-- The value getPackedSize returns is the number of bits
`num_pieces * (pBits + hBits + wBits)` of the packed state; the number of bytes
is derived by find_solution as `(bits + 7) / 8`, raised to 1 when it is 0, and
that is the least positive number of bytes that holds the bits. -/
theorem getPackedSize_counts_bits (gate : gate_t) :
    getPackedSize gate =
        gate.num_pieces * (pBitsOf gate.num_pieces + dimBitsOf gate.lines +
          dimBitsOf (gate.num_chars_map / gate.lines)) ∧
      1 ≤ clampBytes ((getPackedSize gate + 7) / 8) ∧
      getPackedSize gate ≤ 8 * clampBytes ((getPackedSize gate + 7) / 8) ∧
      (∀ bytes, 1 ≤ bytes → getPackedSize gate ≤ 8 * bytes →
        clampBytes ((getPackedSize gate + 7) / 8) ≤ bytes) ∧
      (∀ algorithm : Int, (find_solution gate algorithm).has_won =
        (schedule gate algorithm (clampBytes ((getPackedSize gate + 7) / 8))).has_won) := by
  refine ⟨?_, ?_, ?_, ?_, fun _ => rfl⟩
  · unfold getPackedSize atomBitsOf widthOf
    rw [Nat.mul_comm]
  · unfold clampBytes
    split_ifs <;> omega
  · unfold clampBytes
    split_ifs <;> omega
  · intro bytes h1 h2
    unfold clampBytes
    split_ifs <;> omega

/-! ## A failed move leaves the grid -/

theorem find_piece_coordinates_grids (state : gate_t) (pc : Nat) :
    (find_piece_coordinates state pc).1.map = state.map ∧
      (find_piece_coordinates state pc).1.map_save = state.map_save := by
  by_cases h : pc < 48 ∨ pc - 48 ≥ MAX_PIECES
  · unfold find_piece_coordinates
    rw [if_pos h]
    exact ⟨rfl, rfl⟩
  · rw [find_piece_coordinates_fst state pc (by omega) (by omega)]
    exact ⟨(locate_fields _ _ _).2.2.2.1, (locate_fields _ _ _).2.2.2.2.1⟩

theorem apply_move_in_place_failed (b : gate_t) (pc d : Nat)
    (h : (apply_move_in_place b pc d).2 = false) :
    (apply_move_in_place b pc d).1.map = b.map ∧
      (apply_move_in_place b pc d).1.map_save = b.map_save := by
  unfold apply_move_in_place at h ⊢
  by_cases h1 : is_valid_direction d = false
  · rw [if_pos h1]; exact ⟨rfl, rfl⟩
  · rw [if_neg h1] at h ⊢
    by_cases h2 : pc < 48 ∨ pc - 48 ≥ b.num_pieces
    · rw [if_pos h2]; exact ⟨rfl, rfl⟩
    · rw [if_neg h2] at h ⊢
      simp only at h ⊢
      have hg := find_piece_coordinates_grids b pc
      rcases hf : find_piece_coordinates b pc with ⟨state1, flag⟩
      rw [hf] at h hg
      simp only at h hg ⊢
      cases flag with
      | false => exact hg
      | true =>
        simp only at h ⊢
        by_cases h3 : can_move_all state1 pc (pc - 48 + 72) d = false
        · rw [if_pos h3]; exact hg
        · rw [if_neg h3] at h
          simp at h

/-- C29 (a failed move mutates no grid).  Whenever apply_move_in_place returns
false, for a direction that is not valid, a piece index outside
0 .. num_pieces - 1, a piece absent from the grid or a blocked cell, the grid and
the backup grid of the board are those before the call.  apply_action runs
the move on the copy made by duplicate_state, whose grid is the first `lines`
rows of the grid of the board it is given, and returns NULL exactly when the
move fails on that copy. -/
theorem failed_move_keeps_grid (b : gate_t) (pc d : Nat) :
    ((apply_move_in_place b pc d).2 = false →
      (apply_move_in_place b pc d).1.map = b.map ∧
        (apply_move_in_place b pc d).1.map_save = b.map_save) ∧
    (is_valid_direction d = false → (apply_move_in_place b pc d).2 = false) ∧
    ((pc < 48 ∨ pc - 48 ≥ b.num_pieces) → (apply_move_in_place b pc d).2 = false) ∧
    (apply_action b pc d = none ↔
      (apply_move_in_place (duplicate_state b) pc d).2 = false) ∧
    (duplicate_state b).map = b.map.take b.lines := by
  refine ⟨apply_move_in_place_failed b pc d, ?_, ?_, ?_, rfl⟩
  · intro h
    unfold apply_move_in_place
    rw [if_pos h]
  · intro h
    unfold apply_move_in_place
    by_cases h1 : is_valid_direction d = false
    · rw [if_pos h1]
    · rw [if_neg h1, if_pos h]
  · unfold apply_action
    rcases hm : apply_move_in_place (duplicate_state b) pc d with ⟨st, flag⟩
    cases flag <;> simp

set_option maxRecDepth 100000 in
/-- C29 at a concrete input: on the board `0#G` piece 0 cannot step right, and the
grid stays. -/
theorem failed_move_keeps_grid_witness :
    (apply_move_in_place wallBoard 48 RIGHT).2 = false ∧
    (apply_move_in_place wallBoard 48 RIGHT).1.map = [[48, 35, 71]] ∧
    (((apply_move_in_place wallBoard 48 RIGHT).2 = false →
      (apply_move_in_place wallBoard 48 RIGHT).1.map = wallBoard.map ∧
        (apply_move_in_place wallBoard 48 RIGHT).1.map_save = wallBoard.map_save) ∧
    (is_valid_direction RIGHT = false → (apply_move_in_place wallBoard 48 RIGHT).2 = false) ∧
    ((48 < 48 ∨ 48 - 48 ≥ wallBoard.num_pieces) →
      (apply_move_in_place wallBoard 48 RIGHT).2 = false) ∧
    (apply_action wallBoard 48 RIGHT = none ↔
      (apply_move_in_place (duplicate_state wallBoard) 48 RIGHT).2 = false) ∧
    (duplicate_state wallBoard).map = wallBoard.map.take wallBoard.lines) :=
  ⟨by decide!, by decide!, failed_move_keeps_grid wallBoard 48 RIGHT⟩

/-! ## A board that is won at the start -/

theorem cellAt_take (m : List (List Nat)) (lines : Nat) (i j : Nat) (h : i < lines) :
    cellAt (m.take lines) i j = cellAt m i j := by
  unfold cellAt rowAt
  simp only [Int.toNat_ofNat]
  have : (m.take lines).getD i [] = m.getD i [] := by
    rw [List.getD_eq_getElem?_getD, List.getD_eq_getElem?_getD, List.getElem?_take_of_lt h]
  rw [this]

theorem winning_state_duplicate (b : gate_t) :
    winning_state (duplicate_state b) = winning_state b := by
  unfold winning_state duplicate_state positions
  simp only [List.take_take, Nat.min_self]
  have hcell : ∀ p ∈ positionsFrom (b.map_save.take b.lines) 0,
      cellAt (b.map.take b.lines) p.1 p.2 = cellAt b.map p.1 p.2 := by
    intro p hp
    obtain ⟨i, j⟩ := p
    rw [mem_positionsFrom] at hp
    have hi : i < b.lines := by
      have := hp.2.1
      simp only [List.length_take] at this
      omega
    exact cellAt_take b.map b.lines i j hi
  rw [Bool.eq_iff_iff, List.all_eq_true, List.all_eq_true]
  constructor
  · intro h p hp
    rw [← hcell p hp]
    exact h p hp
  · intro h p hp
    rw [hcell p hp]
    exact h p hp

theorem search_step_root_won (init_data : gate_t) (width_limit : Int) (nl ab pb : Nat)
    (hwin : winning_state init_data = true) :
    (search_step nl ab pb (search_init init_data width_limit)).result =
      { solved := true, solution := some init_data.soln
        final_state := some (duplicate_state init_data)
        expanded := 1, generated := 1, duplicated := 0 } := by
  have hd : pq_dequeue (search_init init_data width_limit).pq =
      (some (create_search_node (duplicate_state init_data) 0 0 0),
        { (search_init init_data width_limit).pq with nodes := [] }) := rfl
  have hw : winning_state (create_search_node (duplicate_state init_data) 0 0 0).state = true := by
    show winning_state (duplicate_state init_data) = true
    rw [winning_state_duplicate]
    exact hwin
  rw [search_step_win nl ab pb _ _ _ hd hw]
  rfl

/-- C27 (initial board already won).  If winning_state holds of the initial
board and its trail is empty, run_search returns, for every width limit and
key size, solved = true with the empty trail and a final board whose grid
is the first `lines` rows of the initial grid, with expanded = 1,
generated = 1 and duplicated = 0. -/
theorem run_search_already_won (init_data : gate_t) (width_limit : Int) (packedBytes : Nat)
    (hwin : winning_state init_data = true) (hsoln : init_data.soln = []) :
    (run_search init_data width_limit packedBytes).solved = true ∧
      (run_search init_data width_limit packedBytes).solution = some [] ∧
      (∃ f, (run_search init_data width_limit packedBytes).final_state = some f ∧
        f.map = init_data.map.take init_data.lines) ∧
      (run_search init_data width_limit packedBytes).expanded = 1 ∧
      (run_search init_data width_limit packedBytes).generated = 1 ∧
      (run_search init_data width_limit packedBytes).duplicated = 0 := by
  have hstep := search_step_root_won init_data width_limit
    (noveltyLimitOf init_data width_limit) (atomBitsOf init_data) (clampBytes packedBytes) hwin
  have hne : pq_is_empty (search_init init_data width_limit).pq = false := rfl
  have hrun : run_search init_data width_limit packedBytes =
      { solved := true, solution := some init_data.soln
        final_state := some (duplicate_state init_data)
        expanded := 1, generated := 1, duplicated := 0 } := by
    unfold run_search searchFuel
    unfold search_loop
    rw [hne]
    simp only [Bool.false_eq_true, if_false]
    have hs : (search_step (noveltyLimitOf init_data width_limit) (atomBitsOf init_data)
        (clampBytes packedBytes) (search_init init_data width_limit)).result.solved = true := by
      rw [hstep]
    rw [if_pos hs]
    exact hstep
  rw [hrun, hsoln]
  exact ⟨rfl, rfl, ⟨duplicate_state init_data, rfl, rfl⟩, rfl, rfl, rfl⟩

set_option maxRecDepth 100000 in
/-- C27 at a concrete input: the board `H  ` of the specification with width
limit 1. -/
theorem run_search_already_won_witness :
    (winning_state wonBoard = true ∧ wonBoard.soln = []) ∧
    ((run_search wonBoard 1 1).solved = true ∧
      (run_search wonBoard 1 1).solution = some [] ∧
      (∃ f, (run_search wonBoard 1 1).final_state = some f ∧
        f.map = wonBoard.map.take wonBoard.lines) ∧
      (run_search wonBoard 1 1).expanded = 1 ∧
      (run_search wonBoard 1 1).generated = 1 ∧
      (run_search wonBoard 1 1).duplicated = 0) :=
  ⟨⟨by decide, rfl⟩, run_search_already_won wonBoard 1 1 (by decide) rfl⟩

/-! ## The novelty tables hold the subsets of the expanded states -/

theorem noveltyLimitOf_le (init_data : gate_t) (width_limit : Int) :
    noveltyLimitOf init_data width_limit ≤ init_data.num_pieces := by
  unfold noveltyLimitOf
  split_ifs <;> omega

theorem search_step_closed_sizes (init_data : gate_t) (nl ab pb : Nat) (vars : search_vars)
    (h : tablesInv init_data nl ab vars ∧
      ∀ key ∈ vars.expandedStates.keys, key.1 = init_data.num_pieces) :
    tablesInv init_data nl ab (search_step nl ab pb vars) ∧
      ∀ key ∈ (search_step nl ab pb vars).expandedStates.keys, key.1 = init_data.num_pieces := by
  obtain ⟨hT, hC⟩ := h
  refine ⟨search_step_tablesInv init_data nl ab pb vars hT, ?_⟩
  rcases hdq : pq_dequeue vars.pq with ⟨_ | current, pq1⟩
  · rw [search_step_none nl ab pb vars pq1 hdq]; exact hC
  · have hperm := pq_dequeue_perm vars.pq current pq1 hdq
    have hcur : current.state.num_pieces = init_data.num_pieces :=
      hT.1 current (hperm.mem_iff.mpr (List.mem_cons_self _ _))
    cases hw : winning_state current.state with
    | true =>
      rw [search_step_win nl ab pb vars current pq1 hdq hw]
      exact hC
    | false =>
      cases hc : checkPresent vars.expandedStates (packedKey current.state pb)
          current.state.num_pieces with
      | true =>
        rw [search_step_dup nl ab pb vars current pq1 hdq hw hc]
        exact hC
      | false =>
        rw [search_step_expand nl ab pb vars current pq1 hdq hw hc,
          (foldl_expand_move_tries nl ab pb current _ _).1]
        intro key hkey
        show key.1 = init_data.num_pieces
        have hkey2 : key ∈ (current.state.num_pieces, packedKey current.state pb) ::
            vars.expandedStates.keys := hkey
        rcases List.mem_cons.mp hkey2 with h1 | h1
        · rw [h1]; exact hcur
        · exact hC key h1

theorem search_after_closed_sizes (init_data : gate_t) (width_limit : Int) (packedBytes n : Nat) :
    ∀ key ∈ (search_after init_data width_limit packedBytes n).expandedStates.keys,
      key.1 = init_data.num_pieces := by
  unfold search_after
  exact (search_loop_invariant _ _ _
    (fun vars => tablesInv init_data (noveltyLimitOf init_data width_limit)
        (atomBitsOf init_data) vars ∧
      ∀ key ∈ vars.expandedStates.keys, key.1 = init_data.num_pieces)
    (fun vars hv _ => search_step_closed_sizes init_data _ _ _ vars hv) n _
    ⟨search_init_tablesInv init_data width_limit _, fun key hk => by
      simp [search_init, getNewRadixTree] at hk⟩).2

/-- C21 (the novelty tables record the expanded states).  At every loop head of
run_search, for every table index `s` below the novelty limit: the table of
size `s + 1` holds exactly the keys that pack_subset builds, for the strictly
increasing index vectors of length `s + 1` over 0 .. num_pieces - 1, from the
full keys that are in the closed set.  The generation of a successor, whether
it is enqueued or skipped, leaves every table as it is. -/
theorem novelty_tables_hold_expanded (init_data : gate_t) (width_limit : Int)
    (packedBytes turns s : Nat) (hs : s < noveltyLimitOf init_data width_limit)
    (x : Nat × List Bool) :
    (x ∈ (partialAt (search_after init_data width_limit packedBytes turns).partialStates s).keys ↔
      ∃ e, (init_data.num_pieces, e) ∈
          (search_after init_data width_limit packedBytes turns).expandedStates.keys ∧
        ∃ c : List Nat, c.length = s + 1 ∧ c.Pairwise (fun a b => a < b) ∧
          (∀ y ∈ c, y < init_data.num_pieces) ∧
          x = (s + 1, pack_subset (subsetBytesOf (atomBitsOf init_data) s) e
            (atomBitsOf init_data) c (s + 1))) ∧
    (∀ (nl ab pb : Nat) (current : search_node_t) (vars : search_vars) (move : Nat × Nat),
      (expand_move nl ab pb current vars move).partialStates = vars.partialStates) := by
  refine ⟨?_, fun nl ab pb current vars move => (expand_move_tries nl ab pb current vars move).2⟩
  have hle := noveltyLimitOf_le init_data width_limit
  have hT := (search_after_tablesInv init_data width_limit packedBytes turns).2
  have hC := search_after_closed_sizes init_data width_limit packedBytes turns
  rw [hT, tablesOf_keys _ _ _ _ s hs (by omega)]
  constructor
  · rintro ⟨e, he, c, hc, hx⟩
    rw [List.mem_reverse, List.mem_map] at he
    obtain ⟨key, hkey, rfl⟩ := he
    refine ⟨key.2, ?_, c, ?_⟩
    · have := hC key hkey
      rw [← this]
      exact hkey
    · obtain ⟨h1, h2, h3⟩ := (mem_combosFrom_iff _ _ _).mp hc
      exact ⟨h1, h2, h3, hx⟩
  · rintro ⟨e, he, c, h1, h2, h3, hx⟩
    refine ⟨e, ?_, c, (mem_combosFrom_iff _ _ _).mpr ⟨h1, h2, h3⟩, hx⟩
    rw [List.mem_reverse, List.mem_map]
    exact ⟨_, he, rfl⟩

set_option maxRecDepth 100000 in
/-- C21 at a concrete input: the table of pairs after three turns on the pocket
board with width limit 2. -/
theorem novelty_tables_hold_expanded_witness :
    1 < noveltyLimitOf pocketBoard 2 ∧
    (search_after pocketBoard 2 2 3).expandedStates.keys.length = 3 ∧
    (partialAt (search_after pocketBoard 2 2 3).partialStates 1).keys.length = 3 ∧
    ((((2, packedKey pocketBoard 2) : Nat × List Bool) ∈
        (partialAt (search_after pocketBoard 2 2 3).partialStates 1).keys ↔
      ∃ e, (pocketBoard.num_pieces, e) ∈ (search_after pocketBoard 2 2 3).expandedStates.keys ∧
        ∃ c : List Nat, c.length = 1 + 1 ∧ c.Pairwise (fun a b => a < b) ∧
          (∀ y ∈ c, y < pocketBoard.num_pieces) ∧
          ((2, packedKey pocketBoard 2) : Nat × List Bool) =
            (1 + 1, pack_subset (subsetBytesOf (atomBitsOf pocketBoard) 1) e
              (atomBitsOf pocketBoard) c (1 + 1))) ∧
    (∀ (nl ab pb : Nat) (current : search_node_t) (vars : search_vars) (move : Nat × Nat),
      (expand_move nl ab pb current vars move).partialStates = vars.partialStates)) :=
  ⟨by decide, by decide!, by decide!,
    novelty_tables_hold_expanded pocketBoard 2 2 3 1 (by decide) (2, packedKey pocketBoard 2)⟩

/-! ## The format of the trails -/

theorem encodeTrail_append (a b : List (Nat × Nat)) :
    encodeTrail (a ++ b) = encodeTrail a ++ encodeTrail b := by
  induction a with
  | nil => rfl
  | cons m rest ih =>
    show m.1 :: m.2 :: encodeTrail (rest ++ b) = m.1 :: m.2 :: (encodeTrail rest ++ encodeTrail b)
    rw [ih]

theorem trailFormat_encodeTrail (n : Nat) (moves : List (Nat × Nat))
    (h : ∀ m ∈ moves, properMove n m) : trailFormat n (encodeTrail moves) := by
  induction moves with
  | nil =>
    intro i hi
    simp [encodeTrail] at hi
  | cons m rest ih =>
    have hm := h m (List.mem_cons_self _ _)
    have hrest := ih (fun x hx => h x (List.mem_cons_of_mem _ hx))
    intro i hi
    unfold properMove at hm
    match i with
    | 0 =>
      simp only [encodeTrail, List.getD_cons_zero]
      exact ⟨fun _ => ⟨hm.1, hm.2.1, hm.2.2.1⟩, fun hc => by omega⟩
    | 1 =>
      simp only [encodeTrail, List.getD_cons_succ, List.getD_cons_zero]
      exact ⟨fun hc => by omega, fun _ => hm.2.2.2⟩
    | j + 2 =>
      simp only [encodeTrail, List.getD_cons_succ]
      simp only [encodeTrail, List.length_cons] at hi
      have := hrest j (by omega)
      exact ⟨fun hc => this.1 (by omega), fun hc => this.2 (by omega)⟩

theorem search_init_trailInv (init_data : gate_t) (width_limit : Int)
    (hsoln : init_data.soln = []) : trailInv init_data (search_init init_data width_limit) := by
  constructor
  · intro node hn
    have := (pq_enqueue_perm init_priority_queue
      (create_search_node (duplicate_state init_data) 0 0 0)).mem_iff.mp hn
    simp only [init_priority_queue, List.mem_singleton] at this
    subst this
    refine ⟨rfl, [], ?_, rfl, fun m hm => by simp at hm⟩
    show init_data.soln = encodeTrail []
    rw [hsoln]
    rfl
  · intro h
    simp [search_init] at h

theorem search_step_trailInv (init_data : gate_t) (nl ab pb : Nat) (vars : search_vars)
    (h : trailInv init_data vars) : trailInv init_data (search_step nl ab pb vars) := by
  obtain ⟨hq, hr⟩ := h
  rcases hdq : pq_dequeue vars.pq with ⟨_ | current, pq1⟩
  · rw [search_step_none nl ab pb vars pq1 hdq]; exact ⟨hq, hr⟩
  · have hperm := pq_dequeue_perm vars.pq current pq1 hdq
    obtain ⟨hcn, cmoves, hc1, hc2, hc3⟩ := hq current (hperm.mem_iff.mpr (List.mem_cons_self _ _))
    have hrest : ∀ node ∈ pq1.nodes, node.state.num_pieces = init_data.num_pieces ∧
        ∃ moves : List (Nat × Nat), node.state.soln = encodeTrail moves ∧
          moves.length = node.depth ∧ ∀ m ∈ moves, properMove init_data.num_pieces m :=
      fun node hn => hq node (hperm.mem_iff.mpr (List.mem_cons_of_mem _ hn))
    cases hw : winning_state current.state with
    | true =>
      rw [search_step_win nl ab pb vars current pq1 hdq hw]
      refine ⟨hrest, fun _ => ⟨cmoves, ?_, hc3⟩⟩
      show some current.state.soln = some (encodeTrail cmoves)
      rw [hc1]
    | false =>
      cases hc : checkPresent vars.expandedStates (packedKey current.state pb)
          current.state.num_pieces with
      | true =>
        rw [search_step_dup nl ab pb vars current pq1 hdq hw hc]
        exact ⟨hrest, hr⟩
      | false =>
        rw [search_step_expand nl ab pb vars current pq1 hdq hw hc]
        obtain ⟨e1, e2, _, _⟩ := foldl_expand_move_result nl ab pb current
          (moveOrder current.state.num_pieces) (expand_start nl ab pb vars current pq1)
        constructor
        · intro node hn
          rcases foldl_expand_move_mem nl ab pb current _ _ node hn with h1 | ⟨move, next, h1, h2⟩
          · exact hrest node h1
          · obtain ⟨i1, i2, i3, i4⟩ := apply_action_index _ _ _ _ h1
            have hM : MAX_PIECES = 10 := rfl
            rw [h2]
            refine ⟨?_, cmoves ++ [(pieceNames.getD move.1 0, directions.getD move.2 0)], ?_, ?_, ?_⟩
            · show next.num_pieces = init_data.num_pieces
              rw [apply_action_num_pieces _ _ _ _ h1, hcn]
            · show next.soln = _
              rw [apply_action_soln _ _ _ _ h1, hc1, encodeTrail_append]
              rfl
            · show _ = current.depth + 1
              rw [List.length_append, hc2]
              rfl
            · intro m hm
              rcases List.mem_append.mp hm with h3 | h3
              · exact hc3 m h3
              · simp only [List.mem_singleton] at h3
                subst h3
                unfold properMove
                simp only
                rw [hcn] at i2
                exact ⟨i1, by omega, i2, i4⟩
        · rw [e1, e2]
          exact hr

theorem search_after_trailInv (init_data : gate_t) (width_limit : Int) (packedBytes n : Nat)
    (hsoln : init_data.soln = []) :
    trailInv init_data (search_after init_data width_limit packedBytes n) := by
  unfold search_after
  exact search_loop_invariant _ _ _ (trailInv init_data)
    (fun vars hv _ => search_step_trailInv init_data _ _ _ vars hv) n _
    (search_init_trailInv init_data width_limit hsoln)

/-- C25 (trail format).  For an initial board with an empty trail, every width
limit and every number of turns of the main loop: every node in the queue
carries a trail of length exactly 2 * depth, in which every character of even
index is a digit naming a piece index below num_pieces and every character of
odd index is one of `u`, `d`, `l`, `r`; the trail of a solved result is the
text of a sequence of moves, of twice its length, in that format; and
apply_action extends the trail of the board it is given by exactly the pair
(piece, direction) it applied. -/
theorem trail_format (init_data : gate_t) (width_limit : Int) (packedBytes turns : Nat)
    (hsoln : init_data.soln = []) :
    (∀ node ∈ (search_after init_data width_limit packedBytes turns).pq.nodes,
      node.state.soln.length = 2 * node.depth ∧
        trailFormat init_data.num_pieces node.state.soln) ∧
    ((run_search init_data width_limit packedBytes).solved = true →
      ∃ (t : List Nat) (moves : List (Nat × Nat)),
        (run_search init_data width_limit packedBytes).solution = some t ∧
        t = encodeTrail moves ∧ t.length = 2 * moves.length ∧
        trailFormat init_data.num_pieces t) ∧
    (∀ (b : gate_t) (pc d : Nat) (b1 : gate_t), apply_action b pc d = some b1 →
      b1.soln = b.soln ++ [pc, d]) := by
  refine ⟨?_, ?_, apply_action_soln⟩
  · intro node hn
    obtain ⟨_, moves, h1, h2, h3⟩ :=
      (search_after_trailInv init_data width_limit packedBytes turns hsoln).1 node hn
    rw [h1, length_encodeTrail, h2]
    exact ⟨rfl, trailFormat_encodeTrail _ _ h3⟩
  · intro hs
    rw [run_search_eq_search_after] at hs ⊢
    obtain ⟨moves, h1, h2⟩ :=
      (search_after_trailInv init_data width_limit packedBytes _ hsoln).2 hs
    exact ⟨encodeTrail moves, moves, h1, rfl, length_encodeTrail moves,
      trailFormat_encodeTrail _ _ h2⟩

set_option maxRecDepth 100000 in
/-- C25 at a concrete input: the pocket board under uniform-cost search, whose
result is the trail `0l1l1d0r0r0r`. -/
theorem trail_format_witness :
    pocketBoard.soln = [] ∧ (run_search pocketBoard 0 2).solved = true ∧
    ((∀ node ∈ (search_after pocketBoard 0 2 3).pq.nodes,
      node.state.soln.length = 2 * node.depth ∧
        trailFormat pocketBoard.num_pieces node.state.soln) ∧
    ((run_search pocketBoard 0 2).solved = true →
      ∃ (t : List Nat) (moves : List (Nat × Nat)),
        (run_search pocketBoard 0 2).solution = some t ∧
        t = encodeTrail moves ∧ t.length = 2 * moves.length ∧
        trailFormat pocketBoard.num_pieces t) ∧
    (∀ (b : gate_t) (pc d : Nat) (b1 : gate_t), apply_action b pc d = some b1 →
      b1.soln = b.soln ++ [pc, d])) :=
  ⟨rfl, by decide!, trail_format pocketBoard 0 2 3 rfl⟩

/-! ## The scheduler -/

theorem widthsOf_eq (init_data : gate_t) :
    (List.range init_data.num_pieces).map (fun w => w + 1) = widthsOf init_data := by
  unfold widthsOf
  rw [List.range'_eq_map_range]
  apply List.map_congr_left
  intro a _
  omega

/-- The accumulators after the loop over the widths `ws`, entered without a win:
the sub-runs before the first success are summed, and the first success, if
there is one, is recorded. -/
theorem widen_loop_spec (init_data : gate_t) (pb : Nat) (ws : List Nat) (acc : sched_vars)
    (hacc : acc.has_won = false) :
    widen_loop init_data pb ws acc =
      match ws.find? (fun (w : Nat) => (run_search init_data (w : Int) pb).solved) with
      | some w =>
        { has_won := true
          soln := (run_search init_data (w : Int) pb).solution
          winning_state_ptr := (run_search init_data (w : Int) pb).final_state
          totalExpanded := acc.totalExpanded +
            (sumOver init_data pb (fun r => r.expanded)
              (ws.takeWhile (fun (v : Nat) => !(run_search init_data (v : Int) pb).solved)) +
              (run_search init_data (w : Int) pb).expanded)
          totalGenerated := acc.totalGenerated +
            (sumOver init_data pb (fun r => r.generated)
              (ws.takeWhile (fun (v : Nat) => !(run_search init_data (v : Int) pb).solved)) +
              (run_search init_data (w : Int) pb).generated)
          totalDuplicated := acc.totalDuplicated +
            (sumOver init_data pb (fun r => r.duplicated)
              (ws.takeWhile (fun (v : Nat) => !(run_search init_data (v : Int) pb).solved)) +
              (run_search init_data (w : Int) pb).duplicated)
          solvingWidth := (w : Int)
          usedFallback := acc.usedFallback }
      | none =>
        { acc with
          totalExpanded := acc.totalExpanded +
            sumOver init_data pb (fun r => r.expanded)
              (ws.takeWhile (fun (v : Nat) => !(run_search init_data (v : Int) pb).solved))
          totalGenerated := acc.totalGenerated +
            sumOver init_data pb (fun r => r.generated)
              (ws.takeWhile (fun (v : Nat) => !(run_search init_data (v : Int) pb).solved))
          totalDuplicated := acc.totalDuplicated +
            sumOver init_data pb (fun r => r.duplicated)
              (ws.takeWhile (fun (v : Nat) => !(run_search init_data (v : Int) pb).solved)) } := by
  induction ws generalizing acc with
  | nil =>
    simp only [widen_loop, List.find?_nil, List.takeWhile_nil, sumOver, List.map_nil,
      List.sum_nil, Nat.add_zero]
  | cons w rest ih =>
    unfold widen_loop
    rw [hacc]
    simp only [Bool.false_eq_true, if_false]
    cases hs : (run_search init_data (w : Int) pb).solved with
    | true =>
      simp only [if_true, List.find?_cons, hs, List.takeWhile_cons, Bool.not_true,
        Bool.false_eq_true, if_false, sumOver, List.map_nil, List.sum_nil, Nat.zero_add]
      cases rest with
      | nil => rfl
      | cons v rest2 =>
        unfold widen_loop
        rfl
    | false =>
      simp only [Bool.false_eq_true, if_false, List.find?_cons, hs, List.takeWhile_cons,
        Bool.not_false, if_true]
      rw [ih _ rfl]
      cases List.find? (fun (w : Nat) => (run_search init_data (w : Int) pb).solved) rest with
      | none =>
        simp only [sumOver, List.map_cons, List.sum_cons]
        congr 1 <;> omega
      | some v =>
        simp only [sumOver, List.map_cons, List.sum_cons]
        congr 1 <;> omega

theorem find_takeWhile_range' (p : Nat → Bool) (n s : Nat) :
    match (List.range' s n).find? p with
    | some w =>
      (List.range' s n).takeWhile (fun v => !p v) = List.range' s (w - s) ∧ s ≤ w ∧ w < s + n ∧
        p w = true
    | none =>
      (List.range' s n).takeWhile (fun v => !p v) = List.range' s n ∧
        ∀ w, s ≤ w → w < s + n → p w = false := by
  induction n generalizing s with
  | zero =>
    simp only [List.range'_zero, List.find?_nil, List.takeWhile_nil, true_and]
    intro w h1 h2
    omega
  | succ n ih =>
    rw [List.range'_succ, List.find?_cons, List.takeWhile_cons]
    cases hp : p s with
    | true =>
      simp only [Bool.not_true, Bool.false_eq_true, if_false, Nat.sub_self, List.range'_zero,
        true_and]
      exact ⟨Nat.le_refl _, by omega, hp⟩
    | false =>
      simp only [Bool.not_false, if_true]
      have := ih (s + 1)
      cases hf : List.find? p (List.range' (s + 1) n) with
      | none =>
        rw [hf] at this
        simp only at this ⊢
        refine ⟨by rw [this.1], ?_⟩
        intro w h1 h2
        by_cases hw : w = s
        · rw [hw]; exact hp
        · exact this.2 w (by omega) (by omega)
      | some w =>
        rw [hf] at this
        simp only at this ⊢
        obtain ⟨h1, h2, h3, h4⟩ := this
        refine ⟨?_, by omega, by omega, h4⟩
        rw [h1]
        have : w - s = (w - (s + 1)) + 1 := by omega
        rw [this, List.range'_succ]

theorem find_solution_three (init_data : gate_t) :
    find_solution init_data 3 = mode3Report init_data 3 := by
  unfold find_solution schedule mode3Report firstSolvingWidth failedWidths
  simp only [show ¬ ((3 : Int) = 1) by decide, show ¬ ((3 : Int) = 2) by decide, if_false]
  rw [widthsOf_eq, widen_loop_spec _ _ _ _ rfl]
  cases hf : List.find? (fun (w : Nat) => (run_search init_data (w : Int)
      (clampBytes ((getPackedSize init_data + 7) / 8))).solved) (widthsOf init_data) with
  | some w =>
    simp only [if_true, Nat.zero_add]
  | none =>
    simp only [Bool.false_eq_true, if_false, Nat.zero_add]
    cases hs : (run_search init_data 0 (clampBytes ((getPackedSize init_data + 7) / 8))).solved with
    | true => simp only [if_true, Option.getD_none]
    | false => simp only [Bool.false_eq_true, if_false, Option.getD_none]

set_option maxRecDepth 100000 in
/-- C23 (scheduler, mode 3).  With algorithm 3, find_solution hands to
report_results what the specification prescribes: run_search is called with
the widths 1, 2, ... in increasing order up to the first width, at most
num_pieces, for which it returns solved; the trail, the final board and
solvingWidth are those of that sub-run.  When no width succeeds, run_search is
called with width 0 and usedFallback is set; solvingWidth is 0 when the
fallback solved.  The counters are the sums over the sub-runs that were made,
the failed widths and the last one.  On the bordered board `#0G#` width 1
solves without fallback; on the two-piece board with rows `# 01G#`, `## ###`
the widths 1 and 2 fail and the fallback solves with the trail `0l1l1d0r0r0r`. -/
theorem find_solution_mode3 (init_data : gate_t) :
    find_solution init_data 3 = mode3Report init_data 3 ∧
    (∀ w, firstSolvingWidth init_data (clampBytes ((getPackedSize init_data + 7) / 8)) = some w →
      1 ≤ w ∧ w ≤ init_data.num_pieces ∧
      failedWidths init_data (clampBytes ((getPackedSize init_data + 7) / 8)) =
        List.range' 1 (w - 1) ∧
      (run_search init_data (w : Int) (clampBytes ((getPackedSize init_data + 7) / 8))).solved =
        true) ∧
    (firstSolvingWidth init_data (clampBytes ((getPackedSize init_data + 7) / 8)) = none →
      failedWidths init_data (clampBytes ((getPackedSize init_data + 7) / 8)) =
        List.range' 1 init_data.num_pieces ∧
      ∀ w, 1 ≤ w → w ≤ init_data.num_pieces →
        (run_search init_data (w : Int)
          (clampBytes ((getPackedSize init_data + 7) / 8))).solved = false) ∧
    ((find_solution oneStepBoard 3).solvingWidth = 1 ∧
      (find_solution oneStepBoard 3).usedFallback = false) ∧
    (firstSolvingWidth pocketBoard (clampBytes ((getPackedSize pocketBoard + 7) / 8)) = none ∧
      (find_solution pocketBoard 3).usedFallback = true ∧
      (find_solution pocketBoard 3).solvingWidth = 0 ∧
      (find_solution pocketBoard 3).solnStr =
        [48, 108, 49, 108, 49, 100, 48, 114, 48, 114, 48, 114]) := by
  have hrange := find_takeWhile_range'
    (fun (w : Nat) => (run_search init_data (w : Int)
      (clampBytes ((getPackedSize init_data + 7) / 8))).solved) init_data.num_pieces 1
  refine ⟨?_, ?_, ?_, by decide!, by decide!⟩
  · exact find_solution_three init_data
  · intro w hw
    unfold firstSolvingWidth widthsOf at hw
    rw [hw] at hrange
    simp only at hrange
    obtain ⟨h1, h2, h3, h4⟩ := hrange
    unfold failedWidths widthsOf
    exact ⟨h2, by omega, h1, h4⟩
  · intro hw
    unfold firstSolvingWidth widthsOf at hw
    rw [hw] at hrange
    simp only at hrange
    unfold failedWidths widthsOf
    refine ⟨hrange.1, ?_⟩
    intro w h1 h2
    exact hrange.2 w h1 (by omega)

theorem run_search_reaches (init_data : gate_t) (width_limit : Int) (packedBytes : Nat)
    (hwf : WellFormed init_data)
    (hsolved : (run_search init_data width_limit packedBytes).solved = true) :
    ∃ (moves : List (Nat × Nat)) (f : gate_t),
      (run_search init_data width_limit packedBytes).solution =
        some (init_data.soln ++ encodeTrail moves) ∧
      (run_search init_data width_limit packedBytes).final_state = some f ∧
      apply_moves init_data moves = some f ∧ winning_state f = true := by
  have hinv : soundInv (duplicate_state init_data)
      (search_loop (noveltyLimitOf init_data width_limit) (atomBitsOf init_data)
        (clampBytes packedBytes) (searchFuel init_data (clampBytes packedBytes))
        (search_init init_data width_limit)) :=
    search_loop_invariant _ _ _ (soundInv (duplicate_state init_data))
      (fun vars hv _ => search_step_soundInv _ _ _ _ vars hv) _ _
      (search_init_soundInv init_data width_limit)
  obtain ⟨f, moves, h1, h2, h3, h4⟩ := hinv.2 hsolved
  rw [hwf.duplicate] at h4
  have hsoln := apply_moves_soln _ moves f h4
  rw [hsoln] at h1
  exact ⟨moves, f, h1, h2, h4, h3⟩

theorem clampBytes_holds (bits : Nat) :
    bits ≤ 8 * clampBytes (clampBytes ((bits + 7) / 8)) := by
  unfold clampBytes
  split_ifs <;> omega

/-- C24 (scheduler fallback completeness).  For every well-formed initial board
from which some winning board is reached by a sequence of moves that
apply_action accepts, find_solution with algorithm 3 ends with has_won = true;
the trail it reports is the trail of the initial board (empty for a board
fresh from the loader) followed by the text of a sequence of moves that leads
from the initial board to a winning board, which is the final board it
reports. -/
theorem scheduler_fallback_complete (init_data : gate_t) (hwf : WellFormed init_data)
    (hsolvable : ∃ (moves : List (Nat × Nat)) (b : gate_t),
      apply_moves init_data moves = some b ∧ winning_state b = true) :
    (find_solution init_data 3).has_won = true ∧
    ∃ (moves : List (Nat × Nat)) (f : gate_t),
      (find_solution init_data 3).solnStr = init_data.soln ++ encodeTrail moves ∧
      apply_moves init_data moves = some f ∧ winning_state f = true ∧
      (find_solution init_data 3).winning_state_ptr = some f := by
  rw [find_solution_three]
  cases hf : firstSolvingWidth init_data (clampBytes ((getPackedSize init_data + 7) / 8)) with
  | some w =>
    have hs : (run_search init_data (w : Int)
        (clampBytes ((getPackedSize init_data + 7) / 8))).solved = true := by
      unfold firstSolvingWidth at hf
      have := List.find?_some hf
      simpa using this
    obtain ⟨moves, f, h1, h2, h3, h4⟩ := run_search_reaches init_data _ _ hwf hs
    simp only [mode3Report, hf]
    refine ⟨trivial, moves, f, ?_, h3, h4, h2⟩
    rw [h1]
    rfl
  | none =>
    have hs := (ucs_complete_aux init_data (clampBytes ((getPackedSize init_data + 7) / 8)) hwf
      (clampBytes_holds _)).mpr hsolvable
    obtain ⟨moves, f, h1, h2, h3, h4⟩ := run_search_reaches init_data _ _ hwf hs
    simp only [mode3Report, hf, hs, if_true]
    refine ⟨trivial, moves, f, ?_, h3, h4, h2⟩
    rw [h1]
    rfl

set_option maxRecDepth 100000 in
/-- C24, witness: the bordered board `#0G#`, which the move `0r` wins. -/
theorem scheduler_fallback_complete_witness :
    (find_solution oneStepBoard 3).has_won = true ∧
    ∃ (moves : List (Nat × Nat)) (f : gate_t),
      (find_solution oneStepBoard 3).solnStr = oneStepBoard.soln ++ encodeTrail moves ∧
      apply_moves oneStepBoard moves = some f ∧ winning_state f = true ∧
      (find_solution oneStepBoard 3).winning_state_ptr = some f :=
  scheduler_fallback_complete oneStepBoard oneStepBoard_wellFormed
    (by
      have h : ((apply_moves oneStepBoard [(48, 114)]).map winning_state) = some true := by
        decide!
      cases hb : apply_moves oneStepBoard [(48, 114)] with
      | none => rw [hb] at h; simp at h
      | some b =>
        rw [hb] at h
        simp only [Option.map_some', Option.some.injEq] at h
        exact ⟨[(48, 114)], b, hb, h⟩)

/-! ## The order of expansion -/

theorem expand_move_pq (nl ab pb : Nat) (current : search_node_t) (vars : search_vars)
    (move : Nat × Nat) :
    (expand_move nl ab pb current vars move).pq =
      match successorOf nl ab pb current vars.expandedStates vars.partialStates move with
      | none => vars.pq
      | some node => pq_enqueue vars.pq node := by
  unfold expand_move successorOf
  cases apply_action current.state (pieceNames.getD move.1 0) (directions.getD move.2 0) with
  | none => rfl
  | some next =>
    simp only
    split_ifs <;> rfl

theorem foldl_expand_move_pq (nl ab pb : Nat) (current : search_node_t)
    (moves : List (Nat × Nat)) (vars : search_vars) :
    (moves.foldl (expand_move nl ab pb current) vars).pq =
      (moves.filterMap
        (successorOf nl ab pb current vars.expandedStates vars.partialStates)).foldl
        pq_enqueue vars.pq := by
  induction moves generalizing vars with
  | nil => rfl
  | cons m rest ih =>
    rw [List.foldl_cons, ih, (expand_move_tries nl ab pb current vars m).1,
      (expand_move_tries nl ab pb current vars m).2, expand_move_pq, List.filterMap_cons]
    cases successorOf nl ab pb current vars.expandedStates vars.partialStates m with
    | none => rfl
    | some node => rfl

theorem successorOf_some (nl ab pb : Nat) (current : search_node_t) (es : radixTree)
    (ps : List radixTree) (move : Nat × Nat) (node : search_node_t)
    (h : successorOf nl ab pb current es ps move = some node) :
    labelOf node = (pieceNames.getD move.1 0, directions.getD move.2 0) ∧
    node.depth = current.depth + 1 ∧
    apply_action current.state (pieceNames.getD move.1 0) (directions.getD move.2 0) =
      some node.state := by
  unfold successorOf at h
  cases ha : apply_action current.state (pieceNames.getD move.1 0) (directions.getD move.2 0) with
  | none => rw [ha] at h; simp at h
  | some next =>
    rw [ha] at h
    simp only at h
    split_ifs at h <;>
    · simp only [Option.some.injEq] at h
      subst h
      exact ⟨rfl, rfl, rfl⟩

theorem mem_moveOrder (n : Nat) (m : Nat × Nat) : m ∈ moveOrder n ↔ m.1 < n ∧ m.2 < 4 := by
  unfold moveOrder
  simp only [List.mem_flatMap, List.mem_range, List.mem_map]
  constructor
  · rintro ⟨i, hi, j, hj, rfl⟩
    exact ⟨hi, hj⟩
  · rintro ⟨h1, h2⟩
    exact ⟨m.1, h1, m.2, h2, rfl⟩

theorem moveOrder_succ (n : Nat) :
    moveOrder (n + 1) = moveOrder n ++ [(n, 0), (n, 1), (n, 2), (n, 3)] := by
  unfold moveOrder
  rw [List.range_succ, List.flatMap_append]
  rfl

theorem moveOrder_sorted (n : Nat) : (moveOrder n).Pairwise moveLt := by
  induction n with
  | zero => exact List.Pairwise.nil
  | succ n ih =>
    rw [moveOrder_succ, List.pairwise_append]
    refine ⟨ih, ?_, ?_⟩
    · unfold moveLt
      simp
    · intro a ha b hb
      rw [mem_moveOrder] at ha
      simp only [List.mem_cons, List.mem_singleton, List.not_mem_nil, or_false] at hb
      left
      rcases hb with rfl | rfl | rfl | rfl <;> exact ha.1

theorem filterMap_labels (f : Nat × Nat → Option search_node_t) (g : Nat × Nat → Nat × Nat)
    (hf : ∀ m node, f m = some node → labelOf node = g m) (moves : List (Nat × Nat)) :
    (moves.filterMap f).map labelOf = (moves.filter (fun m => (f m).isSome)).map g := by
  induction moves with
  | nil => rfl
  | cons m rest ih =>
    rw [List.filterMap_cons, List.filter_cons]
    cases hm : f m with
    | none => simpa using ih
    | some node =>
      simp only [Option.isSome_some, if_true, List.map_cons, ih, hf m node hm]

/-- C26 (expansion order).  When a turn of the main loop expands the node it
popped, the queue it leaves is the rest of the queue after pq_enqueue of the
successors in the order of the pairs (piece index, direction index) of
moveOrder, each pair giving at most one successor.  moveOrder holds exactly the
pairs with piece index below num_pieces and direction index below 4, strictly
increasing in the lexicographic order: pieces 0, 1, ..., num_pieces - 1 and,
within a piece, the directions up, down, left, right of the array directions.
The labels of the enqueued successors are the labels of a sublist of moveOrder,
so they are strictly increasing in that order. -/
theorem expansion_order (nl ab pb : Nat) (vars : search_vars) (current : search_node_t)
    (pq1 : priority_queue_t) (h : pq_dequeue vars.pq = (some current, pq1))
    (hw : winning_state current.state = false)
    (hc : checkPresent vars.expandedStates (packedKey current.state pb)
      current.state.num_pieces = false) :
    (search_step nl ab pb vars).pq =
      ((moveOrder current.state.num_pieces).filterMap
        (successorOf nl ab pb current (expand_start nl ab pb vars current pq1).expandedStates
          (expand_start nl ab pb vars current pq1).partialStates)).foldl pq_enqueue pq1 ∧
    (∃ ms : List (Nat × Nat), ms.Sublist (moveOrder current.state.num_pieces) ∧
      ms.Pairwise moveLt ∧
      ((moveOrder current.state.num_pieces).filterMap
        (successorOf nl ab pb current (expand_start nl ab pb vars current pq1).expandedStates
          (expand_start nl ab pb vars current pq1).partialStates)).map labelOf =
        ms.map (fun m => (pieceNames.getD m.1 0, directions.getD m.2 0))) ∧
    (∀ m node, successorOf nl ab pb current
        (expand_start nl ab pb vars current pq1).expandedStates
        (expand_start nl ab pb vars current pq1).partialStates m = some node →
      labelOf node = (pieceNames.getD m.1 0, directions.getD m.2 0) ∧
      node.depth = current.depth + 1 ∧
      apply_action current.state (pieceNames.getD m.1 0) (directions.getD m.2 0) =
        some node.state) ∧
    (moveOrder current.state.num_pieces).Pairwise moveLt ∧
    (∀ m, m ∈ moveOrder current.state.num_pieces ↔ m.1 < current.state.num_pieces ∧ m.2 < 4) ∧
    directions = [117, 100, 108, 114] ∧
    (∀ i, i < 10 → pieceNames.getD i 0 = 48 + i) := by
  refine ⟨?_, ?_, ?_, moveOrder_sorted _, mem_moveOrder _, rfl, by decide⟩
  · rw [search_step_expand nl ab pb vars current pq1 h hw hc, foldl_expand_move_pq]
    rfl
  · refine ⟨(moveOrder current.state.num_pieces).filter (fun m =>
      (successorOf nl ab pb current (expand_start nl ab pb vars current pq1).expandedStates
        (expand_start nl ab pb vars current pq1).partialStates m).isSome),
      List.filter_sublist _, (moveOrder_sorted _).filter _, ?_⟩
    exact filterMap_labels _ _ (fun m node hm => (successorOf_some _ _ _ _ _ _ m node hm).1) _
  · intro m node hm
    exact successorOf_some _ _ _ _ _ _ m node hm

set_option maxRecDepth 100000 in
/-- C26, witness: the first turn of the uniform-cost search on the two-piece board
with rows `# 01G#`, `## ###`; the root is expanded and its successors enter the
queue with the labels `0d`, `0l`, `1r`, in this order. -/
theorem expansion_order_witness :
    ((search_step 0 (atomBitsOf pocketBoard) 2 (search_init pocketBoard 0)).pq =
      ((moveOrder (create_search_node (duplicate_state pocketBoard) 0 0 0).state.num_pieces).filterMap
        (successorOf 0 (atomBitsOf pocketBoard) 2
          (create_search_node (duplicate_state pocketBoard) 0 0 0)
          (expand_start 0 (atomBitsOf pocketBoard) 2 (search_init pocketBoard 0)
            (create_search_node (duplicate_state pocketBoard) 0 0 0)
            { (search_init pocketBoard 0).pq with nodes := [] }).expandedStates
          (expand_start 0 (atomBitsOf pocketBoard) 2 (search_init pocketBoard 0)
            (create_search_node (duplicate_state pocketBoard) 0 0 0)
            { (search_init pocketBoard 0).pq with nodes := [] }).partialStates)).foldl
        pq_enqueue { (search_init pocketBoard 0).pq with nodes := [] }) ∧
    ((moveOrder pocketBoard.num_pieces).filterMap
        (successorOf 0 (atomBitsOf pocketBoard) 2
          (create_search_node (duplicate_state pocketBoard) 0 0 0)
          (expand_start 0 (atomBitsOf pocketBoard) 2 (search_init pocketBoard 0)
            (create_search_node (duplicate_state pocketBoard) 0 0 0)
            { (search_init pocketBoard 0).pq with nodes := [] }).expandedStates
          (expand_start 0 (atomBitsOf pocketBoard) 2 (search_init pocketBoard 0)
            (create_search_node (duplicate_state pocketBoard) 0 0 0)
            { (search_init pocketBoard 0).pq with nodes := [] }).partialStates)).map labelOf =
      [(48, 100), (48, 108), (49, 114)] :=
  ⟨(expansion_order 0 (atomBitsOf pocketBoard) 2 (search_init pocketBoard 0)
      (create_search_node (duplicate_state pocketBoard) 0 0 0)
      { (search_init pocketBoard 0).pq with nodes := [] } rfl (by decide!) (by decide!)).1,
    by decide!⟩

/-! ## The frame of a move -/

theorem countP_add_pointwise {α : Type} (L : List α) (f g h : α → Bool)
    (H : ∀ p ∈ L, (f p).toNat = (g p).toNat + (h p).toNat) :
    L.countP f = L.countP g + L.countP h := by
  induction L with
  | nil => rfl
  | cons a rest ih =>
    have hrest := ih (fun p hp => H p (List.mem_cons_of_mem a hp))
    have ha := H a (List.mem_cons_self a rest)
    rw [List.countP_cons, List.countP_cons, List.countP_cons, hrest]
    cases hf : f a <;> cases hg : g a <;> cases hh : h a <;>
      simp only [hf, hg, hh, Bool.toNat_true, Bool.toNat_false] at ha <;>
      simp <;> omega

/-- A cell changes in a successful move of the piece `k` exactly when the piece
leaves it or enters it. -/
theorem moved_cell_changed (b : gate_t) (k d : Nat) (hrows : b.map.length = b.lines)
    (hsave : b.map_save.length = b.lines)
    (h : (apply_move_in_place b (48 + k) d).2 = true) (i j : Int) :
    cellAt (apply_move_in_place b (48 + k) d).1.map i j ≠ cellAt b.map i j ↔
      ((isPiece k (cellAt b.map i j) ∧
          ¬ isPiece k (cellAt (apply_move_in_place b (48 + k) d).1.map i j)) ∨
        (¬ isPiece k (cellAt b.map i j) ∧
          isPiece k (cellAt (apply_move_in_place b (48 + k) d).1.map i j))) := by
  have hk := (success_index b k d h).2
  have hleg := legal_target b k d hrows h i j
  have hself := moved_isPiece_self b k d hrows hsave h i j
  have hv := moved_cell b k d hrows hsave h i j
  rw [hself]
  rw [hv]
  unfold isPiece at *
  generalize cellAt b.map i j = cur at *
  generalize cellAt b.map (sourceY i d) (sourceX j d) = src at *
  by_cases hsrc : src = 48 + k ∨ src = 72 + k
  · have hl := hleg hsrc
    rw [if_pos hsrc]
    split_ifs <;> omega
  · rw [if_neg hsrc]
    split_ifs <;> omega

theorem diffCount_eq (b : gate_t) (k d : Nat) (hrows : b.map.length = b.lines)
    (hsave : b.map_save.length = b.lines)
    (h : (apply_move_in_place b (48 + k) d).2 = true) :
    diffCount b.map (apply_move_in_place b (48 + k) d).1.map b.lines +
        2 * stayCount b.map (apply_move_in_place b (48 + k) d).1.map b.lines k =
      2 * pieceCells b.map b.lines k := by
  obtain ⟨_, _, _, f4, _⟩ := moved_fields b k d hrows hsave h
  have hsize := moved_pieceCells_self b k d hrows hsave h
  unfold pieceCells at hsize
  rw [positions_of_shapeOf _ _ f4] at hsize
  unfold diffCount stayCount pieceCells
  have hD := countP_add_pointwise (positions b.map b.lines)
    (fun p => decide (cellAt (apply_move_in_place b (48 + k) d).1.map (p.1 : Int) (p.2 : Int) ≠
      cellAt b.map (p.1 : Int) (p.2 : Int)))
    (fun p => formAt b.map (48 + k) p && !formAt (apply_move_in_place b (48 + k) d).1.map (48 + k) p)
    (fun p => !formAt b.map (48 + k) p && formAt (apply_move_in_place b (48 + k) d).1.map (48 + k) p)
    (by
      intro p _
      have hc := moved_cell_changed b k d hrows hsave h p.1 p.2
      have h1 := formAt_iff b.map k p
      have h2 := formAt_iff (apply_move_in_place b (48 + k) d).1.map k p
      by_cases hA : isPiece k (cellAt b.map p.1 p.2) <;>
        by_cases hB : isPiece k (cellAt (apply_move_in_place b (48 + k) d).1.map p.1 p.2) <;>
        simp only [hA, hB, iff_true, iff_false, Bool.not_eq_true, and_true, and_false, or_false,
          false_or, not_true_eq_false, not_false_eq_true, true_and, false_and, or_self,
          Decidable.not_not, ne_eq] at hc h1 h2 <;>
        simp [hc, h1, h2])
  have hA := countP_add_pointwise (positions b.map b.lines)
    (formAt b.map (48 + k))
    (fun p => formAt b.map (48 + k) p && formAt (apply_move_in_place b (48 + k) d).1.map (48 + k) p)
    (fun p => formAt b.map (48 + k) p && !formAt (apply_move_in_place b (48 + k) d).1.map (48 + k) p)
    (by
      intro p _
      dsimp only
      cases formAt b.map (48 + k) p <;>
        cases formAt (apply_move_in_place b (48 + k) d).1.map (48 + k) p <;> rfl)
  have hB := countP_add_pointwise (positions b.map b.lines)
    (formAt (apply_move_in_place b (48 + k) d).1.map (48 + k))
    (fun p => formAt b.map (48 + k) p && formAt (apply_move_in_place b (48 + k) d).1.map (48 + k) p)
    (fun p => !formAt b.map (48 + k) p && formAt (apply_move_in_place b (48 + k) d).1.map (48 + k) p)
    (by
      intro p _
      dsimp only
      cases formAt b.map (48 + k) p <;>
        cases formAt (apply_move_in_place b (48 + k) d).1.map (48 + k) p <;> rfl)
  omega

theorem stayCount_zero (b : gate_t) (k d : Nat) (hrows : b.map.length = b.lines)
    (hsave : b.map_save.length = b.lines)
    (h : (apply_move_in_place b (48 + k) d).2 = true)
    (hfree : ∀ i j : Int, isPiece k (cellAt b.map i j) →
      ¬ isPiece k (cellAt b.map (targetY i d) (targetX j d))) :
    stayCount b.map (apply_move_in_place b (48 + k) d).1.map b.lines k = 0 := by
  obtain ⟨hvalid, _⟩ := (apply_move_in_place_success_iff b (48 + k) d).mp h
  have hd := valid_direction_cases d hvalid
  unfold stayCount
  rw [List.countP_eq_zero]
  intro p _
  simp only [Bool.and_eq_true, not_and]
  intro hA hB
  rw [formAt_iff] at hA hB
  rw [moved_isPiece_self b k d hrows hsave h] at hB
  obtain ⟨_, _, _, _, _, _, _, h8, h9⟩ := direction_algebra d hd (p.1 : Int) (p.2 : Int)
  have := hfree _ _ hB
  rw [h8, h9] at this
  exact this hA

/-- C28 (frame of a move).  After a successful apply_move_in_place of the piece
`k` on a board whose two grids have `lines` rows, the new grid differs from the
old one in at most 2 * |Cells(k)| positions: the number of differing positions
plus twice the number of cells the piece keeps is 2 * |Cells(k)|.  It differs
in exactly 2 * |Cells(k)| positions when no cell of the piece has its
neighbour in the direction of the move inside the piece; a cell that holds the
piece before and after the move holds the same character; and every cell that
changes is a cell the piece leaves or enters. -/
theorem move_diff_count (b : gate_t) (k d : Nat) (hrows : b.map.length = b.lines)
    (hsave : b.map_save.length = b.lines)
    (h : (apply_move_in_place b (48 + k) d).2 = true) :
    diffCount b.map (apply_move_in_place b (48 + k) d).1.map b.lines ≤
      2 * pieceCells b.map b.lines k ∧
    diffCount b.map (apply_move_in_place b (48 + k) d).1.map b.lines +
        2 * stayCount b.map (apply_move_in_place b (48 + k) d).1.map b.lines k =
      2 * pieceCells b.map b.lines k ∧
    ((∀ i j : Int, isPiece k (cellAt b.map i j) →
        ¬ isPiece k (cellAt b.map (targetY i d) (targetX j d))) →
      diffCount b.map (apply_move_in_place b (48 + k) d).1.map b.lines =
        2 * pieceCells b.map b.lines k) ∧
    (∀ i j : Int, isPiece k (cellAt b.map i j) →
      isPiece k (cellAt (apply_move_in_place b (48 + k) d).1.map i j) →
      cellAt (apply_move_in_place b (48 + k) d).1.map i j = cellAt b.map i j) ∧
    (∀ i j : Int, cellAt (apply_move_in_place b (48 + k) d).1.map i j ≠ cellAt b.map i j →
      (isPiece k (cellAt b.map i j) ∧
          ¬ isPiece k (cellAt (apply_move_in_place b (48 + k) d).1.map i j)) ∨
        (¬ isPiece k (cellAt b.map i j) ∧
          isPiece k (cellAt (apply_move_in_place b (48 + k) d).1.map i j))) := by
  have heq := diffCount_eq b k d hrows hsave h
  refine ⟨by omega, heq, ?_, ?_, ?_⟩
  · intro hfree
    have := stayCount_zero b k d hrows hsave h hfree
    omega
  · intro i j hA hB
    by_contra hne
    rcases (moved_cell_changed b k d hrows hsave h i j).mp hne with ⟨_, h2⟩ | ⟨h1, _⟩
    · exact h2 hB
    · exact h1 hA
  · intro i j hne
    exact (moved_cell_changed b k d hrows hsave h i j).mp hne

set_option maxRecDepth 100000 in
/-- C28, witness: the two-cell piece of the board `#00 G#` steps right; it keeps
one cell, so two positions change and not four.  On the board with the piece
standing in a column the step right changes four positions. -/
theorem move_diff_count_witness :
    (barBoard.map.length = barBoard.lines ∧ barBoard.map_save.length = barBoard.lines ∧
      (apply_move_in_place barBoard (48 + 0) RIGHT).2 = true) ∧
    (pieceCells barBoard.map barBoard.lines 0 = 2 ∧
      diffCount barBoard.map (apply_move_in_place barBoard (48 + 0) RIGHT).1.map
        barBoard.lines = 2 ∧
      stayCount barBoard.map (apply_move_in_place barBoard (48 + 0) RIGHT).1.map
        barBoard.lines 0 = 1 ∧
      pieceCells towerBoard.map towerBoard.lines 0 = 2 ∧
      diffCount towerBoard.map (apply_move_in_place towerBoard (48 + 0) RIGHT).1.map
        towerBoard.lines = 4) ∧
    (diffCount barBoard.map (apply_move_in_place barBoard (48 + 0) RIGHT).1.map barBoard.lines ≤
      2 * pieceCells barBoard.map barBoard.lines 0 ∧
    diffCount barBoard.map (apply_move_in_place barBoard (48 + 0) RIGHT).1.map barBoard.lines +
        2 * stayCount barBoard.map (apply_move_in_place barBoard (48 + 0) RIGHT).1.map
          barBoard.lines 0 =
      2 * pieceCells barBoard.map barBoard.lines 0 ∧
    ((∀ i j : Int, isPiece 0 (cellAt barBoard.map i j) →
        ¬ isPiece 0 (cellAt barBoard.map (targetY i RIGHT) (targetX j RIGHT))) →
      diffCount barBoard.map (apply_move_in_place barBoard (48 + 0) RIGHT).1.map
          barBoard.lines =
        2 * pieceCells barBoard.map barBoard.lines 0) ∧
    (∀ i j : Int, isPiece 0 (cellAt barBoard.map i j) →
      isPiece 0 (cellAt (apply_move_in_place barBoard (48 + 0) RIGHT).1.map i j) →
      cellAt (apply_move_in_place barBoard (48 + 0) RIGHT).1.map i j =
        cellAt barBoard.map i j) ∧
    (∀ i j : Int,
      cellAt (apply_move_in_place barBoard (48 + 0) RIGHT).1.map i j ≠
        cellAt barBoard.map i j →
      (isPiece 0 (cellAt barBoard.map i j) ∧
          ¬ isPiece 0 (cellAt (apply_move_in_place barBoard (48 + 0) RIGHT).1.map i j)) ∨
        (¬ isPiece 0 (cellAt barBoard.map i j) ∧
          isPiece 0 (cellAt (apply_move_in_place barBoard (48 + 0) RIGHT).1.map i j)))) :=
  ⟨⟨rfl, rfl, by decide!⟩, ⟨by decide!, by decide!, by decide!, by decide!, by decide!⟩,
    move_diff_count barBoard 0 RIGHT rfl rfl (by decide!)⟩

/-! ## The algorithm selector -/

/-- C31 (algorithm selection).  The selector starts at 3; set_solver_algorithm
sets it to its argument when the argument is 1, 2 or 3 and leaves the previous
value for every other integer; so after any sequence of calls from the start
the selector is 1, 2 or 3. -/
theorem set_solver_algorithm_spec :
    solver_algorithm = 3 ∧
    (∀ current a : Int, 1 ≤ a → a ≤ 3 → set_solver_algorithm current a = a) ∧
    (∀ current a : Int, (a < 1 ∨ 3 < a) → set_solver_algorithm current a = current) ∧
    (∀ calls : List Int,
      1 ≤ calls.foldl set_solver_algorithm solver_algorithm ∧
        calls.foldl set_solver_algorithm solver_algorithm ≤ 3) ∧
    set_solver_algorithm (set_solver_algorithm solver_algorithm 1) 7 = 1 := by
  refine ⟨rfl, ?_, ?_, ?_, by decide⟩
  · intro current a h1 h2
    unfold set_solver_algorithm
    rw [if_pos ⟨h1, h2⟩]
  · intro current a h
    unfold set_solver_algorithm
    rw [if_neg (by omega)]
  · intro calls
    have key : ∀ (cs : List Int) (cur : Int), 1 ≤ cur → cur ≤ 3 →
        1 ≤ cs.foldl set_solver_algorithm cur ∧ cs.foldl set_solver_algorithm cur ≤ 3 := by
      intro cs
      induction cs with
      | nil => intro cur h1 h2; exact ⟨h1, h2⟩
      | cons a rest ih =>
        intro cur h1 h2
        rw [List.foldl_cons]
        apply ih
        · unfold set_solver_algorithm
          split_ifs with h
          · exact h.1
          · exact h1
        · unfold set_solver_algorithm
          split_ifs with h
          · exact h.2
          · exact h2
    exact key calls solver_algorithm (by decide) (by decide)

/-! ## The heap invariant -/

theorem pq_bubble_up_loop_stable (fuel : Nat) (nodes : List search_node_t) (idx extra : Nat)
    (h : idx ≤ fuel) :
    pq_bubble_up_loop (fuel + extra) nodes idx = pq_bubble_up_loop fuel nodes idx := by
  induction fuel generalizing nodes idx with
  | zero =>
    have : idx = 0 := by omega
    subst this
    cases extra with
    | zero => rfl
    | succ e =>
      rw [Nat.zero_add]
      unfold pq_bubble_up_loop
      simp
  | succ fuel ih =>
    have e : fuel + 1 + extra = (fuel + extra) + 1 := by omega
    rw [e]
    unfold pq_bubble_up_loop
    by_cases h0 : idx > 0
    · rw [if_pos h0, if_pos h0]
      by_cases hp : prioAt nodes idx ≥ prioAt nodes ((idx - 1) / 2)
      · rw [if_pos hp, if_pos hp]
      · rw [if_neg hp, if_neg hp]
        apply ih
        have : (idx - 1) / 2 ≤ idx - 1 := Nat.div_le_self _ _
        omega
    · rw [if_neg h0, if_neg h0]

theorem pq_smallest_beyond (nodes : List search_node_t) (idx : Nat) (h : nodes.length ≤ idx) :
    pq_smallest nodes idx = idx := by
  rcases pq_smallest_cases nodes idx with h1 | h1
  · exact h1.1
  · obtain ⟨h2, h3, _⟩ := h1
    omega

theorem pq_bubble_down_loop_stable (fuel : Nat) (nodes : List search_node_t) (idx extra : Nat)
    (h : nodes.length ≤ fuel + idx) :
    pq_bubble_down_loop (fuel + extra) nodes idx = pq_bubble_down_loop fuel nodes idx := by
  induction fuel generalizing nodes idx with
  | zero =>
    have hs := pq_smallest_beyond nodes idx (by omega)
    cases extra with
    | zero => rfl
    | succ e =>
      rw [Nat.zero_add]
      unfold pq_bubble_down_loop
      rw [if_pos hs]
  | succ fuel ih =>
    have e : fuel + 1 + extra = (fuel + extra) + 1 := by omega
    rw [e]
    unfold pq_bubble_down_loop
    by_cases hs : pq_smallest nodes idx = idx
    · rw [if_pos hs, if_pos hs]
    · rw [if_neg hs, if_neg hs]
      apply ih
      rw [length_pq_swap]
      rcases pq_smallest_cases nodes idx with h1 | h1
      · exact absurd h1.1 hs
      · obtain ⟨h2, _⟩ := h1
        omega

theorem pq_enqueue_inv (pq : priority_queue_t) (node : search_node_t) (h : pqInv pq)
    (hc : 1 ≤ pq.capacity) :
    pqInv (pq_enqueue pq node) ∧ 1 ≤ (pq_enqueue pq node).capacity := by
  obtain ⟨h1, h2⟩ := h
  have hlen := (pq_enqueue_perm pq node).length_eq
  simp only [List.length_cons] at hlen
  unfold priority_queue_t.size at h2
  have hcap : (pq_enqueue pq node).capacity = (pq_reserve pq).capacity := rfl
  have hres : (pq_reserve pq).capacity =
      if pq.nodes.length < pq.capacity then pq.capacity else pq.capacity * 2 := by
    unfold pq_reserve priority_queue_t.size
    split_ifs <;> rfl
  refine ⟨⟨pq_enqueue_ordered pq node h1, ?_⟩, ?_⟩
  · unfold priority_queue_t.size
    rw [hlen, hcap, hres]
    split_ifs <;> omega
  · rw [hcap, hres]
    split_ifs <;> omega

theorem pq_dequeue_inv (pq : priority_queue_t) (h : pqInv pq) :
    pqInv (pq_dequeue pq).2 ∧ (pq_dequeue pq).2.capacity = pq.capacity := by
  obtain ⟨h1, h2⟩ := h
  rcases hd : pq_dequeue pq with ⟨_ | node, pq1⟩
  · have hn := pq_dequeue_none pq pq1 hd
    rw [pq_dequeue_nil pq hn] at hd
    simp only [Prod.mk.injEq, true_and] at hd
    subst hd
    exact ⟨⟨h1, h2⟩, rfl⟩
  · have hord := (pq_dequeue_ordered pq node pq1 h1 hd).1
    have hlen := (pq_dequeue_perm pq node pq1 hd).length_eq
    simp only [List.length_cons] at hlen
    have hcap : pq1.capacity = pq.capacity := by
      unfold pq_dequeue at hd
      cases hn : pq.nodes with
      | nil => rw [hn] at hd; simp at hd
      | cons first rest =>
        rw [hn] at hd
        simp only at hd
        cases hl : rest.getLast? with
        | none =>
          rw [hl] at hd
          simp only [Prod.mk.injEq] at hd
          rw [← hd.2]
        | some last =>
          rw [hl] at hd
          simp only [Prod.mk.injEq] at hd
          rw [← hd.2]
    refine ⟨⟨hord, ?_⟩, hcap⟩
    unfold priority_queue_t.size at h2 ⊢
    simp only
    rw [hcap]
    omega

theorem pq_run_inv (ops : List (Option search_node_t)) (pq : priority_queue_t) (h : pqInv pq)
    (hc : 1 ≤ pq.capacity) : pqInv (pq_run pq ops) ∧ 1 ≤ (pq_run pq ops).capacity := by
  induction ops generalizing pq with
  | nil => exact ⟨h, hc⟩
  | cons op rest ih =>
    cases op with
    | none =>
      have := pq_dequeue_inv pq h
      exact ih _ this.1 (by rw [this.2]; exact hc)
    | some node =>
      have := pq_enqueue_inv pq node h hc
      exact ih _ this.1 this.2

/-- C33 (heap invariant).  The predicate `nodes[(i-1)/2].priority <=
nodes[i].priority for every index i in 1..size-1, and size <= capacity` holds
for the queue of init_priority_queue and for every queue obtained from it by
calls of pq_enqueue and pq_dequeue; pq_enqueue preserves it on a queue of
capacity at least 1, which init_priority_queue gives and both functions keep,
and pq_dequeue preserves it on every queue.  The loops of pq_bubble_up and
pq_bubble_down end on every array and index: the first within `idx` turns, the
second within `size` turns, and further turns change nothing. -/
theorem heap_invariant :
    pqInv init_priority_queue ∧
    (∀ ops : List (Option search_node_t),
      pqInv (pq_run init_priority_queue ops) ∧ 1 ≤ (pq_run init_priority_queue ops).capacity) ∧
    (∀ (pq : priority_queue_t) (node : search_node_t), pqInv pq → 1 ≤ pq.capacity →
      pqInv (pq_enqueue pq node) ∧ 1 ≤ (pq_enqueue pq node).capacity) ∧
    (∀ pq : priority_queue_t, pqInv pq →
      pqInv (pq_dequeue pq).2 ∧ (pq_dequeue pq).2.capacity = pq.capacity) ∧
    (∀ (nodes : List search_node_t) (idx extra : Nat),
      pq_bubble_up_loop (idx + extra) nodes idx = pq_bubble_up nodes idx) ∧
    (∀ (nodes : List search_node_t) (idx extra : Nat),
      pq_bubble_down_loop (nodes.length + extra) nodes idx = pq_bubble_down nodes idx) := by
  have hinit : pqInv init_priority_queue := ⟨heapOrdered_nil, by decide⟩
  refine ⟨hinit, fun ops => pq_run_inv ops _ hinit (by decide),
    fun pq node h hc => pq_enqueue_inv pq node h hc, fun pq h => pq_dequeue_inv pq h, ?_, ?_⟩
  · intro nodes idx extra
    exact pq_bubble_up_loop_stable idx nodes idx extra (Nat.le_refl _)
  · intro nodes idx extra
    exact pq_bubble_down_loop_stable nodes.length nodes idx extra (by omega)

/-! ## The counters -/

/-- A successor that apply_action returns is counted once: in `generated` when it
is enqueued, in `duplicated` when it is skipped; a failed move counts nowhere. -/
theorem expand_move_counts (nl ab pb : Nat) (current : search_node_t) (vars : search_vars)
    (move : Nat × Nat) :
    (apply_action current.state (pieceNames.getD move.1 0) (directions.getD move.2 0) = none →
      expand_move nl ab pb current vars move = vars) ∧
    (∀ next, apply_action current.state (pieceNames.getD move.1 0) (directions.getD move.2 0) =
        some next →
      ((expand_move nl ab pb current vars move).pq =
          pq_enqueue vars.pq (create_search_node next (current.depth + 1)
            (pieceNames.getD move.1 0) (directions.getD move.2 0)) ∧
        (expand_move nl ab pb current vars move).result.generated = vars.result.generated + 1 ∧
        (expand_move nl ab pb current vars move).result.duplicated = vars.result.duplicated) ∨
      ((expand_move nl ab pb current vars move).pq = vars.pq ∧
        (expand_move nl ab pb current vars move).result.generated = vars.result.generated ∧
        (expand_move nl ab pb current vars move).result.duplicated =
          vars.result.duplicated + 1)) := by
  constructor
  · intro h
    unfold expand_move
    rw [h]
  · intro next h
    unfold expand_move
    rw [h]
    simp only
    split_ifs <;> first | exact Or.inr ⟨rfl, rfl, rfl⟩ | exact Or.inl ⟨rfl, rfl, rfl⟩

theorem expand_move_counterInv (nl ab pb : Nat) (current : search_node_t) (vars : search_vars)
    (move : Nat × Nat) (h : counterInv vars) :
    counterInv (expand_move nl ab pb current vars move) := by
  unfold counterInv at h ⊢
  have hexp := (expand_move_result nl ab pb current vars move).2.2.2
  rw [hexp]
  cases ha : apply_action current.state (pieceNames.getD move.1 0) (directions.getD move.2 0) with
  | none =>
    rw [(expand_move_counts nl ab pb current vars move).1 ha]
    exact h
  | some next =>
    rcases (expand_move_counts nl ab pb current vars move).2 next ha with ⟨h1, h2, _⟩ | ⟨h1, h2, _⟩
    · rw [h1, h2, (pq_enqueue_perm _ _).length_eq, List.length_cons]
      omega
    · rw [h1, h2]
      exact h

theorem foldl_expand_move_counterInv (nl ab pb : Nat) (current : search_node_t)
    (moves : List (Nat × Nat)) (vars : search_vars) (h : counterInv vars) :
    counterInv (moves.foldl (expand_move nl ab pb current) vars) := by
  induction moves generalizing vars with
  | nil => exact h
  | cons m rest ih =>
    rw [List.foldl_cons]
    exact ih _ (expand_move_counterInv nl ab pb current vars m h)

theorem search_step_counterInv (nl ab pb : Nat) (vars : search_vars) (h : counterInv vars) :
    counterInv (search_step nl ab pb vars) := by
  rcases hdq : pq_dequeue vars.pq with ⟨_ | current, pq1⟩
  · rw [search_step_none nl ab pb vars pq1 hdq]; exact h
  · have hlen := (pq_dequeue_perm vars.pq current pq1 hdq).length_eq
    simp only [List.length_cons] at hlen
    unfold counterInv at h
    cases hw : winning_state current.state with
    | true =>
      rw [search_step_win nl ab pb vars current pq1 hdq hw]
      unfold counterInv
      simp only
      omega
    | false =>
      cases hc : checkPresent vars.expandedStates (packedKey current.state pb)
          current.state.num_pieces with
      | true =>
        rw [search_step_dup nl ab pb vars current pq1 hdq hw hc]
        unfold counterInv
        simp only
        omega
      | false =>
        rw [search_step_expand nl ab pb vars current pq1 hdq hw hc]
        apply foldl_expand_move_counterInv
        unfold counterInv expand_start
        simp only
        omega

theorem search_after_counterInv (init_data : gate_t) (width_limit : Int)
    (packedBytes n : Nat) : counterInv (search_after init_data width_limit packedBytes n) := by
  unfold search_after
  refine search_loop_invariant _ _ _ counterInv
    (fun vars hv _ => search_step_counterInv _ _ _ vars hv) n _ ?_
  unfold counterInv search_init
  simp only
  rw [(pq_enqueue_perm _ _).length_eq]
  rfl

/-- C36 (counter invariant).  At every loop head of run_search, after any number
of turns, generated = expanded + the number of nodes in the queue; so when the
queue is empty, and in particular in every run that returns unsolved,
expanded = generated.  Every successor that apply_action returns is counted
exactly once: in generated when it is enqueued, in duplicated when it is
skipped; a move that apply_action rejects changes nothing. -/
theorem counter_invariant (init_data : gate_t) (width_limit : Int) (packedBytes : Nat) :
    (∀ turns, (search_after init_data width_limit packedBytes turns).result.generated =
      (search_after init_data width_limit packedBytes turns).result.expanded +
        (search_after init_data width_limit packedBytes turns).pq.size) ∧
    (∀ turns, pq_is_empty (search_after init_data width_limit packedBytes turns).pq = true →
      (search_after init_data width_limit packedBytes turns).result.expanded =
        (search_after init_data width_limit packedBytes turns).result.generated) ∧
    ((run_search init_data width_limit packedBytes).solved = false →
      (run_search init_data width_limit packedBytes).expanded =
        (run_search init_data width_limit packedBytes).generated) ∧
    (∀ (nl ab pb : Nat) (current : search_node_t) (vars : search_vars) (move : Nat × Nat),
      (apply_action current.state (pieceNames.getD move.1 0) (directions.getD move.2 0) = none →
        expand_move nl ab pb current vars move = vars) ∧
      (∀ next,
        apply_action current.state (pieceNames.getD move.1 0) (directions.getD move.2 0) =
          some next →
        ((expand_move nl ab pb current vars move).pq =
            pq_enqueue vars.pq (create_search_node next (current.depth + 1)
              (pieceNames.getD move.1 0) (directions.getD move.2 0)) ∧
          (expand_move nl ab pb current vars move).result.generated =
            vars.result.generated + 1 ∧
          (expand_move nl ab pb current vars move).result.duplicated =
            vars.result.duplicated) ∨
        ((expand_move nl ab pb current vars move).pq = vars.pq ∧
          (expand_move nl ab pb current vars move).result.generated = vars.result.generated ∧
          (expand_move nl ab pb current vars move).result.duplicated =
            vars.result.duplicated + 1))) ∧
    ((run_search wallBoard 0 1).solved = false ∧ (run_search wallBoard 0 1).expanded = 1 ∧
      (run_search wallBoard 0 1).generated = 1) := by
  have hempty : ∀ turns,
      pq_is_empty (search_after init_data width_limit packedBytes turns).pq = true →
      (search_after init_data width_limit packedBytes turns).result.expanded =
        (search_after init_data width_limit packedBytes turns).result.generated := by
    intro turns he
    have h := search_after_counterInv init_data width_limit packedBytes turns
    unfold counterInv at h
    rw [pq_is_empty_iff] at he
    rw [h, he]
    rfl
  refine ⟨fun turns => search_after_counterInv init_data width_limit packedBytes turns, hempty,
    ?_, fun nl ab pb current vars move => expand_move_counts nl ab pb current vars move,
    by decide!⟩
  intro hs
  rw [run_search_eq_search_after] at hs ⊢
  rcases (run_search_terminates init_data width_limit packedBytes).1 with h | h
  · rw [h] at hs
    exact absurd hs (by simp)
  · exact hempty _ h

/-! ## The collapse of the novelty width -/

/-- On tables built from expanded keys, the novelty test with a limit of at least
1 gives the verdict of the test with limit 1 on the tables built with limit 1. -/
theorem novelty_test_collapse (E : List (List Bool)) (cand : List Bool) (n L ab : Nat)
    (hL : 1 ≤ L) (hn : 1 ≤ n) :
    novelty_skip (tablesOf E n L ab) cand n L ab =
      novelty_skip (tablesOf E n 1 ab) cand n 1 ab := by
  rw [novelty_skip_collapse E cand n L ab L hL (Nat.le_refl _)]
  rw [Bool.eq_iff_iff, novelty_skip_iff, novelty_skip_iff]
  have key : all_combinations_present (partialAt (tablesOf E n L ab) 0) cand n (0 + 1) ab
        (subsetBytesOf ab 0) = true ↔
      all_combinations_present (partialAt (tablesOf E n 1 ab) 0) cand n (0 + 1) ab
        (subsetBytesOf ab 0) = true := by
    rw [all_combinations_present_iff _ _ _ _ _ _ (by omega) (by omega),
      all_combinations_present_iff _ _ _ _ _ _ (by omega) (by omega)]
    constructor
    · intro h c hc
      rw [tablesOf_keys E n 1 ab 0 (by omega) (by omega)]
      exact (tablesOf_keys E n L ab 0 (by omega) (by omega) _).mp (h c hc)
    · intro h c hc
      rw [tablesOf_keys E n L ab 0 (by omega) (by omega)]
      exact (tablesOf_keys E n 1 ab 0 (by omega) (by omega) _).mp (h c hc)
  constructor
  · rintro ⟨s, h1, h2, h⟩
    have : s = 0 := by omega
    subst this
    exact ⟨0, h1, h2, key.mp h⟩
  · rintro ⟨s, h1, h2, h⟩
    have : s = 0 := by omega
    subst this
    exact ⟨0, h1, h2, key.mpr h⟩

theorem expand_move_same (L ab pb n : Nat) (E : List (List Bool)) (current : search_node_t)
    (va vb : search_vars) (move : Nat × Nat) (hL : 1 ≤ L) (hn : 1 ≤ n)
    (hcur : current.state.num_pieces = n) (hs : sameSearch va vb)
    (hta : va.partialStates = tablesOf E n L ab) (htb : vb.partialStates = tablesOf E n 1 ab) :
    sameSearch (expand_move L ab pb current va move) (expand_move 1 ab pb current vb move) := by
  obtain ⟨pqa, esa, psa, ra⟩ := va
  obtain ⟨pqb, esb, psb, rb⟩ := vb
  obtain ⟨h1, h2, h3⟩ := hs
  simp only at h1 h2 h3 hta htb
  subst h1 h2 h3 hta htb
  unfold expand_move
  cases ha : apply_action current.state (pieceNames.getD move.1 0) (directions.getD move.2 0) with
  | none => exact ⟨rfl, rfl, rfl⟩
  | some next =>
    have hnp : next.num_pieces = n := by
      rw [apply_action_num_pieces _ _ _ _ ha]
      exact hcur
    simp only
    rw [hnp, if_pos (show L > 0 by omega), if_pos (show 1 > 0 by omega),
      novelty_test_collapse E _ n L ab hL hn]
    split_ifs <;> exact ⟨rfl, rfl, rfl⟩

theorem foldl_expand_move_same (L ab pb n : Nat) (E : List (List Bool)) (current : search_node_t)
    (moves : List (Nat × Nat)) (va vb : search_vars) (hL : 1 ≤ L) (hn : 1 ≤ n)
    (hcur : current.state.num_pieces = n) (hs : sameSearch va vb)
    (hta : va.partialStates = tablesOf E n L ab) (htb : vb.partialStates = tablesOf E n 1 ab) :
    sameSearch (moves.foldl (expand_move L ab pb current) va)
      (moves.foldl (expand_move 1 ab pb current) vb) := by
  induction moves generalizing va vb with
  | nil => exact hs
  | cons m rest ih =>
    rw [List.foldl_cons, List.foldl_cons]
    apply ih
    · exact expand_move_same L ab pb n E current va vb m hL hn hcur hs hta htb
    · rw [(expand_move_tries L ab pb current va m).2]; exact hta
    · rw [(expand_move_tries 1 ab pb current vb m).2]; exact htb

theorem search_step_same (init_data : gate_t) (L ab pb : Nat) (va vb : search_vars)
    (hL : 1 ≤ L) (hn : 1 ≤ init_data.num_pieces) (hs : sameSearch va vb)
    (hta : tablesInv init_data L ab va) (htb : tablesInv init_data 1 ab vb) :
    sameSearch (search_step L ab pb va) (search_step 1 ab pb vb) := by
  obtain ⟨h1, h2, h3⟩ := hs
  have hta1 := search_step_tablesInv init_data L ab pb va hta
  have htb1 := search_step_tablesInv init_data 1 ab pb vb htb
  rcases hdq : pq_dequeue va.pq with ⟨_ | current, pq1⟩
  · rw [search_step_none L ab pb va pq1 hdq, search_step_none 1 ab pb vb pq1 (by rw [← h1]; exact hdq)]
    exact ⟨h1, h2, h3⟩
  · have hdq2 : pq_dequeue vb.pq = (some current, pq1) := by rw [← h1]; exact hdq
    have hcur : current.state.num_pieces = init_data.num_pieces :=
      hta.1 current ((pq_dequeue_perm va.pq current pq1 hdq).mem_iff.mpr (List.mem_cons_self _ _))
    cases hw : winning_state current.state with
    | true =>
      rw [search_step_win L ab pb va current pq1 hdq hw,
        search_step_win 1 ab pb vb current pq1 hdq2 hw]
      exact ⟨rfl, h2, by simp only [h3]⟩
    | false =>
      cases hc : checkPresent va.expandedStates (packedKey current.state pb)
          current.state.num_pieces with
      | true =>
        rw [search_step_dup L ab pb va current pq1 hdq hw hc,
          search_step_dup 1 ab pb vb current pq1 hdq2 hw (by rw [← h2]; exact hc)]
        exact ⟨rfl, h2, by simp only [h3]⟩
      | false =>
        have hc2 : checkPresent vb.expandedStates (packedKey current.state pb)
            current.state.num_pieces = false := by rw [← h2]; exact hc
        have ea := search_step_expand L ab pb va current pq1 hdq hw hc
        have eb := search_step_expand 1 ab pb vb current pq1 hdq2 hw hc2
        rw [ea] at hta1 ⊢
        rw [eb] at htb1 ⊢
        have fa := foldl_expand_move_tries L ab pb current (moveOrder current.state.num_pieces)
          (expand_start L ab pb va current pq1)
        have fb := foldl_expand_move_tries 1 ab pb current (moveOrder current.state.num_pieces)
          (expand_start 1 ab pb vb current pq1)
        have hes : (expand_start 1 ab pb vb current pq1).expandedStates =
            (expand_start L ab pb va current pq1).expandedStates := by
          unfold expand_start
          simp only [h2]
        have pa := hta1.2
        have pb2 := htb1.2
        rw [fa.1, fa.2] at pa
        rw [fb.1, fb.2, hes] at pb2
        refine foldl_expand_move_same L ab pb init_data.num_pieces _ current _ _ _ hL hn hcur
          ⟨rfl, hes.symm, ?_⟩ pa pb2
        unfold expand_start
        simp only [h3]

theorem search_loop_same (init_data : gate_t) (L ab pb : Nat) (hL : 1 ≤ L)
    (hn : 1 ≤ init_data.num_pieces) (fuel : Nat) (va vb : search_vars) (hs : sameSearch va vb)
    (hta : tablesInv init_data L ab va) (htb : tablesInv init_data 1 ab vb) :
    sameSearch (search_loop L ab pb fuel va) (search_loop 1 ab pb fuel vb) := by
  induction fuel generalizing va vb with
  | zero => exact hs
  | succ fuel ih =>
    have hstep := search_step_same init_data L ab pb va vb hL hn hs hta htb
    unfold search_loop
    rw [← hs.1, ← hstep.2.2]
    by_cases he : pq_is_empty va.pq = true
    · rw [if_pos he, if_pos he]; exact hs
    · rw [if_neg he, if_neg he]
      by_cases hsol : (search_step L ab pb va).result.solved = true
      · rw [if_pos hsol, if_pos hsol]; exact hstep
      · rw [if_neg hsol, if_neg hsol]
        exact ih _ _ hstep (search_step_tablesInv init_data L ab pb va hta)
          (search_step_tablesInv init_data 1 ab pb vb htb)

theorem noveltyLimitOf_pos (init_data : gate_t) (width_limit : Int)
    (hn : 1 ≤ init_data.num_pieces) (hw : 1 ≤ width_limit) :
    1 ≤ noveltyLimitOf init_data width_limit := by
  unfold noveltyLimitOf
  split_ifs <;> omega

theorem noveltyLimitOf_one (init_data : gate_t) (hn : 1 ≤ init_data.num_pieces) :
    noveltyLimitOf init_data 1 = 1 := by
  unfold noveltyLimitOf
  split_ifs <;> omega

theorem search_after_same (init_data : gate_t) (width_limit : Int) (packedBytes turns : Nat)
    (hn : 1 ≤ init_data.num_pieces) (hw : 1 ≤ width_limit) :
    sameSearch (search_after init_data width_limit packedBytes turns)
      (search_after init_data 1 packedBytes turns) := by
  unfold search_after
  have hone := noveltyLimitOf_one init_data hn
  have htb := search_init_tablesInv init_data 1 (atomBitsOf init_data)
  rw [hone] at htb ⊢
  exact search_loop_same init_data _ _ _ (noveltyLimitOf_pos init_data width_limit hn hw) hn
    turns _ _ ⟨rfl, rfl, rfl⟩ (search_init_tablesInv init_data width_limit _) htb

/-- C32 (width collapse).  For every initial board with at least one piece and
every width limit of at least 1, run_search returns the record it returns for
width limit 1: the same solved flag, trail, final board and expanded, generated
and duplicated counters; at every loop head the queue, the closed set and the
counters of the two runs agree.  The reason is the novelty test: on tables
built from expanded keys, some size up to the limit has all its subset keys
present exactly when size 1 has. -/
theorem width_collapse (init_data : gate_t) (width_limit : Int) (packedBytes : Nat)
    (hn : 1 ≤ init_data.num_pieces) (hw : 1 ≤ width_limit) :
    run_search init_data width_limit packedBytes = run_search init_data 1 packedBytes ∧
    (∀ turns, sameSearch (search_after init_data width_limit packedBytes turns)
      (search_after init_data 1 packedBytes turns)) ∧
    (∀ (E : List (List Bool)) (cand : List Bool) (limit w : Nat), 1 ≤ w → w ≤ limit →
      novelty_skip (tablesOf E init_data.num_pieces limit (atomBitsOf init_data)) cand
          init_data.num_pieces w (atomBitsOf init_data) =
        novelty_skip (tablesOf E init_data.num_pieces limit (atomBitsOf init_data)) cand
          init_data.num_pieces 1 (atomBitsOf init_data)) := by
  refine ⟨?_, fun turns => search_after_same init_data width_limit packedBytes turns hn hw,
    fun E cand limit w h1 h2 => novelty_skip_collapse E cand _ limit _ w h1 h2⟩
  rw [run_search_eq_search_after, run_search_eq_search_after]
  exact (search_after_same init_data width_limit packedBytes _ hn hw).2.2

set_option maxRecDepth 100000 in
/-- C32, witness: on the pocket board, with two pieces, the search of width 2 returns
what the search of width 1 returns, and neither solves the board. -/
theorem width_collapse_witness :
    (1 ≤ pocketBoard.num_pieces ∧ (run_search pocketBoard 1 2).solved = false ∧
      (run_search pocketBoard 1 2).expanded = (run_search pocketBoard 2 2).expanded) ∧
    (run_search pocketBoard 2 2 = run_search pocketBoard 1 2 ∧
    (∀ turns, sameSearch (search_after pocketBoard 2 2 turns)
      (search_after pocketBoard 1 2 turns)) ∧
    (∀ (E : List (List Bool)) (cand : List Bool) (limit w : Nat), 1 ≤ w → w ≤ limit →
      novelty_skip (tablesOf E pocketBoard.num_pieces limit (atomBitsOf pocketBoard)) cand
          pocketBoard.num_pieces w (atomBitsOf pocketBoard) =
        novelty_skip (tablesOf E pocketBoard.num_pieces limit (atomBitsOf pocketBoard)) cand
          pocketBoard.num_pieces 1 (atomBitsOf pocketBoard))) :=
  ⟨⟨by decide, by decide!, by decide!⟩, width_collapse pocketBoard 2 2 (by decide) (by decide)⟩

/-! ## The key buffers -/

theorem mem_packAtomTouched (pB hB wB i t : Nat) (h : t ∈ packAtomTouched pB hB wB i) :
    i * (pB + hB + wB) ≤ t ∧ t < (i + 1) * (pB + hB + wB) := by
  have e : (i + 1) * (pB + hB + wB) = i * (pB + hB + wB) + (pB + hB + wB) := by ring
  rw [e]
  unfold packAtomTouched packFieldTouched at h
  simp only [List.mem_append, List.mem_map, List.mem_range] at h
  rcases h with (⟨j, hj, rfl⟩ | ⟨j, hj, rfl⟩) | ⟨j, hj, rfl⟩ <;> omega

theorem mem_packMapTouched (gate : gate_t) (t : Nat) (h : t ∈ packMapTouched gate) :
    t < gate.num_pieces * atomBitsOf gate := by
  unfold packMapTouched at h
  rw [List.mem_flatMap] at h
  obtain ⟨i, hi, ht⟩ := h
  rw [List.mem_range] at hi
  have := (mem_packAtomTouched _ _ _ i t ht).2
  have h1 : (i + 1) * atomBitsOf gate ≤ gate.num_pieces * atomBitsOf gate :=
    Nat.mul_le_mul_right _ (by omega)
  unfold atomBitsOf at h1 ⊢
  omega

theorem mem_pack_subset_reads (ab n : Nat) (c : List Nat) (count t : Nat)
    (hlen : c.length = count) (hc : ∀ x ∈ c, x < n) (h : t ∈ pack_subset_reads ab c count) :
    t < n * ab := by
  unfold pack_subset_reads at h
  simp only [List.mem_flatMap, List.mem_map, List.mem_range] at h
  obtain ⟨k, hk, bit, hbit, rfl⟩ := h
  have hx : c.getD k 0 < n := by
    apply hc
    rw [List.getD_eq_getElem?_getD, List.getElem?_eq_getElem (by omega)]
    exact List.getElem_mem _
  have h1 : (c.getD k 0 + 1) * ab ≤ n * ab := Nat.mul_le_mul_right _ (by omega)
  have h2 : (c.getD k 0 + 1) * ab = c.getD k 0 * ab + ab := by ring
  omega

theorem mem_pack_subset_writes (src : List Bool) (ab : Nat) (c : List Nat) (count t : Nat)
    (h : t ∈ pack_subset_writes src ab c count) : t < count * ab := by
  unfold pack_subset_writes at h
  simp only [List.mem_flatMap, List.mem_map, List.mem_filter, List.mem_range] at h
  obtain ⟨k, hk, bit, ⟨hbit, _⟩, rfl⟩ := h
  have h1 : (k + 1) * ab ≤ count * ab := Nat.mul_le_mul_right _ (by omega)
  have h2 : (k + 1) * ab = k * ab + ab := by ring
  omega

theorem packed_size_fits (gate : gate_t) :
    gate.num_pieces * atomBitsOf gate ≤ 8 * clampBytes ((getPackedSize gate + 7) / 8) := by
  unfold getPackedSize clampBytes
  rw [Nat.mul_comm]
  split_ifs <;> omega

theorem pack_subset_set_bits (bytes : Nat) (src : List Bool) (ab : Nat) (c : List Nat)
    (count p : Nat) (h : getBit (pack_subset bytes src ab c count) p = true) :
    p ∈ pack_subset_writes src ab c count := by
  rw [getBit_pack_subset, Bool.and_eq_true, decide_eq_true_eq] at h
  obtain ⟨⟨h1, _⟩, h2⟩ := h
  have hab : 0 < ab := by
    rcases Nat.eq_zero_or_pos ab with h0 | h0
    · subst h0; simp at h1
    · exact h0
  unfold pack_subset_writes
  simp only [List.mem_flatMap, List.mem_map, List.mem_filter, List.mem_range]
  refine ⟨p / ab, ?_, p % ab, ⟨Nat.mod_lt _ hab, h2⟩, ?_⟩
  · rw [Nat.div_lt_iff_lt_mul hab]
    exact h1
  · rw [Nat.mul_comm]
    exact Nat.div_add_mod p ab

/-- C35 (key buffers).  packMap touches only bit indices below
num_pieces * atomBits, and it leaves the length of the key and every bit from
that index on as they were; num_pieces * atomBits is at most 8 * packedBytes for
the buffer size find_solution computes, also after run_search has clamped it.
For every size between 1 and num_pieces and every index vector the loop over
next_combination visits, pack_subset reads only source bits below
num_pieces * atomBits and sets only destination bits below size * atomBits,
which is at most 8 * subsetBytes[size - 1]; the buffer it returns has that many
bits, and every bit set in it is one of those destination bits. -/
theorem key_buffers_not_overrun (gate : gate_t) :
    (∀ t ∈ packMapTouched gate, t < gate.num_pieces * atomBitsOf gate) ∧
    (∀ (buf : List Bool), (packMap gate buf).length = buf.length ∧
      ∀ t, gate.num_pieces * atomBitsOf gate ≤ t → getBit (packMap gate buf) t = getBit buf t) ∧
    (gate.num_pieces * atomBitsOf gate ≤ 8 * clampBytes ((getPackedSize gate + 7) / 8) ∧
      gate.num_pieces * atomBitsOf gate ≤
        8 * clampBytes (clampBytes ((getPackedSize gate + 7) / 8))) ∧
    (∀ (size : Nat) (src : List Bool) (c : List Nat), 1 ≤ size → size ≤ gate.num_pieces →
      c ∈ visitedF size gate.num_pieces (combinationFuel gate.num_pieces) (List.range size) →
      (∀ t ∈ pack_subset_reads (atomBitsOf gate) c size, t < gate.num_pieces * atomBitsOf gate) ∧
      (∀ t ∈ pack_subset_writes src (atomBitsOf gate) c size,
        t < size * atomBitsOf gate ∧ t < 8 * subsetBytesOf (atomBitsOf gate) (size - 1)) ∧
      (pack_subset (subsetBytesOf (atomBitsOf gate) (size - 1)) src (atomBitsOf gate) c
        size).length = 8 * subsetBytesOf (atomBitsOf gate) (size - 1) ∧
      (∀ p, getBit (pack_subset (subsetBytesOf (atomBitsOf gate) (size - 1)) src
          (atomBitsOf gate) c size) p = true →
        p ∈ pack_subset_writes src (atomBitsOf gate) c size)) ∧
    (packMapTouched pocketBoard = List.range 12 ∧
      pack_subset_reads (atomBitsOf pocketBoard) [1] 1 = [6, 7, 8, 9, 10, 11]) := by
  refine ⟨fun t ht => mem_packMapTouched gate t ht, ?_, ⟨packed_size_fits gate, ?_⟩, ?_,
    by decide⟩
  · intro buf
    refine ⟨?_, ?_⟩
    · unfold packMap
      rw [length_foldl_packAtom]
    · intro t ht
      apply getBit_packMap_beyond
      unfold getPackedSize
      rw [Nat.mul_comm]
      exact ht
  · have := packed_size_fits gate
    have h2 : clampBytes ((getPackedSize gate + 7) / 8) ≤
        clampBytes (clampBytes ((getPackedSize gate + 7) / 8)) := by
      generalize clampBytes ((getPackedSize gate + 7) / 8) = x
      unfold clampBytes
      split_ifs <;> omega
    omega
  · intro size src c h1 h2 hc
    rw [visitedF_eq_combosFrom gate.num_pieces size h2, mem_combosFrom_iff] at hc
    obtain ⟨hlen, _, hbound⟩ := hc
    have hfit := subsetBytesOf_fits (atomBitsOf gate) (size - 1)
    have e : size - 1 + 1 = size := by omega
    rw [e, Nat.mul_comm] at hfit
    refine ⟨fun t ht => mem_pack_subset_reads _ _ c size t hlen hbound ht, ?_,
      length_pack_subset _ _ _ _ _, fun p hp => pack_subset_set_bits _ _ _ _ _ p hp⟩
    intro t ht
    have := mem_pack_subset_writes src _ c size t ht
    exact ⟨this, by omega⟩

/-! ## Grid indexing in the move engine -/

theorem position_inBounds (b : gate_t) (hrows : b.map.length = b.lines)
    (hrect : ∀ row ∈ b.map, row.length = widthOf b) (p : Nat × Nat)
    (hp : p ∈ positions b.map b.lines) :
    inBounds b.lines (widthOf b) ((p.1 : Int), (p.2 : Int)) := by
  obtain ⟨p1, p2⟩ := p
  rw [mem_positions] at hp
  obtain ⟨h1, _, _, h3, h4⟩ := hp
  simp only [Int.toNat_ofNat] at h3 h4
  have hrow : (b.map.getD p1 []).length = widthOf b := by
    apply hrect
    rw [List.getD_eq_getElem?_getD, List.getElem?_eq_getElem h3]
    exact List.getElem_mem _
  rw [hrow] at h4
  unfold inBounds
  simp only
  omega

theorem occupied_reads_near (d i j : Nat) (a : Int × Int) (h : a ∈ occupied_reads d i j) :
    (i : Int) - 1 ≤ a.1 ∧ a.1 ≤ (i : Int) + 1 ∧ (j : Int) - 1 ≤ a.2 ∧ a.2 ≤ (j : Int) + 1 := by
  unfold occupied_reads at h
  simp only [List.mem_append] at h
  rcases h with ((h | h) | h) | h <;> split_ifs at h <;>
    simp only [List.mem_singleton, List.not_mem_nil] at h <;> subst h <;> simp only <;> omega

theorem target_near (d : Nat) (i j : Int) :
    i - 1 ≤ targetY i d ∧ targetY i d ≤ i + 1 ∧ j - 1 ≤ targetX j d ∧ targetX j d ≤ j + 1 := by
  unfold targetY targetX
  split_ifs <;> omega

theorem move_accesses_inBounds (b : gate_t) (k d : Nat) (hrows : b.map.length = b.lines)
    (hsave : b.map_save.length = b.lines) (hrect : ∀ row ∈ b.map, row.length = widthOf b)
    (hborder : ∀ p ∈ positions b.map b.lines, isPiece k (cellAt b.map p.1 p.2) →
      1 ≤ p.1 ∧ p.1 + 1 < b.lines ∧ 1 ≤ p.2 ∧ p.2 + 1 < widthOf b) :
    (∀ a ∈ moveReads b (48 + k) d, inBounds b.lines (widthOf b) a) ∧
    (∀ a ∈ moveWrites b (48 + k) d, inBounds b.lines (widthOf b) a) := by
  have e2 : 48 + k - 48 + 72 = 72 + k := by omega
  constructor
  · intro a ha
    unfold moveReads at ha
    rw [List.mem_flatMap] at ha
    obtain ⟨p, hp, hap⟩ := ha
    have hpos := position_inBounds b hrows hrect p hp
    unfold move_cell_reads at hap
    rw [snapshotOf_eq_map b hrows hsave, e2] at hap
    rw [List.mem_cons] at hap
    rcases hap with rfl | hap
    · exact hpos
    · split_ifs at hap with hform
      · have hb := hborder p hp hform
        rw [List.mem_cons] at hap
        unfold inBounds
        rcases hap with rfl | hap
        · have := target_near d (p.1 : Int) (p.2 : Int)
          simp only
          omega
        · have := occupied_reads_near d p.1 p.2 a hap
          omega
      · simp at hap
  · intro a ha
    unfold moveWrites at ha
    rw [List.mem_flatMap] at ha
    obtain ⟨p, hp, hap⟩ := ha
    have hpos := position_inBounds b hrows hrect p hp
    unfold move_cell_writes at hap
    rw [snapshotOf_eq_map b hrows hsave, e2] at hap
    split_ifs at hap with hform hvac
    · have hb := hborder p hp hform
      simp only [List.mem_cons, List.mem_singleton, List.not_mem_nil, or_false] at hap
      rcases hap with rfl | rfl
      · have := target_near d (p.1 : Int) (p.2 : Int)
        unfold inBounds
        simp only
        omega
      · exact hpos
    · have hb := hborder p hp hform
      simp only [List.mem_cons, List.not_mem_nil, or_false] at hap
      subst hap
      have := target_near d (p.1 : Int) (p.2 : Int)
      unfold inBounds
      simp only
      omega
    · simp at hap

/-- A cell the mutation loop does not write keeps its character. -/
theorem unwritten_cell_kept (b : gate_t) (k d : Nat) (hrows : b.map.length = b.lines)
    (hsave : b.map_save.length = b.lines)
    (h : (apply_move_in_place b (48 + k) d).2 = true) (i j : Int)
    (hno : (i, j) ∉ moveWrites b (48 + k) d) :
    cellAt (apply_move_in_place b (48 + k) d).1.map i j = cellAt b.map i j := by
  obtain ⟨hvalid, _⟩ := (apply_move_in_place_success_iff b (48 + k) d).mp h
  have hd := valid_direction_cases d hvalid
  have e2 : 48 + k - 48 + 72 = 72 + k := by omega
  by_contra hne
  apply hno
  unfold moveWrites
  rw [List.mem_flatMap, snapshotOf_eq_map b hrows hsave, e2]
  have hnew := moved_isPiece_self b k d hrows hsave h i j
  rcases (moved_cell_changed b k d hrows hsave h i j).mp hne with ⟨hcur, hn⟩ | ⟨_, hn⟩
  · obtain ⟨s1, s2, s3⟩ := mem_positions_of_isPiece b.map b.lines hrows k i j hcur
    refine ⟨(i.toNat, j.toNat), s3, ?_⟩
    rw [hnew] at hn
    unfold move_cell_writes
    simp only [Int.toNat_of_nonneg s1, Int.toNat_of_nonneg s2]
    have hform : cellAt b.map i j = 48 + k ∨ cellAt b.map i j = 72 + k := hcur
    rw [if_pos hform]
    have hocc : occupiedAfterMove b.map (48 + k) (72 + k) d i.toNat j.toNat = false := by
      rw [← Bool.not_eq_true, occupiedAfterMove_iff _ _ _ _ hd]
      simp only [Int.toNat_of_nonneg s1, Int.toNat_of_nonneg s2]
      exact hn
    rw [hocc]
    rw [if_pos (by
      rcases hform with h1 | h1
      · exact Or.inr ⟨h1, rfl⟩
      · exact Or.inl ⟨h1, rfl⟩)]
    simp
  · rw [hnew] at hn
    obtain ⟨s1, s2, s3⟩ := mem_positions_of_isPiece b.map b.lines hrows k _ _ hn
    obtain ⟨_, _, _, _, _, _, _, h8, h9⟩ := direction_algebra d hd i j
    refine ⟨((sourceY i d).toNat, (sourceX j d).toNat), s3, ?_⟩
    unfold move_cell_writes
    simp only [Int.toNat_of_nonneg s1, Int.toNat_of_nonneg s2]
    have hform : cellAt b.map (sourceY i d) (sourceX j d) = 48 + k ∨
        cellAt b.map (sourceY i d) (sourceX j d) = 72 + k := hn
    rw [if_pos hform, h8, h9]
    exact List.mem_cons_self _ _

/-- C34 (grid indexing).  On a rectangular board, whose two grids have `lines`
rows of `width` characters, in which no cell of the piece `k` lies in row 0,
the last row, column 0 or the last column: every index at which the mutation
loop of apply_move_in_place reads map_save, the neighbour opposite to the move
included, and every index at which it writes map, has its row in [0, lines)
and its column in [0, width).  The writes listed are all the writes: after a
legal move every cell outside the list holds what it held. -/
theorem move_indexing_in_bounds (b : gate_t) (k d : Nat) (hrows : b.map.length = b.lines)
    (hsave : b.map_save.length = b.lines) (hrect : ∀ row ∈ b.map, row.length = widthOf b)
    (hborder : ∀ p ∈ positions b.map b.lines, isPiece k (cellAt b.map p.1 p.2) →
      1 ≤ p.1 ∧ p.1 + 1 < b.lines ∧ 1 ≤ p.2 ∧ p.2 + 1 < widthOf b) :
    (∀ a ∈ moveReads b (48 + k) d, inBounds b.lines (widthOf b) a) ∧
    (∀ a ∈ moveWrites b (48 + k) d, inBounds b.lines (widthOf b) a) ∧
    ((apply_move_in_place b (48 + k) d).2 = true →
      ∀ i j : Int, (i, j) ∉ moveWrites b (48 + k) d →
        cellAt (apply_move_in_place b (48 + k) d).1.map i j = cellAt b.map i j) :=
  ⟨(move_accesses_inBounds b k d hrows hsave hrect hborder).1,
    (move_accesses_inBounds b k d hrows hsave hrect hborder).2,
    fun h i j hno => unwritten_cell_kept b k d hrows hsave h i j hno⟩

set_option maxRecDepth 100000 in
/-- C34, witness: piece 0 of the pocket board, of 4 rows and 6 columns, steps left
from row 1, column 2; the loop reads the 24 cells, the target and the right
neighbour of the piece, and writes the target and the cell left. -/
theorem move_indexing_in_bounds_witness :
    (pocketBoard.lines = 4 ∧ widthOf pocketBoard = 6 ∧
      (apply_move_in_place pocketBoard (48 + 0) LEFT).2 = true ∧
      moveWrites pocketBoard (48 + 0) LEFT = [(1, 1), (1, 2)] ∧
      (moveReads pocketBoard (48 + 0) LEFT).length = 26 ∧
      ((1, 3) : Int × Int) ∈ moveReads pocketBoard (48 + 0) LEFT) ∧
    ((∀ a ∈ moveReads pocketBoard (48 + 0) LEFT,
        inBounds pocketBoard.lines (widthOf pocketBoard) a) ∧
    (∀ a ∈ moveWrites pocketBoard (48 + 0) LEFT,
        inBounds pocketBoard.lines (widthOf pocketBoard) a) ∧
    ((apply_move_in_place pocketBoard (48 + 0) LEFT).2 = true →
      ∀ i j : Int, (i, j) ∉ moveWrites pocketBoard (48 + 0) LEFT →
        cellAt (apply_move_in_place pocketBoard (48 + 0) LEFT).1.map i j =
          cellAt pocketBoard.map i j)) :=
  ⟨⟨rfl, by decide, by decide!, by decide!, by decide!, by decide!⟩,
    move_indexing_in_bounds pocketBoard 0 LEFT rfl rfl (by decide) (by decide!)⟩

end Ai

namespace Calc

/-! ## The transpose of a matrix -/

theorem transpose_inner_spec {α : Type} (i c : Nat) (mem : Matrix α × Matrix α) :
    ((List.range c).foldl (transpose_body i) mem).1 = mem.1 ∧
    ((List.range c).foldl (transpose_body i) mem).2.rows = mem.2.rows ∧
    ((List.range c).foldl (transpose_body i) mem).2.cols = mem.2.cols ∧
    ∀ j1 i1, ((List.range c).foldl (transpose_body i) mem).2.data j1 i1 =
      if i1 = i ∧ j1 < c then mem.1.data i j1 else mem.2.data j1 i1 := by
  induction c with
  | zero =>
    refine ⟨rfl, rfl, rfl, ?_⟩
    intro j1 i1
    rw [if_neg (by omega)]
    rfl
  | succ c ih =>
    obtain ⟨h1, h2, h3, h4⟩ := ih
    rw [List.range_succ, List.foldl_append]
    simp only [List.foldl_cons, List.foldl_nil]
    refine ⟨h1, h2, h3, ?_⟩
    intro j1 i1
    generalize (List.range c).foldl (transpose_body i) mem = F at h1 h4
    show Function.update F.2.data c (Function.update (F.2.data c) i (F.1.data i c)) j1 i1 = _
    rw [h1]
    by_cases hj : j1 = c
    · subst hj
      rw [Function.update_same]
      by_cases hi : i1 = i
      · subst hi
        rw [Function.update_same, if_pos ⟨rfl, by omega⟩]
      · rw [Function.update_noteq hi, h4, if_neg (by tauto), if_neg (by tauto)]
    · rw [Function.update_noteq hj, h4]
      by_cases hc : i1 = i ∧ j1 < c
      · rw [if_pos hc, if_pos ⟨hc.1, by omega⟩]
      · rw [if_neg hc, if_neg (by omega)]

theorem transpose_outer_spec {α : Type} (r : Nat) (mem : Matrix α × Matrix α) :
    ((List.range r).foldl
        (fun m i => (List.range m.1.cols).foldl (transpose_body i) m) mem).1 = mem.1 ∧
    ((List.range r).foldl
        (fun m i => (List.range m.1.cols).foldl (transpose_body i) m) mem).2.rows = mem.2.rows ∧
    ((List.range r).foldl
        (fun m i => (List.range m.1.cols).foldl (transpose_body i) m) mem).2.cols = mem.2.cols ∧
    ∀ j1 i1, ((List.range r).foldl
        (fun m i => (List.range m.1.cols).foldl (transpose_body i) m) mem).2.data j1 i1 =
      if i1 < r ∧ j1 < mem.1.cols then mem.1.data i1 j1 else mem.2.data j1 i1 := by
  induction r with
  | zero =>
    refine ⟨rfl, rfl, rfl, ?_⟩
    intro j1 i1
    rw [if_neg (by omega)]
    rfl
  | succ r ih =>
    obtain ⟨h1, h2, h3, h4⟩ := ih
    rw [List.range_succ, List.foldl_append]
    simp only [List.foldl_cons, List.foldl_nil]
    obtain ⟨g1, g2, g3, g4⟩ := transpose_inner_spec r
      ((List.range r).foldl
        (fun m i => (List.range m.1.cols).foldl (transpose_body i) m) mem).1.cols
      ((List.range r).foldl (fun m i => (List.range m.1.cols).foldl (transpose_body i) m) mem)
    refine ⟨g1.trans h1, g2.trans h2, g3.trans h3, ?_⟩
    intro j1 i1
    rw [g4, h1, h4]
    by_cases hi : i1 = r
    · subst hi
      by_cases hj : j1 < mem.1.cols
      · rw [if_pos ⟨rfl, hj⟩, if_pos ⟨by omega, hj⟩]
      · rw [if_neg (by tauto), if_neg (by omega), if_neg (by tauto)]
    · rw [if_neg (by tauto)]
      by_cases hc : i1 < r ∧ j1 < mem.1.cols
      · rw [if_pos hc, if_pos ⟨by omega, hc.2⟩]
      · rw [if_neg hc, if_neg (by omega)]

theorem matrix_transpose_memory_spec {α : Type} (junk : Nat → Nat → α) (A : Matrix α) :
    (matrix_transpose_memory junk A).1 = A ∧
    (matrix_transpose_memory junk A).2.rows = A.cols ∧
    (matrix_transpose_memory junk A).2.cols = A.rows ∧
    ∀ j i, (matrix_transpose_memory junk A).2.data j i =
      if i < A.rows ∧ j < A.cols then A.data i j else junk j i :=
  transpose_outer_spec A.rows (A, matrix_create A.cols A.rows junk)

/-- C37 (matrix transpose).  For every matrix A of r rows and c columns, and
whatever the memory of the result held before, matrix_transpose returns a
matrix T of c rows and r columns with T[j][i] = A[i][j] for all i < r and
j < c; the argument is in memory as it was; and the transpose of T has r rows,
c columns and the entries of A.  A NULL argument gives NULL.  For the matrix
[1,2,3;4,5,6] of the test the result is [1,4;2,5;3,6]. -/
theorem matrix_transpose_spec {α : Type} (junk junk2 : Nat → Nat → α) (A : Matrix α) :
    (∃ T U : Matrix α,
      matrix_transpose junk (some A) = some T ∧
      T.rows = A.cols ∧ T.cols = A.rows ∧
      (∀ i j, i < A.rows → j < A.cols → T.data j i = A.data i j) ∧
      (matrix_transpose_memory junk A).1 = A ∧
      matrix_transpose junk2 (some T) = some U ∧
      U.rows = A.rows ∧ U.cols = A.cols ∧
      (∀ i j, i < A.rows → j < A.cols → U.data i j = A.data i j)) ∧
    matrix_transpose junk none = none ∧
    (originalMatrix.rows = 2 ∧ originalMatrix.cols = 3 ∧
      (matrix_transpose (fun _ _ => 0) (some originalMatrix)).map
          (fun T => (T.rows, T.cols,
            [[T.data 0 0, T.data 0 1], [T.data 1 0, T.data 1 1], [T.data 2 0, T.data 2 1]])) =
        some (3, 2, [[1, 4], [2, 5], [3, 6]])) := by
  obtain ⟨a1, a2, a3, a4⟩ := matrix_transpose_memory_spec junk A
  obtain ⟨b1, b2, b3, b4⟩ := matrix_transpose_memory_spec junk2 (matrix_transpose_memory junk A).2
  refine ⟨⟨(matrix_transpose_memory junk A).2,
    (matrix_transpose_memory junk2 (matrix_transpose_memory junk A).2).2,
    rfl, a2, a3, ?_, a1, rfl, b2.trans a3, b3.trans a2, ?_⟩, rfl, rfl, rfl, by decide⟩
  · intro i j hi hj
    rw [a4, if_pos ⟨hi, hj⟩]
  · intro i j hi hj
    rw [b4, a2, a3, if_pos ⟨hj, hi⟩, a4, if_pos ⟨hi, hj⟩]

/-! ## The first pass of parse_matrix -/

theorem count_stuck (strtod_end : List Nat → Nat → Nat) (s : List Nat) (v : count_vars)
    (hstep : count_step strtod_end s v = v) (hcont : count_continues s v = true) (fuel : Nat) :
    count_loop strtod_end s fuel v = none := by
  induction fuel with
  | zero =>
    unfold count_loop
    rw [if_pos hcont]
  | succ fuel ih =>
    unfold count_loop
    rw [if_pos hcont, hstep]
    exact ih

/-- C38, the code at a failing input.  On the text `[a]` the dimension-counting
pass of parse_matrix does not end: at the character `a`, which is no blank, no
part of a number, no comma and no semicolon, the body of the loop leaves the
cursor and every variable as they are, and the test of the loop holds; so
after every number of turns the loop is still running, whatever strtod does. -/
theorem parse_matrix_hangs (strtod_end : List Nat → Nat → Nat) (fuel : Nat) :
    parse_matrix_first_pass strtod_end [91, 97, 93] fuel = none ∧
    count_start [91, 97, 93] =
      some { temp := 1, rows := 1, cols := 0, current_cols := 0, returned := false } ∧
    count_step strtod_end [91, 97, 93]
        { temp := 1, rows := 1, cols := 0, current_cols := 0, returned := false } =
      { temp := 1, rows := 1, cols := 0, current_cols := 0, returned := false } ∧
    count_continues [91, 97, 93]
      { temp := 1, rows := 1, cols := 0, current_cols := 0, returned := false } = true := by
  have hstart : count_start [91, 97, 93] =
      some { temp := 1, rows := 1, cols := 0, current_cols := 0, returned := false } := rfl
  have hstep : count_step strtod_end [91, 97, 93]
      { temp := 1, rows := 1, cols := 0, current_cols := 0, returned := false } =
      { temp := 1, rows := 1, cols := 0, current_cols := 0, returned := false } := by
    have h1 : skip_spaces [91, 97, 93] 1 = 1 := by decide
    have h2 : charAt [91, 97, 93] 1 = 97 := by decide
    unfold count_step
    simp only [h1, h2]
    rfl
  have hcont : count_continues [91, 97, 93]
      { temp := 1, rows := 1, cols := 0, current_cols := 0, returned := false } = true := by
    decide
  refine ⟨?_, hstart, hstep, hcont⟩
  unfold parse_matrix_first_pass
  rw [hstart]
  exact count_stuck strtod_end _ _ hstep hcont fuel

end Calc

namespace Ai

end Ai
